import Mathlib

/-!
# Retainer profiling (rts/RetainerProfile.c): a shallow embedding

The heap is a finite table of closures indexed by address (address `0` is the
`NULL` pointer).  The traversal engine of `RetainerProfile.c` is embedded as
state-passing functions over `State`; loops and C-level recursion are bounded
by a fuel argument.
-/

set_option maxRecDepth 100000
set_option maxHeartbeats 4000000

namespace RetainerProfile

/-! ## Closure kinds and layout -/

/-- Closure type tags (the `type` field of an info table) named by the source,
  and `OTHER` for any tag outside them. -/
inductive ClosureType where
  | INVALID_OBJECT
  | CONSTR | CONSTR_1_0 | CONSTR_0_1 | CONSTR_2_0 | CONSTR_1_1 | CONSTR_0_2
  | CONSTR_INTLIKE | CONSTR_CHARLIKE | CONSTR_STATIC | CONSTR_NOCAF_STATIC
  | FUN | FUN_1_0 | FUN_0_1 | FUN_2_0 | FUN_1_1 | FUN_0_2 | FUN_STATIC
  | THUNK | THUNK_1_0 | THUNK_0_1 | THUNK_2_0 | THUNK_1_1 | THUNK_0_2
  | THUNK_STATIC | THUNK_SELECTOR
  | BCO | AP | PAP | AP_STACK
  | IND | IND_OLDGEN | IND_PERM | IND_OLDGEN_PERM | IND_STATIC
  | RET_BCO | RET_SMALL | RET_VEC_SMALL | RET_BIG | RET_VEC_BIG | RET_DYN | RET_FUN
  | UPDATE_FRAME | CATCH_FRAME | STOP_FRAME
  | CAF_BLACKHOLE | BLACKHOLE | BLACKHOLE_BQ | SE_BLACKHOLE | SE_CAF_BLACKHOLE
  | MVAR | ARR_WORDS | MUT_ARR_PTRS | MUT_ARR_PTRS_FROZEN | MUT_VAR | MUT_CONS
  | WEAK | FOREIGN | STABLE_NAME | TSO
  | BLOCKED_FETCH | FETCH_ME | FETCH_ME_BQ | RBH | EVACUATED | REMOTE_REF
  | OTHER
  deriving DecidableEq

/-- The `what_next` field of a thread. -/
inductive WhatNext where
  | ThreadRunGHC | ThreadInterpret | ThreadKilled | ThreadRelocated | ThreadComplete
  deriving DecidableEq

/-- The `fun_type` field of a function info table; `ARG_STD k` stands for the
  standard argument patterns, whose bitmap is `stg_arg_bitmaps[k]`. -/
inductive FunType where
  | ARG_GEN | ARG_GEN_BIG | ARG_BCO | ARG_STD (k : Nat)
  deriving DecidableEq

/-- A stack activation record, as `retainStack` reads it: the tag of its
  return info table, the decoded small bitmap (`BITMAP_BITS`, `BITMAP_SIZE`),
  the large bitmap, the SRT of the return info table, and the words that follow
  the info pointer. -/
structure Frame where
  type : ClosureType
  bitmap_bits : Nat := 0
  bitmap_size : Nat := 0
  large_bitmap : List Nat := []
  large_size : Nat := 0
  srt : List Nat := []
  updatee : Nat := 0
  liveness : Nat := 0
  dyn_nonptrs : Nat := 0
  dyn_ptrs : Nat := 0
  func : Nat := 0
  payload : List Nat := []

/-- A heap closure: its info-table data and the fields the profiler reads.
  `srt_len` is the length of `srt`. -/
structure Closure where
  type : ClosureType
  infoPtr : Nat := 0
  ccs : Nat := 0
  cc : Nat := 0
  ptrs : Nat := 0
  payload : List Nat := []
  srt : List Nat := []
  var : Nat := 0
  blocking_queue : Nat := 0
  selectee : Nat := 0
  indirectee : Nat := 0
  head : Nat := 0
  tail : Nat := 0
  value : Nat := 0
  key : Nat := 0
  finalizer : Nat := 0
  what_next : WhatNext := WhatNext.ThreadRunGHC
  link : Nat := 0
  func : Nat := 0
  n_args : Nat := 0
  frames : List Frame := []
  fun_type : FunType := FunType.ARG_GEN
  bitmap_bits : Nat := 0
  bitmap_size : Nat := 0
  large_bitmap : List Nat := []
  large_size : Nat := 0

/-- The retainer scheme selected at compile time (`RETAINER_SCHEME_*`). -/
inductive RetainerScheme where
  | INFO | CCS | CC
  deriving DecidableEq

/-- The heap and the compile-time constants the engine depends on. -/
structure Heap where
  closures : List Closure
  scheme : RetainerScheme := RetainerScheme.CCS
  CCS_SYSTEM : Nat := 0
  wordBits : Nat := 32
  posBits : Nat := 16
  RET_DYN_BITMAP_SIZE : Nat := 8
  RET_DYN_NONPTR_REGS_SIZE : Nat := 10
  stg_arg_bits : Nat → Nat := fun _ => 0
  stg_arg_size : Nat → Nat := fun _ => 0

/-- The closure stored at an address; an address outside the table reads as an
  `INVALID_OBJECT`. -/
def Heap.get (h : Heap) (a : Nat) : Closure :=
  h.closures.getD a { type := ClosureType.INVALID_OBJECT }

/-- The tag `get_itbl(c)->type`. -/
def typeOf (h : Heap) (c : Nat) : ClosureType := (h.get c).type

/-! ## The retainer-set store -/

/-- Modelled from the spec: the retainer-set store (RetainerSet.c) is not part
  of the sources.  A retainer set is an interned, immutable set of retainers;
  it is represented by its sorted list of elements, so that equal sets are the
  identical value. -/
abbrev RetainerSet := List Nat

/-- Modelled from the spec: `singleton(r)`, the interned set that holds `r` only. -/
def singleton (r : Nat) : RetainerSet := [r]

/-- Modelled from the spec: `isMember(r, rs)`. -/
def isMember (r : Nat) (rs : RetainerSet) : Bool := rs.contains r

/-- Sorted insertion, used by `addElement`. -/
def insertSorted (r : Nat) : List Nat → List Nat
  | [] => [r]
  | x :: xs => if r < x then r :: x :: xs else if r = x then x :: xs else x :: insertSorted r xs

/-- Modelled from the spec: `addElement(r, rs)` returns `rs` unchanged if `r`
  is already a member and otherwise the canonical set for the union. -/
def addElement (r : Nat) (rs : RetainerSet) : RetainerSet :=
  if isMember r rs then rs else insertSorted r rs

/-- Modelled from the spec: the cardinality `rs->num`. -/
def num (rs : RetainerSet) : Nat := rs.length


/-! ## Retainer-set slots and the flip bit -/

/-- A word holding a retainer-set pointer: the pointer proper (`none` is
  `NULL`; an interned set is identified with its value) and the low bit of the
  word, which carries the flip mark. -/
structure RSWord where
  set : Option RetainerSet
  low : Bool
  deriving DecidableEq

/-- Fatal outcomes: the `barf` branches, the exhaustion of the fuel of the
  embedding, and reads the C code leaves undefined. -/
inductive Fatal where
  | barf_push | barf_pop | barf_isRetainer | barf_retainStack
  | undefined_read | out_of_fuel
  deriving DecidableEq

/-- The type of the next position of a stack element. -/
inductive nextPosType where
  | posTypeStep | posTypePtrs | posTypeSRT
  deriving DecidableEq

/-- The union `nextPos`; `undef` is the content of a member never written. -/
inductive nextPos where
  | undef
  | step (step : Nat)
  | ptrs (pos ptrs : Nat) (payload : List Nat)
  | srt (rest : List Nat)
  deriving DecidableEq

/-- The record `stackPos`; `type = none` when the field was never written. -/
structure stackPos where
  type : Option nextPosType
  next : nextPos
  deriving DecidableEq

/-- The record `stackElement`. -/
structure stackElement where
  c : Nat
  c_child_r : Nat
  info : stackPos
  deriving DecidableEq

/-- The mutable state of the profiler.  `rs a` is the word
  `header.prof.hp.rs` of the closure at `a`.  `stack` lists the live elements
  of the traverse stack, topmost first, and `currentStackBoundary` is the
  number of elements below the boundary mark.  `status` records a fatal
  outcome; `trace` is a ghost log of the arrivals at `inner_loop`. -/
structure State where
  flip : Bool
  rs : Nat → RSWord
  stack : List stackElement
  currentStackBoundary : Nat
  numObjectVisited : Nat
  timesAnyObjectVisited : Nat
  status : Option Fatal
  trace : List (Nat × Nat × Nat)

/-- Abort with a fatal outcome. -/
def State.fail (st : State) (e : Fatal) : State := { st with status := some e }

/-- The word `(StgWord)NULL | flip`. -/
def nullWord (flip : Bool) : RSWord := { set := none, low := flip }

/-- Overwrite the slot of `c`. -/
def State.setRS (st : State) (c : Nat) (w : RSWord) : State :=
  { st with rs := fun a => if a = c then w else st.rs a }

/-- The statement `setRetainerSetToNull(c)`. -/
def setRetainerSetToNull (st : State) (c : Nat) : State :=
  st.setRS c (nullWord st.flip)

/-- The test `isRetainerSetFieldValid(c)`: the low bit of the slot equals `flip`. -/
def isRetainerSetFieldValid (st : State) (c : Nat) : Bool :=
  (xor (st.rs c).low st.flip) == false

/-- The pointer `retainerSetOf(c)`, i.e. `RSET(c) ^ flip`. -/
def retainerSetOf (st : State) (c : Nat) : RSWord :=
  { set := (st.rs c).set, low := xor (st.rs c).low st.flip }

/-- The function `maybeInitRetainerSet`. -/
def maybeInitRetainerSet (st : State) (c : Nat) : State :=
  if !isRetainerSetFieldValid st c then setRetainerSetToNull st c else st

/-- The comparison of a retainer-set pointer with `NULL`. -/
def RSWord.isNull (w : RSWord) : Bool := w.set.isNone && w.low == false

/-- The function `associate`: `RSET(c) = s | flip`. -/
def associate (st : State) (c : Nat) (s : RSWord) : State :=
  st.setRS c { set := s.set, low := s.low || st.flip }

/-- The pointer to an interned set, as the store returns it. -/
def ptrTo (s : RetainerSet) : RSWord := { set := some s, low := false }

/-- The set a pointer refers to, when it is a proper (aligned, non-NULL)
  pointer. -/
def RSWord.deref (w : RSWord) : Option RetainerSet :=
  if w.low then none else w.set

/-! ## The retainer predicate and the retainer function -/

/-- The function `isRetainer`; `none` is its `barf` branch. -/
def isRetainerType : ClosureType → Option Bool
  | .TSO
  | .MVAR | .MUT_VAR | .MUT_CONS | .MUT_ARR_PTRS | .MUT_ARR_PTRS_FROZEN
  | .THUNK | .THUNK_1_0 | .THUNK_0_1 | .THUNK_2_0 | .THUNK_1_1 | .THUNK_0_2
  | .THUNK_SELECTOR | .AP | .AP_STACK
  | .THUNK_STATIC
  | .WEAK => some true
  | .CONSTR | .CONSTR_1_0 | .CONSTR_0_1 | .CONSTR_2_0 | .CONSTR_1_1 | .CONSTR_0_2
  | .FUN | .FUN_1_0 | .FUN_0_1 | .FUN_2_0 | .FUN_1_1 | .FUN_0_2
  | .PAP
  | .CAF_BLACKHOLE | .BLACKHOLE | .SE_BLACKHOLE | .SE_CAF_BLACKHOLE | .BLACKHOLE_BQ
  | .IND_PERM | .IND_OLDGEN_PERM | .IND_OLDGEN
  | .CONSTR_STATIC | .FUN_STATIC
  | .FOREIGN | .STABLE_NAME | .BCO | .ARR_WORDS => some false
  | _ => none

/-- The function `isRetainer` applied to the closure at `c`. -/
def isRetainer (h : Heap) (c : Nat) : Option Bool := isRetainerType (typeOf h c)

/-- The function `getRetainerFrom`, i.e. `R(c)`, under the selected scheme. -/
def getRetainerFrom (h : Heap) (c : Nat) : Nat :=
  match h.scheme with
  | .INFO => (h.get c).infoPtr
  | .CCS => (h.get c).ccs
  | .CC => (h.get c).cc


/-! ## The traverse stack -/

/-- The function `init_ptrs`; `pos` and `ptrs` are `posBits` wide. -/
def init_ptrs (h : Heap) (ptrs : Nat) (payload : List Nat) : stackPos :=
  { type := some nextPosType.posTypePtrs,
    next := nextPos.ptrs 0 (ptrs % 2 ^ h.posBits) payload }

/-- The function `find_ptrs`: the next object and the updated position; `none`
  when the `ptrs` member of the union was never written. -/
def find_ptrs (h : Heap) (info : stackPos) : Option (Nat × stackPos) :=
  match info.next with
  | nextPos.ptrs pos ptrs payload =>
    if pos < ptrs then
      some (payload.getD pos 0,
        { info with next := nextPos.ptrs ((pos + 1) % 2 ^ h.posBits) ptrs payload })
    else some (0, info)
  | _ => none

/-- The functions `init_srt_fun` and `init_srt_thunk`: the position ranges over
  the `srt_len` entries of the SRT of `c`. -/
def init_srt (h : Heap) (c : Nat) : stackPos :=
  { type := some nextPosType.posTypeSRT, next := nextPos.srt (h.get c).srt }

/-- The function `find_srt`. -/
def find_srt (info : stackPos) : Option (Nat × stackPos) :=
  match info.next with
  | nextPos.srt [] => some (0, info)
  | nextPos.srt (x :: rest) => some (x, { info with next := nextPos.srt rest })
  | _ => none

/-- The value of the local `se.info` before any field is written. -/
def stackPos.uninit : stackPos := { type := none, next := nextPos.undef }

/-- The result of `push`: the state and `*first_child`. -/
structure PushResult where
  st : State
  first_child : Nat

/-- The tail of `push` (lines 569-594): the element is stored on top of the
  stack.  The chain of block groups is represented by the list of its live
  elements. -/
def pushElement (st : State) (se : stackElement) : State :=
  { st with stack := se :: st.stack }

/-- The part of `push` shared by the kinds that start on their pointers and
  then turn to the SRT (the `goto fun_srt_only` and `goto thunk_srt_only`). -/
def push_srt_only (h : Heap) (st : State) (c c_child_r : Nat) : PushResult :=
  match find_srt (init_srt h c) with
  | some (first, info) =>
    if first = 0 then { st := st, first_child := 0 }
    else { st := pushElement st { c := c, c_child_r := c_child_r, info := info },
           first_child := first }
  | none => { st := st.fail Fatal.undefined_read, first_child := 0 }

/-- The function `push`. -/
def push (h : Heap) (st : State) (c c_child_r : Nat) : PushResult :=
  let cl := h.get c
  match cl.type with
  -- no child, no SRT
  | .CONSTR_0_1 | .CONSTR_0_2 | .CAF_BLACKHOLE | .BLACKHOLE | .SE_BLACKHOLE
  | .SE_CAF_BLACKHOLE | .ARR_WORDS => { st := st, first_child := 0 }
  -- one child (fixed), no SRT
  | .MUT_VAR | .MUT_CONS => { st := st, first_child := cl.var }
  | .BLACKHOLE_BQ => { st := st, first_child := cl.blocking_queue }
  | .THUNK_SELECTOR => { st := st, first_child := cl.selectee }
  | .IND_PERM | .IND_OLDGEN_PERM | .IND_OLDGEN => { st := st, first_child := cl.indirectee }
  | .CONSTR_1_0 | .CONSTR_1_1 => { st := st, first_child := cl.payload.getD 0 0 }
  -- two children (fixed), no SRT
  | .CONSTR_2_0 =>
    { st := pushElement st { c := c, c_child_r := c_child_r, info := stackPos.uninit },
      first_child := cl.payload.getD 0 0 }
  -- three children (fixed), no SRT
  | .MVAR =>
    { st := pushElement st { c := c, c_child_r := c_child_r,
                             info := { type := none, next := nextPos.step 2 } },
      first_child := cl.head }
  | .WEAK =>
    { st := pushElement st { c := c, c_child_r := c_child_r,
                             info := { type := none, next := nextPos.step 2 } },
      first_child := cl.key }
  -- layout.payload.ptrs, no SRT; StgMutArrPtr.ptrs, no SRT
  | .CONSTR | .FOREIGN | .STABLE_NAME | .BCO | .CONSTR_STATIC
  | .MUT_ARR_PTRS | .MUT_ARR_PTRS_FROZEN =>
    match find_ptrs h (init_ptrs h cl.ptrs cl.payload) with
    | some (first, info) =>
      if first = 0 then { st := st, first_child := 0 }
      else { st := pushElement st { c := c, c_child_r := c_child_r, info := info },
             first_child := first }
    | none => { st := st.fail Fatal.undefined_read, first_child := 0 }
  -- layout.payload.ptrs, SRT
  | .FUN | .FUN_2_0 | .THUNK | .THUNK_2_0 =>
    match find_ptrs h (init_ptrs h cl.ptrs cl.payload) with
    | some (first, info) =>
      if first = 0 then push_srt_only h st c c_child_r
      else { st := pushElement st { c := c, c_child_r := c_child_r, info := info },
             first_child := first }
    | none => { st := st.fail Fatal.undefined_read, first_child := 0 }
  -- 1 fixed child, SRT
  | .FUN_1_0 | .FUN_1_1 | .THUNK_1_0 | .THUNK_1_1 =>
    { st := pushElement st { c := c, c_child_r := c_child_r, info := init_srt h c },
      first_child := cl.payload.getD 0 0 }
  -- SRT only
  | .FUN_STATIC | .FUN_0_1 | .FUN_0_2 | .THUNK_STATIC | .THUNK_0_1 | .THUNK_0_2 =>
    push_srt_only h st c c_child_r
  | _ => { st := st.fail Fatal.barf_push, first_child := 0 }

/-- The function `popOff` (with `popOffReal`): the topmost element is removed. -/
def popOff (stack : List stackElement) : List stackElement := stack.tail

/-- The result of `pop`: the remaining stack, and either the triple
  `(*c, *cp, *r)` (with `c = 0` for `NULL`) or a fatal outcome. -/
structure PopResult where
  stack : List stackElement
  c : Nat
  cp : Nat
  r : Nat
  err : Option Fatal

/-- The outcome of one iteration of the loop of `pop` on the topmost element:
  an object is retrieved, and the element is overwritten (`some`) or popped off
  (`none`); or the element has no object left, it is popped off and the loop
  goes on; or the iteration ends in `barf` or in an undefined read. -/
inductive PopStep where
  | ret (se : Option stackElement) (c : Nat)
  | exhausted
  | bad (e : Fatal)

/-- The part `do_srt` of the `switch` of `pop`. -/
def pop_do_srt (se : stackElement) (info : stackPos) : PopStep :=
  match find_srt info with
  | some (x, info1) =>
    if x ≠ 0 then PopStep.ret (some { se with info := info1 }) x
    else PopStep.exhausted
  | none => PopStep.bad Fatal.undefined_read

/-- The `switch` of `pop` on the kind of the closure of the topmost element. -/
def popStep (h : Heap) (se : stackElement) : PopStep :=
  let cl := h.get se.c
  match cl.type with
  | .CONSTR_2_0 => PopStep.ret none (cl.payload.getD 1 0)
  | .MVAR =>
    match se.info.next with
    | nextPos.step n =>
      if n = 2 then
        PopStep.ret (some { se with info := { se.info with next := nextPos.step (n + 1) } }) cl.tail
      else PopStep.ret none cl.value
    | _ => PopStep.bad Fatal.undefined_read
  | .WEAK =>
    match se.info.next with
    | nextPos.step n =>
      if n = 2 then
        PopStep.ret (some { se with info := { se.info with next := nextPos.step (n + 1) } }) cl.value
      else PopStep.ret none cl.finalizer
    | _ => PopStep.bad Fatal.undefined_read
  | .CONSTR | .FOREIGN | .STABLE_NAME | .BCO | .CONSTR_STATIC
  | .MUT_ARR_PTRS | .MUT_ARR_PTRS_FROZEN =>
    match find_ptrs h se.info with
    | some (x, info1) =>
      if x = 0 then PopStep.exhausted
      else PopStep.ret (some { se with info := info1 }) x
    | none => PopStep.bad Fatal.undefined_read
  | .FUN | .FUN_2_0 | .THUNK | .THUNK_2_0 =>
    match se.info.type with
    | some nextPosType.posTypePtrs =>
      match find_ptrs h se.info with
      | some (x, info1) =>
        if x ≠ 0 then PopStep.ret (some { se with info := info1 }) x
        else pop_do_srt se (init_srt h se.c)
      | none => PopStep.bad Fatal.undefined_read
    | some _ => pop_do_srt se se.info
    | none => PopStep.bad Fatal.undefined_read
  | .THUNK_STATIC | .FUN_STATIC | .FUN_0_1 | .FUN_0_2 | .THUNK_0_1 | .THUNK_0_2
  | .FUN_1_0 | .FUN_1_1 | .THUNK_1_0 | .THUNK_1_1 => pop_do_srt se se.info
  | _ => PopStep.bad Fatal.barf_pop

/-- The loop of `pop` over the stack, down to the boundary `b`. -/
def popLoop (h : Heap) (b : Nat) : List stackElement → PopResult
  | [] =>
    if 0 = b then { stack := [], c := 0, cp := 0, r := 0, err := none }
    else { stack := [], c := 0, cp := 0, r := 0, err := some Fatal.undefined_read }
  | se :: rest =>
    if (se :: rest).length = b then
      { stack := se :: rest, c := 0, cp := 0, r := 0, err := none }
    else
      match popStep h se with
      | PopStep.ret (some se1) c =>
        { stack := se1 :: rest, c := c, cp := se.c, r := se.c_child_r, err := none }
      | PopStep.ret none c =>
        { stack := popOff (se :: rest), c := c, cp := se.c, r := se.c_child_r, err := none }
      | PopStep.exhausted => popLoop h b (popOff (se :: rest))
      | PopStep.bad e => { stack := se :: rest, c := 0, cp := 0, r := 0, err := some e }

/-- The function `pop`, run on the stack of the state. -/
def pop (h : Heap) (st : State) : PopResult :=
  popLoop h st.currentStackBoundary st.stack


/-! ## Walking bitmaps, frames and argument blocks -/

/-- A call `retainClosure(c0, cp0, r0)`: the triple of its arguments. -/
abbrev Call := Nat × Nat × Nat

/-- The function `retainSRT`: the calls it makes, in order. -/
def retainSRT (srt : List Nat) (c c_child_r : Nat) : List Call :=
  srt.map (fun x => (x, c, c_child_r))

/-- The loop of `retain_large_bitmap`, with `n` slots left: the calls it makes
  and the indices of the bitmap words it reads, in order. -/
def retain_large_bitmap_loop (W : Nat) (payload large_bitmap : List Nat) (c c_child_r : Nat) :
    Nat → Nat → Nat → Nat → Nat → List Call × List Nat
  | 0, _, _, _, _ => ([], [])
  | n + 1, i, p, b, bitmap =>
    let here : List Call := if bitmap % 2 = 0 then [(payload.getD p 0, c, c_child_r)] else []
    if (i + 1) % W = 0 then
      let rest := retain_large_bitmap_loop W payload large_bitmap c c_child_r n (i + 1) (p + 1)
        (b + 1) (large_bitmap.getD (b + 1) 0)
      (here ++ rest.1, (b + 1) :: rest.2)
    else
      let rest := retain_large_bitmap_loop W payload large_bitmap c c_child_r n (i + 1) (p + 1)
        b (bitmap / 2)
      (here ++ rest.1, rest.2)

/-- The function `retain_large_bitmap` over the words of `payload` from index
  `p` on: the calls it makes and the bitmap words it reads. -/
def retain_large_bitmap (h : Heap) (payload : List Nat) (p : Nat) (large_bitmap : List Nat)
    (size c c_child_r : Nat) : List Call × List Nat :=
  let rest := retain_large_bitmap_loop h.wordBits payload large_bitmap c c_child_r size 0 p 0
    (large_bitmap.getD 0 0)
  (rest.1, 0 :: rest.2)

/-- The function `retain_small_bitmap` over the words of `payload` from index
  `p` on: the calls it makes and the returned `p`. -/
def retain_small_bitmap (payload : List Nat) (c c_child_r : Nat) :
    Nat → Nat → Nat → List Call × Nat
  | 0, p, _ => ([], p)
  | size + 1, p, bitmap =>
    let rest := retain_small_bitmap payload c c_child_r size (p + 1) (bitmap / 2)
    (if bitmap % 2 = 0 then (payload.getD p 0, c, c_child_r) :: rest.1 else rest.1, rest.2)

/-- The index of a `fun_type` in `stg_arg_bitmaps`. -/
def FunType.index : FunType → Nat
  | .ARG_GEN => 0
  | .ARG_GEN_BIG => 1
  | .ARG_BCO => 2
  | .ARG_STD k => k + 3

/-- The pointer words `payload[p .. p + n)` retained one by one (the `for`
  loop of the `RET_DYN` case). -/
def retainPtrs (payload : List Nat) (c c_child_r : Nat) : Nat → Nat → List Call
  | 0, _ => []
  | n + 1, p => (payload.getD p 0, c, c_child_r) :: retainPtrs payload c c_child_r n (p + 1)

/-- The `switch (fun_info->fun_type)` of the `RET_FUN` case of `retainStack`:
  the calls made for the arguments of the frame. -/
def retFunArgs (h : Heap) (payload : List Nat) (fun_info : Closure) (c c_child_r : Nat) :
    List Call :=
  match fun_info.fun_type with
  | .ARG_GEN =>
    (retain_small_bitmap payload c c_child_r fun_info.bitmap_size 0
      (fun_info.bitmap_bits % 2 ^ 32)).1
  | .ARG_GEN_BIG =>
    (retain_large_bitmap h payload 0 fun_info.large_bitmap fun_info.large_size c c_child_r).1
  | t =>
    (retain_small_bitmap payload c c_child_r (h.stg_arg_size t.index) 0
      (h.stg_arg_bits t.index % 2 ^ 32)).1

/-- One iteration of the loop of `retainStack`: the calls made for the frame,
  and whether the iteration ends in `barf`.  The local `bitmap` is a
  `StgWord32`. -/
def retainFrame (h : Heap) (c c_child_r : Nat) (f : Frame) : List Call × Bool :=
  match f.type with
  | .UPDATE_FRAME => ([(f.updatee, c, c_child_r)], false)
  | .STOP_FRAME | .CATCH_FRAME | .RET_SMALL | .RET_VEC_SMALL =>
    let bitmap := f.bitmap_bits % 2 ^ 32
    ((retain_small_bitmap f.payload c c_child_r f.bitmap_size 0 bitmap).1
      ++ retainSRT f.srt c c_child_r, false)
  | .RET_BCO =>
    let bco := f.payload.getD 0 0
    ((bco, c, c_child_r) ::
      (retain_large_bitmap h f.payload 1 (h.get bco).large_bitmap (h.get bco).large_size
        c c_child_r).1, false)
  | .RET_BIG | .RET_VEC_BIG =>
    ((retain_large_bitmap h f.payload 0 f.large_bitmap f.large_size c c_child_r).1
      ++ retainSRT f.srt c c_child_r, false)
  | .RET_DYN =>
    let bitmap := f.liveness % 2 ^ 32
    let small := retain_small_bitmap f.payload c c_child_r h.RET_DYN_BITMAP_SIZE 0 bitmap
    let p := small.2 + f.dyn_nonptrs + h.RET_DYN_NONPTR_REGS_SIZE
    (small.1 ++ retainPtrs f.payload c c_child_r f.dyn_ptrs p, false)
  | .RET_FUN =>
    ((f.func, c, c_child_r) :: retFunArgs h f.payload (h.get f.func) c c_child_r
      ++ retainSRT f.srt c c_child_r, false)
  | _ => ([], true)

/-- The loop of `retainStack` over the frames between `stackStart` and
  `stackEnd`: the calls it makes, and whether it ends in `barf`. -/
def retainStackCalls (h : Heap) (c c_child_r : Nat) : List Frame → List Call × Bool
  | [] => ([], false)
  | f :: fs =>
    let here := retainFrame h c c_child_r f
    if here.2 then here
    else
      let rest := retainStackCalls h c c_child_r fs
      (here.1 ++ rest.1, rest.2)

/-- The `switch (fun_info->fun_type)` of `retain_PAP`: the calls made for the
  `n_args` words of the payload of the application `cl`. -/
def papArgs (h : Heap) (cl fun_info : Closure) (pap c_child_r : Nat) : List Call :=
  match fun_info.fun_type with
  | .ARG_GEN =>
    (retain_small_bitmap cl.payload pap c_child_r cl.n_args 0 fun_info.bitmap_bits).1
  | .ARG_GEN_BIG =>
    (retain_large_bitmap h cl.payload 0 fun_info.large_bitmap cl.n_args pap c_child_r).1
  | .ARG_BCO =>
    (retain_large_bitmap h cl.payload 0 fun_info.large_bitmap cl.n_args pap c_child_r).1
  | t =>
    (retain_small_bitmap cl.payload pap c_child_r cl.n_args 0 (h.stg_arg_bits t.index)).1

/-- The function `retain_PAP`: the calls it makes, in order. -/
def retain_PAP (h : Heap) (pap c_child_r : Nat) : List Call :=
  ((h.get pap).func, pap, c_child_r) ::
    papArgs h (h.get pap) (h.get (h.get pap).func) pap c_child_r

/-! ## The engine -/

/-- The outcome of the special cases at the head of `inner_loop`. -/
inductive PreFilter where
  | skip
  | follow (c : Nat)
  | visit
  deriving DecidableEq

/-- The first `switch (typeOfc)` of `retainClosure` (lines 1463-1526). -/
def preFilter (h : Heap) (c : Nat) : PreFilter :=
  let cl := h.get c
  match cl.type with
  | .TSO =>
    if cl.what_next = WhatNext.ThreadComplete ∨ cl.what_next = WhatNext.ThreadKilled then
      PreFilter.skip
    else if cl.what_next = WhatNext.ThreadRelocated then PreFilter.follow cl.link
    else PreFilter.visit
  | .IND_STATIC => PreFilter.follow cl.indirectee
  | .CONSTR_INTLIKE | .CONSTR_CHARLIKE | .CONSTR_NOCAF_STATIC => PreFilter.skip
  | .THUNK_STATIC | .FUN_STATIC =>
    if cl.srt.length = 0 then PreFilter.skip else PreFilter.visit
  | _ => PreFilter.visit

/-- Increment of a counter of type `nat` (32 bits, unsigned). -/
def natIncr (n : Nat) : Nat := (n + 1) % 2 ^ 32

/-- What `retainClosure` does after the retainer set of `c` is settled. -/
inductive Decision where
  | stop
  | descend (c_child_r : Nat)
  deriving DecidableEq

/-- The statement `timesAnyObjectVisited++`. -/
def tick (st : State) : State :=
  { st with timesAnyObjectVisited := natIncr st.timesAnyObjectVisited }

/-- The computation of `s` (lines 1536-1542): `NULL` when `cp` is a retainer,
  `retainerSetOf(cp)` otherwise. -/
def parentSet (st : State) (cp : Nat) (cpIsRetainer : Bool) : RSWord :=
  if cpIsRetainer then { set := none, low := false } else retainerSetOf st cp

/-- The write of the branch "this is the first visit to *c" (lines 1551-1555). -/
def firstSet (st : State) (c r : Nat) (s : RSWord) : State :=
  if s.isNull then associate st c (ptrTo (singleton r)) else associate st c s

/-- The statement `numObjectVisited++`. -/
def countVisited (st : State) : State :=
  { st with numObjectVisited := natIncr st.numObjectVisited }

/-- The branch "this is the first visit to *c" (lines 1548-1558). -/
def firstVisit (h : Heap) (st : State) (c r : Nat) (s : RSWord) : State × Decision :=
  let st4 := firstSet (countVisited st) c r s
  match isRetainer h c with
  | none => (st4.fail Fatal.barf_isRetainer, Decision.stop)
  | some cIsRetainer =>
    (st4, Decision.descend (if cIsRetainer then getRetainerFrom h c else r))

/-- The write of the branch "this is not the first visit to *c" (lines
  1564-1578); `none` when `s->num` is read through a pointer that is not a
  proper one. -/
def growSet (st : State) (c r : Nat) (s : RSWord) (rc : RetainerSet) : Option State :=
  if s.isNull then some (associate st c (ptrTo (addElement r rc)))
  else
    match s.deref with
    | none => none
    | some sset =>
      if num sset = num rc + 1 then some (associate st c s)
      else some (associate st c (ptrTo (addElement r rc)))

/-- The branch "this is not the first visit to *c" (lines 1560-1584). -/
def revisit (h : Heap) (st : State) (c r : Nat) (s retainerSetOfc : RSWord) :
    State × Decision :=
  match retainerSetOfc.deref with
  | none => (st.fail Fatal.undefined_read, Decision.stop)
  | some rc =>
    if isMember r rc then (st, Decision.stop)
    else
      match growSet st c r s rc with
      | none => (st.fail Fatal.undefined_read, Decision.stop)
      | some st3 =>
        match isRetainer h c with
        | none => (st3.fail Fatal.barf_isRetainer, Decision.stop)
        | some cIsRetainer =>
          if cIsRetainer then (st3, Decision.stop) else (st3, Decision.descend r)

/-- The body of `inner_loop` from `timesAnyObjectVisited++` to the
  computation of `c_child_r` (lines 1528-1585). -/
def resolve (h : Heap) (st : State) (c cp r : Nat) : State × Decision :=
  let st2 := maybeInitRetainerSet (tick st) c
  match isRetainer h cp with
  | none => (st2.fail Fatal.barf_isRetainer, Decision.stop)
  | some cpIsRetainer =>
    let s := parentSet st2 cp cpIsRetainer
    if (retainerSetOf st2 c).isNull then firstVisit h st2 c r s
    else revisit h st2 c r s (retainerSetOf st2 c)

/-- The control points of the engine: `inner_loop` with `(c, cp, r)`, the
  label `loop`, a sequence of calls of `retainClosure` made by a walker
  (ending in `barf` when `bad`), and `retainStack` around such a sequence. -/
inductive Task where
  | inner (c cp r : Nat)
  | loop
  | calls (cs : List Call) (bad : Bool)
  | stack (cs : List Call) (bad : Bool)

/-- The ghost log of the arrivals at `inner_loop`. -/
def logArrival (st : State) (c cp r : Nat) : State :=
  { st with trace := (c, cp, r) :: st.trace }

/-- The closure kinds that `retainClosure` processes in one go (the second
  `switch (typeOfc)`, lines 1595-1614). -/
def stackShaped : ClosureType → Bool
  | .TSO | .PAP | .AP | .AP_STACK => true
  | _ => false

/-- Run `k` unless the state records a fatal outcome. -/
def State.andThen (st : State) (k : State → State) : State :=
  if st.status.isSome then st else k st

/-- The engine: `retainClosure` (the labels `inner_loop` and `loop`), the calls
  it makes through `retain_PAP`, and `retainStack`.  Every iteration and every
  call uses one unit of fuel. -/
def exec (h : Heap) : Nat → Task → State → State
  | 0, _, st => st.fail Fatal.out_of_fuel
  | fuel + 1, Task.loop, st =>
    let res := pop h st
    let st1 := { st with stack := res.stack }
    match res.err with
    | some e => st1.fail e
    | none =>
      if res.c = 0 then st1
      else exec h fuel (Task.inner res.c res.cp res.r) st1
  | fuel + 1, Task.inner c cp r, st0 =>
    let st := logArrival st0 c cp r
    if c = 0 then st.fail Fatal.undefined_read
    else
      match preFilter h c with
      | PreFilter.skip => exec h fuel Task.loop st
      | PreFilter.follow c1 => exec h fuel (Task.inner c1 cp r) st
      | PreFilter.visit =>
        let res := resolve h st c cp r
        if res.1.status.isSome then res.1
        else
          match res.2 with
          | Decision.stop => exec h fuel Task.loop res.1
          | Decision.descend c_child_r =>
            match typeOf h c with
            | .TSO =>
              let walk := retainStackCalls h c c_child_r (h.get c).frames
              (exec h fuel (Task.stack walk.1 walk.2) res.1).andThen (exec h fuel Task.loop)
            | .PAP | .AP =>
              (exec h fuel (Task.calls (retain_PAP h c c_child_r) false) res.1).andThen
                (exec h fuel Task.loop)
            | .AP_STACK =>
              let walk := retainStackCalls h c c_child_r (h.get c).frames
              ((exec h fuel (Task.calls [((h.get c).func, c, c_child_r)] false) res.1).andThen
                (exec h fuel (Task.stack walk.1 walk.2))).andThen (exec h fuel Task.loop)
            | _ =>
              let pr := push h res.1 c c_child_r
              if pr.st.status.isSome then pr.st
              else if pr.first_child = 0 then exec h fuel Task.loop pr.st
              else exec h fuel (Task.inner pr.first_child c c_child_r) pr.st
  | fuel + 1, Task.calls cs bad, st =>
    match cs with
    | [] => if bad then st.fail Fatal.barf_retainStack else st
    | (c0, cp0, r0) :: rest =>
      (exec h fuel (Task.inner c0 cp0 r0) st).andThen (exec h fuel (Task.calls rest bad))
  | fuel + 1, Task.stack cs bad, st =>
    let oldStackBoundary := st.currentStackBoundary
    let st1 := { st with currentStackBoundary := st.stack.length }
    (exec h fuel (Task.calls cs bad) st1).andThen
      (fun st2 => { st2 with currentStackBoundary := oldStackBoundary })

/-- The function `retainClosure`. -/
def retainClosure (h : Heap) (fuel : Nat) (st : State) (c0 cp0 r0 : Nat) : State :=
  exec h fuel (Task.inner c0 cp0 r0) st

/-- The function `retainRoot`; `none` from `isRetainer` is its `barf` branch. -/
def retainRoot (h : Heap) (fuel : Nat) (st : State) (tl : Nat) : State :=
  let st1 := { st with currentStackBoundary := st.stack.length }
  match isRetainer h tl with
  | none => st1.fail Fatal.barf_isRetainer
  | some true => retainClosure h fuel st1 tl tl (getRetainerFrom h tl)
  | some false => retainClosure h fuel st1 tl tl h.CCS_SYSTEM

/-- The root traversals of `computeRetainerSet`: `retainRoot` on every root
  handed over by the root sources, in order. -/
def retainRoots (h : Heap) (fuel : Nat) (st : State) : List Nat → State
  | [] => st
  | tl :: rest => (retainRoot h fuel st tl).andThen (fun st1 => retainRoots h fuel st1 rest)


/-! ## Notions used to state the properties -/

/-- The slot of `c` reads as uninitialised: it is not valid for the current
  flip, or it is valid and holds `NULL`. -/
def readsNull (st : State) (c : Nat) : Bool :=
  (retainerSetOf (maybeInitRetainerSet st c) c).isNull

/-- The closure `c` has been visited in this pass: its slot is valid for the
  current flip and holds a set. -/
def visited (st : State) (c : Nat) : Bool :=
  isRetainerSetFieldValid st c && (st.rs c).set.isSome

/-- A state at the start of a pass: no slot is valid for `flip`, the traverse
  stack is empty, the counters are reset. -/
def initState (flip : Bool) : State :=
  { flip := flip
    rs := fun _ => nullWord (!flip)
    stack := []
    currentStackBoundary := 0
    numObjectVisited := 0
    timesAnyObjectVisited := 0
    status := none
    trace := [] }

/-- Successive arrivals at `c`, one from each parent in `ps`, each with the
  identity of the parent as the retainer: the retainer-set resolution of
  `retainClosure` is run for each in turn. -/
def visits (h : Heap) (c : Nat) : State → List Nat → State
  | st, [] => st
  | st, p :: ps => visits h c (resolve h st c p (getRetainerFrom h p)).1 ps

/-! ## Example heaps -/

/-- Two roots: the mutable cell `1` holds the leaf `8`; the mutable cell `2`
  holds the constructor `3`, whose first child `4` leads through the thunk `5`
  back to `3` and whose second child `6` holds the leaf `8`. -/
def heapShare : Heap :=
  { closures := [
      { type := .INVALID_OBJECT },
      { type := .MUT_VAR, var := 8, ccs := 101 },
      { type := .MUT_VAR, var := 3, ccs := 102 },
      { type := .CONSTR_2_0, payload := [4, 6] },
      { type := .CONSTR_1_0, payload := [5] },
      { type := .THUNK_SELECTOR, selectee := 3, ccs := 105 },
      { type := .CONSTR_1_0, payload := [8] },
      { type := .INVALID_OBJECT },
      { type := .CONSTR_0_1 } ] }

/-- One root: the mutable cell `1` holds the constructor `2` with the children
  `4` (a thunk) and `9` (a leaf, referenced by `2` only); the thunk `4` holds
  the constructor `5`, whose first child `6` leads through the thunk `7` back to
  `5` and whose second child `8` holds `2`. -/
def heapOnlyParent : Heap :=
  { closures := [
      { type := .INVALID_OBJECT },
      { type := .MUT_VAR, var := 2, ccs := 101 },
      { type := .CONSTR_2_0, payload := [4, 9] },
      { type := .INVALID_OBJECT },
      { type := .THUNK_SELECTOR, selectee := 5, ccs := 104 },
      { type := .CONSTR_2_0, payload := [6, 8] },
      { type := .CONSTR_1_0, payload := [7] },
      { type := .THUNK_SELECTOR, selectee := 5, ccs := 107 },
      { type := .CONSTR_1_0, payload := [2] },
      { type := .CONSTR_0_1 } ] }

/-- The scenario `A -> T -> L`: the mutable cell `1` holds the thunk `2`, which
  holds the leaf `3`. -/
def heapThunk : Heap :=
  { closures := [
      { type := .INVALID_OBJECT },
      { type := .MUT_VAR, var := 2, ccs := 101 },
      { type := .THUNK_SELECTOR, selectee := 3, ccs := 102 },
      { type := .CONSTR_0_1, ccs := 103 } ] }

/-- The scenario `A -> B -> C, D`: the mutable cell `1` holds the constructor
  `2` with the two leaves `3` and `4`. -/
def heapPair : Heap :=
  { closures := [
      { type := .INVALID_OBJECT },
      { type := .MUT_VAR, var := 2, ccs := 101 },
      { type := .CONSTR_2_0, payload := [3, 4], ccs := 102 },
      { type := .CONSTR_0_1, ccs := 103 },
      { type := .CONSTR_0_1, ccs := 104 } ] }

/-- The scenario of two retainers `A` and `B` that both hold the leaf `X`: the
  mutable cells `1` and `2` hold the leaf `3`. -/
def heapTwo : Heap :=
  { closures := [
      { type := .INVALID_OBJECT },
      { type := .MUT_VAR, var := 3, ccs := 101 },
      { type := .MUT_VAR, var := 3, ccs := 102 },
      { type := .CONSTR_0_1, ccs := 103 } ] }

/-- A root that is not a retainer: the constructor `1` with the leaf `2`. -/
def heapRootConstr : Heap :=
  { closures := [
      { type := .INVALID_OBJECT },
      { type := .CONSTR_1_0, payload := [2], ccs := 101 },
      { type := .CONSTR_0_1, ccs := 102 } ],
    CCS_SYSTEM := 7 }

/-! ## Auxiliary predicates -/

/-- The states `st` and `st1` agree on the flip bit, the traverse stack, the
  boundary, the log, and on every slot but that of `c`. -/
def FrameEq (c : Nat) (st st1 : State) : Prop :=
  st1.flip = st.flip ∧ st1.stack = st.stack ∧
  st1.currentStackBoundary = st.currentStackBoundary ∧ st1.trace = st.trace ∧
  ∀ a, a ≠ c → st1.rs a = st.rs a

/-- The set built from `S` by `addElement` of the retainers of a list, in order. -/
def setOfList (S : RetainerSet) : List Nat → RetainerSet
  | [] => S
  | r :: rs => setOfList (addElement r S) rs

/-- A mutable cell `1` that holds the relocated thread `2`, whose link is the
  thread `3` (with an empty stack). -/
def heapReloc : Heap :=
  { closures := [
      { type := .INVALID_OBJECT },
      { type := .MUT_VAR, var := 2, ccs := 101 },
      { type := .TSO, what_next := WhatNext.ThreadRelocated, link := 3, ccs := 102 },
      { type := .TSO, ccs := 103 } ] }

/-- The state of the pass over `heapShare` with the roots `1`, `2` at the moment
  `retainClosure` arrives at `inner_loop` with `(c, cp, r) = (8, 6, 105)`: the
  run is cut after the nine steps of the second root that precede the arrival. -/
def stShareMid : State :=
  { retainRoots heapShare 9 (initState true) [1, 2] with status := none }

/-- The state of `heapTwo` after the leaf `3` has been visited from the
  retainer `1`. -/
def stTwoOnce : State := (resolve heapTwo (initState true) 3 1 101).1

/-- The state of the pass over `heapPair` when `retainClosure` arrives at the
  leaf `3` from the constructor `2`. -/
def stPairMid : State :=
  { retainRoots heapPair 2 (initState true) [1] with status := none }

/-! ## The engine as a relation -/

/-- The relation between a control point, the state at its start and the
  state `exec` returns for it, one rule for every path through the code of
  `exec`.  The labels of the rules follow the code of `retainClosure`. -/
inductive Run (h : Heap) : Task → State → State → Prop
  | out_of_fuel (t : Task) (st : State) : Run h t st (st.fail Fatal.out_of_fuel)
  | loop_err {st : State} {e : Fatal} :
      (pop h st).err = some e →
      Run h Task.loop st (State.fail { st with stack := (pop h st).stack } e)
  | loop_done {st : State} :
      (pop h st).err = none → (pop h st).c = 0 →
      Run h Task.loop st { st with stack := (pop h st).stack }
  | loop_next {st st1 : State} :
      (pop h st).err = none → (pop h st).c ≠ 0 →
      Run h (Task.inner (pop h st).c (pop h st).cp (pop h st).r)
        { st with stack := (pop h st).stack } st1 →
      Run h Task.loop st st1
  | inner_null {cp r : Nat} {st : State} :
      Run h (Task.inner 0 cp r) st ((logArrival st 0 cp r).fail Fatal.undefined_read)
  | inner_skip {c cp r : Nat} {st st1 : State} :
      c ≠ 0 → preFilter h c = PreFilter.skip →
      Run h Task.loop (logArrival st c cp r) st1 →
      Run h (Task.inner c cp r) st st1
  | inner_follow {c c1 cp r : Nat} {st st1 : State} :
      c ≠ 0 → preFilter h c = PreFilter.follow c1 →
      Run h (Task.inner c1 cp r) (logArrival st c cp r) st1 →
      Run h (Task.inner c cp r) st st1
  | inner_fail {c cp r : Nat} {st : State} :
      c ≠ 0 → preFilter h c = PreFilter.visit →
      (resolve h (logArrival st c cp r) c cp r).1.status.isSome = true →
      Run h (Task.inner c cp r) st (resolve h (logArrival st c cp r) c cp r).1
  | inner_stop {c cp r : Nat} {st st1 : State} :
      c ≠ 0 → preFilter h c = PreFilter.visit →
      (resolve h (logArrival st c cp r) c cp r).1.status = none →
      (resolve h (logArrival st c cp r) c cp r).2 = Decision.stop →
      Run h Task.loop (resolve h (logArrival st c cp r) c cp r).1 st1 →
      Run h (Task.inner c cp r) st st1
  | inner_tso_abort {c cp r ccr : Nat} {st st1 : State} :
      c ≠ 0 → preFilter h c = PreFilter.visit →
      (resolve h (logArrival st c cp r) c cp r).1.status = none →
      (resolve h (logArrival st c cp r) c cp r).2 = Decision.descend ccr →
      typeOf h c = ClosureType.TSO →
      Run h (Task.stack (retainStackCalls h c ccr (h.get c).frames).1
          (retainStackCalls h c ccr (h.get c).frames).2)
        (resolve h (logArrival st c cp r) c cp r).1 st1 →
      st1.status.isSome = true →
      Run h (Task.inner c cp r) st st1
  | inner_tso {c cp r ccr : Nat} {st st1 st2 : State} :
      c ≠ 0 → preFilter h c = PreFilter.visit →
      (resolve h (logArrival st c cp r) c cp r).1.status = none →
      (resolve h (logArrival st c cp r) c cp r).2 = Decision.descend ccr →
      typeOf h c = ClosureType.TSO →
      Run h (Task.stack (retainStackCalls h c ccr (h.get c).frames).1
          (retainStackCalls h c ccr (h.get c).frames).2)
        (resolve h (logArrival st c cp r) c cp r).1 st1 →
      st1.status = none →
      Run h Task.loop st1 st2 →
      Run h (Task.inner c cp r) st st2
  | inner_pap_abort {c cp r ccr : Nat} {st st1 : State} :
      c ≠ 0 → preFilter h c = PreFilter.visit →
      (resolve h (logArrival st c cp r) c cp r).1.status = none →
      (resolve h (logArrival st c cp r) c cp r).2 = Decision.descend ccr →
      (typeOf h c = ClosureType.PAP ∨ typeOf h c = ClosureType.AP) →
      Run h (Task.calls (retain_PAP h c ccr) false)
        (resolve h (logArrival st c cp r) c cp r).1 st1 →
      st1.status.isSome = true →
      Run h (Task.inner c cp r) st st1
  | inner_pap {c cp r ccr : Nat} {st st1 st2 : State} :
      c ≠ 0 → preFilter h c = PreFilter.visit →
      (resolve h (logArrival st c cp r) c cp r).1.status = none →
      (resolve h (logArrival st c cp r) c cp r).2 = Decision.descend ccr →
      (typeOf h c = ClosureType.PAP ∨ typeOf h c = ClosureType.AP) →
      Run h (Task.calls (retain_PAP h c ccr) false)
        (resolve h (logArrival st c cp r) c cp r).1 st1 →
      st1.status = none →
      Run h Task.loop st1 st2 →
      Run h (Task.inner c cp r) st st2
  | inner_apstack_abort1 {c cp r ccr : Nat} {st st1 : State} :
      c ≠ 0 → preFilter h c = PreFilter.visit →
      (resolve h (logArrival st c cp r) c cp r).1.status = none →
      (resolve h (logArrival st c cp r) c cp r).2 = Decision.descend ccr →
      typeOf h c = ClosureType.AP_STACK →
      Run h (Task.calls [((h.get c).func, c, ccr)] false)
        (resolve h (logArrival st c cp r) c cp r).1 st1 →
      st1.status.isSome = true →
      Run h (Task.inner c cp r) st st1
  | inner_apstack_abort2 {c cp r ccr : Nat} {st st1 st2 : State} :
      c ≠ 0 → preFilter h c = PreFilter.visit →
      (resolve h (logArrival st c cp r) c cp r).1.status = none →
      (resolve h (logArrival st c cp r) c cp r).2 = Decision.descend ccr →
      typeOf h c = ClosureType.AP_STACK →
      Run h (Task.calls [((h.get c).func, c, ccr)] false)
        (resolve h (logArrival st c cp r) c cp r).1 st1 →
      st1.status = none →
      Run h (Task.stack (retainStackCalls h c ccr (h.get c).frames).1
          (retainStackCalls h c ccr (h.get c).frames).2) st1 st2 →
      st2.status.isSome = true →
      Run h (Task.inner c cp r) st st2
  | inner_apstack {c cp r ccr : Nat} {st st1 st2 st3 : State} :
      c ≠ 0 → preFilter h c = PreFilter.visit →
      (resolve h (logArrival st c cp r) c cp r).1.status = none →
      (resolve h (logArrival st c cp r) c cp r).2 = Decision.descend ccr →
      typeOf h c = ClosureType.AP_STACK →
      Run h (Task.calls [((h.get c).func, c, ccr)] false)
        (resolve h (logArrival st c cp r) c cp r).1 st1 →
      st1.status = none →
      Run h (Task.stack (retainStackCalls h c ccr (h.get c).frames).1
          (retainStackCalls h c ccr (h.get c).frames).2) st1 st2 →
      st2.status = none →
      Run h Task.loop st2 st3 →
      Run h (Task.inner c cp r) st st3
  | inner_push_fail {c cp r ccr : Nat} {st : State} :
      c ≠ 0 → preFilter h c = PreFilter.visit →
      (resolve h (logArrival st c cp r) c cp r).1.status = none →
      (resolve h (logArrival st c cp r) c cp r).2 = Decision.descend ccr →
      stackShaped (typeOf h c) = false →
      (push h (resolve h (logArrival st c cp r) c cp r).1 c ccr).st.status.isSome = true →
      Run h (Task.inner c cp r) st (push h (resolve h (logArrival st c cp r) c cp r).1 c ccr).st
  | inner_push_leaf {c cp r ccr : Nat} {st st1 : State} :
      c ≠ 0 → preFilter h c = PreFilter.visit →
      (resolve h (logArrival st c cp r) c cp r).1.status = none →
      (resolve h (logArrival st c cp r) c cp r).2 = Decision.descend ccr →
      stackShaped (typeOf h c) = false →
      (push h (resolve h (logArrival st c cp r) c cp r).1 c ccr).st.status = none →
      (push h (resolve h (logArrival st c cp r) c cp r).1 c ccr).first_child = 0 →
      Run h Task.loop (push h (resolve h (logArrival st c cp r) c cp r).1 c ccr).st st1 →
      Run h (Task.inner c cp r) st st1
  | inner_push_child {c cp r ccr : Nat} {st st1 : State} :
      c ≠ 0 → preFilter h c = PreFilter.visit →
      (resolve h (logArrival st c cp r) c cp r).1.status = none →
      (resolve h (logArrival st c cp r) c cp r).2 = Decision.descend ccr →
      stackShaped (typeOf h c) = false →
      (push h (resolve h (logArrival st c cp r) c cp r).1 c ccr).st.status = none →
      (push h (resolve h (logArrival st c cp r) c cp r).1 c ccr).first_child ≠ 0 →
      Run h (Task.inner (push h (resolve h (logArrival st c cp r) c cp r).1 c ccr).first_child
          c ccr)
        (push h (resolve h (logArrival st c cp r) c cp r).1 c ccr).st st1 →
      Run h (Task.inner c cp r) st st1
  | calls_nil {st : State} : Run h (Task.calls [] false) st st
  | calls_barf {st : State} :
      Run h (Task.calls [] true) st (st.fail Fatal.barf_retainStack)
  | calls_abort {c0 cp0 r0 : Nat} {rest : List Call} {bad : Bool} {st st1 : State} :
      Run h (Task.inner c0 cp0 r0) st st1 → st1.status.isSome = true →
      Run h (Task.calls ((c0, cp0, r0) :: rest) bad) st st1
  | calls_cons {c0 cp0 r0 : Nat} {rest : List Call} {bad : Bool} {st st1 st2 : State} :
      Run h (Task.inner c0 cp0 r0) st st1 → st1.status = none →
      Run h (Task.calls rest bad) st1 st2 →
      Run h (Task.calls ((c0, cp0, r0) :: rest) bad) st st2
  | stack_abort {cs : List Call} {bad : Bool} {st st1 : State} :
      Run h (Task.calls cs bad) { st with currentStackBoundary := st.stack.length } st1 →
      st1.status.isSome = true →
      Run h (Task.stack cs bad) st st1
  | stack_ok {cs : List Call} {bad : Bool} {st st1 : State} :
      Run h (Task.calls cs bad) { st with currentStackBoundary := st.stack.length } st1 →
      st1.status = none →
      Run h (Task.stack cs bad) st
        { st1 with currentStackBoundary := st.currentStackBoundary }

/-! ## The heap as a graph

The child relation is the one of the specification.  For the closures with a
stack or an argument block it is read off the liveness descriptions (`liveSmall`,
`liveLarge`, `frameSlots`, `argSlots`), with the whole bitmap word, and not off
the walkers of the engine; that the walkers retain these slots, and under which
condition they retain no other word, is proved below. -/

/-- Replace the parent and the retainer of a call. -/
def retag (c r : Nat) (x : Call) : Call := (x.1, c, r)

/-- The pointer fields `payload[0 .. ptrs)` of a closure. -/
def ptrFields (cl : Closure) : List Nat :=
  (List.range cl.ptrs).map (fun i => cl.payload.getD i 0)

/-- The live references of a region described by a one-word liveness bitmap:
  the words at `p + i` for the slot indices `i < size` whose bit `i` of the whole
  word `bitmap` is `0` (a cleared bit marks a pointer), in increasing order of
  `i`. -/
def liveSmall (words : List Nat) (size p bitmap : Nat) : List Nat :=
  ((List.range size).filter (fun i => decide (bitmap / 2 ^ i % 2 = 0))).map
    (fun i => words.getD (p + i) 0)

/-- The live references of a region described by a chained bitmap of words of
  `W` bits: the words at `p + i` for the slot indices `i < size` for which bit
  `i mod W` of the word `large_bitmap[i div W]` is `0`, in increasing order of
  `i`. -/
def liveLarge (W : Nat) (words large_bitmap : List Nat) (size p : Nat) : List Nat :=
  ((List.range size).filter
      (fun i => decide (large_bitmap.getD (i / W) 0 / 2 ^ (i % W) % 2 = 0))).map
    (fun i => words.getD (p + i) 0)

/-- The `n` words from index `p` on. -/
def wordsFrom (words : List Nat) (n p : Nat) : List Nat :=
  (List.range n).map (fun i => words.getD (p + i) 0)

/-- The live arguments of a suspended function call, from the declared
  argument shape of the function: its own one-word bitmap (`ARG_GEN`), its
  chained bitmap (`ARG_GEN_BIG`), or the standard bitmap of its argument
  pattern. -/
def funArgSlots (h : Heap) (words : List Nat) (fun_info : Closure) : List Nat :=
  match fun_info.fun_type with
  | .ARG_GEN => liveSmall words fun_info.bitmap_size 0 fun_info.bitmap_bits
  | .ARG_GEN_BIG => liveLarge h.wordBits words fun_info.large_bitmap fun_info.large_size 0
  | t => liveSmall words (h.stg_arg_size t.index) 0 (h.stg_arg_bits t.index)

/-- The live references of one activation record in the words of the
  specification, which has the frame walker emit every live reference a frame
  contains and gives each kind of frame its own liveness description; nothing
  here is taken from `retainStack`.  By the kind of the frame: the updatee of
  an update frame; the live slots of a one-word bitmap, or of a chained bitmap,
  and the SRT of the return address; for a bytecode frame the bytecode object
  and the slots that its own bitmap marks live; for a frame with a dynamic
  bitmap the slots that the liveness word of the frame marks live and the
  pointer words behind the non-pointer words; for a suspended function call the
  function, its live arguments and the SRT.  A frame of no known kind contains
  no reference. -/
def frameSlots (h : Heap) (f : Frame) : List Nat :=
  match f.type with
  | .UPDATE_FRAME => [f.updatee]
  | .STOP_FRAME | .CATCH_FRAME | .RET_SMALL | .RET_VEC_SMALL =>
    liveSmall f.payload f.bitmap_size 0 f.bitmap_bits ++ f.srt
  | .RET_BCO =>
    f.payload.getD 0 0 ::
      liveLarge h.wordBits f.payload (h.get (f.payload.getD 0 0)).large_bitmap
        (h.get (f.payload.getD 0 0)).large_size 1
  | .RET_BIG | .RET_VEC_BIG =>
    liveLarge h.wordBits f.payload f.large_bitmap f.large_size 0 ++ f.srt
  | .RET_DYN =>
    liveSmall f.payload h.RET_DYN_BITMAP_SIZE 0 f.liveness ++
      wordsFrom f.payload f.dyn_ptrs
        (h.RET_DYN_BITMAP_SIZE + f.dyn_nonptrs + h.RET_DYN_NONPTR_REGS_SIZE)
  | .RET_FUN => f.func :: funArgSlots h f.payload (h.get f.func) ++ f.srt
  | _ => []

/-- The live references of a stack: those of its frames, from the top frame
  down. -/
def framesSlots (h : Heap) : List Frame → List Nat
  | [] => []
  | f :: fs => frameSlots h f ++ framesSlots h fs

/-- The stack slots of the owner `c` that hold a reference: the live references
  of the frames of its stack, as the liveness descriptions of the frames give
  them. -/
def stackSlots (h : Heap) (c : Nat) : List Nat := framesSlots h (h.get c).frames

/-- The references of a partial application `c` in the words of the
  specification; nothing here is taken from `retain_PAP`.  They are the
  function, and the words of its `n_args` arguments that the argument bitmap of
  the function marks live
  (the one-word bitmap for `ARG_GEN`, the chained bitmap for `ARG_GEN_BIG` and
  `ARG_BCO`, the standard bitmap of the argument pattern otherwise). -/
def argSlots (h : Heap) (c : Nat) : List Nat :=
  let cl := h.get c
  let fun_info := h.get cl.func
  cl.func ::
    (match fun_info.fun_type with
    | .ARG_GEN => liveSmall cl.payload cl.n_args 0 fun_info.bitmap_bits
    | .ARG_GEN_BIG => liveLarge h.wordBits cl.payload fun_info.large_bitmap cl.n_args 0
    | .ARG_BCO => liveLarge h.wordBits cl.payload fun_info.large_bitmap cl.n_args 0
    | t => liveSmall cl.payload cl.n_args 0 (h.stg_arg_bits t.index))

/-- The child references of the closure at `c`: its pointer fields, the
  entries of its SRT, the slots of its stack or argument block that the
  liveness descriptions mark live; for a static indirection the indirectee, and
  for a relocated thread the link. -/
def children (h : Heap) (c : Nat) : List Nat :=
  let cl := h.get c
  match cl.type with
  | .MUT_VAR | .MUT_CONS => [cl.var]
  | .BLACKHOLE_BQ => [cl.blocking_queue]
  | .THUNK_SELECTOR => [cl.selectee]
  | .IND_PERM | .IND_OLDGEN_PERM | .IND_OLDGEN | .IND_STATIC => [cl.indirectee]
  | .CONSTR_1_0 | .CONSTR_1_1 => [cl.payload.getD 0 0]
  | .CONSTR_2_0 => [cl.payload.getD 0 0, cl.payload.getD 1 0]
  | .MVAR => [cl.head, cl.tail, cl.value]
  | .WEAK => [cl.key, cl.value, cl.finalizer]
  | .CONSTR | .FOREIGN | .STABLE_NAME | .BCO | .CONSTR_STATIC
  | .MUT_ARR_PTRS | .MUT_ARR_PTRS_FROZEN => ptrFields cl
  | .FUN | .FUN_2_0 | .THUNK | .THUNK_2_0 => ptrFields cl ++ cl.srt
  | .FUN_1_0 | .FUN_1_1 | .THUNK_1_0 | .THUNK_1_1 => cl.payload.getD 0 0 :: cl.srt
  | .FUN_STATIC | .FUN_0_1 | .FUN_0_2 | .THUNK_STATIC | .THUNK_0_1 | .THUNK_0_2 => cl.srt
  | .TSO =>
    if cl.what_next = WhatNext.ThreadRelocated then [cl.link] else stackSlots h c
  | .PAP | .AP => argSlots h c
  | .AP_STACK => cl.func :: stackSlots h c
  | _ => []

/-- A one-word liveness bitmap over `size` slots is within the reach of a
  32-bit word: it marks no slot from index 32 on as a non-pointer (bit `i` is
  `0` for every slot index `32 ≤ i < size`). -/
def fits32 (size bitmap : Nat) : Bool :=
  (List.range size).all (fun i => decide (i < 32) || decide (bitmap / 2 ^ i % 2 = 0))

/-- The one-word argument bitmap of a function, when its argument shape has
  one, is within the reach of a 32-bit word. -/
def funFits (h : Heap) (fun_info : Closure) : Bool :=
  match fun_info.fun_type with
  | .ARG_GEN => fits32 fun_info.bitmap_size fun_info.bitmap_bits
  | .ARG_GEN_BIG => true
  | t => fits32 (h.stg_arg_size t.index) (h.stg_arg_bits t.index)

/-- The one-word liveness bitmap of the frame, when its kind has one (the
  bitmap of the return address, the liveness word of a frame with a dynamic
  bitmap, the argument bitmap of the function of a suspended call), is within
  the reach of a 32-bit word. -/
def frameFits (h : Heap) (f : Frame) : Bool :=
  match f.type with
  | .STOP_FRAME | .CATCH_FRAME | .RET_SMALL | .RET_VEC_SMALL =>
    fits32 f.bitmap_size f.bitmap_bits
  | .RET_DYN => fits32 h.RET_DYN_BITMAP_SIZE f.liveness
  | .RET_FUN => funFits h (h.get f.func)
  | _ => true

/-- Every one-word liveness bitmap of every frame of every stack of the heap
  is within the reach of a 32-bit word. -/
def stacksFit (h : Heap) : Bool :=
  h.closures.all (fun cl => cl.frames.all (frameFits h))

/-- The closure at `y` is a child reference of the closure at `x`. -/
def Edge (h : Heap) (x y : Nat) : Prop := y ∈ children h x

/-- A path of one or more child references from `a` to `c` whose intermediate
  objects all satisfy `Mid`. -/
inductive Thru (h : Heap) (Mid : Nat → Prop) : Nat → Nat → Prop
  | one {a c : Nat} : Edge h a c → Thru h Mid a c
  | step {a x c : Nat} : Thru h Mid a x → Mid x → Edge h x c → Thru h Mid a c

/-- The closure `c` is reachable from `a` (possibly `a` itself) along child
  references through intermediate objects that satisfy `Mid`. -/
def Reach (h : Heap) (Mid : Nat → Prop) (a c : Nat) : Prop :=
  a = c ∨ Thru h Mid a c

/-- The closure at `x` is not a retainer: `isRetainer` does not return true. -/
def nonRetainer (h : Heap) (x : Nat) : Prop := isRetainer h x ≠ some true

/-- The closure at `x` is a relocated thread. -/
def relocatedThread (h : Heap) (x : Nat) : Prop :=
  typeOf h x = ClosureType.TSO ∧ (h.get x).what_next = WhatNext.ThreadRelocated

/-- An intermediate object through which a retainer is passed on: a
  non-retainer, or a relocated thread (followed to its link). -/
def passesOn (h : Heap) (x : Nat) : Prop := nonRetainer h x ∨ relocatedThread h x

/-- The retainer `r` is justified for the closure `c` with respect to the
  intermediate objects `Mid` and the roots: it is `R(t)` for a retainer `t` from
  which `c` is reachable, or it is `CCS_SYSTEM` and `c` is reachable from a root
  that is not a retainer. -/
def Justified (h : Heap) (Mid : Nat → Prop) (roots : List Nat) (c r : Nat) : Prop :=
  (∃ t, isRetainer h t = some true ∧ getRetainerFrom h t = r ∧ Reach h Mid t c) ∨
  (r = h.CCS_SYSTEM ∧ ∃ t ∈ roots, isRetainer h t = some false ∧ Reach h Mid t c)

/-- The position of a stack element is consistent with its closure: a pointer
  position ranges over the payload of the closure, below its `ptrs`; an SRT
  position ranges over a final segment of its SRT. -/
def InfoOK (h : Heap) (se : stackElement) : Prop :=
  match se.info.next with
  | nextPos.ptrs _ ptrs payload =>
    ptrs ≤ (h.get se.c).ptrs ∧ payload = (h.get se.c).payload
  | nextPos.srt rest => ∀ x ∈ rest, x ∈ (h.get se.c).srt
  | _ => True

/-- What `push` leaves: the slots, the flip bit, the boundary and the log are
  untouched; the stack is the same or one element for `c` longer, with a
  consistent position; a first child is a child reference of `c`. -/
def PushOK (h : Heap) (st : State) (c ccr : Nat) (pr : PushResult) : Prop :=
  pr.st.rs = st.rs ∧ pr.st.flip = st.flip ∧
  pr.st.currentStackBoundary = st.currentStackBoundary ∧
  pr.st.trace = st.trace ∧
  (pr.st.stack = st.stack ∨
    ∃ info, pr.st.stack = { c := c, c_child_r := ccr, info := info } :: st.stack ∧
      InfoOK h { c := c, c_child_r := ccr, info := info }) ∧
  (pr.first_child ≠ 0 → pr.first_child ∈ children h c)

/-- What one iteration of `pop` yields for a consistent element: a retrieved
  object is a child reference of the closure of the element, and an overwritten
  element keeps its closure and retainer and stays consistent. -/
def PopStepOK (h : Heap) (se : stackElement) : PopStep → Prop
  | PopStep.ret se1 x =>
    (x ≠ 0 → x ∈ children h se.c) ∧
    ∀ s1, se1 = some s1 → s1.c = se.c ∧ s1.c_child_r = se.c_child_r ∧ InfoOK h s1
  | _ => True

/-- Every element of the stack has a consistent position, and its closure and
  retainer satisfy `P`. -/
def StackCtx (h : Heap) (P : Nat → Nat → Prop) (stack : List stackElement) : Prop :=
  ∀ se ∈ stack, InfoOK h se ∧ P se.c se.c_child_r

/-! ## The retainer stop rule as an invariant -/

/-- A parent `cp` and the retainer `r` it hands to its children obey the stop
  rule: if the parent is a retainer, the retainer is the identity of the
  parent. -/
def OwnIdentity (h : Heap) (cp r : Nat) : Prop :=
  isRetainer h cp = some true → r = getRetainerFrom h cp

/-- The stop rule for the log and for the elements of the traverse stack. -/
def StopRule (h : Heap) (st : State) : Prop :=
  (∀ x ∈ st.trace, OwnIdentity h x.2.1 x.2.2) ∧ StackCtx h (OwnIdentity h) st.stack

/-- What the stop rule asks of a control point when it is entered. -/
def StopRulePre (h : Heap) : Task → Prop
  | Task.inner _ cp r => OwnIdentity h cp r
  | Task.loop => True
  | Task.calls cs _ => ∀ x ∈ cs, OwnIdentity h x.2.1 x.2.2
  | Task.stack cs _ => ∀ x ∈ cs, OwnIdentity h x.2.1 x.2.2

/-! ## Soundness of the retainer sets as an invariant -/

/-- The retainer `ccr` is justified for every child of `c`. -/
def ChildCtx (h : Heap) (Mid : Nat → Prop) (roots : List Nat) (c ccr : Nat) : Prop :=
  ∀ x ∈ children h c, Justified h Mid roots x ccr

/-- Every member of a set held by a valid slot is justified for its closure. -/
def SoundSlots (h : Heap) (Mid : Nat → Prop) (roots : List Nat) (st : State) : Prop :=
  ∀ a S, (st.rs a).low = st.flip → (st.rs a).set = some S →
    ∀ r ∈ S, Justified h Mid roots a r

/-- The invariant of the soundness proof: sound slots, and on the traverse
  stack consistent elements for closures with a valid slot, whose retainer is
  justified for their children. -/
def SoundInv (h : Heap) (Mid : Nat → Prop) (roots : List Nat) (st : State) : Prop :=
  SoundSlots h Mid roots st ∧ StackCtx h (ChildCtx h Mid roots) st.stack ∧
  ∀ se ∈ st.stack, (st.rs se.c).low = st.flip

/-- What the soundness proof asks of an arrival `(c, cp, r)`: the retainer is
  justified for `c`, `c` is reachable from the parent, and a parent that is not
  a retainer is `c` itself or has a valid slot. -/
def SoundArrival (h : Heap) (Mid : Nat → Prop) (roots : List Nat) (st : State)
    (x : Call) : Prop :=
  Justified h Mid roots x.1 x.2.2 ∧ Reach h Mid x.2.1 x.1 ∧
  (isRetainer h x.2.1 = some false → x.2.1 = x.1 ∨ (st.rs x.2.1).low = st.flip)

/-- What the soundness proof asks of a control point when it is entered. -/
def SoundPre (h : Heap) (Mid : Nat → Prop) (roots : List Nat) (st : State) : Task → Prop
  | Task.inner c cp r => SoundArrival h Mid roots st (c, cp, r)
  | Task.loop => True
  | Task.calls cs _ => ∀ x ∈ cs, SoundArrival h Mid roots st x
  | Task.stack cs _ => ∀ x ∈ cs, SoundArrival h Mid roots st x

/-- The flip bit is the same and valid slots are still valid. -/
def ValidMono (st st1 : State) : Prop :=
  st1.flip = st.flip ∧ ∀ a, (st.rs a).low = st.flip → (st1.rs a).low = st1.flip

/-- The pointer `s` is `NULL`, or a proper pointer to a set whose members are
  all justified for `c`. -/
def GoodPtr (h : Heap) (Mid : Nat → Prop) (roots : List Nat) (c : Nat) (s : RSWord) : Prop :=
  s.isNull = true ∨
  (s.low = false ∧ ∃ S, s.set = some S ∧ ∀ r ∈ S, Justified h Mid roots c r)

/-- The slot of `c` is valid and the members of its set are justified for `c`. -/
def GoodSlot (h : Heap) (Mid : Nat → Prop) (roots : List Nat) (st : State) (c : Nat) : Prop :=
  (st.rs c).low = st.flip ∧
  ∀ S, (st.rs c).set = some S → ∀ r ∈ S, Justified h Mid roots c r

/-! ## Coverage of the traversal -/

/-- A mutable cell `1` that holds the static indirection `2`, whose indirectee
  is the leaf `3`. -/
def heapInd : Heap :=
  { closures := [
      { type := .INVALID_OBJECT },
      { type := .MUT_VAR, var := 2, ccs := 101 },
      { type := .IND_STATIC, indirectee := 3, ccs := 102 },
      { type := .CONSTR_0_1, ccs := 103 } ] }

/-- A mutable cell `1` that holds the constructor `2` with the children `3` (a
  thread whose stack has an update frame for `2`) and `4` (a leaf); the cell and
  the thread have the same cost-centre stack. -/
def heapNest : Heap :=
  { closures := [
      { type := .INVALID_OBJECT },
      { type := .MUT_VAR, var := 2, ccs := 101 },
      { type := .CONSTR_2_0, payload := [3, 4] },
      { type := .TSO, ccs := 101, frames := [{ type := .UPDATE_FRAME, updatee := 2 }] },
      { type := .CONSTR_0_1 } ] }

/-- The state of the pass over `heapNest` with the root `1` at the moment
  `retainStack`, run for the thread `3`, calls `retainClosure(2, 3, 101)`: the
  run is cut after the four steps that precede the call. -/
def stNestMid : State :=
  { retainRoots heapNest 4 (initState true) [1] with status := none }

/-- No child reference of a closure is `NULL`, and the number of pointer
  fields of a closure fits the position field of a stack element. -/
def WF (h : Heap) : Prop :=
  ∀ x, 0 ∉ children h x ∧ (h.get x).ptrs < 2 ^ h.posBits

/-- The check of `WF` over the table of closures. -/
def wfHeap (h : Heap) : Bool :=
  (List.range h.closures.length).all
    (fun x => decide (0 ∉ children h x) && decide ((h.get x).ptrs < 2 ^ h.posBits))

/-- The closure at `y` is settled with respect to the targets `T`: it is a
  target, or `retainClosure` skips it, or it is visited, or it is an object that
  `retainClosure` follows (a static indirection, a relocated thread) to a
  settled closure. -/
inductive Settled (h : Heap) (st : State) (T : Nat → Prop) : Nat → Prop
  | target {y : Nat} : T y → Settled h st T y
  | skip {y : Nat} : preFilter h y = PreFilter.skip → Settled h st T y
  | seen {y : Nat} : preFilter h y = PreFilter.visit → visited st y = true → Settled h st T y
  | via {y t : Nat} : preFilter h y = PreFilter.follow t → Settled h st T t → Settled h st T y

/-- The empty set of targets. -/
def noTarget : Nat → Prop := fun _ => False

/-- The pointer fields `payload[pos .. ptrs)`. -/
def restPtrs (pos ptrs : Nat) (payload : List Nat) : List Nat :=
  (List.range' pos (ptrs - pos)).map (fun i => payload.getD i 0)

/-- The pointer fields that `find_ptrs` has yet to return for a position. -/
def pendingPtrs (info : stackPos) : List Nat :=
  match info.next with
  | nextPos.ptrs pos ptrs payload => restPtrs pos ptrs payload
  | _ => []

/-- The SRT entries that `find_srt` has yet to return for a position. -/
def pendingSRT (info : stackPos) : List Nat :=
  match info.next with
  | nextPos.srt rest => rest
  | _ => []

/-- The children that `pop` has yet to retrieve from a stack element, in
  order (the `switch` of `pop`). -/
def pendingOf (h : Heap) (se : stackElement) : List Nat :=
  let cl := h.get se.c
  match cl.type with
  | .CONSTR_2_0 => [cl.payload.getD 1 0]
  | .MVAR =>
    match se.info.next with
    | nextPos.step n => if n = 2 then [cl.tail, cl.value] else [cl.value]
    | _ => []
  | .WEAK =>
    match se.info.next with
    | nextPos.step n => if n = 2 then [cl.value, cl.finalizer] else [cl.finalizer]
    | _ => []
  | .CONSTR | .FOREIGN | .STABLE_NAME | .BCO | .CONSTR_STATIC
  | .MUT_ARR_PTRS | .MUT_ARR_PTRS_FROZEN => pendingPtrs se.info
  | .FUN | .FUN_2_0 | .THUNK | .THUNK_2_0 =>
    if se.info.type = some nextPosType.posTypePtrs then pendingPtrs se.info ++ cl.srt
    else pendingSRT se.info
  | .THUNK_STATIC | .FUN_STATIC | .FUN_0_1 | .FUN_0_2 | .THUNK_0_1 | .THUNK_0_2
  | .FUN_1_0 | .FUN_1_1 | .THUNK_1_0 | .THUNK_1_1 => pendingSRT se.info
  | _ => []

/-- The child `y` of `x` is pending on the stack: an element for `x` has yet
  to retrieve it. -/
def Pending (h : Heap) (stack : List stackElement) (x y : Nat) : Prop :=
  ∃ se ∈ stack, se.c = x ∧ y ∈ pendingOf h se

/-- The bound of a pointer position fits the position field. -/
def PtrsBound (h : Heap) (info : stackPos) : Prop :=
  ∀ pos ptrs payload, info.next = nextPos.ptrs pos ptrs payload → ptrs < 2 ^ h.posBits

/-- A stack element is in order: none of the children it has yet to retrieve
  is `NULL`, and the bound of a pointer position fits the position field. -/
def SeGood (h : Heap) (se : stackElement) : Prop :=
  (∀ y ∈ pendingOf h se, y ≠ 0) ∧ PtrsBound h se.info

/-- What one iteration of `pop` yields for an element in order: a retrieved
  object is the first of the children the element had yet to retrieve, and an
  overwritten element has yet to retrieve the others; an element popped off
  had no other child left. -/
def PopStepCov (h : Heap) (se : stackElement) : PopStep → Prop
  | PopStep.ret (some se1) x =>
    x ≠ 0 ∧ se1.c = se.c ∧ pendingOf h se = x :: pendingOf h se1 ∧ PtrsBound h se1.info
  | PopStep.ret none x => pendingOf h se = [x]
  | PopStep.exhausted => pendingOf h se = []
  | PopStep.bad _ => True

/-- Every element of the stack is in order and is for a closure with a valid
  slot. -/
def StackGood (h : Heap) (st : State) : Prop :=
  ∀ se ∈ st.stack, SeGood h se ∧ (st.rs se.c).low = st.flip

/-- Every child of every visited closure is settled with respect to `T`, or
  pending on the stack. -/
def Closed (h : Heap) (st : State) (T : Nat → Prop) : Prop :=
  ∀ x, visited st x = true → preFilter h x = PreFilter.visit →
    ∀ y ∈ children h x, Settled h st T y ∨ Pending h st.stack x y

/-- The parent of an arrival is in order: a parent that is not a retainer is
  the closure itself or has a valid slot. -/
def ParentOK (h : Heap) (st : State) (c cp : Nat) : Prop :=
  isRetainer h cp = some false → cp = c ∨ (st.rs cp).low = st.flip

/-- The closures that a control point is to settle. -/
def targets : Task → List Nat
  | Task.inner c _ _ => [c]
  | Task.loop => []
  | Task.calls cs _ => cs.map Prod.fst
  | Task.stack cs _ => cs.map Prod.fst

/-- The parents of the arrivals of a control point are in order. -/
def CoverPre (h : Heap) (st : State) : Task → Prop
  | Task.inner c cp _ => ParentOK h st c cp
  | Task.loop => True
  | Task.calls cs _ => ∀ x ∈ cs, (st.rs x.2.1).low = st.flip
  | Task.stack cs _ => ∀ x ∈ cs, (st.rs x.2.1).low = st.flip

/-- The control points that end with the label `loop`, which drains the
  stack down to the boundary. -/
def drains : Task → Bool
  | Task.inner _ _ _ => true
  | Task.loop => true
  | _ => false

/-- The flip bit is the same and visited closures are still visited, and valid
  slots still valid. -/
def VisitedMono (st st1 : State) : Prop :=
  st1.flip = st.flip ∧ (∀ a, (st.rs a).low = st.flip → (st1.rs a).low = st1.flip) ∧
  ∀ a, visited st a = true → visited st1 a = true

/-- What a control point leaves when it ends normally: a closed state in which
  its targets are settled, the stack a final segment of the stack at the
  start, not below the boundary, and exactly at the boundary after the label
  `loop`. -/
def CoverPost (h : Heap) (t : Task) (T : Nat → Prop) (st st1 : State) : Prop :=
  Closed h st1 T ∧ (∀ y ∈ targets t, Settled h st1 noTarget y) ∧ VisitedMono st st1 ∧
  StackGood h st1 ∧ st1.stack <:+ st.stack ∧
  st1.currentStackBoundary = st.currentStackBoundary ∧
  st.currentStackBoundary ≤ st1.stack.length ∧
  (drains t = true → st1.stack.length = st.currentStackBoundary)

/-- What the loop of `pop` leaves when it ends without a fatal outcome: the
  elements left are in order and for closures of the stack at the start; every
  pending child is still pending or is the object retrieved; if no object is
  retrieved the stack is a final segment of the stack at the start, at the
  boundary `b`; if one is retrieved, its parent is the closure of an element and
  the stack is a final segment, not below the boundary, with or without the
  overwritten element on top. -/
def PopCov (h : Heap) (b : Nat) (stack : List stackElement) (res : PopResult) : Prop :=
  res.err = none →
    (∀ se1 ∈ res.stack, SeGood h se1 ∧ ∃ se ∈ stack, se1.c = se.c) ∧
    (∀ x y, Pending h stack x y → Pending h res.stack x y ∨ (res.c ≠ 0 ∧ y = res.c)) ∧
    (res.c = 0 → res.stack <:+ stack ∧ res.stack.length = b) ∧
    (res.c ≠ 0 →
      (∃ se ∈ stack, res.cp = se.c) ∧
      ∃ rest, rest <:+ stack ∧ b ≤ rest.length ∧
        (res.stack = rest ∨ ∃ se1, res.stack = se1 :: rest))

/-- What `push` leaves when it ends without a fatal outcome: the slots, the
  flip bit and the boundary are untouched; either the stack is untouched and the
  first child is the only child, if any, or one element for `c` is pushed, in
  order, and the children of `c` are the first child and then the children the
  element has yet to retrieve. -/
def PushCov (h : Heap) (st : State) (c : Nat) (pr : PushResult) : Prop :=
  pr.st.status = none →
    pr.st.rs = st.rs ∧ pr.st.flip = st.flip ∧
    pr.st.currentStackBoundary = st.currentStackBoundary ∧
    ((pr.st.stack = st.stack ∧
        children h c = if pr.first_child = 0 then [] else [pr.first_child]) ∨
      ∃ se, pr.st.stack = se :: st.stack ∧ se.c = c ∧ SeGood h se ∧ pr.first_child ≠ 0 ∧
        children h c = pr.first_child :: pendingOf h se)

/-- The closure at `x` is not one that `retainClosure` skips: it is not a
  finished thread, not a `CONSTR_INTLIKE`, `CONSTR_CHARLIKE` or
  `CONSTR_NOCAF_STATIC`, and not a static thunk or function with an empty SRT. -/
def notSkipped (h : Heap) (x : Nat) : Prop := preFilter h x ≠ PreFilter.skip

/-! ## The classifier: kinds named by the specification -/

/-- The kinds for which the specification says `isRetainer` returns true:
  thread objects, mutable cells, `MVAR`, the thunk kinds, `THUNK_STATIC`, `AP`
  and `AP_STACK`. -/
def statedRetainerKinds : List ClosureType :=
  [.TSO, .MUT_VAR, .MUT_CONS, .MUT_ARR_PTRS, .MVAR,
   .THUNK, .THUNK_1_0, .THUNK_0_1, .THUNK_2_0, .THUNK_1_1, .THUNK_0_2, .THUNK_SELECTOR,
   .THUNK_STATIC, .AP, .AP_STACK]

/-- The kinds for which the specification says `isRetainer` returns false:
  the constructor kinds, the plain function kinds and the immutable data
  kinds. -/
def statedNonRetainerKinds : List ClosureType :=
  [.CONSTR, .CONSTR_1_0, .CONSTR_0_1, .CONSTR_2_0, .CONSTR_1_1, .CONSTR_0_2, .CONSTR_STATIC,
   .FUN, .FUN_1_0, .FUN_0_1, .FUN_2_0, .FUN_1_1, .FUN_0_2, .FUN_STATIC,
   .ARR_WORDS, .FOREIGN, .STABLE_NAME, .BCO]

/-- The tags of stack activation records and the forwarding or placeholder
  tags; `RET_FUN` and `OTHER` stand for the tags outside the cases that
  `isRetainer`, `push` and `pop` enumerate. -/
def fatalTags : List ClosureType :=
  [.UPDATE_FRAME, .CATCH_FRAME, .STOP_FRAME, .RET_DYN, .RET_BCO, .RET_SMALL, .RET_VEC_SMALL,
   .RET_BIG, .RET_VEC_BIG,
   .IND, .BLOCKED_FETCH, .FETCH_ME, .FETCH_ME_BQ, .RBH, .REMOTE_REF, .EVACUATED,
   .INVALID_OBJECT,
   .RET_FUN, .OTHER]

/-- The kinds with one child at a fixed place and no SRT (the group "one
  child (fixed), no SRT" of `push`). -/
def fixedOneChildKinds : List ClosureType :=
  [.MUT_VAR, .MUT_CONS, .BLACKHOLE_BQ, .THUNK_SELECTOR, .IND_PERM, .IND_OLDGEN_PERM,
   .IND_OLDGEN, .CONSTR_1_0, .CONSTR_1_1]

/-- The kinds whose children `push` reads from a position: the pointer fields
  given by the layout or by the array length, and the SRT. -/
def positionKinds : List ClosureType :=
  [.CONSTR, .FOREIGN, .STABLE_NAME, .BCO, .CONSTR_STATIC, .MUT_ARR_PTRS, .MUT_ARR_PTRS_FROZEN,
   .FUN, .FUN_2_0, .THUNK, .THUNK_2_0, .FUN_1_0, .FUN_1_1, .THUNK_1_0, .THUNK_1_1,
   .FUN_STATIC, .FUN_0_1, .FUN_0_2, .THUNK_STATIC, .THUNK_0_1, .THUNK_0_2]

/-- A partial application `1` of the function `2`, next to the suspended
  applications `3` and `4`. -/
def heapPap : Heap :=
  { closures := [
      { type := .INVALID_OBJECT },
      { type := .PAP, func := 2, ccs := 101 },
      { type := .FUN_STATIC, ccs := 102 },
      { type := .AP, func := 2, ccs := 103 },
      { type := .AP_STACK, func := 2, ccs := 104 } ] }

/-- A constructor `1` with the two pointer fields `2` and `3` given by its
  layout, and a constructor `4` with the single pointer field `2`. -/
def heapCon : Heap :=
  { closures := [
      { type := .INVALID_OBJECT },
      { type := .CONSTR, ptrs := 2, payload := [2, 3] },
      { type := .CONSTR_0_1 },
      { type := .CONSTR_0_1 },
      { type := .CONSTR, ptrs := 1, payload := [2] },
      { type := .FUN_1_0, payload := [2], srt := [] } ] }

/-- Successive calls of `pop` down to the boundary `b`, at most `fuel` of
  them: the triples `(c, cp, r)` they report, in order, up to the call that
  reports `NULL` or ends in a fatal outcome; the stack then left; and the fatal
  outcome, if any (`out_of_fuel` when the calls are used up). -/
def popAll (h : Heap) (b : Nat) : Nat → List stackElement →
    List Call × List stackElement × Option Fatal
  | 0, stack => ([], stack, some Fatal.out_of_fuel)
  | fuel + 1, stack =>
    match (popLoop h b stack).err with
    | some e => ([], (popLoop h b stack).stack, some e)
    | none =>
      if (popLoop h b stack).c = 0 then ([], (popLoop h b stack).stack, none)
      else
        (((popLoop h b stack).c, (popLoop h b stack).cp, (popLoop h b stack).r) ::
            (popAll h b fuel (popLoop h b stack).stack).1,
          (popAll h b fuel (popLoop h b stack).stack).2.1,
          (popAll h b fuel (popLoop h b stack).stack).2.2)

/-- The position is a pointer position: the member `ptrs` of the union was
  written. -/
def stackPos.isPtrs (info : stackPos) : Prop :=
  ∃ pos ptrs payload, info.next = nextPos.ptrs pos ptrs payload

/-- The position is an SRT position: the member `srt` of the union was
  written. -/
def stackPos.isSrt (info : stackPos) : Prop := ∃ rest, info.next = nextPos.srt rest

/-- The position is a step: the member `step` of the union was written. -/
def stackPos.isStep (info : stackPos) : Prop := ∃ n, info.next = nextPos.step n

/-- The fields of the position of a stack element that `pop` reads for the
  kind of its closure have been written, and the kind has a case in `pop` that
  does not end in `barf`. -/
def PosOK (h : Heap) (se : stackElement) : Prop :=
  match (h.get se.c).type with
  | .CONSTR_2_0 => True
  | .MVAR | .WEAK => se.info.isStep
  | .CONSTR | .FOREIGN | .STABLE_NAME | .BCO | .CONSTR_STATIC
  | .MUT_ARR_PTRS | .MUT_ARR_PTRS_FROZEN => se.info.isPtrs
  | .FUN | .FUN_2_0 | .THUNK | .THUNK_2_0 =>
    (se.info.type = some nextPosType.posTypePtrs ∧ se.info.isPtrs) ∨
    (se.info.type = some nextPosType.posTypeSRT ∧ se.info.isSrt)
  | .THUNK_STATIC | .FUN_STATIC | .FUN_0_1 | .FUN_0_2 | .THUNK_0_1 | .THUNK_0_2
  | .FUN_1_0 | .FUN_1_1 | .THUNK_1_0 | .THUNK_1_1 => se.info.isSrt
  | _ => False

/-- An outcome of one iteration of `pop` that is not fatal and leaves an
  overwritten element whose position is in order. -/
def PopStepFine (h : Heap) : PopStep → Prop
  | PopStep.ret (some se1) _ => PosOK h se1
  | PopStep.ret none _ => True
  | PopStep.exhausted => True
  | PopStep.bad _ => False

/-! ## The log is a ghost -/

/-- The state with its log replaced. -/
def State.withTrace (st : State) (tr : List (Nat × Nat × Nat)) : State :=
  { st with trace := tr }

/-- The states `st` and `st1` agree on everything but the log: the flip bit,
  the slots, the traverse stack, the boundary, the counters and the fatal
  outcome. -/
def sameButLog (st st1 : State) : Prop := st1 = st.withTrace st1.trace

/-! ## Invariants of the log and the traverse stack -/

/-- The arrivals at `inner_loop` that a control point makes itself. -/
def arrivalsOf : Task → List Call
  | Task.inner c cp r => [(c, cp, r)]
  | Task.loop => []
  | Task.calls cs _ => cs
  | Task.stack cs _ => cs

/-- The parent and the retainer of every arrival in the log, and the closure
  and the retainer of every element of the traverse stack, satisfy `P` with
  respect to the log; the elements of the stack have consistent positions. -/
def LogCtx (h : Heap) (P : List Call → Nat → Nat → Prop) (st : State) : Prop :=
  (∀ x ∈ st.trace, P st.trace x.2.1 x.2.2) ∧ StackCtx h (P st.trace) st.stack

/-! ## The pre-filter, in the words of the specification -/

/-- The closure at `c` is of a kind that `retainClosure` skips: a thread whose
  `what_next` is `ThreadComplete` or `ThreadKilled`, a `CONSTR_INTLIKE`,
  `CONSTR_CHARLIKE` or `CONSTR_NOCAF_STATIC`, or a `THUNK_STATIC` or `FUN_STATIC`
  with `srt_len == 0`. -/
def skippedKind (h : Heap) (c : Nat) : Prop :=
  (typeOf h c = ClosureType.TSO ∧
    ((h.get c).what_next = WhatNext.ThreadComplete ∨
      (h.get c).what_next = WhatNext.ThreadKilled)) ∨
  typeOf h c = ClosureType.CONSTR_INTLIKE ∨ typeOf h c = ClosureType.CONSTR_CHARLIKE ∨
  typeOf h c = ClosureType.CONSTR_NOCAF_STATIC ∨
  ((typeOf h c = ClosureType.THUNK_STATIC ∨ typeOf h c = ClosureType.FUN_STATIC) ∧
    (h.get c).srt.length = 0)

/-- The closure at `i` is transparent, and `t` is its target: `i` is an
  `IND_STATIC` with the indirectee `t`, or a relocated thread with the link
  `t`. -/
def transparentTo (h : Heap) (i t : Nat) : Prop :=
  (typeOf h i = ClosureType.IND_STATIC ∧ t = (h.get i).indirectee) ∨
  (typeOf h i = ClosureType.TSO ∧ (h.get i).what_next = WhatNext.ThreadRelocated ∧
    t = (h.get i).link)

/-- A thread `1` that has finished, with a stack frame that holds the leaf
  `2`. -/
def heapDone : Heap :=
  { closures := [
      { type := .INVALID_OBJECT },
      { type := .TSO, what_next := WhatNext.ThreadComplete, ccs := 101,
        frames := [{ type := .UPDATE_FRAME, updatee := 2 }] },
      { type := .CONSTR_0_1 } ] }

/-- Two mutable cells `1` and `2` that hold the same mutable cell `3`, which
  holds the leaf `4`. -/
def heapCells : Heap :=
  { closures := [
      { type := .INVALID_OBJECT },
      { type := .MUT_VAR, var := 3, ccs := 101 },
      { type := .MUT_VAR, var := 3, ccs := 102 },
      { type := .MUT_VAR, var := 4, ccs := 103 },
      { type := .CONSTR_0_1, ccs := 104 } ] }

/-- The state of the pass over `heapCells` after the traversal of the root
  `1`. -/
def stCellsOnce : State := retainRoots heapCells 20 (initState true) [1]

/-! ## The chunked traverse stack

The traverse stack at the level of its block groups (lines 143-258, 569-594
and 617-688): the descriptors with their `link`, `u.back` and `free` fields,
the static variables `firstStack`, `currentStack`, `stackBottom`, `stackTop`,
`stackLimit`, and the memory that holds the elements.  Addresses are word
addresses; a pointer to a descriptor is the number of the descriptor. -/

namespace Chunked

/-- The fields of a block descriptor `bdescr` that the traverse stack uses. -/
structure bdescr where
  start : Nat
  free : Nat
  link : Option Nat
  back : Option Nat
  blocks : Nat
  deriving DecidableEq

/-- The constants of the platform and the block allocator.  `sizeofElement` is
  `sizeof(stackElement)` in words.  `allocStart` is the choice the allocator
  makes for the start address of a new block group, given the descriptors, the
  number of descriptors handed out, the descriptors freed, and the number of
  blocks asked for. -/
structure Machine where
  BLOCK_SIZE_W : Nat
  sizeofElement : Nat
  allocStart : (Nat → bdescr) → Nat → List Nat → Nat → Nat

/-- The constant `BLOCKS_IN_STACK`. -/
def BLOCKS_IN_STACK : Nat := 1

/-- The descriptors, the memory of the elements and the static variables of the
  traverse stack.  `mem a` is the element stored at the address `a`, if an
  element has been stored there and no later store has overlapped it. -/
structure Stack where
  bd : Nat → bdescr
  allocated : Nat
  freed : List Nat
  mem : Nat → Option stackElement
  firstStack : Option Nat
  currentStack : Option Nat
  stackBottom : Nat
  stackTop : Nat
  stackLimit : Nat

/-- Overwrite the descriptor `b`. -/
def Stack.setBd (s : Stack) (b : Nat) (d : bdescr) : Stack :=
  { s with bd := fun i => if i = b then d else s.bd i }

/-- The assignment `*a = se` of an element of `sz` words: the element at `a`
  is `se`, and an element that was stored at an address whose `sz` words
  overlap those of `a` is no longer there. -/
def storeAt (sz : Nat) (mem : Nat → Option stackElement) (a : Nat) (se : stackElement) :
    Nat → Option stackElement :=
  fun x => if x = a then some se else if a < x + sz ∧ x < a + sz then none else mem x

/-- Modelled from the spec: `allocate_chunk(n) -> chunk` of the allocator
  interface (`allocGroup` in the code).  A new descriptor for a group of `n`
  blocks at the start address the allocator chooses, with `free` at the start;
  the descriptor handed out is not a freed one.  The result is the state and
  the pointer to the descriptor. -/
def allocGroup (m : Machine) (s : Stack) (n : Nat) : Stack × Nat :=
  ({ s.setBd s.allocated
        { start := m.allocStart s.bd s.allocated s.freed n,
          free := m.allocStart s.bd s.allocated s.freed n,
          link := none, back := none, blocks := n } with
      allocated := s.allocated + 1
      freed := s.freed.filter (fun i => decide (i ≠ s.allocated)) },
    s.allocated)

/-- Modelled from the spec: `free_chunk_chain(chunk)` of the allocator
  interface (`freeChain` in the code): every descriptor on the chain of `link`
  from `b` is freed.  The fuel bounds the length of the chain. -/
def freeChain : Nat → Stack → Option Nat → Stack
  | 0, s, _ => s
  | _ + 1, s, none => s
  | fuel + 1, s, some b => freeChain fuel { s with freed := b :: s.freed } (s.bd b).link

/-- The end of the block group of the descriptor `b`:
  `bd->start + BLOCK_SIZE_W * bd->blocks`. -/
def groupEnd (m : Machine) (s : Stack) (b : Nat) : Nat :=
  (s.bd b).start + m.BLOCK_SIZE_W * (s.bd b).blocks

/-- The function `newStackBlock`. -/
def newStackBlock (m : Machine) (s : Stack) (b : Nat) : Stack :=
  { s with
    currentStack := some b
    stackTop := groupEnd m s b
    stackBottom := (s.bd b).start
    stackLimit := groupEnd m s b
    bd := fun i => if i = b then { s.bd b with free := groupEnd m s b } else s.bd i }

/-- The function `returnToOldStack`. -/
def returnToOldStack (m : Machine) (s : Stack) (b : Nat) : Stack :=
  { s with
    currentStack := some b
    stackTop := (s.bd b).free
    stackBottom := (s.bd b).start
    stackLimit := groupEnd m s b
    bd := fun i => if i = b then { s.bd b with free := groupEnd m s b } else s.bd i }

/-- The function `initializeTraverseStack`. -/
def initializeTraverseStack (m : Machine) (s : Stack) : Stack :=
  let s1 := match s.firstStack with
    | some b => freeChain s.allocated s (some b)
    | none => s
  let s2 := (allocGroup m s1 BLOCKS_IN_STACK).1
  let b := (allocGroup m s1 BLOCKS_IN_STACK).2
  let s3 := { s2.setBd b { s2.bd b with link := none, back := none } with
    firstStack := some b }
  newStackBlock m s3 b

/-- The function `isEmptyRetainerStack`. -/
def isEmptyRetainerStack (s : Stack) : Bool :=
  decide (s.firstStack = s.currentStack) && decide (s.stackTop = s.stackLimit)

/-- The end of `push` (lines 569-594), which stores the element `se`: the move
  to the next block group when `stackTop - 1 < stackBottom`, then `stackTop--`
  and `*stackTop = se`.  The comparison of the element pointers is written
  without the subtraction.  `none` when `currentStack` is `NULL`. -/
def pushElement (m : Machine) (s : Stack) (se : stackElement) : Option Stack :=
  match s.currentStack with
  | none => none
  | some cur =>
    let s1 :=
      if s.stackTop < s.stackBottom + m.sizeofElement then
        let s2 := s.setBd cur { s.bd cur with free := s.stackTop }
        match (s2.bd cur).link with
        | none =>
          let s3 := (allocGroup m s2 BLOCKS_IN_STACK).1
          let nbd := (allocGroup m s2 BLOCKS_IN_STACK).2
          let s4 := s3.setBd nbd { s3.bd nbd with link := none, back := some cur }
          let s5 := s4.setBd cur { s4.bd cur with link := some nbd }
          newStackBlock m s5 nbd
        | some nbd => newStackBlock m s2 nbd
      else s
    some { s1 with
      stackTop := s1.stackTop - m.sizeofElement
      mem := storeAt m.sizeofElement s1.mem (s1.stackTop - m.sizeofElement) se }

/-- The function `popOffReal`.  `none` when `currentStack` or the previous
  descriptor is `NULL`. -/
def popOffReal (m : Machine) (s : Stack) : Option Stack :=
  match s.currentStack with
  | none => none
  | some cur =>
    if s.firstStack = some cur then
      some { s with stackTop := s.stackTop + m.sizeofElement }
    else
      let s1 := s.setBd cur { s.bd cur with free := s.stackLimit }
      match (s1.bd cur).back with
      | none => none
      | some pbd => some (returnToOldStack m s1 pbd)

/-- The function `popOff`. -/
def popOff (m : Machine) (s : Stack) : Option Stack :=
  if s.stackTop + m.sizeofElement < s.stackLimit then
    some { s with stackTop := s.stackTop + m.sizeofElement }
  else popOffReal m s

/-! ### The stack as a list -/

/-- An operation on the traverse stack: `push` storing an element, or
  `popOff`. -/
inductive StackOp where
  | push (se : stackElement)
  | popOff

/-- A sequence of operations on the chunked stack. -/
def runOps (m : Machine) : List StackOp → Stack → Option Stack
  | [], s => some s
  | StackOp.push se :: ops, s => (pushElement m s se).bind (runOps m ops)
  | StackOp.popOff :: ops, s => (Chunked.popOff m s).bind (runOps m ops)

/-- The same sequence on the abstract list: a push is cons, `popOff` is tail;
  `none` when an empty stack is popped. -/
def listOps : List StackOp → List stackElement → Option (List stackElement)
  | [], l => some l
  | StackOp.push se :: ops, l => listOps ops (se :: l)
  | StackOp.popOff :: ops, l =>
    match l with
    | [] => none
    | x :: rest => listOps ops (RetainerProfile.popOff (x :: rest))

/-- The `k` elements stored at `a`, `a + sz`, `a + 2 * sz`, and so on. -/
def readElements (sz : Nat) (mem : Nat → Option stackElement) :
    Nat → Nat → Option (List stackElement)
  | 0, _ => some []
  | k + 1, a =>
    match mem a, readElements sz mem k (a + sz) with
    | some x, some rest => some (x :: rest)
    | _, _ => none

/-- The elements of the stack from the address `top` in the block group `b`
  down to the bottom of the first block group: those of `b` between `top` and
  the end of the group, then those of the groups before it, each read from its
  `free`. -/
def contentsFrom (m : Machine) (s : Stack) : Nat → Nat → Nat → Option (List stackElement)
  | 0, _, _ => none
  | fuel + 1, b, top =>
    match readElements m.sizeofElement s.mem ((groupEnd m s b - top) / m.sizeofElement) top with
    | none => none
    | some seg =>
      if s.firstStack = some b then some seg
      else
        match (s.bd b).back with
        | none => none
        | some p =>
          match contentsFrom m s fuel p (s.bd p).free with
          | none => none
          | some rest => some (seg ++ rest)

/-- The elements of the traverse stack, topmost first, as they are read from
  the memory starting at `stackTop`. -/
def contents (m : Machine) (s : Stack) : Option (List stackElement) :=
  match s.currentStack with
  | none => none
  | some cur => contentsFrom m s (s.allocated + 1) cur s.stackTop

/-- The block groups of the descriptors `i` and `j` do not overlap. -/
def Apart (m : Machine) (s : Stack) (i j : Nat) : Prop :=
  groupEnd m s i ≤ (s.bd j).start ∨ groupEnd m s j ≤ (s.bd i).start

/-- The allocator hands out block groups that overlap no group that is
  allocated and not freed. -/
def Machine.Fresh (m : Machine) : Prop :=
  ∀ (bd : Nat → bdescr) (allocated : Nat) (freed : List Nat) (n i : Nat),
    i < allocated → i ∉ freed →
    (bd i).start + m.BLOCK_SIZE_W * (bd i).blocks ≤ m.allocStart bd allocated freed n ∨
    m.allocStart bd allocated freed n + m.BLOCK_SIZE_W * n ≤ (bd i).start

/-- An allocator that hands out the addresses in increasing order: a new group
  starts at the highest end of the groups handed out so far. -/
def bumpStart (bsw : Nat) (bd : Nat → bdescr) (allocated : Nat) : Nat :=
  ((List.range allocated).map (fun i => (bd i).start + bsw * (bd i).blocks)).foldr max 0

/-- A machine with blocks of `bsw` words, elements of `sz` words and the
  allocator `bumpStart`. -/
def bumpMachine (bsw sz : Nat) : Machine :=
  { BLOCK_SIZE_W := bsw, sizeofElement := sz,
    allocStart := fun bd allocated _ _ => bumpStart bsw bd allocated }

/-- A machine with blocks of five words and elements of two words: a block
  group holds two elements and has a word left over. -/
def machine52 : Machine := bumpMachine 5 2

/-- A state before `initializeTraverseStack`: nothing is allocated. -/
def stack0 : Stack :=
  { bd := fun _ => { start := 0, free := 0, link := none, back := none, blocks := 0 },
    allocated := 0, freed := [], mem := fun _ => none,
    firstStack := none, currentStack := none,
    stackBottom := 0, stackTop := 0, stackLimit := 0 }

/-- The element of the closure `c` with the retainer `r`, as `push` stores it
  for a closure with one-step position. -/
def elem (c r : Nat) : stackElement :=
  { c := c, c_child_r := r, info := { type := some nextPosType.posTypeStep, next := nextPos.step 2 } }

/-! ### The layout of the list in the block groups -/

/-- The elements of `seg` are stored at `a`, `a + sz`, `a + 2 * sz`, and so
  on. -/
def Stored (sz : Nat) (mem : Nat → Option stackElement) : Nat → List stackElement → Prop
  | _, [] => True
  | a, x :: rest => mem a = some x ∧ Stored sz mem (a + sz) rest

/-- The block group of `p` is full and holds `seg`, topmost first, from its
  `free` to its end: no further element fits below `free`. -/
def FullAt (m : Machine) (bd : Nat → bdescr) (mem : Nat → Option stackElement) (p : Nat)
    (seg : List stackElement) : Prop :=
  (bd p).free + seg.length * m.sizeofElement = (bd p).start + m.BLOCK_SIZE_W * (bd p).blocks ∧
  (bd p).start ≤ (bd p).free ∧ (bd p).free < (bd p).start + m.sizeofElement ∧
  Stored m.sizeofElement mem (bd p).free seg

/-- The block groups before `b`, the nearest first, each with the elements it
  holds: they are linked to each other through `u.back` and `link`, each is
  full, and the last one is `firstStack`. -/
def BackOK (m : Machine) (bd : Nat → bdescr) (mem : Nat → Option stackElement)
    (first : Option Nat) : Nat → List (Nat × List stackElement) → Prop
  | b, [] => first = some b
  | b, x :: rest =>
    first ≠ some b ∧ (bd b).back = some x.1 ∧ (bd x.1).link = some b ∧
    FullAt m bd mem x.1 x.2 ∧ BackOK m bd mem first x.1 rest

/-- The block groups after `b`, in the order of `link`, up to the end of the
  chain. -/
def FwdOK (bd : Nat → bdescr) : Nat → List Nat → Prop
  | b, [] => (bd b).link = none
  | b, n :: rest => (bd b).link = some n ∧ (bd n).back = some b ∧ FwdOK bd n rest

/-- A layout of a list in the chain of block groups: the current group with
  the elements it holds, the groups before it with theirs (the nearest first),
  and the groups after it. -/
structure Layout where
  cur : Nat
  seg : List stackElement
  backs : List (Nat × List stackElement)
  fwd : List Nat

/-- The chain of the block groups of a layout, from the first to the last. -/
def Layout.chain (L : Layout) : List Nat :=
  (L.backs.map Prod.fst).reverse ++ L.cur :: L.fwd

/-- The list that a layout lays out, topmost element first. -/
def Layout.list (L : Layout) : List stackElement :=
  L.seg ++ (L.backs.map Prod.snd).flatten

/-- The layout after a push that has moved to the block group `n`: the group
  that was current is now the nearest of the groups before `n`. -/
def Layout.cross (L : Layout) (n : Nat) (se : stackElement) (fwd1 : List Nat) : Layout :=
  { cur := n, seg := [se], backs := (L.cur, L.seg) :: L.backs, fwd := fwd1 }

/-- The state after a push that has moved from the full block group `cur`,
  the last of the chain, to a block group allocated for it, written out. -/
def allocPushed (m : Machine) (s : Stack) (se : stackElement) (cur : Nat) : Stack :=
  { bd := fun i =>
      if i = s.allocated then
        { start := m.allocStart (s.setBd cur { s.bd cur with free := s.stackTop }).bd
            s.allocated s.freed BLOCKS_IN_STACK,
          free := m.allocStart (s.setBd cur { s.bd cur with free := s.stackTop }).bd
            s.allocated s.freed BLOCKS_IN_STACK + m.BLOCK_SIZE_W * BLOCKS_IN_STACK,
          link := none, back := some cur, blocks := BLOCKS_IN_STACK }
      else if i = cur then
        { s.bd cur with free := s.stackTop, link := some s.allocated }
      else s.bd i,
    allocated := s.allocated + 1,
    freed := s.freed.filter (fun i => decide (i ≠ s.allocated)),
    mem := storeAt m.sizeofElement s.mem
      (m.allocStart (s.setBd cur { s.bd cur with free := s.stackTop }).bd
          s.allocated s.freed BLOCKS_IN_STACK + m.BLOCK_SIZE_W * BLOCKS_IN_STACK
        - m.sizeofElement) se,
    firstStack := s.firstStack,
    currentStack := some s.allocated,
    stackBottom := m.allocStart (s.setBd cur { s.bd cur with free := s.stackTop }).bd
      s.allocated s.freed BLOCKS_IN_STACK,
    stackTop := m.allocStart (s.setBd cur { s.bd cur with free := s.stackTop }).bd
        s.allocated s.freed BLOCKS_IN_STACK + m.BLOCK_SIZE_W * BLOCKS_IN_STACK
      - m.sizeofElement,
    stackLimit := m.allocStart (s.setBd cur { s.bd cur with free := s.stackTop }).bd
      s.allocated s.freed BLOCKS_IN_STACK + m.BLOCK_SIZE_W * BLOCKS_IN_STACK }

/-- The state `s` holds the layout `L`: the static variables describe the
  current group, `stackTop` is at the topmost element, the current group holds
  an element unless it is the first one, the groups are linked, distinct,
  allocated, not freed, large enough for an element, and do not overlap. -/
structure Rep (m : Machine) (s : Stack) (L : Layout) : Prop where
  hcur : s.currentStack = some L.cur
  hbot : s.stackBottom = (s.bd L.cur).start
  hlim : s.stackLimit = (s.bd L.cur).start + m.BLOCK_SIZE_W * (s.bd L.cur).blocks
  htop : s.stackTop + L.seg.length * m.sizeofElement = s.stackLimit
  hle : s.stackBottom ≤ s.stackTop
  hseg : Stored m.sizeofElement s.mem s.stackTop L.seg
  hne : L.backs ≠ [] → L.seg ≠ []
  hback : BackOK m s.bd s.mem s.firstStack L.cur L.backs
  hfwd : FwdOK s.bd L.cur L.fwd
  hnodup : L.chain.Nodup
  hbound : ∀ i ∈ L.chain, i < s.allocated ∧ i ∉ s.freed ∧
    m.sizeofElement ≤ m.BLOCK_SIZE_W * (s.bd i).blocks
  hapart : ∀ i ∈ L.chain, ∀ j ∈ L.chain, i ≠ j → Apart m s i j

end Chunked

/-! ## The bitmap walk, in the words of the specification -/

/-- The calls of the small-bitmap walk as the specification states them: one
  call for each slot index `i < size` whose bit `i` of `bitmap` is `0`, in
  increasing order of `i`, for the word at `p + i`, with parent `c` and retainer
  `c_child_r`. -/
def smallBitmapCalls (payload : List Nat) (c c_child_r size p bitmap : Nat) : List Call :=
  ((List.range size).filter (fun i => decide (bitmap / 2 ^ i % 2 = 0))).map
    (fun i => (payload.getD (p + i) 0, c, c_child_r))

/-- A thread `1` whose stack has one small-bitmap frame over five slots, of
  which the three slots `0`, `2` and `4` are live (bits `1` and `3` of the
  bitmap are set); the slots hold the leaves `2` to `6`. -/
def heapFrame5 : Heap :=
  { closures := [
      { type := .INVALID_OBJECT },
      { type := .TSO, ccs := 101,
        frames := [{ type := .RET_SMALL, bitmap_size := 5, bitmap_bits := 10,
                     payload := [2, 3, 4, 5, 6] }] },
      { type := .CONSTR_0_1 }, { type := .CONSTR_0_1 }, { type := .CONSTR_0_1 },
      { type := .CONSTR_0_1 }, { type := .CONSTR_0_1 } ] }

/-- A mutable cell `1` that holds the constructor `2` with the two fields `3`
  (a partial application of the static function `4`, which has no SRT) and `5`
  (a leaf). -/
def heapPapNest : Heap :=
  { closures := [
      { type := .INVALID_OBJECT },
      { type := .MUT_VAR, var := 2, ccs := 101 },
      { type := .CONSTR_2_0, payload := [3, 5] },
      { type := .PAP, func := 4, n_args := 0 },
      { type := .FUN_STATIC },
      { type := .CONSTR_0_1 } ] }

/-- The state of the pass over `heapPapNest` with the root `1` at the moment
  `retain_PAP` is entered for the partial application `3`: the run is cut after
  the three steps that precede the call `retainClosure(4, 3, 101)` that
  `retain_PAP` makes.  The element of the constructor `2` is on the stack. -/
def stPapNested : State :=
  { retainRoots heapPapNest 3 (initState true) [1] with status := none }

/-- The state of the pass over `heapOnlyParent` with the root `1` at the moment
  `retainClosure` arrives at `inner_loop` with `(c, cp, r) = (9, 2, 101)`, popped
  from the first element pushed for `2`: the run is cut after the eighteen steps
  that precede the arrival. -/
def stOnlyMid : State :=
  { retainRoots heapOnlyParent 18 (initState true) [1] with status := none }

/-! ## The pass -/

/-- The statement `flip = flip ^ 1`. -/
def toggleFlip (st : State) : State := { st with flip := !st.flip }

/-- The static variables of a pass: the state of the engine and the counter
  `retainerGeneration`. -/
structure Profiler where
  st : State
  retainerGeneration : Nat

/-- The head of `retainerProfile` (lines 1881-1892): the flip bit is toggled
  and the two counters are reset. -/
def passSetup (st : State) : State :=
  { toggleFlip st with numObjectVisited := 0, timesAnyObjectVisited := 0 }

/-- The function `initializeTraverseStack`, on the list that stands for the
  traverse stack. -/
def initializeTraverseStack (st : State) : State := { st with stack := [] }

/-- The function `computeRetainerSet`: `retainRoot` on every root handed over
  by the root sources (the scheduler, the list of weak pointers, the table of
  stable pointers), in order, then `maybeInitRetainerSet` on every object of the
  mutable lists. -/
def computeRetainerSet (h : Heap) (fuel : Nat) (st : State) (roots muts : List Nat) : State :=
  (retainRoots h fuel st roots).andThen (fun st1 => muts.foldl maybeInitRetainerSet st1)

/-- The function `retainerProfile`, for the roots and the mutable objects of
  the heap: the set-up, `initializeTraverseStack`, `computeRetainerSet`, and
  `retainerGeneration++` (a `nat`).  A fatal outcome ends the program before the
  counter is incremented. -/
def retainerProfile (h : Heap) (fuel : Nat) (roots muts : List Nat) (p : Profiler) : Profiler :=
  let st1 := passSetup p.st
  let st2 := initializeTraverseStack st1
  let st3 := computeRetainerSet h fuel st2 roots muts
  if st3.status.isSome then { st := st3, retainerGeneration := p.retainerGeneration }
  else { st := st3, retainerGeneration := natIncr p.retainerGeneration }

/-! ## The stack discipline of the engine -/

/-- What a control point leaves of the traverse stack when it ends normally:
  the stack is a final segment of the stack at the start, the boundary is the
  one at the start and the stack is not below it; the stack is exactly at the
  boundary if the flag `d` is set (after the label `loop`). -/
def StackKeep (d : Bool) (st st1 : State) : Prop :=
  st1.stack <:+ st.stack ∧ st1.currentStackBoundary = st.currentStackBoundary ∧
  st.currentStackBoundary ≤ st1.stack.length ∧
  (d = true → st1.stack.length = st.currentStackBoundary)

namespace Chunked

/-- The function `closeTraverseStack`. -/
def closeTraverseStack (s : Stack) : Stack :=
  { freeChain s.allocated s s.firstStack with firstStack := none }

/-- The loop of `retainerStackBlocks` from the descriptor `b` on: the sum of
  `bd->blocks` along `link`.  The fuel bounds the length of the chain; `none`
  when it runs out. -/
def blocksFrom (s : Stack) : Nat → Option Nat → Option Nat
  | _, none => some 0
  | 0, some _ => none
  | fuel + 1, some b => (blocksFrom s fuel (s.bd b).link).map (fun r => (s.bd b).blocks + r)

/-- The function `retainerStackBlocks`. -/
def retainerStackBlocks (s : Stack) : Option Nat :=
  blocksFrom s s.allocated s.firstStack

/-- The descriptors on the chain of `link` from `b` on, in order. -/
def chainFrom (s : Stack) : Nat → Option Nat → Option (List Nat)
  | _, none => some []
  | 0, some _ => none
  | fuel + 1, some b => (chainFrom s fuel (s.bd b).link).map (fun r => b :: r)

/-- The block groups linked into the traverse stack: the chain of `link` from
  `firstStack`. -/
def linkedChunks (s : Stack) : Option (List Nat) :=
  chainFrom s s.allocated s.firstStack

/-- The number of pushes in a sequence of operations. -/
def pushes : List StackOp → Nat
  | [] => 0
  | StackOp.push _ :: ops => pushes ops + 1
  | StackOp.popOff :: ops => pushes ops

/-- The number of `popOff`s in a sequence of operations. -/
def pops : List StackOp → Nat
  | [] => 0
  | StackOp.push _ :: ops => pops ops
  | StackOp.popOff :: ops => pops ops + 1

end Chunked

namespace Chunked

/-- Three pushes, of which the third one moves to a second block group on
  `machine52`, and two `popOff`s, of which the second one returns to the first
  block group. -/
def opsSpill : List StackOp :=
  [StackOp.push (elem 1 101), StackOp.push (elem 2 101), StackOp.push (elem 3 101),
    StackOp.popOff, StackOp.popOff]

end Chunked

/-! ## The slots as a pass reads them -/

/-- The state with its flip bit and its slots replaced. -/
def State.withSlots (st : State) (flip : Bool) (rs : Nat → RSWord) : State :=
  { st with flip := flip, rs := rs }

/-- The slot of `c` as a pass that reads the slots of the closures `V` sees
  it, written for the flip bit `1`: the set of the slot with the marker `1`
  when `c` is in `V` and the slot is valid, and no set with the marker `0`
  otherwise (a slot that is not valid, or one the pass does not read). -/
def viewSlot (V : Nat → Bool) (st : State) (c : Nat) : RSWord :=
  if V c && isRetainerSetFieldValid st c then { set := (st.rs c).set, low := true }
  else { set := none, low := false }

/-- The state as a pass that reads the slots of the closures `V` sees it:
  the flip bit is `1` and every slot is replaced by its `viewSlot`. -/
def State.view (V : Nat → Bool) (st : State) : State := st.withSlots true (viewSlot V st)

/-- Every element of the traverse stack is for a closure with a valid slot. -/
def StackValid (st : State) : Prop := ∀ se ∈ st.stack, (st.rs se.c).low = st.flip

/-- The retainer set that a pass has computed for `c`: the set in the slot of
  `c` when the slot is valid for the pass, nothing otherwise. -/
def computedSet (st : State) (c : Nat) : Option RetainerSet :=
  if isRetainerSetFieldValid st c then (st.rs c).set else none

/-- The flip bit is `1` and the slot of `a` carries the marker `1`. -/
def Lit (st : State) (a : Nat) : Prop := st.flip = true ∧ (st.rs a).low = true

/-- The states `st` and `st1` agree on everything but the log and the
  boundary of the traverse stack: the flip bit, the slots, the traverse stack,
  the counters and the fatal outcome. -/
def sameButLogBoundary (st st1 : State) : Prop :=
  st1 = { st with trace := st1.trace, currentStackBoundary := st1.currentStackBoundary }

/-- A state at the start of a pass with the flip bit `0` in which every slot
  holds a stale set with the marker `1`, left by an earlier pass. -/
def staleState : State :=
  { flip := false
    rs := fun _ => { set := some [999], low := true }
    stack := []
    currentStackBoundary := 0
    numObjectVisited := 0
    timesAnyObjectVisited := 0
    status := none
    trace := [] }

/-- The static variables before a first pass: the flip bit is `0`, every slot
  carries the marker `0`, and no pass has been run. -/
def profiler0 : Profiler :=
  { st := toggleFlip (initState true), retainerGeneration := 0 }


/-! ## The slot as a machine word -/

/-- The flip bit as a word. -/
def flipWord (flip : Bool) : Nat := if flip then 1 else 0

/-- The word that `associate` stores, `(StgWord)s | flip` (line 1081). -/
def associateWord (flip s : Nat) : Nat := s ||| flip

/-- The word that `setRetainerSetToNull` stores, `(StgWord)NULL | flip` (lines
  62-63). -/
def nullWordOf (flip : Nat) : Nat := 0 ||| flip

/-- Modelled from the spec: the macro `retainerSetOf` is not part of the
  sources; the comment at lines 51-57 gives it ("with flip 1, (rs ^ 1) is the
  actual pointer"): the stored word xor `flip`. -/
def retainerSetOfWord (flip w : Nat) : Nat := w ^^^ flip

/-- Modelled from the spec: the macro `isRetainerSetFieldValid` is not part of
  the sources; the slot is valid for this pass iff its stored flip, the low bit
  of the word, matches the current flip: `((w & 1) ^ flip) == 0`. -/
def isValidWord (flip w : Nat) : Bool := ((w &&& 1) ^^^ flip) == 0

/-- The word that stands for a slot of the model, for an assignment `addr` of
  addresses to the interned sets: the address of the set (`0` for `NULL`) plus
  the low bit. -/
def RSWord.encode (addr : RetainerSet → Nat) (w : RSWord) : Nat :=
  (match w.set with
    | none => 0
    | some S => addr S) + flipWord w.low

/-! ## The large-bitmap walk, in the words of the specification -/

/-- The calls of the large-bitmap walk as the specification states them: one
  call for each slot index `i < size` for which bit `i mod W` of the word
  `large_bitmap[i div W]` is `0`, in increasing order of `i`, for the word at
  `p + i`, with parent `c` and retainer `c_child_r`. -/
def largeBitmapCalls (W : Nat) (payload large_bitmap : List Nat) (c c_child_r size p : Nat) :
    List Call :=
  ((List.range size).filter
      (fun i => decide (large_bitmap.getD (i / W) 0 / 2 ^ (i % W) % 2 = 0))).map
    (fun i => (payload.getD (p + i) 0, c, c_child_r))

/-- The bound on the indices of the bitmap words that describe one of `size`
  slots: the number of words `ceil(size / W)`. -/
def largeBitmapWords (W size : Nat) : Nat := (size + W - 1) / W

/-- A frame with a large bitmap of one word over `32` slots, which all hold the
  leaf `2`; bits `0` and `2` of the word are set. -/
def frameBig32 : Frame :=
  { type := .RET_BIG, large_size := 32, large_bitmap := [5], payload := List.replicate 32 2 }

/-- A thread `1` whose stack has the frame `frameBig32`, on 32-bit words. -/
def heapBig32 : Heap :=
  { closures := [
      { type := .INVALID_OBJECT },
      { type := .TSO, ccs := 101, frames := [frameBig32] },
      { type := .CONSTR_0_1 } ] }

/-- A small-bitmap frame over `33` slots on 64-bit words: the slots `0` to `31`
  are live and hold the leaf `2`; slot `32` is not live (bit `32` of the bitmap
  is set) and holds the word `3`. -/
def frame33 : Frame :=
  { type := .RET_SMALL, bitmap_size := 33, bitmap_bits := 2 ^ 32,
    payload := List.replicate 32 2 ++ [3] }

/-- A thread `1` whose stack has the frame `frame33`, on 64-bit words
  (`SIZEOF_VOID_P == 8`); `2` and `3` are leaves. -/
def heapWide : Heap :=
  { closures := [
      { type := .INVALID_OBJECT },
      { type := .TSO, ccs := 101, frames := [frame33] },
      { type := .CONSTR_0_1 }, { type := .CONSTR_0_1 } ],
    wordBits := 64, posBits := 32 }

/-- The children that `n` calls of `find_ptrs` return from the position `info`
  on, in order (`0` is `NULL`); `none` when the `ptrs` member of the union was
  never written. -/
def findPtrsSeq (h : Heap) : Nat → stackPos → Option (List Nat)
  | 0, _ => some []
  | n + 1, info =>
    match find_ptrs h info with
    | none => none
    | some (x, info1) =>
      match findPtrsSeq h n info1 with
      | none => none
      | some rest => some (x :: rest)

/-- The children of an object with `ptrs` pointers as the specification states
  them, for `n` calls of `find_ptrs`: `payload[0]` to `payload[ptrs - 1]`, then
  `NULL`. -/
def ptrsChildrenSpec (ptrs : Nat) (payload : List Nat) (n : Nat) : List Nat :=
  (List.range n).map (fun k => if k < ptrs then payload.getD k 0 else 0)

/-- A mutable array `1` of `65536` pointers, all to the leaf `2`, under the
  16-bit layout of `pos` and `ptrs`. -/
def heapBigArr : Heap :=
  { closures := [
      { type := .INVALID_OBJECT },
      { type := .MUT_ARR_PTRS, ccs := 101, ptrs := 65536, payload := List.replicate 65536 2 },
      { type := .CONSTR_0_1 } ] }

/-- A mutable cell `1` that holds the closure `2` of kind `t`, whose indirectee
  (if it is an indirection) is the leaf `3`. -/
def heapStatic (t : ClosureType) : Heap :=
  { closures := [
      { type := .INVALID_OBJECT },
      { type := .MUT_VAR, var := 2, ccs := 101 },
      { type := t, indirectee := 3, ccs := 102 },
      { type := .CONSTR_0_1, ccs := 103 } ] }

namespace Chunked

/-- The invariants of the static variables of the traverse stack as the
  comments at their declarations state them (lines 144-163), for the list `l` of
  the elements on the stack: `stackBottom == currentStack->start`,
  `stackLimit == currentStack->start + BLOCK_SIZE_W * currentStack->blocks`,
  `currentStack->free == stackLimit`, `stackBottom <= stackTop <= stackLimit`,
  and `stackTop == stackLimit` only when `currentStack == firstStack` and the
  whole stack is empty. -/
def StackInvariants (m : Machine) (s : Stack) (l : List stackElement) : Prop :=
  ∃ cur, s.currentStack = some cur ∧
    s.stackBottom = (s.bd cur).start ∧
    s.stackLimit = (s.bd cur).start + m.BLOCK_SIZE_W * (s.bd cur).blocks ∧
    (s.bd cur).free = s.stackLimit ∧
    s.stackBottom ≤ s.stackTop ∧ s.stackTop ≤ s.stackLimit ∧
    (s.stackTop = s.stackLimit → s.currentStack = s.firstStack ∧ l = [])

/-- The invariants of the static variables that do not mention the list, as a
  test on the state. -/
def invariantsHold (m : Machine) (s : Stack) : Bool :=
  match s.currentStack with
  | none => false
  | some cur =>
    decide (s.stackBottom = (s.bd cur).start) &&
    decide (s.stackLimit = (s.bd cur).start + m.BLOCK_SIZE_W * (s.bd cur).blocks) &&
    decide ((s.bd cur).free = s.stackLimit) &&
    decide (s.stackBottom ≤ s.stackTop) && decide (s.stackTop ≤ s.stackLimit) &&
    (decide (s.stackTop ≠ s.stackLimit) || decide (s.currentStack = s.firstStack))

/-- The field `free` of the current block group is `stackLimit`. -/
def FreeOK (s : Stack) : Prop :=
  ∀ cur, s.currentStack = some cur → (s.bd cur).free = s.stackLimit

end Chunked

/-- The elements on the stack are in order for `pop`, and `pop` has not ended
  in its `barf`. -/
def PopSafe (h : Heap) (st : State) : Prop :=
  (∀ se ∈ st.stack, PosOK h se) ∧ st.status ≠ some Fatal.barf_pop

/-! ## Termination: the measures -/

/-- The number of objects that `pop` can still retrieve from a stack element,
  counted from its position: the pointer fields from `pos` on and the SRT that
  follows them, the SRT entries left, or the steps left. -/
def infoWeight (h : Heap) (se : stackElement) : Nat :=
  match se.info.next with
  | nextPos.ptrs pos ptrs _ => (ptrs - pos) + (h.get se.c).srt.length + 1
  | nextPos.srt rest => rest.length
  | nextPos.step n => if n = 2 then 1 else 0
  | nextPos.undef => 0

/-- The work left on the traverse stack: for every element, the element itself
  and the objects still to retrieve from it. -/
def stackWeight (h : Heap) (stack : List stackElement) : Nat :=
  (stack.map (fun se => infoWeight h se + 1)).sum

/-- The room left in the slot of the closure at `a`, for sets of at most `B`
  retainers: `B + 1` for a closure not visited in this pass, and `B - num` for a
  closure whose set has `num` elements. -/
def slotWeight (B : Nat) (st : State) (a : Nat) : Nat :=
  if (st.rs a).low = st.flip then
    match (st.rs a).set with
    | some S => B - num S
    | none => B + 1
  else B + 1

/-- The room left in the slots of the closures of the heap. -/
def heapWeight (h : Heap) (B : Nat) (st : State) : Nat :=
  ((List.range h.closures.length).map (slotWeight B st)).sum

/-- The length of the chain of static indirections and relocated threads from
  the closures that a control point is to arrive at, for a rank of the closures. -/
def taskWeight (rank : Nat → Nat) : Task → Nat
  | Task.inner c _ _ => rank c + 1
  | Task.loop => 0
  | Task.calls cs _ => (cs.map (fun x => rank x.1 + 2)).sum + 1
  | Task.stack cs _ => (cs.map (fun x => rank x.1 + 2)).sum + 2

/-- The rank decreases along every static indirection and every link of a
  relocated thread of the heap: the chains of these are acyclic. -/
def followRankOK (h : Heap) (rank : Nat → Nat) : Bool :=
  (List.range h.closures.length).all (fun c =>
    match preFilter h c with
    | PreFilter.follow c1 => decide (rank c1 < rank c)
    | _ => true)

/-- The identities of the retainers of the heap are in the pool `P`. -/
def retainersIn (h : Heap) (P : List Nat) : Bool :=
  (List.range h.closures.length).all (fun a => decide (getRetainerFrom h a ∈ P))

/-- The sets in the valid slots are duplicate-free sets of retainers of the
  pool `P`. -/
def SlotsIn (P : List Nat) (st : State) : Prop :=
  ∀ a S, (st.rs a).low = st.flip → (st.rs a).set = some S → S.Nodup ∧ ∀ x ∈ S, x ∈ P

/-- A parent that is not a retainer has a valid slot. -/
def ParentValid (h : Heap) (st : State) (cp : Nat) : Prop :=
  isRetainer h cp = some false → (st.rs cp).low = st.flip

/-- The elements of the traverse stack are in order: the bound of a pointer
  position fits the position field, the retainer is in the pool, and the
  closure is a retainer or has a valid slot. -/
def StackIn (h : Heap) (P : List Nat) (st : State) : Prop :=
  ∀ se ∈ st.stack, PtrsBound h se.info ∧ se.c_child_r ∈ P ∧ ParentValid h st se.c

/-- The arguments of a control point are in order: the retainer is in the
  pool, and a parent that is not a retainer has a valid slot (or is the closure
  itself, for `inner_loop`). -/
def TaskIn (h : Heap) (P : List Nat) (st : State) : Task → Prop
  | Task.inner c cp r => r ∈ P ∧ ParentOK h st c cp
  | Task.loop => True
  | Task.calls cs _ => ∀ x ∈ cs, x.2.2 ∈ P ∧ ParentValid h st x.2.1
  | Task.stack cs _ => ∀ x ∈ cs, x.2.2 ∈ P ∧ ParentValid h st x.2.1

/-- What one iteration of `pop` leaves of an element: an overwritten element
  keeps its closure and retainer and has fewer objects to retrieve. -/
def PopStepTerm (h : Heap) (se : stackElement) : PopStep → Prop
  | PopStep.ret (some se1) _ =>
    se1.c = se.c ∧ se1.c_child_r = se.c_child_r ∧ PtrsBound h se1.info ∧
      infoWeight h se1 < infoWeight h se
  | PopStep.ret none _ => True
  | PopStep.exhausted => True
  | PopStep.bad e => e ≠ Fatal.out_of_fuel

/-- The run from the control point `t` in the state `st` ends with some fuel. -/
def Halts (h : Heap) (t : Task) (st : State) : Prop :=
  ∃ f, (exec h f t st).status ≠ some Fatal.out_of_fuel

/-- The state `st1` differs from `st` in the slot of `c` at most, which is
  valid in `st1`, holds a duplicate-free set over the pool `P` if it holds a set,
  and has no more room left than in `st`. -/
def SlotStep (P : List Nat) (st st1 : State) (c : Nat) : Prop :=
  st1.flip = st.flip ∧ (∀ a, a ≠ c → st1.rs a = st.rs a) ∧ (st1.rs c).low = st.flip ∧
  (∀ S, (st1.rs c).set = some S → S.Nodup ∧ ∀ x ∈ S, x ∈ P) ∧
  slotWeight P.length st1 c ≤ slotWeight P.length st c

/-- The invariant of the termination argument: the sets in the valid slots are
  within the pool, and the elements of the traverse stack are in order. -/
def TermInv (h : Heap) (P : List Nat) (st : State) : Prop :=
  SlotsIn P st ∧ StackIn h P st

/-- The state `st1` is not above `st` in the order of the termination argument:
  the flip bit is the same, valid slots are still valid, the slots have no more
  room, and if they have as much room, the stack has no more work. -/
def Below (h : Heap) (P : List Nat) (st st1 : State) : Prop :=
  st1.flip = st.flip ∧ (∀ a, (st.rs a).low = st.flip → (st1.rs a).low = st1.flip) ∧
  heapWeight h P.length st1 ≤ heapWeight h P.length st ∧
  (heapWeight h P.length st1 = heapWeight h P.length st →
    stackWeight h st1.stack ≤ stackWeight h st.stack)

/-- The state `st1` is below `st`: the flip bit is the same, valid slots are
  still valid, and the slots have less room. -/
def StrictBelow (h : Heap) (P : List Nat) (st st1 : State) : Prop :=
  st1.flip = st.flip ∧ (∀ a, (st.rs a).low = st.flip → (st1.rs a).low = st1.flip) ∧
  heapWeight h P.length st1 < heapWeight h P.length st

/-- A cyclic heap with a static indirection: the mutable cell `1` holds the
  static indirection `2`, whose indirectee is the constructor `3` with the
  fields `1` and `4`; the constructor `4` has the field `3`. -/
def heapCycle : Heap :=
  { closures := [
      { type := .INVALID_OBJECT },
      { type := .MUT_VAR, var := 2, ccs := 101 },
      { type := .IND_STATIC, indirectee := 3, ccs := 102 },
      { type := .CONSTR_2_0, payload := [1, 4], ccs := 103 },
      { type := .CONSTR_1_0, payload := [3], ccs := 104 } ] }

/-- A rank for `heapCycle`: the static indirection `2` is above its
  indirectee. -/
def rankCycle (c : Nat) : Nat := if c = 2 then 1 else 0

/-! ## Basic facts about the state operations -/

@[simp] theorem fail_flip (st : State) (e : Fatal) : (st.fail e).flip = st.flip := rfl
@[simp] theorem fail_rs (st : State) (e : Fatal) : (st.fail e).rs = st.rs := rfl
@[simp] theorem fail_stack (st : State) (e : Fatal) : (st.fail e).stack = st.stack := rfl
@[simp] theorem fail_boundary (st : State) (e : Fatal) :
    (st.fail e).currentStackBoundary = st.currentStackBoundary := rfl
@[simp] theorem fail_trace (st : State) (e : Fatal) : (st.fail e).trace = st.trace := rfl
@[simp] theorem fail_nov (st : State) (e : Fatal) :
    (st.fail e).numObjectVisited = st.numObjectVisited := rfl
@[simp] theorem fail_taov (st : State) (e : Fatal) :
    (st.fail e).timesAnyObjectVisited = st.timesAnyObjectVisited := rfl
@[simp] theorem fail_status (st : State) (e : Fatal) : (st.fail e).status = some e := rfl

@[simp] theorem setRS_flip (st : State) (c : Nat) (w : RSWord) : (st.setRS c w).flip = st.flip := rfl
@[simp] theorem setRS_stack (st : State) (c : Nat) (w : RSWord) :
    (st.setRS c w).stack = st.stack := rfl
@[simp] theorem setRS_boundary (st : State) (c : Nat) (w : RSWord) :
    (st.setRS c w).currentStackBoundary = st.currentStackBoundary := rfl
@[simp] theorem setRS_trace (st : State) (c : Nat) (w : RSWord) :
    (st.setRS c w).trace = st.trace := rfl
@[simp] theorem setRS_status (st : State) (c : Nat) (w : RSWord) :
    (st.setRS c w).status = st.status := rfl
@[simp] theorem setRS_nov (st : State) (c : Nat) (w : RSWord) :
    (st.setRS c w).numObjectVisited = st.numObjectVisited := rfl
@[simp] theorem setRS_taov (st : State) (c : Nat) (w : RSWord) :
    (st.setRS c w).timesAnyObjectVisited = st.timesAnyObjectVisited := rfl
@[simp] theorem setRS_rs_self (st : State) (c : Nat) (w : RSWord) : (st.setRS c w).rs c = w := by
  simp [State.setRS]
theorem setRS_rs_other (st : State) (c a : Nat) (w : RSWord) (hne : a ≠ c) :
    (st.setRS c w).rs a = st.rs a := by
  simp [State.setRS, hne]
theorem setRS_rs (st : State) (c a : Nat) (w : RSWord) :
    (st.setRS c w).rs a = if a = c then w else st.rs a := rfl

@[simp] theorem tick_flip (st : State) : (tick st).flip = st.flip := rfl
@[simp] theorem tick_rs (st : State) : (tick st).rs = st.rs := rfl
@[simp] theorem tick_stack (st : State) : (tick st).stack = st.stack := rfl
@[simp] theorem tick_boundary (st : State) :
    (tick st).currentStackBoundary = st.currentStackBoundary := rfl
@[simp] theorem tick_trace (st : State) : (tick st).trace = st.trace := rfl
@[simp] theorem tick_status (st : State) : (tick st).status = st.status := rfl
@[simp] theorem tick_nov (st : State) : (tick st).numObjectVisited = st.numObjectVisited := rfl
@[simp] theorem tick_taov (st : State) :
    (tick st).timesAnyObjectVisited = natIncr st.timesAnyObjectVisited := rfl

/-- The function `maybeInitRetainerSet` in terms of the low bit of the slot. -/
theorem maybeInit_eq (st : State) (c : Nat) :
    maybeInitRetainerSet st c =
      if (st.rs c).low = st.flip then st else st.setRS c (nullWord st.flip) := by
  unfold maybeInitRetainerSet isRetainerSetFieldValid setRetainerSetToNull
  cases (st.rs c).low <;> cases st.flip <;> simp

theorem valid_iff (st : State) (c : Nat) :
    isRetainerSetFieldValid st c = true ↔ (st.rs c).low = st.flip := by
  unfold isRetainerSetFieldValid
  cases (st.rs c).low <;> cases st.flip <;> simp

@[simp] theorem maybeInit_flip (st : State) (c : Nat) :
    (maybeInitRetainerSet st c).flip = st.flip := by
  rw [maybeInit_eq]; split <;> rfl
@[simp] theorem maybeInit_stack (st : State) (c : Nat) :
    (maybeInitRetainerSet st c).stack = st.stack := by
  rw [maybeInit_eq]; split <;> rfl
@[simp] theorem maybeInit_boundary (st : State) (c : Nat) :
    (maybeInitRetainerSet st c).currentStackBoundary = st.currentStackBoundary := by
  rw [maybeInit_eq]; split <;> rfl
@[simp] theorem maybeInit_trace (st : State) (c : Nat) :
    (maybeInitRetainerSet st c).trace = st.trace := by
  rw [maybeInit_eq]; split <;> rfl
@[simp] theorem maybeInit_status (st : State) (c : Nat) :
    (maybeInitRetainerSet st c).status = st.status := by
  rw [maybeInit_eq]; split <;> rfl
@[simp] theorem maybeInit_nov (st : State) (c : Nat) :
    (maybeInitRetainerSet st c).numObjectVisited = st.numObjectVisited := by
  rw [maybeInit_eq]; split <;> rfl
@[simp] theorem maybeInit_taov (st : State) (c : Nat) :
    (maybeInitRetainerSet st c).timesAnyObjectVisited = st.timesAnyObjectVisited := by
  rw [maybeInit_eq]; split <;> rfl

theorem maybeInit_rs_other (st : State) (c a : Nat) (hne : a ≠ c) :
    (maybeInitRetainerSet st c).rs a = st.rs a := by
  rw [maybeInit_eq]; split
  · rfl
  · exact setRS_rs_other _ _ _ _ hne

theorem maybeInit_low (st : State) (c : Nat) :
    ((maybeInitRetainerSet st c).rs c).low = st.flip := by
  rw [maybeInit_eq]; split
  · assumption
  · simp [nullWord]

theorem maybeInit_of_valid (st : State) (c : Nat) (hv : (st.rs c).low = st.flip) :
    maybeInitRetainerSet st c = st := by
  rw [maybeInit_eq, if_pos hv]

theorem maybeInit_set_of_invalid (st : State) (c : Nat) (hv : (st.rs c).low ≠ st.flip) :
    ((maybeInitRetainerSet st c).rs c).set = none := by
  rw [maybeInit_eq, if_neg hv]; simp [nullWord]

@[simp] theorem associate_flip (st : State) (c : Nat) (s : RSWord) :
    (associate st c s).flip = st.flip := rfl
@[simp] theorem associate_stack (st : State) (c : Nat) (s : RSWord) :
    (associate st c s).stack = st.stack := rfl
@[simp] theorem associate_boundary (st : State) (c : Nat) (s : RSWord) :
    (associate st c s).currentStackBoundary = st.currentStackBoundary := rfl
@[simp] theorem associate_trace (st : State) (c : Nat) (s : RSWord) :
    (associate st c s).trace = st.trace := rfl
@[simp] theorem associate_status (st : State) (c : Nat) (s : RSWord) :
    (associate st c s).status = st.status := rfl
@[simp] theorem associate_nov (st : State) (c : Nat) (s : RSWord) :
    (associate st c s).numObjectVisited = st.numObjectVisited := rfl
@[simp] theorem associate_taov (st : State) (c : Nat) (s : RSWord) :
    (associate st c s).timesAnyObjectVisited = st.timesAnyObjectVisited := rfl
@[simp] theorem associate_rs_self (st : State) (c : Nat) (s : RSWord) :
    (associate st c s).rs c = { set := s.set, low := s.low || st.flip } := by
  simp [associate]
theorem associate_rs_other (st : State) (c a : Nat) (s : RSWord) (hne : a ≠ c) :
    (associate st c s).rs a = st.rs a := by
  simp [associate, setRS_rs_other _ _ _ _ hne]

/-! ## The frame of the retainer-set resolution -/

theorem FrameEq.frame_refl (c : Nat) (st : State) : FrameEq c st st :=
  ⟨rfl, rfl, rfl, rfl, fun _ _ => rfl⟩

theorem FrameEq.frame_trans {c : Nat} {st st1 st2 : State} (h1 : FrameEq c st st1)
    (h2 : FrameEq c st1 st2) : FrameEq c st st2 :=
  ⟨h2.1.trans h1.1, h2.2.1.trans h1.2.1, h2.2.2.1.trans h1.2.2.1,
   h2.2.2.2.1.trans h1.2.2.2.1, fun a ha => (h2.2.2.2.2 a ha).trans (h1.2.2.2.2 a ha)⟩

theorem FrameEq.frame_fail (c : Nat) (st : State) (e : Fatal) : FrameEq c st (st.fail e) :=
  ⟨rfl, rfl, rfl, rfl, fun _ _ => rfl⟩

theorem FrameEq.tick (c : Nat) (st : State) : FrameEq c st (tick st) :=
  ⟨rfl, rfl, rfl, rfl, fun _ _ => rfl⟩

theorem FrameEq.nov (c : Nat) (st : State) (n : Nat) :
    FrameEq c st { st with numObjectVisited := n } :=
  ⟨rfl, rfl, rfl, rfl, fun _ _ => rfl⟩

theorem FrameEq.associate (c : Nat) (st : State) (s : RSWord) :
    FrameEq c st (associate st c s) :=
  ⟨rfl, rfl, rfl, rfl, fun a ha => associate_rs_other st c a s ha⟩

theorem FrameEq.maybeInit (c : Nat) (st : State) : FrameEq c st (maybeInitRetainerSet st c) :=
  ⟨by simp, by simp, by simp, by simp, fun a ha => maybeInit_rs_other st c a ha⟩

theorem growSet_frame {st st3 : State} {c r : Nat} {s : RSWord} {rc : RetainerSet}
    (hg : growSet st c r s rc = some st3) : FrameEq c st st3 := by
  unfold growSet at hg
  split at hg
  · cases hg; exact FrameEq.associate _ _ _
  · split at hg
    · cases hg
    · split at hg <;> (cases hg; exact FrameEq.associate _ _ _)

theorem revisit_frame (h : Heap) (st : State) (c r : Nat) (s w : RSWord) :
    FrameEq c st (revisit h st c r s w).1 := by
  unfold revisit
  split
  · exact FrameEq.frame_fail _ _ _
  · split
    · exact FrameEq.frame_refl _ _
    · split
      · exact FrameEq.frame_fail _ _ _
      · rename_i st3 hg
        have hf := growSet_frame hg
        split
        · exact hf.frame_trans (FrameEq.frame_fail _ _ _)
        · split <;> exact hf

theorem firstSet_frame (st : State) (c r : Nat) (s : RSWord) :
    FrameEq c st (firstSet st c r s) := by
  unfold firstSet
  split <;> exact FrameEq.associate _ _ _

theorem firstVisit_frame (h : Heap) (st : State) (c r : Nat) (s : RSWord) :
    FrameEq c st (firstVisit h st c r s).1 := by
  unfold firstVisit
  have h4 : FrameEq c st (firstSet (countVisited st) c r s) :=
    (FrameEq.nov c st _).frame_trans (firstSet_frame _ _ _ _)
  split
  · exact h4.frame_trans (FrameEq.frame_fail _ _ _)
  · exact h4

theorem resolve_frame (h : Heap) (st : State) (c cp r : Nat) :
    FrameEq c st (resolve h st c cp r).1 := by
  unfold resolve
  have h2 : FrameEq c st (maybeInitRetainerSet (tick st) c) :=
    (FrameEq.tick c st).frame_trans (FrameEq.maybeInit _ _)
  split
  · exact h2.frame_trans (FrameEq.frame_fail _ _ _)
  · dsimp only
    split
    · exact h2.frame_trans (firstVisit_frame _ _ _ _ _)
    · exact h2.frame_trans (revisit_frame _ _ _ _ _ _)

/-! ## The retainer-set store -/

theorem insertSorted_length (r : Nat) (l : List Nat) (h : r ∉ l) :
    (insertSorted r l).length = l.length + 1 := by
  induction l with
  | nil => simp [insertSorted]
  | cons x xs ih =>
    simp only [List.mem_cons, not_or] at h
    unfold insertSorted
    split
    · simp
    · split
      · exact absurd ‹r = x› h.1
      · simp [ih h.2]

theorem mem_insertSorted (r x : Nat) (l : List Nat) :
    x ∈ insertSorted r l ↔ x = r ∨ x ∈ l := by
  induction l with
  | nil => simp [insertSorted]
  | cons y ys ih =>
    unfold insertSorted
    split
    · simp
    · split
      · rename_i h1 h2; subst h2; simp
      · simp only [List.mem_cons, ih]; tauto

theorem isMember_iff (r : Nat) (rc : RetainerSet) : isMember r rc = true ↔ r ∈ rc := by
  simp [isMember]

theorem mem_addElement (r x : Nat) (rc : RetainerSet) :
    x ∈ addElement r rc ↔ x = r ∨ x ∈ rc := by
  unfold addElement
  split
  · rename_i hm
    rw [isMember_iff] at hm
    constructor
    · exact Or.inr
    · rintro (rfl | h)
      · exact hm
      · exact h
  · exact mem_insertSorted _ _ _

theorem num_addElement (r : Nat) (rc : RetainerSet) (h : isMember r rc = false) :
    num (addElement r rc) = num rc + 1 := by
  unfold addElement num
  simp only [h]
  apply insertSorted_length
  simpa [isMember] using h

theorem insertSorted_sorted (r : Nat) (l : List Nat) (hs : l.Sorted (· < ·)) :
    (insertSorted r l).Sorted (· < ·) := by
  induction l with
  | nil => simp [insertSorted]
  | cons y ys ih =>
    unfold insertSorted
    have hy := List.sorted_cons.1 hs
    split
    · rename_i hlt
      refine List.sorted_cons.2 ⟨?_, hs⟩
      intro b hb
      rcases List.mem_cons.1 hb with rfl | hb
      · exact hlt
      · exact lt_trans hlt (hy.1 b hb)
    · split
      · exact hs
      · rename_i h1 h2
        refine List.sorted_cons.2 ⟨?_, ih hy.2⟩
        intro b hb
        rcases (mem_insertSorted _ _ _).1 hb with rfl | hb
        · omega
        · exact hy.1 b hb


/-! ## The retainer-set resolution, case by case -/

theorem maybeInit_tick (st : State) (c : Nat) :
    maybeInitRetainerSet (tick st) c = tick (maybeInitRetainerSet st c) := by
  rw [maybeInit_eq, maybeInit_eq]
  simp only [tick_rs, tick_flip]
  split <;> rfl

@[simp] theorem retainerSetOf_tick (st : State) (c : Nat) :
    retainerSetOf (tick st) c = retainerSetOf st c := rfl

@[simp] theorem retainerSetOf_countVisited (st : State) (c : Nat) :
    retainerSetOf (countVisited st) c = retainerSetOf st c := rfl

theorem resolve_first (h : Heap) (st : State) (c cp r : Nat) (b : Bool)
    (hcp : isRetainer h cp = some b) (hn : readsNull st c = true) :
    resolve h st c cp r =
      firstVisit h (maybeInitRetainerSet (tick st) c) c r
        (parentSet (maybeInitRetainerSet (tick st) c) cp b) := by
  unfold resolve
  simp only [hcp]
  have : (retainerSetOf (maybeInitRetainerSet (tick st) c) c).isNull = true := by
    rw [maybeInit_tick, retainerSetOf_tick]; exact hn
  rw [if_pos this]

theorem resolve_revisit (h : Heap) (st : State) (c cp r : Nat) (b : Bool)
    (hcp : isRetainer h cp = some b) (hn : readsNull st c = false) :
    resolve h st c cp r =
      revisit h (maybeInitRetainerSet (tick st) c) c r
        (parentSet (maybeInitRetainerSet (tick st) c) cp b)
        (retainerSetOf (maybeInitRetainerSet (tick st) c) c) := by
  unfold resolve
  simp only [hcp]
  have : ¬ (retainerSetOf (maybeInitRetainerSet (tick st) c) c).isNull = true := by
    rw [maybeInit_tick, retainerSetOf_tick]; simpa [readsNull] using hn
  rw [if_neg this]

theorem resolve_barf (h : Heap) (st : State) (c cp r : Nat)
    (hcp : isRetainer h cp = none) :
    resolve h st c cp r =
      ((maybeInitRetainerSet (tick st) c).fail Fatal.barf_isRetainer, Decision.stop) := by
  unfold resolve
  simp only [hcp]

/-- A valid slot that holds a set does not read as uninitialised. -/
theorem readsNull_of_visited (st : State) (c : Nat) (rc : RetainerSet)
    (hv : isRetainerSetFieldValid st c = true) (hs : (st.rs c).set = some rc) :
    readsNull st c = false := by
  rw [valid_iff] at hv
  simp [readsNull, maybeInit_of_valid st c hv, retainerSetOf, RSWord.isNull, hs]

theorem retainerSetOf_of_valid (st : State) (c : Nat) (hv : (st.rs c).low = st.flip) :
    retainerSetOf st c = { set := (st.rs c).set, low := false } := by
  simp [retainerSetOf, hv]

theorem growSet_slot {st st3 : State} {c r : Nat} {s : RSWord} {rc : RetainerSet}
    (hg : growSet st c r s rc = some st3) (hm : isMember r rc = false) :
    ∃ rc', st3.rs c = { set := some rc', low := st.flip } ∧ num rc' = num rc + 1 := by
  unfold growSet at hg
  split at hg
  · cases hg
    exact ⟨_, by simp [ptrTo], num_addElement _ _ hm⟩
  · split at hg
    · cases hg
    · rename_i sset hd
      have hlow : s.low = false ∧ s.set = some sset := by
        unfold RSWord.deref at hd
        split at hd
        · cases hd
        · rename_i hl; exact ⟨by simpa using hl, hd⟩
      split at hg
      · cases hg
        rename_i hnum
        exact ⟨sset, by simp [hlow.1, hlow.2], hnum⟩
      · cases hg
        exact ⟨_, by simp [ptrTo], num_addElement _ _ hm⟩

/-! ### the slot written on a first visit -/

theorem firstSet_slot (st : State) (c r : Nat) (s : RSWord) :
    (firstSet st c r s).rs c =
      if s.isNull then { set := some (singleton r), low := st.flip }
      else { set := s.set, low := s.low || st.flip } := by
  unfold firstSet
  split <;> simp [ptrTo]

theorem firstVisit_slot (h : Heap) (st : State) (c r : Nat) (s : RSWord) :
    (firstVisit h st c r s).1.rs c =
      if s.isNull then { set := some (singleton r), low := st.flip }
      else { set := s.set, low := s.low || st.flip } := by
  have := firstSet_slot (countVisited st) c r s
  unfold firstVisit
  split <;> simpa using this

theorem firstVisit_nov (h : Heap) (st : State) (c r : Nat) (s : RSWord) :
    (firstVisit h st c r s).1.numObjectVisited = natIncr st.numObjectVisited := by
  unfold firstVisit firstSet
  split <;> split <;> simp [countVisited]

theorem parentSet_retainer (st : State) (cp : Nat) :
    parentSet st cp true = { set := none, low := false } := rfl

theorem parentSet_other (st : State) (cp : Nat) :
    parentSet st cp false = retainerSetOf st cp := rfl


/-! ## Visits through retainer parents -/

theorem addElement_sorted (r : Nat) (S : RetainerSet) (hs : S.Sorted (· < ·)) :
    (addElement r S).Sorted (· < ·) := by
  unfold addElement
  split
  · exact hs
  · exact insertSorted_sorted r S hs

theorem addElement_of_mem (r : Nat) (S : RetainerSet) (hm : r ∈ S) : addElement r S = S := by
  unfold addElement
  rw [if_pos ((isMember_iff r S).2 hm)]

theorem setOfList_sorted (l : List Nat) (S : RetainerSet) (hs : S.Sorted (· < ·)) :
    (setOfList S l).Sorted (· < ·) := by
  induction l generalizing S with
  | nil => exact hs
  | cons r rs ih => exact ih _ (addElement_sorted r S hs)

theorem mem_setOfList (l : List Nat) (S : RetainerSet) (x : Nat) :
    x ∈ setOfList S l ↔ x ∈ S ∨ x ∈ l := by
  induction l generalizing S with
  | nil => simp [setOfList]
  | cons r rs ih =>
    simp only [setOfList, ih, mem_addElement, List.mem_cons]
    tauto

/-- Two strictly sorted lists with the same members are equal. -/
theorem sorted_ext (l1 l2 : List Nat) (h1 : l1.Sorted (· < ·)) (h2 : l2.Sorted (· < ·))
    (hm : ∀ x, x ∈ l1 ↔ x ∈ l2) : l1 = l2 := by
  apply List.eq_of_perm_of_sorted _ h1 h2
  exact (List.perm_ext_iff_of_nodup h1.nodup h2.nodup).2 hm

theorem setOfList_perm (l1 l2 : List Nat) (hp : l1.Perm l2) :
    setOfList [] l1 = setOfList [] l2 := by
  apply sorted_ext
  · exact setOfList_sorted _ _ List.sorted_nil
  · exact setOfList_sorted _ _ List.sorted_nil
  · intro x
    simp only [mem_setOfList, hp.mem_iff]

theorem resolve_flip (h : Heap) (st : State) (c cp r : Nat) :
    (resolve h st c cp r).1.flip = st.flip := (resolve_frame h st c cp r).1

theorem revisit_member (h : Heap) (st : State) (c r : Nat) (s w : RSWord) (S : RetainerSet)
    (hw : w.deref = some S) (hm : isMember r S = true) :
    revisit h st c r s w = (st, Decision.stop) := by
  unfold revisit
  simp [hw, hm]

theorem revisit_null_slot (h : Heap) (st : State) (c r : Nat) (s w : RSWord) (S : RetainerSet)
    (hw : w.deref = some S) (hm : isMember r S = false) (hs : s.isNull = true) :
    (revisit h st c r s w).1.rs c = { set := some (addElement r S), low := st.flip } := by
  unfold revisit
  simp only [hw, hm, growSet, hs, if_true]
  simp only [Bool.false_eq_true, if_false]
  split
  · simp [ptrTo]
  · split <;> simp [ptrTo]

/-- The slot that a visit through a retainer parent leaves. -/
theorem resolve_retainer_parent (h : Heap) (st : State) (c p r : Nat)
    (hp : isRetainer h p = some true) :
    (readsNull st c = true →
      (resolve h st c p r).1.rs c = { set := some (singleton r), low := st.flip }) ∧
    (∀ S, st.rs c = { set := some S, low := st.flip } →
      (resolve h st c p r).1.rs c = { set := some (addElement r S), low := st.flip }) := by
  constructor
  · intro hn
    rw [resolve_first h st c p r true hp hn, firstVisit_slot, parentSet_retainer]
    simp [RSWord.isNull]
  · intro S hS
    have hlow : (st.rs c).low = st.flip := by rw [hS]
    have hset : (st.rs c).set = some S := by rw [hS]
    have hlow' : ((tick st).rs c).low = (tick st).flip := hlow
    rw [resolve_revisit h st c p r true hp
        (readsNull_of_visited st c S ((valid_iff st c).2 hlow) hset),
      maybeInit_of_valid _ _ hlow', retainerSetOf_of_valid _ _ hlow', parentSet_retainer]
    have hd : ({ set := ((tick st).rs c).set, low := false } : RSWord).deref = some S := by
      simp [RSWord.deref, hset]
    cases hm : isMember r S with
    | true =>
      rw [revisit_member h _ c r _ _ S hd hm, addElement_of_mem r S ((isMember_iff r S).1 hm)]
      exact hS
    | false =>
      rw [revisit_null_slot h _ c r _ _ S hd hm (by simp [RSWord.isNull])]
      rfl

theorem visits_slot (h : Heap) (c : Nat) (ps : List Nat) (st : State) (S : RetainerSet)
    (hret : ∀ p ∈ ps, isRetainer h p = some true)
    (hS : st.rs c = { set := some S, low := st.flip }) :
    (visits h c st ps).rs c =
        { set := some (setOfList S (ps.map (getRetainerFrom h))), low := st.flip } ∧
      (visits h c st ps).flip = st.flip := by
  induction ps generalizing st S with
  | nil => exact ⟨hS, rfl⟩
  | cons p ps ih =>
    have hp := hret p (List.mem_cons_self _ _)
    have h1 := (resolve_retainer_parent h st c p (getRetainerFrom h p) hp).2 S hS
    have hf := resolve_flip h st c p (getRetainerFrom h p)
    rw [← hf] at h1
    have := ih (resolve h st c p (getRetainerFrom h p)).1 _
      (fun q hq => hret q (List.mem_cons_of_mem _ hq)) h1
    simp only [visits, List.map_cons, setOfList]
    rw [this.1, this.2, hf]
    exact ⟨rfl, rfl⟩

theorem visits_first (h : Heap) (c : Nat) (ps : List Nat) (st : State)
    (hret : ∀ p ∈ ps, isRetainer h p = some true) (hne : ps ≠ [])
    (hn : readsNull st c = true) :
    (visits h c st ps).rs c =
        { set := some (setOfList [] (ps.map (getRetainerFrom h))), low := st.flip } ∧
      (visits h c st ps).flip = st.flip := by
  cases ps with
  | nil => exact absurd rfl hne
  | cons p ps =>
    have hp := hret p (List.mem_cons_self _ _)
    have h1 := (resolve_retainer_parent h st c p (getRetainerFrom h p) hp).1 hn
    have hf := resolve_flip h st c p (getRetainerFrom h p)
    rw [← hf] at h1
    have := visits_slot h c ps (resolve h st c p (getRetainerFrom h p)).1 _
      (fun q hq => hret q (List.mem_cons_of_mem _ hq)) h1
    simp only [visits, List.map_cons, setOfList]
    rw [this.1, this.2, hf]
    exact ⟨rfl, rfl⟩


/-! ## The engine satisfies its relation -/

theorem andThen_of_isSome (st : State) (k : State → State) (hs : st.status.isSome = true) :
    st.andThen k = st := by
  simp [State.andThen, hs]

theorem andThen_of_none (st : State) (k : State → State) (hs : st.status = none) :
    st.andThen k = k st := by
  simp [State.andThen, hs]

theorem status_cases (st : State) : st.status.isSome = true ∨ st.status = none := by
  cases st.status <;> simp

theorem exec_run (h : Heap) (fuel : Nat) : ∀ (t : Task) (st : State),
    Run h t st (exec h fuel t st) := by
  induction fuel with
  | zero => intro t st; exact Run.out_of_fuel t st
  | succ fuel ih =>
    intro t st
    cases t with
    | loop =>
      simp only [exec]
      split
      · rename_i e he; exact Run.loop_err he
      · rename_i he
        split
        · rename_i hc; exact Run.loop_done he hc
        · rename_i hc; exact Run.loop_next he hc (ih _ _)
    | inner c cp r =>
      simp only [exec]
      split
      · rename_i hc; subst hc; exact Run.inner_null
      · rename_i hc
        split
        · rename_i hp; exact Run.inner_skip hc hp (ih _ _)
        · rename_i c1 hp; exact Run.inner_follow hc hp (ih _ _)
        · rename_i hp
          split
          · rename_i hs; exact Run.inner_fail hc hp hs
          · rename_i hs
            have hs' : (resolve h (logArrival st c cp r) c cp r).1.status = none := by
              simpa using hs
            split
            · rename_i hd; exact Run.inner_stop hc hp hs' hd (ih _ _)
            · rename_i ccr hd
              split
              · rename_i hty
                rcases status_cases (exec h fuel (Task.stack
                    (retainStackCalls h c ccr (h.get c).frames).1
                    (retainStackCalls h c ccr (h.get c).frames).2)
                    (resolve h (logArrival st c cp r) c cp r).1) with h1 | h1
                · rw [andThen_of_isSome _ _ h1]
                  exact Run.inner_tso_abort hc hp hs' hd hty (ih _ _) h1
                · rw [andThen_of_none _ _ h1]
                  exact Run.inner_tso hc hp hs' hd hty (ih _ _) h1 (ih _ _)
              · rename_i hty
                rcases status_cases (exec h fuel (Task.calls (retain_PAP h c ccr) false)
                    (resolve h (logArrival st c cp r) c cp r).1) with h1 | h1
                · rw [andThen_of_isSome _ _ h1]
                  exact Run.inner_pap_abort hc hp hs' hd (Or.inl hty) (ih _ _) h1
                · rw [andThen_of_none _ _ h1]
                  exact Run.inner_pap hc hp hs' hd (Or.inl hty) (ih _ _) h1 (ih _ _)
              · rename_i hty
                rcases status_cases (exec h fuel (Task.calls (retain_PAP h c ccr) false)
                    (resolve h (logArrival st c cp r) c cp r).1) with h1 | h1
                · rw [andThen_of_isSome _ _ h1]
                  exact Run.inner_pap_abort hc hp hs' hd (Or.inr hty) (ih _ _) h1
                · rw [andThen_of_none _ _ h1]
                  exact Run.inner_pap hc hp hs' hd (Or.inr hty) (ih _ _) h1 (ih _ _)
              · rename_i hty
                rcases status_cases (exec h fuel (Task.calls [((h.get c).func, c, ccr)] false)
                    (resolve h (logArrival st c cp r) c cp r).1) with h1 | h1
                · rw [andThen_of_isSome _ _ h1, andThen_of_isSome _ _ h1]
                  exact Run.inner_apstack_abort1 hc hp hs' hd hty (ih _ _) h1
                · rw [andThen_of_none _ _ h1]
                  rcases status_cases (exec h fuel (Task.stack
                    (retainStackCalls h c ccr (h.get c).frames).1
                    (retainStackCalls h c ccr (h.get c).frames).2)
                    (exec h fuel (Task.calls [((h.get c).func, c, ccr)] false)
                      (resolve h (logArrival st c cp r) c cp r).1)) with h2 | h2
                  · rw [andThen_of_isSome _ _ h2]
                    exact Run.inner_apstack_abort2 hc hp hs' hd hty (ih _ _) h1 (ih _ _) h2
                  · rw [andThen_of_none _ _ h2]
                    exact Run.inner_apstack hc hp hs' hd hty (ih _ _) h1 (ih _ _) h2 (ih _ _)
              · rename_i hT hP hA hS
                have hss : stackShaped (typeOf h c) = false := by
                  cases hty : typeOf h c <;> simp_all [stackShaped]
                split
                · rename_i hps; exact Run.inner_push_fail hc hp hs' hd hss hps
                · rename_i hps
                  have hps' : (push h (resolve h (logArrival st c cp r) c cp r).1 c ccr).st.status
                      = none := by simpa using hps
                  split
                  · rename_i hfc; exact Run.inner_push_leaf hc hp hs' hd hss hps' hfc (ih _ _)
                  · rename_i hfc; exact Run.inner_push_child hc hp hs' hd hss hps' hfc (ih _ _)
    | calls cs bad =>
      simp only [exec]
      split
      · split
        · rename_i hb; subst hb; exact Run.calls_barf
        · rename_i hb
          have : bad = false := by simpa using hb
          subst this; exact Run.calls_nil
      · rename_i c0 cp0 r0 rest
        rcases status_cases (exec h fuel (Task.inner c0 cp0 r0) st) with h1 | h1
        · rw [andThen_of_isSome _ _ h1]; exact Run.calls_abort (ih _ _) h1
        · rw [andThen_of_none _ _ h1]; exact Run.calls_cons (ih _ _) h1 (ih _ _)
    | stack cs bad =>
      simp only [exec]
      rcases status_cases (exec h fuel (Task.calls cs bad)
          { st with currentStackBoundary := st.stack.length }) with h1 | h1
      · rw [andThen_of_isSome _ _ h1]; exact Run.stack_abort (ih _ _) h1
      · rw [andThen_of_none _ _ h1]; exact Run.stack_ok (ih _ _) h1

/-! ## The calls of the walkers -/

theorem retainSRT_retag (srt : List Nat) (c r c1 r1 : Nat) :
    retainSRT srt c r = (retainSRT srt c1 r1).map (retag c r) := by
  simp [retainSRT, List.map_map, retag, Function.comp]

theorem retainPtrs_retag (payload : List Nat) (c r c1 r1 : Nat) (n p : Nat) :
    retainPtrs payload c r n p = (retainPtrs payload c1 r1 n p).map (retag c r) := by
  induction n generalizing p with
  | zero => simp [retainPtrs]
  | succ n ih => simp [retainPtrs, retag, ih (p + 1)]

theorem retain_small_bitmap_retag (payload : List Nat) (c r c1 r1 : Nat) (n p b : Nat) :
    retain_small_bitmap payload c r n p b =
      ((retain_small_bitmap payload c1 r1 n p b).1.map (retag c r),
        (retain_small_bitmap payload c1 r1 n p b).2) := by
  induction n generalizing p b with
  | zero => simp [retain_small_bitmap]
  | succ n ih =>
    simp only [retain_small_bitmap]
    rw [ih (p + 1) (b / 2)]
    split <;> simp [retag]

theorem retain_large_bitmap_loop_retag (W : Nat) (payload lb : List Nat) (c r c1 r1 : Nat)
    (n i p b bm : Nat) :
    retain_large_bitmap_loop W payload lb c r n i p b bm =
      ((retain_large_bitmap_loop W payload lb c1 r1 n i p b bm).1.map (retag c r),
        (retain_large_bitmap_loop W payload lb c1 r1 n i p b bm).2) := by
  induction n generalizing i p b bm with
  | zero => simp [retain_large_bitmap_loop]
  | succ n ih =>
    simp only [retain_large_bitmap_loop]
    split
    · rw [ih]; split <;> simp [retag]
    · rw [ih]; split <;> simp [retag]

theorem retain_large_bitmap_retag (h : Heap) (payload : List Nat) (p : Nat) (lb : List Nat)
    (size c r c1 r1 : Nat) :
    (retain_large_bitmap h payload p lb size c r).1 =
      (retain_large_bitmap h payload p lb size c1 r1).1.map (retag c r) := by
  simp only [retain_large_bitmap]
  rw [retain_large_bitmap_loop_retag h.wordBits payload lb c r c1 r1]

theorem retFunArgs_retag (h : Heap) (payload : List Nat) (fi : Closure) (c r c1 r1 : Nat) :
    retFunArgs h payload fi c r = (retFunArgs h payload fi c1 r1).map (retag c r) := by
  unfold retFunArgs
  split
  · rw [retain_small_bitmap_retag _ c r c1 r1]
  · rw [retain_large_bitmap_retag _ _ _ _ _ c r c1 r1]
  · rw [retain_small_bitmap_retag _ c r c1 r1]

theorem papArgs_retag (h : Heap) (cl fi : Closure) (c r c1 r1 : Nat) :
    papArgs h cl fi c r = (papArgs h cl fi c1 r1).map (retag c r) := by
  unfold papArgs
  split
  · rw [retain_small_bitmap_retag _ c r c1 r1]
  · rw [retain_large_bitmap_retag _ _ _ _ _ c r c1 r1]
  · rw [retain_large_bitmap_retag _ _ _ _ _ c r c1 r1]
  · rw [retain_small_bitmap_retag _ c r c1 r1]

theorem retainFrame_retag (h : Heap) (c r c1 r1 : Nat) (f : Frame) :
    retainFrame h c r f =
      ((retainFrame h c1 r1 f).1.map (retag c r), (retainFrame h c1 r1 f).2) := by
  unfold retainFrame
  split
  all_goals dsimp only
  all_goals simp only [List.map_append, List.map_cons, List.map_nil,
    ← retainSRT_retag _ c r c1 r1, ← retainPtrs_retag _ c r c1 r1,
    ← retFunArgs_retag _ _ _ c r c1 r1, ← retain_large_bitmap_retag _ _ _ _ _ c r c1 r1]
  all_goals first
    | rfl
    | rw [retain_small_bitmap_retag _ c r c1 r1]

theorem retainStackCalls_retag (h : Heap) (c r c1 r1 : Nat) (fs : List Frame) :
    retainStackCalls h c r fs =
      ((retainStackCalls h c1 r1 fs).1.map (retag c r), (retainStackCalls h c1 r1 fs).2) := by
  induction fs with
  | nil => simp [retainStackCalls]
  | cons f fs ih =>
    simp only [retainStackCalls]
    rw [retainFrame_retag h c r c1 r1 f, ih]
    split <;> simp

theorem retain_PAP_retag (h : Heap) (c r r1 : Nat) :
    retain_PAP h c r = (retain_PAP h c r1).map (retag c r) := by
  unfold retain_PAP
  rw [papArgs_retag h _ _ c r c r1]
  simp [retag]

/-- Every call of the walk of a stack has the owner as parent and the given
  retainer. -/
theorem retainStackCalls_mem (h : Heap) (c r : Nat) (x : Call)
    (hx : x ∈ (retainStackCalls h c r (h.get c).frames).1) :
    x.2 = (c, r) ∧ x.1 ∈ (retainStackCalls h c r (h.get c).frames).1.map Prod.fst := by
  refine ⟨?_, List.mem_map.2 ⟨x, hx, rfl⟩⟩
  rw [retainStackCalls_retag h c r c 0] at hx
  obtain ⟨y, -, rfl⟩ := List.mem_map.1 hx
  rfl

theorem retain_PAP_mem (h : Heap) (c r : Nat) (x : Call) (hx : x ∈ retain_PAP h c r) :
    x.2 = (c, r) ∧ x.1 ∈ (retain_PAP h c r).map Prod.fst := by
  refine ⟨?_, List.mem_map.2 ⟨x, hx, rfl⟩⟩
  rw [retain_PAP_retag h c r 0] at hx
  obtain ⟨y, -, rfl⟩ := List.mem_map.1 hx
  rfl

/-! ## The bitmap walks and the live references -/

theorem retain_small_bitmap_spec (payload : List Nat) (c ccr : Nat) :
    ∀ (size p bitmap : Nat),
      retain_small_bitmap payload c ccr size p bitmap =
        (smallBitmapCalls payload c ccr size p bitmap, p + size) := by
  intro size
  induction size with
  | zero => intro p bitmap; rfl
  | succ n ih =>
    intro p bitmap
    have hshift : ∀ i, bitmap / 2 ^ (i + 1) % 2 = bitmap / 2 / 2 ^ i % 2 := by
      intro i
      rw [Nat.div_div_eq_div_mul, pow_succ, Nat.mul_comm]
    have hrest : smallBitmapCalls payload c ccr (n + 1) p bitmap =
        (if bitmap % 2 = 0 then [(payload.getD p 0, c, ccr)] else []) ++
          smallBitmapCalls payload c ccr n (p + 1) (bitmap / 2) := by
      unfold smallBitmapCalls
      rw [List.range_succ_eq_map, List.filter_cons]
      simp only [pow_zero, Nat.div_one, Nat.add_zero, List.filter_map, List.map_map]
      have hf : (fun i => decide (bitmap / 2 ^ i % 2 = 0)) ∘ Nat.succ =
          fun i => decide (bitmap / 2 / 2 ^ i % 2 = 0) := by
        funext i
        simp only [Function.comp, Nat.succ_eq_add_one, hshift]
      have hg : (fun i => (payload.getD (p + i) 0, c, ccr)) ∘ Nat.succ =
          fun i => (payload.getD (p + 1 + i) 0, c, ccr) := by
        funext i
        simp only [Function.comp, Nat.succ_eq_add_one]
        rw [Nat.add_assoc, Nat.add_comm 1 i]
      rw [hf]
      by_cases hb : bitmap % 2 = 0
      · simp only [hb, decide_True, if_true, List.map_cons, List.map_map, hg, Nat.add_zero,
          List.singleton_append]
      · simp only [hb, decide_False, if_false, List.map_map, hg, List.nil_append,
          Bool.false_eq_true]
    simp only [retain_small_bitmap, ih, hrest]
    by_cases hb : bitmap % 2 = 0
    · simp [hb, Nat.add_assoc, Nat.add_comm 1 n]
    · simp [hb, Nat.add_assoc, Nat.add_comm 1 n]

theorem succ_div_mod_step (W i : Nat) :
    ((i + 1) % W = 0 → (i + 1) / W = i / W + 1) ∧
    ((i + 1) % W ≠ 0 → (i + 1) / W = i / W ∧ (i + 1) % W = i % W + 1) := by
  rcases Nat.eq_zero_or_pos W with h0 | hpos
  · subst h0
    simp
  · have h1 := Nat.div_add_mod i W
    have h2 := Nat.mod_lt i hpos
    have e : i + 1 = W * (i / W) + (i % W + 1) := by omega
    rcases Nat.lt_or_ge (i % W + 1) W with hlt | hge
    · have hm : (i + 1) % W = i % W + 1 := by
        rw [e, Nat.mul_add_mod, Nat.mod_eq_of_lt hlt]
      have hd : (i + 1) / W = i / W := by
        rw [e, Nat.mul_add_div hpos, Nat.div_eq_of_lt hlt]
        simp [Nat.mul_add_div hpos, Nat.div_eq_of_lt hlt]
      exact ⟨fun hz => by omega, fun _ => ⟨hd, hm⟩⟩
    · have hW : i % W + 1 = W := by omega
      have e2 : i + 1 = W * (i / W + 1) := by rw [Nat.mul_add, Nat.mul_one]; omega
      have hm : (i + 1) % W = 0 := by rw [e2]; exact Nat.mul_mod_right _ _
      have hd : (i + 1) / W = i / W + 1 := by rw [e2]; exact Nat.mul_div_cancel_left _ hpos
      exact ⟨fun _ => hd, fun hz => absurd hm hz⟩

theorem range_filter_map_succ (n : Nat) (P : Nat → Bool) (g : Nat → Call) :
    ((List.range (n + 1)).filter P).map g =
      (if P 0 then [g 0] else []) ++
        ((List.range n).filter (fun k => P (k + 1))).map (fun k => g (k + 1)) := by
  rw [List.range_succ_eq_map, List.filter_cons]
  have hcomp : (List.filter P (List.map Nat.succ (List.range n))).map g =
      ((List.range n).filter (fun k => P (k + 1))).map (fun k => g (k + 1)) := by
    rw [List.filter_map, List.map_map]
    rfl
  cases hP : P 0
  · simp only [Bool.false_eq_true, if_false, List.nil_append]
    exact hcomp
  · simp only [if_true, List.map_cons, List.singleton_append]
    rw [hcomp]

theorem retain_large_bitmap_loop_calls (W : Nat) (payload lb : List Nat) (c ccr : Nat) :
    ∀ (n i p b bitmap : Nat), b = i / W → bitmap = lb.getD (i / W) 0 / 2 ^ (i % W) →
      (retain_large_bitmap_loop W payload lb c ccr n i p b bitmap).1 =
        ((List.range n).filter
            (fun k => decide (lb.getD ((i + k) / W) 0 / 2 ^ ((i + k) % W) % 2 = 0))).map
          (fun k => (payload.getD (p + k) 0, c, ccr)) := by
  intro n
  induction n with
  | zero => intro i p b bitmap _ _; rfl
  | succ n ih =>
    intro i p b bitmap hb hbm
    obtain ⟨hz, hnz⟩ := succ_div_mod_step W i
    rw [range_filter_map_succ]
    have hhere : (if bitmap % 2 = 0 then [(payload.getD p 0, c, ccr)] else []) =
        (if decide (lb.getD ((i + 0) / W) 0 / 2 ^ ((i + 0) % W) % 2 = 0) = true
          then [(payload.getD (p + 0) 0, c, ccr)] else []) := by
      simp only [Nat.add_zero, decide_eq_true_eq, hbm]
    have hshift : ∀ (q : Nat),
        ((List.range n).filter
            (fun k => decide (lb.getD ((i + 1 + k) / W) 0 / 2 ^ ((i + 1 + k) % W) % 2 = 0))).map
          (fun k => (payload.getD (q + 1 + k) 0, c, ccr)) =
        ((List.range n).filter
            (fun k => decide (lb.getD ((i + (k + 1)) / W) 0 / 2 ^ ((i + (k + 1)) % W) % 2 = 0))).map
          (fun k => (payload.getD (q + (k + 1)) 0, c, ccr)) := by
      intro q
      have e1 : ∀ k, i + 1 + k = i + (k + 1) := fun k => by omega
      have e2 : ∀ k, q + 1 + k = q + (k + 1) := fun k => by omega
      simp only [e1, e2]
    simp only [retain_large_bitmap_loop]
    split
    · rename_i hmod
      dsimp only
      rw [ih (i + 1) (p + 1) (b + 1) _ (by rw [hb, hz hmod])
        (by rw [hb, hz hmod, hmod, pow_zero, Nat.div_one]), hhere, hshift]
    · rename_i hmod
      dsimp only
      obtain ⟨hd, hm⟩ := hnz hmod
      rw [ih (i + 1) (p + 1) b _ (by rw [hb, hd])
        (by rw [hbm, hd, hm, pow_succ, Nat.div_div_eq_div_mul]), hhere, hshift]

theorem retain_large_bitmap_calls (h : Heap) (payload : List Nat) (p : Nat) (lb : List Nat)
    (size c ccr : Nat) :
    (retain_large_bitmap h payload p lb size c ccr).1 =
      largeBitmapCalls h.wordBits payload lb c ccr size p := by
  unfold retain_large_bitmap largeBitmapCalls
  dsimp only
  rw [retain_large_bitmap_loop_calls h.wordBits payload lb c ccr size 0 p 0 _
    (by simp) (by simp)]
  simp only [Nat.zero_add]


theorem retain_small_bitmap_fst (payload : List Nat) (c ccr size p bitmap : Nat) :
    (retain_small_bitmap payload c ccr size p bitmap).1.map Prod.fst =
      liveSmall payload size p bitmap := by
  rw [retain_small_bitmap_spec]
  simp only [smallBitmapCalls, liveSmall, List.map_map]
  rfl

theorem retain_small_bitmap_snd (payload : List Nat) (c ccr size p bitmap : Nat) :
    (retain_small_bitmap payload c ccr size p bitmap).2 = p + size := by
  rw [retain_small_bitmap_spec]

theorem retain_large_bitmap_fst (h : Heap) (payload : List Nat) (p : Nat) (lb : List Nat)
    (size c ccr : Nat) :
    (retain_large_bitmap h payload p lb size c ccr).1.map Prod.fst =
      liveLarge h.wordBits payload lb size p := by
  rw [retain_large_bitmap_calls]
  simp only [largeBitmapCalls, liveLarge, List.map_map]
  rfl

theorem retainPtrs_fst (payload : List Nat) (c ccr : Nat) :
    ∀ (n p : Nat), (retainPtrs payload c ccr n p).map Prod.fst = wordsFrom payload n p := by
  intro n
  induction n with
  | zero => intro p; rfl
  | succ n ih =>
    intro p
    simp only [retainPtrs, List.map_cons, ih, wordsFrom]
    rw [List.range_succ_eq_map, List.map_cons, List.map_map, Nat.add_zero]
    congr 1
    apply List.map_congr_left
    intro i _
    simp only [Function.comp, Nat.succ_eq_add_one]
    rw [Nat.add_assoc, Nat.add_comm 1 i]

theorem retainSRT_fst (srt : List Nat) (c ccr : Nat) :
    (retainSRT srt c ccr).map Prod.fst = srt := by
  induction srt with
  | nil => rfl
  | cons a l ih =>
    simp only [retainSRT, List.map_cons] at ih ⊢
    rw [ih]

/-- Below bit 32 a word and its low 32 bits agree. -/
theorem bit_trunc_eq (bitmap i : Nat) (hi : i < 32) :
    bitmap % 2 ^ 32 / 2 ^ i % 2 = bitmap / 2 ^ i % 2 := by
  have e : (2 : Nat) ^ 32 = 2 ^ i * 2 ^ (32 - i) := by
    rw [← pow_add]
    congr 1
    omega
  rw [e, Nat.mod_mul_right_div_self]
  apply Nat.mod_mod_of_dvd
  exact dvd_pow_self 2 (by omega)

/-- From bit 32 on the low 32 bits of a word are cleared. -/
theorem bit_trunc_high (bitmap i : Nat) (hi : 32 ≤ i) :
    bitmap % 2 ^ 32 / 2 ^ i % 2 = 0 := by
  have h1 : bitmap % 2 ^ 32 < 2 ^ 32 := Nat.mod_lt _ (by decide)
  have h2 : (2 : Nat) ^ 32 ≤ 2 ^ i := Nat.pow_le_pow_right (by decide) hi
  rw [Nat.div_eq_of_lt (lt_of_lt_of_le h1 h2)]

/-- A slot that the whole bitmap marks live is marked live by its low 32
  bits. -/
theorem liveSmall_trunc_sub (words : List Nat) (size p bitmap : Nat) :
    ∀ x ∈ liveSmall words size p bitmap, x ∈ liveSmall words size p (bitmap % 2 ^ 32) := by
  intro x hx
  unfold liveSmall at hx ⊢
  obtain ⟨i, hi, rfl⟩ := List.mem_map.1 hx
  obtain ⟨hi1, hi2⟩ := List.mem_filter.1 hi
  refine List.mem_map.2 ⟨i, List.mem_filter.2 ⟨hi1, ?_⟩, rfl⟩
  simp only [decide_eq_true_eq] at hi2 ⊢
  rcases Nat.lt_or_ge i 32 with hlt | hge
  · rw [bit_trunc_eq _ _ hlt]; exact hi2
  · exact bit_trunc_high _ _ hge

/-- For a bitmap within the reach of a 32-bit word, its low 32 bits mark the
  same slots live. -/
theorem liveSmall_trunc (words : List Nat) (size p bitmap : Nat)
    (hfit : fits32 size bitmap = true) :
    liveSmall words size p (bitmap % 2 ^ 32) = liveSmall words size p bitmap := by
  unfold fits32 at hfit
  rw [List.all_eq_true] at hfit
  unfold liveSmall
  congr 1
  apply List.filter_congr
  intro i hi
  have := hfit i hi
  simp only [Bool.or_eq_true, decide_eq_true_eq] at this
  rcases this with hlt | hz
  · rw [bit_trunc_eq _ _ hlt]
  · rcases Nat.lt_or_ge i 32 with hlt | hge
    · rw [bit_trunc_eq _ _ hlt]
    · rw [bit_trunc_high _ _ hge, hz]

theorem retFunArgs_cover (h : Heap) (payload : List Nat) (fi : Closure) (c ccr : Nat) :
    ∀ x ∈ funArgSlots h payload fi, x ∈ (retFunArgs h payload fi c ccr).map Prod.fst := by
  intro x hx
  unfold funArgSlots at hx
  unfold retFunArgs
  cases e : fi.fun_type
  all_goals simp only [e] at hx ⊢
  · rw [retain_small_bitmap_fst]; exact liveSmall_trunc_sub _ _ _ _ x hx
  · rw [retain_large_bitmap_fst]; exact hx
  · rw [retain_small_bitmap_fst]; exact liveSmall_trunc_sub _ _ _ _ x hx
  · rw [retain_small_bitmap_fst]; exact liveSmall_trunc_sub _ _ _ _ x hx

/-- Every live reference of a frame is retained by the iteration of the loop
  of `retainStack` for the frame, unless the iteration ends in `barf`. -/
theorem retainFrame_cover (h : Heap) (c ccr : Nat) (f : Frame)
    (hok : (retainFrame h c ccr f).2 = false) :
    ∀ x ∈ frameSlots h f, x ∈ (retainFrame h c ccr f).1.map Prod.fst := by
  intro x hx
  cases hty : f.type
  all_goals simp only [retainFrame, hty, Bool.true_eq_false] at hok
  all_goals simp only [frameSlots, hty, List.mem_append, List.mem_cons, List.mem_singleton,
    List.not_mem_nil, or_false] at hx
  all_goals simp only [retainFrame, hty, List.map_append, List.map_cons, List.map_nil,
    retainSRT_fst, retain_small_bitmap_fst, retain_small_bitmap_snd, retain_large_bitmap_fst,
    retainPtrs_fst, List.mem_append, List.mem_cons, List.mem_singleton, List.not_mem_nil,
    or_false, Nat.zero_add]
  all_goals first
    | exact hx
    | exact hx.imp_left (liveSmall_trunc_sub _ _ _ _ x)
    | exact hx.imp_left (Or.imp_right (retFunArgs_cover h _ _ c ccr x))

/-- Every live reference of the frames is retained by the loop of
  `retainStack`, unless the loop ends in `barf`. -/
theorem retainStackCalls_cover (h : Heap) (c ccr : Nat) :
    ∀ (fs : List Frame), (retainStackCalls h c ccr fs).2 = false →
      ∀ x ∈ framesSlots h fs, x ∈ (retainStackCalls h c ccr fs).1.map Prod.fst := by
  intro fs
  induction fs with
  | nil => intro _ x hx; cases hx
  | cons f fs ih =>
    intro hok x hx
    simp only [retainStackCalls] at hok ⊢
    split at hok
    · rename_i hbad
      rw [hbad] at hok; cases hok
    · rename_i hbad
      have hf : (retainFrame h c ccr f).2 = false := by
        cases e : (retainFrame h c ccr f).2
        · rfl
        · exact absurd e hbad
      rw [if_neg hbad]
      simp only [List.map_append, List.mem_append]
      rcases List.mem_append.1 hx with h1 | h1
      · exact Or.inl (retainFrame_cover h c ccr f hf x h1)
      · exact Or.inr (ih hok x h1)

theorem retFunArgs_sound (h : Heap) (payload : List Nat) (fi : Closure) (c ccr : Nat)
    (hfit : funFits h fi = true) :
    (retFunArgs h payload fi c ccr).map Prod.fst = funArgSlots h payload fi := by
  unfold funFits at hfit
  unfold funArgSlots retFunArgs
  cases e : fi.fun_type
  all_goals simp only [e] at hfit ⊢
  · rw [retain_small_bitmap_fst, liveSmall_trunc _ _ _ _ hfit]
  · rw [retain_large_bitmap_fst]
  · rw [retain_small_bitmap_fst, liveSmall_trunc _ _ _ _ hfit]
  · rw [retain_small_bitmap_fst, liveSmall_trunc _ _ _ _ hfit]

/-- For a frame whose one-word bitmap is within the reach of a 32-bit word,
  the iteration of the loop of `retainStack` retains the live references of the
  frame and nothing else. -/
theorem retainFrame_sound (h : Heap) (c ccr : Nat) (f : Frame) (hfit : frameFits h f = true) :
    ∀ x ∈ (retainFrame h c ccr f).1.map Prod.fst, x ∈ frameSlots h f := by
  intro x hx
  cases hty : f.type
  all_goals simp only [retainFrame, hty, List.map_append, List.map_cons, List.map_nil,
    retainSRT_fst, retain_small_bitmap_fst, retain_small_bitmap_snd, retain_large_bitmap_fst,
    retainPtrs_fst, List.mem_append, List.mem_cons, List.mem_singleton, List.not_mem_nil,
    or_false, Nat.zero_add] at hx
  all_goals simp only [frameFits, hty] at hfit
  all_goals simp only [frameSlots, hty, List.mem_append, List.mem_cons, List.mem_singleton,
    List.not_mem_nil, or_false]
  all_goals first
    | exact hx
    | (rw [liveSmall_trunc _ _ _ _ hfit] at hx; exact hx)
    | (rw [retFunArgs_sound h _ _ c ccr hfit] at hx; exact hx)

/-- On stacks whose one-word bitmaps are within the reach of a 32-bit word,
  the loop of `retainStack` retains live references only. -/
theorem retainStackCalls_sound (h : Heap) (c ccr : Nat) :
    ∀ (fs : List Frame), (∀ f ∈ fs, frameFits h f = true) →
      ∀ x ∈ (retainStackCalls h c ccr fs).1.map Prod.fst, x ∈ framesSlots h fs := by
  intro fs
  induction fs with
  | nil => intro _ x hx; cases hx
  | cons f fs ih =>
    intro hfit x hx
    simp only [retainStackCalls] at hx
    simp only [framesSlots, List.mem_append]
    split at hx
    · exact Or.inl (retainFrame_sound h c ccr f (hfit f (List.mem_cons_self _ _)) x hx)
    · simp only [List.map_append, List.mem_append] at hx
      rcases hx with h1 | h1
      · exact Or.inl (retainFrame_sound h c ccr f (hfit f (List.mem_cons_self _ _)) x h1)
      · exact Or.inr (ih (fun g hg => hfit g (List.mem_cons_of_mem _ hg)) x h1)

theorem stacksFit_frames (h : Heap) (hfit : stacksFit h = true) (c : Nat) :
    ∀ f ∈ (h.get c).frames, frameFits h f = true := by
  intro f hf
  unfold stacksFit at hfit
  rw [List.all_eq_true] at hfit
  unfold Heap.get at hf
  rcases Nat.lt_or_ge c h.closures.length with hlt | hge
  · have hm : h.closures.getD c { type := ClosureType.INVALID_OBJECT } ∈ h.closures := by
      rw [List.getD_eq_getElem _ _ hlt]
      exact List.getElem_mem _
    have := hfit _ hm
    rw [List.all_eq_true] at this
    exact this f hf
  · rw [List.getD_eq_default _ _ hge] at hf
    cases hf

/-- The calls of `retain_PAP` retain the references of the application. -/
theorem retain_PAP_fst (h : Heap) (c ccr : Nat) :
    (retain_PAP h c ccr).map Prod.fst = argSlots h c := by
  unfold retain_PAP argSlots papArgs
  dsimp only
  rw [List.map_cons]
  congr 1
  cases e : (h.get (h.get c).func).fun_type
  all_goals simp only [e]
  · rw [retain_small_bitmap_fst]
  · rw [retain_large_bitmap_fst]
  · rw [retain_large_bitmap_fst]
  · rw [retain_small_bitmap_fst]

/-- A run of the calls of a walk that ended in `barf` ends in a fatal
  outcome. -/
theorem run_calls_bad {h : Heap} :
    ∀ (cs : List Call) (st st1 : State), Run h (Task.calls cs true) st st1 →
      st1.status.isSome = true := by
  intro cs
  induction cs with
  | nil =>
    intro st st1 hr
    cases hr with
    | out_of_fuel => rfl
    | calls_barf => rfl
  | cons x rest ih =>
    intro st st1 hr
    cases hr with
    | out_of_fuel => rfl
    | calls_abort _ hab => exact hab
    | calls_cons _ _ hrest => exact ih _ _ hrest

theorem run_stack_bad {h : Heap} {cs : List Call} {st st1 : State}
    (hr : Run h (Task.stack cs true) st st1) : st1.status.isSome = true := by
  cases hr with
  | out_of_fuel => rfl
  | stack_abort _ hab => exact hab
  | stack_ok hrun hok =>
    have := run_calls_bad cs _ _ hrun
    rw [hok] at this
    cases this

/-- A walk of a stack whose run ends normally did not end in `barf`. -/
theorem run_stack_walk_ok {h : Heap} {cs : List Call} {bad : Bool} {st st1 : State}
    (hr : Run h (Task.stack cs bad) st st1) (hok : st1.status = none) : bad = false := by
  cases bad
  · rfl
  · have := run_stack_bad hr
    rw [hok] at this
    cases this

/-! ## The traverse stack: push and pop -/

theorem mem_ptrFields (cl : Closure) (i : Nat) (hi : i < cl.ptrs) :
    cl.payload.getD i 0 ∈ ptrFields cl := by
  unfold ptrFields
  exact List.mem_map.2 ⟨i, List.mem_range.2 hi, rfl⟩

theorem find_ptrs_spec (h : Heap) (info info1 : stackPos) (x : Nat)
    (hf : find_ptrs h info = some (x, info1)) :
    ∃ pos ptrs payload, info.next = nextPos.ptrs pos ptrs payload ∧ info1.type = info.type ∧
      ((pos < ptrs ∧ x = payload.getD pos 0 ∧
          info1.next = nextPos.ptrs ((pos + 1) % 2 ^ h.posBits) ptrs payload) ∨
        (¬ pos < ptrs ∧ x = 0 ∧ info1 = info)) := by
  unfold find_ptrs at hf
  split at hf
  · rename_i pos ptrs payload hn
    refine ⟨pos, ptrs, payload, hn, ?_⟩
    split at hf
    · rename_i hlt
      simp only [Option.some.injEq, Prod.mk.injEq] at hf
      obtain ⟨rfl, rfl⟩ := hf
      exact ⟨rfl, Or.inl ⟨hlt, rfl, rfl⟩⟩
    · rename_i hlt
      simp only [Option.some.injEq, Prod.mk.injEq] at hf
      obtain ⟨rfl, rfl⟩ := hf
      exact ⟨rfl, Or.inr ⟨hlt, rfl, rfl⟩⟩
  · cases hf

theorem find_srt_spec (info info1 : stackPos) (x : Nat)
    (hf : find_srt info = some (x, info1)) :
    ∃ rest, info.next = nextPos.srt rest ∧ info1.type = info.type ∧
      ((∃ tl, rest = x :: tl ∧ info1.next = nextPos.srt tl) ∨
        (rest = [] ∧ x = 0 ∧ info1 = info)) := by
  unfold find_srt at hf
  split at hf
  · rename_i hn
    simp only [Option.some.injEq, Prod.mk.injEq] at hf
    obtain ⟨rfl, rfl⟩ := hf
    exact ⟨[], hn, rfl, Or.inr ⟨rfl, rfl, rfl⟩⟩
  · rename_i y rest hn
    simp only [Option.some.injEq, Prod.mk.injEq] at hf
    obtain ⟨rfl, rfl⟩ := hf
    exact ⟨_, hn, rfl, Or.inl ⟨rest, rfl, rfl⟩⟩
  · cases hf

theorem PushOK.same (h : Heap) (st : State) (c ccr x : Nat)
    (hx : x ≠ 0 → x ∈ children h c) : PushOK h st c ccr { st := st, first_child := x } :=
  ⟨rfl, rfl, rfl, rfl, Or.inl rfl, hx⟩

theorem PushOK.pushed (h : Heap) (st : State) (c ccr x : Nat) (info : stackPos)
    (hi : InfoOK h { c := c, c_child_r := ccr, info := info })
    (hx : x ≠ 0 → x ∈ children h c) :
    PushOK h st c ccr
      { st := pushElement st { c := c, c_child_r := ccr, info := info }, first_child := x } :=
  ⟨rfl, rfl, rfl, rfl, Or.inr ⟨info, rfl, hi⟩, hx⟩

theorem PushOK.failed (h : Heap) (st : State) (c ccr : Nat) (e : Fatal) :
    PushOK h st c ccr { st := st.fail e, first_child := 0 } :=
  ⟨rfl, rfl, rfl, rfl, Or.inl rfl, fun hx => absurd rfl hx⟩

theorem push_srt_only_ok (h : Heap) (st : State) (c ccr : Nat)
    (hsrt : ∀ x ∈ (h.get c).srt, x ∈ children h c) :
    PushOK h st c ccr (push_srt_only h st c ccr) := by
  unfold push_srt_only
  split
  · rename_i first info hf
    obtain ⟨rest, hn, -, hcase⟩ := find_srt_spec _ _ _ hf
    simp only [init_srt] at hn
    cases hn
    split
    · exact PushOK.same h st c ccr 0 (fun hx => absurd rfl hx)
    · rcases hcase with ⟨tl, hrest, hn1⟩ | ⟨-, h0, -⟩
      · refine PushOK.pushed h st c ccr first info ?_ ?_
        · simp only [InfoOK, hn1]
          intro x hx; rw [hrest]; exact List.mem_cons_of_mem _ hx
        · intro _; apply hsrt; rw [hrest]; exact List.mem_cons_self _ _
      · rename_i hne; exact absurd h0 hne
  · exact PushOK.failed h st c ccr _

theorem push_ptrs_first (h : Heap) (cl : Closure) (first : Nat) (info : stackPos)
    (hf : find_ptrs h (init_ptrs h cl.ptrs cl.payload) = some (first, info)) :
    (first ≠ 0 → first ∈ ptrFields cl) ∧
    ∃ pos, info.next = nextPos.ptrs pos (cl.ptrs % 2 ^ h.posBits) cl.payload := by
  obtain ⟨pos, ptrs, payload, hn, -, hcase⟩ := find_ptrs_spec _ _ _ _ hf
  simp only [init_ptrs] at hn
  cases hn
  rcases hcase with ⟨hlt, hx, hn1⟩ | ⟨-, h0, hi⟩
  · refine ⟨fun _ => ?_, _, hn1⟩
    rw [hx]
    exact mem_ptrFields cl 0 (lt_of_lt_of_le hlt (Nat.mod_le _ _))
  · refine ⟨fun hne => absurd h0 hne, 0, ?_⟩
    rw [hi]; rfl

theorem push_ptrs_ok (h : Heap) (st : State) (c ccr : Nat)
    (hch : ∀ x ∈ ptrFields (h.get c), x ∈ children h c) :
    PushOK h st c ccr
      (match find_ptrs h (init_ptrs h (h.get c).ptrs (h.get c).payload) with
      | some (first, info) =>
        if first = 0 then { st := st, first_child := 0 }
        else { st := pushElement st { c := c, c_child_r := ccr, info := info },
               first_child := first }
      | none => { st := st.fail Fatal.undefined_read, first_child := 0 }) := by
  split
  · rename_i first info hf
    obtain ⟨hmem, pos, hn⟩ := push_ptrs_first h (h.get c) first info hf
    split
    · exact PushOK.same h st c ccr 0 (fun hx => absurd rfl hx)
    · rename_i hne
      refine PushOK.pushed h st c ccr first info ?_ (fun _ => hch _ (hmem hne))
      simp only [InfoOK, hn]
      exact ⟨Nat.mod_le _ _, trivial⟩
  · exact PushOK.failed h st c ccr _

theorem push_ptrs_srt_ok (h : Heap) (st : State) (c ccr : Nat)
    (hch : ∀ x ∈ ptrFields (h.get c), x ∈ children h c)
    (hsrt : ∀ x ∈ (h.get c).srt, x ∈ children h c) :
    PushOK h st c ccr
      (match find_ptrs h (init_ptrs h (h.get c).ptrs (h.get c).payload) with
      | some (first, info) =>
        if first = 0 then push_srt_only h st c ccr
        else { st := pushElement st { c := c, c_child_r := ccr, info := info },
               first_child := first }
      | none => { st := st.fail Fatal.undefined_read, first_child := 0 }) := by
  split
  · rename_i first info hf
    obtain ⟨hmem, pos, hn⟩ := push_ptrs_first h (h.get c) first info hf
    split
    · exact push_srt_only_ok h st c ccr hsrt
    · rename_i hne
      refine PushOK.pushed h st c ccr first info ?_ (fun _ => hch _ (hmem hne))
      simp only [InfoOK, hn]
      exact ⟨Nat.mod_le _ _, trivial⟩
  · exact PushOK.failed h st c ccr _

theorem push_ok (h : Heap) (st : State) (c ccr : Nat) :
    PushOK h st c ccr (push h st c ccr) := by
  unfold push
  dsimp only
  split
  all_goals first
    | exact PushOK.failed h st c ccr _
    | exact PushOK.same h st c ccr 0 (fun hx => absurd rfl hx)
    | (rename_i heq
       first
        | exact PushOK.same h st c ccr _ (fun _ => by simp [children, heq])
        | exact PushOK.pushed h st c ccr _ _ (by simp [InfoOK, stackPos.uninit, init_srt])
            (fun _ => by simp [children, heq])
        | exact push_srt_only_ok h st c ccr (fun x hx => by simp [children, heq, hx])
        | exact push_ptrs_ok h st c ccr (fun x hx => by simp [children, heq, hx])
        | exact push_ptrs_srt_ok h st c ccr (fun x hx => by simp [children, heq, hx])
            (fun x hx => by simp [children, heq, hx]))
theorem pop_do_srt_ok (h : Heap) (se : stackElement) (info : stackPos)
    (hi : ∀ rest, info.next = nextPos.srt rest → ∀ x ∈ rest, x ∈ (h.get se.c).srt)
    (hsrt : ∀ x ∈ (h.get se.c).srt, x ∈ children h se.c) :
    PopStepOK h se (pop_do_srt se info) := by
  unfold pop_do_srt
  split
  · rename_i x info1 hf
    obtain ⟨rest, hn, -, hcase⟩ := find_srt_spec _ _ _ hf
    split
    · rcases hcase with ⟨tl, hrest, hn1⟩ | ⟨-, h0, -⟩
      · refine ⟨fun _ => hsrt _ (hi rest hn x (by rw [hrest]; exact List.mem_cons_self _ _)), ?_⟩
        intro s1 hs1
        cases hs1
        refine ⟨rfl, rfl, ?_⟩
        simp only [InfoOK, hn1]
        intro y hy
        exact hi rest hn y (by rw [hrest]; exact List.mem_cons_of_mem _ hy)
      · rename_i hne; exact absurd h0 hne
    · trivial
  · trivial

theorem pop_ptrs_mem (h : Heap) (se : stackElement) (x : Nat) (info1 : stackPos)
    (hI : InfoOK h se) (hf : find_ptrs h se.info = some (x, info1)) (hx : x ≠ 0) :
    x ∈ ptrFields (h.get se.c) ∧ InfoOK h { se with info := info1 } := by
  obtain ⟨pos, ptrs, payload, hn, -, hcase⟩ := find_ptrs_spec _ _ _ _ hf
  simp only [InfoOK, hn] at hI
  rcases hcase with ⟨hlt, hxe, hn1⟩ | ⟨-, h0, -⟩
  · constructor
    · rw [hxe, hI.2]
      exact mem_ptrFields _ _ (lt_of_lt_of_le hlt hI.1)
    · simp only [InfoOK, hn1]
      exact hI
  · exact absurd h0 hx

theorem pop_step_ok (h : Heap) (se : stackElement) (a b : Nat)
    (ha : a ∈ children h se.c) (hb : b ∈ children h se.c) :
    PopStepOK h se
      (match se.info.next with
      | nextPos.step n =>
        if n = 2 then
          PopStep.ret (some { se with info := { se.info with next := nextPos.step (n + 1) } }) a
        else PopStep.ret none b
      | _ => PopStep.bad Fatal.undefined_read) := by
  split
  · split
    · refine ⟨fun _ => ha, fun s1 hs1 => ?_⟩
      cases hs1
      exact ⟨rfl, rfl, by simp [InfoOK]⟩
    · exact ⟨fun _ => hb, fun s1 hs1 => by cases hs1⟩
  · trivial

theorem pop_ptrs_ok (h : Heap) (se : stackElement) (hI : InfoOK h se)
    (hch : ∀ x ∈ ptrFields (h.get se.c), x ∈ children h se.c) :
    PopStepOK h se
      (match find_ptrs h se.info with
      | some (x, info1) =>
        if x = 0 then PopStep.exhausted
        else PopStep.ret (some { se with info := info1 }) x
      | none => PopStep.bad Fatal.undefined_read) := by
  split
  · rename_i x info1 hf
    split
    · trivial
    · rename_i hx
      obtain ⟨hm, hi1⟩ := pop_ptrs_mem h se x info1 hI hf hx
      refine ⟨fun _ => hch _ hm, fun s1 hs1 => ?_⟩
      cases hs1
      exact ⟨rfl, rfl, hi1⟩
  · trivial

theorem pop_ptrs_srt_ok (h : Heap) (se : stackElement) (hI : InfoOK h se)
    (hch : ∀ x ∈ ptrFields (h.get se.c), x ∈ children h se.c)
    (hsrt : ∀ x ∈ (h.get se.c).srt, x ∈ children h se.c) :
    PopStepOK h se
      (match se.info.type with
      | some nextPosType.posTypePtrs =>
        match find_ptrs h se.info with
        | some (x, info1) =>
          if x ≠ 0 then PopStep.ret (some { se with info := info1 }) x
          else pop_do_srt se (init_srt h se.c)
        | none => PopStep.bad Fatal.undefined_read
      | some _ => pop_do_srt se se.info
      | none => PopStep.bad Fatal.undefined_read) := by
  have hinfo : ∀ rest, se.info.next = nextPos.srt rest → ∀ x ∈ rest, x ∈ (h.get se.c).srt := by
    intro rest hn
    simpa only [InfoOK, hn] using hI
  split
  · split
    · rename_i x info1 hf
      split
      · rename_i hx
        obtain ⟨hm, hi1⟩ := pop_ptrs_mem h se x info1 hI hf hx
        refine ⟨fun _ => hch _ hm, fun s1 hs1 => ?_⟩
        cases hs1
        exact ⟨rfl, rfl, hi1⟩
      · refine pop_do_srt_ok h se _ ?_ hsrt
        intro rest hn x hx
        simp only [init_srt] at hn
        cases hn
        exact hx
    · trivial
  · exact pop_do_srt_ok h se _ hinfo hsrt
  · trivial

theorem popStep_ok (h : Heap) (se : stackElement) (hI : InfoOK h se) :
    PopStepOK h se (popStep h se) := by
  have hinfo : ∀ rest, se.info.next = nextPos.srt rest → ∀ x ∈ rest, x ∈ (h.get se.c).srt := by
    intro rest hn
    simpa only [InfoOK, hn] using hI
  unfold popStep
  dsimp only
  split
  all_goals first
    | trivial
    | (rename_i heq
       first
        | exact ⟨fun _ => by simp [children, heq], fun s1 hs1 => by cases hs1⟩
        | exact pop_step_ok h se _ _ (by simp [children, heq]) (by simp [children, heq])
        | exact pop_ptrs_ok h se hI (fun x hx => by simp [children, heq, hx])
        | exact pop_ptrs_srt_ok h se hI (fun x hx => by simp [children, heq, hx])
            (fun x hx => by simp [children, heq, hx])
        | exact pop_do_srt_ok h se _ hinfo (fun x hx => by simp [children, heq, hx]))

/-- The loop of `pop` on a stack of consistent elements: the elements left
  are consistent and remain elements for the same closures and retainers, and
  a retrieved object is a child reference of its parent, with the retainer the
  element of the parent recorded. -/
theorem popLoop_ok (h : Heap) (b : Nat) (stack : List stackElement)
    (hI : ∀ se ∈ stack, InfoOK h se) :
    (∀ se1 ∈ (popLoop h b stack).stack,
      InfoOK h se1 ∧ ∃ se ∈ stack, se1.c = se.c ∧ se1.c_child_r = se.c_child_r) ∧
    ((popLoop h b stack).c ≠ 0 →
      (popLoop h b stack).c ∈ children h (popLoop h b stack).cp ∧
      ∃ se ∈ stack, (popLoop h b stack).cp = se.c ∧ (popLoop h b stack).r = se.c_child_r) := by
  induction stack with
  | nil =>
    unfold popLoop
    split <;> simp
  | cons se rest ih =>
    have hrest : ∀ s ∈ rest, InfoOK h s := fun s hs => hI s (List.mem_cons_of_mem _ hs)
    have keep : ∀ s ∈ rest, InfoOK h s ∧ ∃ s0 ∈ se :: rest, s.c = s0.c ∧ s.c_child_r = s0.c_child_r :=
      fun s hs => ⟨hrest s hs, s, List.mem_cons_of_mem _ hs, rfl, rfl⟩
    have hstep := popStep_ok h se (hI se (List.mem_cons_self _ _))
    unfold popLoop
    split
    · refine ⟨fun s hs => ⟨hI s hs, s, hs, rfl, rfl⟩, fun hc => absurd rfl hc⟩
    · split
      · rename_i se1 x hps
        rw [hps] at hstep
        obtain ⟨hx, hs1⟩ := hstep
        obtain ⟨e1, e2, e3⟩ := hs1 se1 rfl
        refine ⟨?_, fun hc => ⟨hx hc, se, List.mem_cons_self _ _, rfl, rfl⟩⟩
        intro s hs
        rcases List.mem_cons.1 hs with rfl | hs
        · exact ⟨e3, se, List.mem_cons_self _ _, e1, e2⟩
        · exact keep s hs
      · rename_i x hps
        rw [hps] at hstep
        exact ⟨keep, fun hc => ⟨hstep.1 hc, se, List.mem_cons_self _ _, rfl, rfl⟩⟩
      · obtain ⟨i1, i2⟩ := ih hrest
        refine ⟨fun s hs => ?_, fun hc => ?_⟩
        · obtain ⟨a, s0, hs0, e⟩ := i1 s hs
          exact ⟨a, s0, List.mem_cons_of_mem _ hs0, e⟩
        · obtain ⟨a, s0, hs0, e⟩ := i2 hc
          exact ⟨a, s0, List.mem_cons_of_mem _ hs0, e⟩
      · refine ⟨fun s hs => ⟨hI s hs, s, hs, rfl, rfl⟩, fun hc => absurd rfl hc⟩

/-! ## The stop rule is an invariant of the engine -/

theorem popLoop_ctx (h : Heap) (P : Nat → Nat → Prop) (b : Nat) (stack : List stackElement)
    (hs : StackCtx h P stack) :
    StackCtx h P (popLoop h b stack).stack ∧
    ((popLoop h b stack).c ≠ 0 →
      (popLoop h b stack).c ∈ children h (popLoop h b stack).cp ∧
      P (popLoop h b stack).cp (popLoop h b stack).r ∧
      ∃ se ∈ stack, (popLoop h b stack).cp = se.c) := by
  obtain ⟨h1, h2⟩ := popLoop_ok h b stack (fun se hse => (hs se hse).1)
  constructor
  · intro s hs1
    obtain ⟨hi, se, hse, e1, e2⟩ := h1 s hs1
    refine ⟨hi, ?_⟩
    rw [e1, e2]; exact (hs se hse).2
  · intro hc
    obtain ⟨hm, se, hse, e1, e2⟩ := h2 hc
    refine ⟨hm, ?_, se, hse, e1⟩
    rw [e1, e2]; exact (hs se hse).2

theorem push_ctx (h : Heap) (P : Nat → Nat → Prop) (st : State) (c ccr : Nat)
    (hs : StackCtx h P st.stack) (hp : P c ccr) :
    StackCtx h P (push h st c ccr).st.stack := by
  obtain ⟨-, -, -, -, hstack, -⟩ := push_ok h st c ccr
  rcases hstack with he | ⟨info, he, hi⟩
  · rw [he]; exact hs
  · rw [he]
    intro se hse
    rcases List.mem_cons.1 hse with rfl | hse
    · exact ⟨hi, hp⟩
    · exact hs se hse

/-- The retainer handed to the children of `c` is the identity of `c` when `c`
  is a retainer. -/
theorem resolve_descend_retainer (h : Heap) (st : State) (c cp r ccr : Nat)
    (hd : (resolve h st c cp r).2 = Decision.descend ccr) : OwnIdentity h c ccr := by
  intro hc
  unfold resolve at hd
  split at hd
  · cases hd
  · dsimp only at hd
    split at hd
    · unfold firstVisit at hd
      simp only [hc] at hd
      simpa using hd.symm
    · unfold revisit at hd
      split at hd
      · cases hd
      · split at hd
        · cases hd
        · split at hd
          · cases hd
          · simp only [hc] at hd
            cases hd

theorem StopRule.stop_of_eq {h : Heap} {st st1 : State} (hs : StopRule h st)
    (ht : st1.trace = st.trace) (hk : st1.stack = st.stack) : StopRule h st1 := by
  unfold StopRule; rw [ht, hk]; exact hs

theorem StopRule.log {h : Heap} {st : State} (hs : StopRule h st) (c cp r : Nat)
    (ha : OwnIdentity h cp r) : StopRule h (logArrival st c cp r) := by
  refine ⟨?_, hs.2⟩
  intro x hx
  rcases List.mem_cons.1 hx with rfl | hx
  · exact ha
  · exact hs.1 x hx

theorem StopRule.resolve {h : Heap} {st : State} (hs : StopRule h st) (c cp r : Nat) :
    StopRule h (resolve h st c cp r).1 :=
  hs.stop_of_eq (resolve_frame h st c cp r).2.2.2.1 (resolve_frame h st c cp r).2.1

theorem StopRule.pop {h : Heap} {st : State} (hs : StopRule h st) :
    StopRule h { st with stack := (pop h st).stack } ∧
    ((pop h st).c ≠ 0 → OwnIdentity h (pop h st).cp (pop h st).r) := by
  obtain ⟨h1, h2⟩ := popLoop_ctx h (OwnIdentity h) st.currentStackBoundary st.stack hs.2
  exact ⟨⟨hs.1, h1⟩, fun hc => (h2 hc).2.1⟩

theorem StopRule.push {h : Heap} {st : State} (hs : StopRule h st) (c ccr : Nat)
    (hp : OwnIdentity h c ccr) : StopRule h (push h st c ccr).st := by
  refine ⟨?_, push_ctx h _ st c ccr hs.2 hp⟩
  rw [(push_ok h st c ccr).2.2.2.1]; exact hs.1

theorem stackCalls_own (h : Heap) (c ccr : Nat) (hp : OwnIdentity h c ccr) :
    ∀ x ∈ (retainStackCalls h c ccr (h.get c).frames).1, OwnIdentity h x.2.1 x.2.2 := by
  intro x hx
  obtain ⟨e, -⟩ := retainStackCalls_mem h c ccr x hx
  rw [e]; exact hp

theorem pap_own (h : Heap) (c ccr : Nat) (hp : OwnIdentity h c ccr) :
    ∀ x ∈ retain_PAP h c ccr, OwnIdentity h x.2.1 x.2.2 := by
  intro x hx
  obtain ⟨e, -⟩ := retain_PAP_mem h c ccr x hx
  rw [e]; exact hp

theorem stopRule_run (h : Heap) {t : Task} {st st1 : State} (hr : Run h t st st1) :
    StopRule h st → StopRulePre h t → StopRule h st1 := by
  induction hr with
  | out_of_fuel t st => intro hs _; exact hs
  | loop_err he => intro hs _; exact hs.pop.1
  | loop_done he hc => intro hs _; exact hs.pop.1
  | loop_next he hc _ ih => intro hs _; exact ih hs.pop.1 (hs.pop.2 hc)
  | inner_null => intro hs hp; exact hs.log _ _ _ hp
  | inner_skip hc hp _ ih => intro hs ha; exact ih (hs.log _ _ _ ha) trivial
  | inner_follow hc hp _ ih => intro hs ha; exact ih (hs.log _ _ _ ha) ha
  | inner_fail hc hp hf => intro hs ha; exact (hs.log _ _ _ ha).resolve _ _ _
  | inner_stop hc hp hs1 hd _ ih => intro hs ha; exact ih ((hs.log _ _ _ ha).resolve _ _ _) trivial
  | inner_tso_abort hc hp hs1 hd hty _ hab ih =>
    intro hs ha
    exact ih ((hs.log _ _ _ ha).resolve _ _ _)
      (stackCalls_own h _ _ (resolve_descend_retainer h _ _ _ _ _ hd))
  | inner_tso hc hp hs1 hd hty _ hok _ ih1 ih2 =>
    intro hs ha
    exact ih2 (ih1 ((hs.log _ _ _ ha).resolve _ _ _)
      (stackCalls_own h _ _ (resolve_descend_retainer h _ _ _ _ _ hd))) trivial
  | inner_pap_abort hc hp hs1 hd hty _ hab ih =>
    intro hs ha
    exact ih ((hs.log _ _ _ ha).resolve _ _ _)
      (pap_own h _ _ (resolve_descend_retainer h _ _ _ _ _ hd))
  | inner_pap hc hp hs1 hd hty _ hok _ ih1 ih2 =>
    intro hs ha
    exact ih2 (ih1 ((hs.log _ _ _ ha).resolve _ _ _)
      (pap_own h _ _ (resolve_descend_retainer h _ _ _ _ _ hd))) trivial
  | inner_apstack_abort1 hc hp hs1 hd hty _ hab ih =>
    intro hs ha
    refine ih ((hs.log _ _ _ ha).resolve _ _ _) ?_
    intro x hx
    rw [List.mem_singleton.1 hx]
    exact resolve_descend_retainer h _ _ _ _ _ hd
  | inner_apstack_abort2 hc hp hs1 hd hty _ hok _ hab ih1 ih2 =>
    intro hs ha
    refine ih2 (ih1 ((hs.log _ _ _ ha).resolve _ _ _) ?_)
      (stackCalls_own h _ _ (resolve_descend_retainer h _ _ _ _ _ hd))
    intro x hx
    rw [List.mem_singleton.1 hx]
    exact resolve_descend_retainer h _ _ _ _ _ hd
  | inner_apstack hc hp hs1 hd hty _ hok _ hok2 _ ih1 ih2 ih3 =>
    intro hs ha
    refine ih3 (ih2 (ih1 ((hs.log _ _ _ ha).resolve _ _ _) ?_)
      (stackCalls_own h _ _ (resolve_descend_retainer h _ _ _ _ _ hd))) trivial
    intro x hx
    rw [List.mem_singleton.1 hx]
    exact resolve_descend_retainer h _ _ _ _ _ hd
  | inner_push_fail hc hp hs1 hd hss hpf =>
    intro hs ha
    exact ((hs.log _ _ _ ha).resolve _ _ _).push _ _ (resolve_descend_retainer h _ _ _ _ _ hd)
  | inner_push_leaf hc hp hs1 hd hss hps hfc _ ih =>
    intro hs ha
    exact ih (((hs.log _ _ _ ha).resolve _ _ _).push _ _
      (resolve_descend_retainer h _ _ _ _ _ hd)) trivial
  | inner_push_child hc hp hs1 hd hss hps hfc _ ih =>
    intro hs ha
    exact ih (((hs.log _ _ _ ha).resolve _ _ _).push _ _
      (resolve_descend_retainer h _ _ _ _ _ hd)) (resolve_descend_retainer h _ _ _ _ _ hd)
  | calls_nil => intro hs _; exact hs
  | calls_barf => intro hs _; exact hs
  | calls_abort _ hab ih =>
    intro hs hp
    exact ih hs (hp _ (List.mem_cons_self _ _))
  | calls_cons _ hok _ ih1 ih2 =>
    intro hs hp
    exact ih2 (ih1 hs (hp _ (List.mem_cons_self _ _)))
      (fun x hx => hp x (List.mem_cons_of_mem _ hx))
  | stack_abort _ hab ih =>
    intro hs hp
    exact ih (hs.stop_of_eq rfl rfl) hp
  | stack_ok _ hok ih =>
    intro hs hp
    exact (ih (hs.stop_of_eq rfl rfl) hp).stop_of_eq rfl rfl

theorem stopRule_retainRoot (h : Heap) (fuel : Nat) (st : State) (tl : Nat)
    (hs : StopRule h st) : StopRule h (retainRoot h fuel st tl) := by
  have hs1 : StopRule h { st with currentStackBoundary := st.stack.length } := hs.stop_of_eq rfl rfl
  unfold retainRoot
  dsimp only
  split
  · exact hs1
  · exact stopRule_run h (exec_run h fuel _ _) hs1 (fun _ => rfl)
  · rename_i hb
    refine stopRule_run h (exec_run h fuel _ _) hs1 ?_
    intro hb1
    rw [hb] at hb1
    cases hb1

theorem stopRule_retainRoots (h : Heap) (fuel : Nat) (ts : List Nat) (st : State)
    (hs : StopRule h st) : StopRule h (retainRoots h fuel st ts) := by
  induction ts generalizing st with
  | nil => exact hs
  | cons t ts ih =>
    have h1 := stopRule_retainRoot h fuel st t hs
    simp only [retainRoots]
    rcases status_cases (retainRoot h fuel st t) with hf | hf
    · rw [andThen_of_isSome _ _ hf]; exact h1
    · rw [andThen_of_none _ _ hf]
      exact ih _ h1

/-! ## Soundness of the retainer sets is an invariant of the engine -/

section Soundness

variable {h : Heap} {Mid : Nat → Prop} {roots : List Nat}

theorem Thru.append {a x c : Nat} (h1 : Thru h Mid a x) (hx : Mid x) (h2 : Thru h Mid x c) :
    Thru h Mid a c := by
  induction h2 with
  | one he => exact Thru.step h1 hx he
  | step _ hm he ih => exact Thru.step ih hm he

theorem Reach.reach_refl (a : Nat) : Reach h Mid a a := Or.inl rfl

theorem Reach.edge {a c : Nat} (he : c ∈ children h a) : Reach h Mid a c :=
  Or.inr (Thru.one he)

theorem Reach.step {a x c : Nat} (h1 : Reach h Mid a x) (hx : Mid x) (he : c ∈ children h x) :
    Reach h Mid a c := by
  rcases h1 with rfl | h1
  · exact Or.inr (Thru.one he)
  · exact Or.inr (Thru.step h1 hx he)

theorem Reach.reach_trans {a x c : Nat} (h1 : Reach h Mid a x) (hx : Mid x) (h2 : Reach h Mid x c) :
    Reach h Mid a c := by
  rcases h2 with rfl | h2
  · exact h1
  · rcases h1 with rfl | h1
    · exact Or.inr h2
    · exact Or.inr (h1.append hx h2)

theorem Justified.just_trans {x c r : Nat} (hj : Justified h Mid roots x r) (hx : Mid x)
    (hr : Reach h Mid x c) : Justified h Mid roots c r := by
  rcases hj with ⟨t, h1, h2, h3⟩ | ⟨h1, t, h2, h3, h4⟩
  · exact Or.inl ⟨t, h1, h2, h3.reach_trans hx hr⟩
  · exact Or.inr ⟨h1, t, h2, h3, h4.reach_trans hx hr⟩

theorem Justified.own {t c : Nat} (ht : isRetainer h t = some true) (hr : Reach h Mid t c) :
    Justified h Mid roots c (getRetainerFrom h t) :=
  Or.inl ⟨t, ht, rfl, hr⟩

/-- The retainer handed to the children of `c` is justified for them. -/
theorem resolve_childCtx (hMid : ∀ x, isRetainer h x ≠ some true → Mid x)
    (st : State) (c cp r ccr : Nat)
    (hj : Justified h Mid roots c r)
    (hd : (resolve h st c cp r).2 = Decision.descend ccr) : ChildCtx h Mid roots c ccr := by
  have key : ∀ b, isRetainer h c = some b →
      ChildCtx h Mid roots c (if b = true then getRetainerFrom h c else r) := by
    intro b hb x hx
    cases b with
    | true => simpa using Justified.own hb (Reach.edge hx)
    | false =>
      simp only [Bool.false_eq_true, if_false]
      exact hj.just_trans (hMid c (by rw [hb]; simp)) (Reach.edge hx)
  unfold resolve at hd
  split at hd
  · cases hd
  · dsimp only at hd
    split at hd
    · unfold firstVisit at hd
      split at hd
      · cases hd
      · rename_i b hb
        simp only [Decision.descend.injEq] at hd
        rw [← hd]; exact key b hb
    · unfold revisit at hd
      split at hd
      · cases hd
      · split at hd
        · cases hd
        · split at hd
          · cases hd
          · split at hd
            · cases hd
            · rename_i b hb
              split at hd
              · cases hd
              · rename_i hbf
                simp only [Decision.descend.injEq] at hd
                have hb' : b = false := by simpa using hbf
                subst hb'
                rw [← hd]; simpa using key false hb

theorem SoundSlots.of_frame {st st1 : State} {c : Nat} (hs : SoundSlots h Mid roots st)
    (hf : FrameEq c st st1)
    (hc : ∀ S, (st1.rs c).low = st1.flip → (st1.rs c).set = some S →
      ∀ r ∈ S, Justified h Mid roots c r) : SoundSlots h Mid roots st1 := by
  intro a S hl hset
  by_cases hac : a = c
  · subst hac; exact hc S hl hset
  · rw [hf.2.2.2.2 a hac] at hl hset
    rw [hf.1] at hl
    exact hs a S hl hset
theorem GoodSlot.good_fail {st : State} {c : Nat} (hg : GoodSlot h Mid roots st c) (e : Fatal) :
    GoodSlot h Mid roots (st.fail e) c := hg

theorem associate_good (st : State) (c : Nat) (s : RSWord) (hl : s.low = false)
    (hS : ∀ S, s.set = some S → ∀ r ∈ S, Justified h Mid roots c r) :
    GoodSlot h Mid roots (associate st c s) c := by
  constructor
  · simp [hl]
  · intro S hset
    simp only [associate_rs_self] at hset
    exact hS S hset

theorem associate_ptrTo_good (st : State) (c : Nat) (S : RetainerSet)
    (hS : ∀ r ∈ S, Justified h Mid roots c r) :
    GoodSlot h Mid roots (associate st c (ptrTo S)) c := by
  apply associate_good _ _ _ rfl
  intro S1 h1
  simp only [ptrTo, Option.some.injEq] at h1
  subst h1; exact hS

theorem GoodPtr.cases {c : Nat} {s : RSWord} (hp : GoodPtr h Mid roots c s)
    (hn : ¬ s.isNull = true) :
    s.low = false ∧ ∀ S, s.set = some S → ∀ r ∈ S, Justified h Mid roots c r := by
  rcases hp with hp | ⟨hl, S, hS, hj⟩
  · exact absurd hp hn
  · refine ⟨hl, fun S1 h1 => ?_⟩
    rw [hS] at h1; cases h1; exact hj

theorem firstSet_good (st : State) (c r : Nat) (s : RSWord)
    (hp : GoodPtr h Mid roots c s) (hj : Justified h Mid roots c r) :
    GoodSlot h Mid roots (firstSet st c r s) c := by
  unfold firstSet
  split
  · apply associate_ptrTo_good
    intro x hx
    rw [singleton, List.mem_singleton] at hx
    subst hx; exact hj
  · rename_i hn
    obtain ⟨hl, hS⟩ := hp.cases hn
    exact associate_good _ _ _ hl hS

theorem firstVisit_good (st : State) (c r : Nat) (s : RSWord)
    (hp : GoodPtr h Mid roots c s) (hj : Justified h Mid roots c r) :
    GoodSlot h Mid roots (firstVisit h st c r s).1 c := by
  unfold firstVisit
  split
  · exact (firstSet_good _ c r s hp hj).good_fail _
  · exact firstSet_good _ c r s hp hj

theorem growSet_good {st st3 : State} {c r : Nat} {s : RSWord} {rc : RetainerSet}
    (hg : growSet st c r s rc = some st3)
    (hrc : ∀ x ∈ rc, Justified h Mid roots c x)
    (hp : GoodPtr h Mid roots c s) (hj : Justified h Mid roots c r) :
    GoodSlot h Mid roots st3 c := by
  have hadd : GoodSlot h Mid roots (associate st c (ptrTo (addElement r rc))) c := by
    apply associate_ptrTo_good
    intro x hx
    rcases (mem_addElement r x rc).1 hx with rfl | hx
    · exact hj
    · exact hrc x hx
  unfold growSet at hg
  split at hg
  · cases hg; exact hadd
  · rename_i hn
    obtain ⟨hl, hS⟩ := hp.cases hn
    split at hg
    · cases hg
    · split at hg
      · cases hg; exact associate_good _ _ _ hl hS
      · cases hg; exact hadd

theorem revisit_good (st : State) (c r : Nat) (s : RSWord)
    (hc : GoodSlot h Mid roots st c)
    (hp : GoodPtr h Mid roots c s) (hj : Justified h Mid roots c r) :
    GoodSlot h Mid roots (revisit h st c r s (retainerSetOf st c)).1 c := by
  unfold revisit
  split
  · exact hc.good_fail _
  · rename_i rc hd
    have hrc : ∀ x ∈ rc, Justified h Mid roots c x := by
      apply hc.2 rc
      unfold RSWord.deref at hd
      split at hd
      · cases hd
      · exact hd
    split
    · exact hc
    · split
      · exact hc.good_fail _
      · rename_i st3 hg
        have h3 := growSet_good hg hrc hp hj
        split
        · exact h3.good_fail _
        · split <;> exact h3

/-- After `maybeInitRetainerSet` the slot of `c` is valid, and sound if the
  slots were. -/
theorem maybeInit_good (st : State) (c : Nat) (hs : SoundSlots h Mid roots st) :
    GoodSlot h Mid roots (maybeInitRetainerSet (tick st) c) c := by
  constructor
  · rw [maybeInit_low]; simp
  · intro S hset
    by_cases hv : ((tick st).rs c).low = (tick st).flip
    · rw [maybeInit_of_valid _ _ hv] at hset
      exact hs c S hv hset
    · rw [maybeInit_set_of_invalid _ _ hv] at hset
      cases hset

theorem parentSet_good (hMid : ∀ x, isRetainer h x ≠ some true → Mid x)
    (st : State) (c cp r : Nat) (b : Bool)
    (hs : SoundSlots h Mid roots st) (ha : SoundArrival h Mid roots st (c, cp, r))
    (hb : isRetainer h cp = some b) :
    GoodPtr h Mid roots c (parentSet (maybeInitRetainerSet (tick st) c) cp b) := by
  cases b with
  | true => left; rfl
  | false =>
    have hmid : Mid cp := hMid cp (by rw [hb]; simp)
    rw [parentSet_other]
    by_cases hcc : cp = c
    · subst hcc
      have hg : GoodSlot h Mid roots (maybeInitRetainerSet (tick st) cp) cp :=
        maybeInit_good st cp hs
      by_cases hn : (retainerSetOf (maybeInitRetainerSet (tick st) cp) cp).isNull = true
      · exact Or.inl hn
      · right
        have hl : ((maybeInitRetainerSet (tick st) cp).rs cp).low
            = (maybeInitRetainerSet (tick st) cp).flip := hg.1
        rw [retainerSetOf_of_valid _ _ hl] at hn ⊢
        refine ⟨rfl, ?_⟩
        cases hset : ((maybeInitRetainerSet (tick st) cp).rs cp).set with
        | none => simp [RSWord.isNull, hset] at hn
        | some S => exact ⟨S, rfl, hg.2 S hset⟩
    · have hv : (st.rs cp).low = st.flip := by
        rcases ha.2.2 hb with h1 | h1
        · exact absurd h1 hcc
        · exact h1
      have hrs : (maybeInitRetainerSet (tick st) c).rs cp = st.rs cp := by
        rw [maybeInit_rs_other _ _ _ hcc]; rfl
      have hl : ((maybeInitRetainerSet (tick st) c).rs cp).low
          = (maybeInitRetainerSet (tick st) c).flip := by
        rw [hrs]; simpa using hv
      rw [retainerSetOf_of_valid _ _ hl, hrs]
      cases hset : (st.rs cp).set with
      | none => left; simp [RSWord.isNull]
      | some S =>
        right
        refine ⟨rfl, S, rfl, ?_⟩
        intro x hx
        exact (hs cp S hv hset x hx).just_trans hmid ha.2.1

theorem resolve_good (hMid : ∀ x, isRetainer h x ≠ some true → Mid x)
    (st : State) (c cp r : Nat)
    (hs : SoundSlots h Mid roots st) (ha : SoundArrival h Mid roots st (c, cp, r)) :
    GoodSlot h Mid roots (resolve h st c cp r).1 c := by
  have h2 : GoodSlot h Mid roots (maybeInitRetainerSet (tick st) c) c :=
    maybeInit_good st c hs
  unfold resolve
  split
  · exact h2.good_fail _
  · rename_i b hb
    have hp := parentSet_good hMid st c cp r b hs ha hb
    dsimp only
    split
    · exact firstVisit_good _ c r _ hp ha.1
    · exact revisit_good _ c r _ h2 hp ha.1

theorem resolve_sound (hMid : ∀ x, isRetainer h x ≠ some true → Mid x)
    (st : State) (c cp r : Nat)
    (hs : SoundSlots h Mid roots st) (ha : SoundArrival h Mid roots st (c, cp, r)) :
    SoundSlots h Mid roots (resolve h st c cp r).1 ∧ ValidMono st (resolve h st c cp r).1 ∧
    ((resolve h st c cp r).1.rs c).low = (resolve h st c cp r).1.flip := by
  have hg := resolve_good hMid st c cp r hs ha
  have hf := resolve_frame h st c cp r
  refine ⟨hs.of_frame hf (fun S _ hset => hg.2 S hset), ⟨hf.1, ?_⟩, hg.1⟩
  intro a hv
  by_cases hac : a = c
  · subst hac; exact hg.1
  · rw [hf.2.2.2.2 a hac, hf.1]; exact hv
theorem ValidMono.mono_refl (st : State) : ValidMono st st := ⟨rfl, fun _ hv => hv⟩

theorem ValidMono.mono_trans {st st1 st2 : State} (h1 : ValidMono st st1) (h2 : ValidMono st1 st2) :
    ValidMono st st2 :=
  ⟨h2.1.trans h1.1, fun a hv => h2.2 a (h1.2 a hv)⟩

theorem ValidMono.mono_of_eq {st st1 : State} (hf : st1.flip = st.flip) (hr : st1.rs = st.rs) :
    ValidMono st st1 := ⟨hf, fun a hv => by rw [hr, hf]; exact hv⟩

theorem SoundArrival.mono {st st1 : State} {x : Call} (ha : SoundArrival h Mid roots st x)
    (hm : ValidMono st st1) : SoundArrival h Mid roots st1 x :=
  ⟨ha.1, ha.2.1, fun hb => (ha.2.2 hb).imp id (hm.2 _)⟩

theorem SoundInv.sound_of_eq {st st1 : State} (hs : SoundInv h Mid roots st)
    (hf : st1.flip = st.flip) (hr : st1.rs = st.rs) (hk : st1.stack = st.stack) :
    SoundInv h Mid roots st1 := by
  unfold SoundInv SoundSlots
  rw [hf, hr, hk]; exact hs

theorem preFilter_follow {c c1 : Nat} (hMid : ∀ x, isRetainer h x ≠ some true → Mid x)
    (hRel : ∀ x, relocatedThread h x → Mid x)
    (hp : preFilter h c = PreFilter.follow c1) :
    c1 ∈ children h c ∧ Mid c ∧ isRetainer h c ≠ some false := by
  unfold preFilter at hp
  dsimp only at hp
  split at hp
  · rename_i hty
    split at hp
    · cases hp
    · split at hp
      · rename_i hw
        simp only [PreFilter.follow.injEq] at hp
        subst hp
        refine ⟨by simp [children, hty, hw], hRel c ⟨hty, hw⟩, ?_⟩
        simp [isRetainer, typeOf, hty, isRetainerType]
      · cases hp
  · rename_i hty
    simp only [PreFilter.follow.injEq] at hp
    subst hp
    refine ⟨by simp [children, hty], hMid c ?_, ?_⟩ <;>
      simp [isRetainer, typeOf, hty, isRetainerType]
  all_goals first
    | cases hp
    | (split at hp <;> cases hp)

theorem SoundArrival.follow {st : State} {c c1 cp r : Nat}
    (hMid : ∀ x, isRetainer h x ≠ some true → Mid x)
    (hRel : ∀ x, relocatedThread h x → Mid x)
    (ha : SoundArrival h Mid roots st (c, cp, r))
    (hp : preFilter h c = PreFilter.follow c1) : SoundArrival h Mid roots st (c1, cp, r) := by
  obtain ⟨he, hm, hnf⟩ := preFilter_follow hMid hRel hp
  refine ⟨ha.1.just_trans hm (Reach.edge he), ha.2.1.step hm he, fun hb => ?_⟩
  rcases ha.2.2 hb with h1 | h1
  · have h1' : cp = c := h1
    subst h1'
    exact absurd hb hnf
  · exact Or.inr h1

theorem children_tso {c : Nat} (hty : typeOf h c = ClosureType.TSO)
    (hp : preFilter h c = PreFilter.visit) : children h c = stackSlots h c := by
  have hty' : (h.get c).type = ClosureType.TSO := hty
  unfold preFilter at hp
  simp only [hty'] at hp
  split at hp
  · cases hp
  · split at hp
    · cases hp
    · rename_i hw
      simp [children, hty', hw]

theorem SoundInv.after_pop {st : State} (hs : SoundInv h Mid roots st) :
    SoundInv h Mid roots { st with stack := (pop h st).stack } ∧
    ((pop h st).c ≠ 0 →
      SoundArrival h Mid roots st ((pop h st).c, (pop h st).cp, (pop h st).r)) := by
  obtain ⟨h1, h2⟩ := popLoop_ctx h (ChildCtx h Mid roots) st.currentStackBoundary st.stack hs.2.1
  obtain ⟨h3, -⟩ := popLoop_ok h st.currentStackBoundary st.stack (fun se hse => (hs.2.1 se hse).1)
  refine ⟨⟨hs.1, h1, ?_⟩, fun hc => ?_⟩
  · intro se hse
    obtain ⟨-, se0, hse0, e, -⟩ := h3 se hse
    show (st.rs se.c).low = st.flip
    rw [e]; exact hs.2.2 se0 hse0
  · obtain ⟨hm, hctx, se, hse, e⟩ := h2 hc
    refine ⟨hctx _ hm, Reach.edge hm, fun _ => Or.inr ?_⟩
    show (st.rs (pop h st).cp).low = st.flip
    unfold pop
    rw [e]; exact hs.2.2 se hse

theorem SoundInv.after_push {st : State} (hs : SoundInv h Mid roots st) (c ccr : Nat)
    (hv : (st.rs c).low = st.flip) (hctx : ChildCtx h Mid roots c ccr) :
    SoundInv h Mid roots (push h st c ccr).st ∧ ValidMono st (push h st c ccr).st ∧
    ((push h st c ccr).first_child ≠ 0 →
      SoundArrival h Mid roots (push h st c ccr).st ((push h st c ccr).first_child, c, ccr)) := by
  obtain ⟨hrs, hfl, -, -, hstack, hfc⟩ := push_ok h st c ccr
  have hvm : ValidMono st (push h st c ccr).st := ValidMono.mono_of_eq hfl hrs
  refine ⟨⟨?_, push_ctx h _ st c ccr hs.2.1 hctx, ?_⟩, hvm, fun hne => ?_⟩
  · unfold SoundSlots; rw [hrs, hfl]; exact hs.1
  · rw [hrs, hfl]
    rcases hstack with he | ⟨info, he, -⟩
    · rw [he]; exact hs.2.2
    · rw [he]
      intro se hse
      rcases List.mem_cons.1 hse with rfl | hse
      · exact hv
      · exact hs.2.2 se hse
  · refine ⟨hctx _ (hfc hne), Reach.edge (hfc hne), fun _ => Or.inr ?_⟩
    exact hvm.2 c hv

theorem soundArrival_child {st : State} {c ccr x : Nat} (hv : (st.rs c).low = st.flip)
    (hctx : ChildCtx h Mid roots c ccr) (hx : x ∈ children h c) :
    SoundArrival h Mid roots st (x, c, ccr) :=
  ⟨hctx x hx, Reach.edge hx, fun _ => Or.inr hv⟩

theorem stackCalls_sound {st : State} {c ccr : Nat} (hfit : stacksFit h = true)
    (hv : (st.rs c).low = st.flip)
    (hctx : ChildCtx h Mid roots c ccr) (hsub : ∀ x ∈ stackSlots h c, x ∈ children h c) :
    ∀ x ∈ (retainStackCalls h c ccr (h.get c).frames).1, SoundArrival h Mid roots st x := by
  intro x hx
  obtain ⟨e, hm⟩ := retainStackCalls_mem h c ccr x hx
  have : x = (x.1, c, ccr) := by rw [← e]
  rw [this]
  exact soundArrival_child hv hctx
    (hsub _ (retainStackCalls_sound h c ccr _ (stacksFit_frames h hfit c) _ hm))

theorem pap_sound {st : State} {c ccr : Nat} (hv : (st.rs c).low = st.flip)
    (hctx : ChildCtx h Mid roots c ccr)
    (hty : typeOf h c = ClosureType.PAP ∨ typeOf h c = ClosureType.AP) :
    ∀ x ∈ retain_PAP h c ccr, SoundArrival h Mid roots st x := by
  intro x hx
  obtain ⟨e, hm⟩ := retain_PAP_mem h c ccr x hx
  have : x = (x.1, c, ccr) := by rw [← e]
  rw [this]
  rw [retain_PAP_fst] at hm
  refine soundArrival_child hv hctx ?_
  rcases hty with hty | hty <;>
  · have hty' : (h.get c).type = _ := hty
    simpa [children, hty'] using hm
theorem SoundInv.mono_stack {st st1 : State} (hs : SoundInv h Mid roots st)
    (hslots : SoundSlots h Mid roots st1) (hm : ValidMono st st1) (hk : st1.stack = st.stack) :
    SoundInv h Mid roots st1 := by
  refine ⟨hslots, by rw [hk]; exact hs.2.1, ?_⟩
  rw [hk]
  intro se hse
  exact hm.2 _ (hs.2.2 se hse)

theorem SoundInv.after_resolve (hMid : ∀ x, isRetainer h x ≠ some true → Mid x)
    {st : State} {c cp r : Nat} (hs : SoundInv h Mid roots st)
    (ha : SoundArrival h Mid roots st (c, cp, r)) :
    SoundInv h Mid roots (resolve h (logArrival st c cp r) c cp r).1 ∧
    ValidMono st (resolve h (logArrival st c cp r) c cp r).1 ∧
    ((resolve h (logArrival st c cp r) c cp r).1.rs c).low =
      (resolve h (logArrival st c cp r) c cp r).1.flip ∧
    (∀ ccr, (resolve h (logArrival st c cp r) c cp r).2 = Decision.descend ccr →
      ChildCtx h Mid roots c ccr) := by
  have hsL : SoundInv h Mid roots (logArrival st c cp r) := hs.sound_of_eq rfl rfl rfl
  have haL : SoundArrival h Mid roots (logArrival st c cp r) (c, cp, r) := ha
  obtain ⟨h1, h2, h3⟩ := resolve_sound hMid (logArrival st c cp r) c cp r hsL.1 haL
  have hm : ValidMono st (resolve h (logArrival st c cp r) c cp r).1 := h2
  refine ⟨hsL.mono_stack h1 h2 (resolve_frame h _ c cp r).2.1, hm, h3, fun ccr hd => ?_⟩
  exact resolve_childCtx hMid _ c cp r ccr ha.1 hd

theorem sound_run (hfit : stacksFit h = true)
    (hMid : ∀ x, isRetainer h x ≠ some true → Mid x)
    (hRel : ∀ x, relocatedThread h x → Mid x)
    {t : Task} {st st1 : State} (hr : Run h t st st1) :
    SoundInv h Mid roots st → SoundPre h Mid roots st t →
      SoundInv h Mid roots st1 ∧ ValidMono st st1 := by
  induction hr with
  | out_of_fuel t st => intro hs _; exact ⟨hs, ValidMono.mono_refl _⟩
  | loop_err he => intro hs _; exact ⟨hs.after_pop.1, ValidMono.mono_refl _⟩
  | loop_done he hc => intro hs _; exact ⟨hs.after_pop.1, ValidMono.mono_refl _⟩
  | loop_next he hc _ ih =>
    intro hs _
    obtain ⟨i1, i2⟩ := ih hs.after_pop.1 (hs.after_pop.2 hc)
    exact ⟨i1, i2⟩
  | inner_null => intro hs _; exact ⟨hs, ValidMono.mono_refl _⟩
  | inner_skip hc hp _ ih =>
    intro hs _
    exact ih (hs.sound_of_eq rfl rfl rfl) trivial
  | inner_follow hc hp _ ih =>
    intro hs ha
    exact ih (hs.sound_of_eq rfl rfl rfl) (SoundArrival.follow hMid hRel ha hp)
  | inner_fail hc hp hf =>
    intro hs ha
    obtain ⟨r1, r2, -, -⟩ := hs.after_resolve hMid ha
    exact ⟨r1, r2⟩
  | inner_stop hc hp hs1 hd _ ih =>
    intro hs ha
    obtain ⟨r1, r2, -, -⟩ := hs.after_resolve hMid ha
    obtain ⟨i1, i2⟩ := ih r1 trivial
    exact ⟨i1, r2.mono_trans i2⟩
  | inner_tso_abort hc hp hs1 hd hty _ hab ih =>
    intro hs ha
    obtain ⟨r1, r2, r3, r4⟩ := hs.after_resolve hMid ha
    obtain ⟨i1, i2⟩ := ih r1 (stackCalls_sound hfit r3 (r4 _ hd)
      (fun x hx => by rw [children_tso hty hp]; exact hx))
    exact ⟨i1, r2.mono_trans i2⟩
  | inner_tso hc hp hs1 hd hty _ hok _ ih1 ih2 =>
    intro hs ha
    obtain ⟨r1, r2, r3, r4⟩ := hs.after_resolve hMid ha
    obtain ⟨i1, i2⟩ := ih1 r1 (stackCalls_sound hfit r3 (r4 _ hd)
      (fun x hx => by rw [children_tso hty hp]; exact hx))
    obtain ⟨j1, j2⟩ := ih2 i1 trivial
    exact ⟨j1, (r2.mono_trans i2).mono_trans j2⟩
  | inner_pap_abort hc hp hs1 hd hty _ hab ih =>
    intro hs ha
    obtain ⟨r1, r2, r3, r4⟩ := hs.after_resolve hMid ha
    obtain ⟨i1, i2⟩ := ih r1 (pap_sound r3 (r4 _ hd) hty)
    exact ⟨i1, r2.mono_trans i2⟩
  | inner_pap hc hp hs1 hd hty _ hok _ ih1 ih2 =>
    intro hs ha
    obtain ⟨r1, r2, r3, r4⟩ := hs.after_resolve hMid ha
    obtain ⟨i1, i2⟩ := ih1 r1 (pap_sound r3 (r4 _ hd) hty)
    obtain ⟨j1, j2⟩ := ih2 i1 trivial
    exact ⟨j1, (r2.mono_trans i2).mono_trans j2⟩
  | @inner_apstack_abort1 c cp r ccr st st1 hc hp hs1 hd hty _ hab ih =>
    intro hs ha
    obtain ⟨r1, r2, r3, r4⟩ := hs.after_resolve hMid ha
    have hty' : (h.get c).type = ClosureType.AP_STACK := hty
    obtain ⟨i1, i2⟩ := ih r1 (fun x hx => by
      rw [List.mem_singleton.1 hx]
      exact soundArrival_child r3 (r4 _ hd) (by simp [children, hty']))
    exact ⟨i1, r2.mono_trans i2⟩
  | @inner_apstack_abort2 c cp r ccr st st1 st2 hc hp hs1 hd hty _ hok _ hab ih1 ih2 =>
    intro hs ha
    obtain ⟨r1, r2, r3, r4⟩ := hs.after_resolve hMid ha
    have hty' : (h.get c).type = ClosureType.AP_STACK := hty
    obtain ⟨i1, i2⟩ := ih1 r1 (fun x hx => by
      rw [List.mem_singleton.1 hx]
      exact soundArrival_child r3 (r4 _ hd) (by simp [children, hty']))
    obtain ⟨j1, j2⟩ := ih2 i1 (stackCalls_sound hfit (i2.2 c r3) (r4 _ hd)
      (fun x hx => by simp [children, hty', hx]))
    exact ⟨j1, (r2.mono_trans i2).mono_trans j2⟩
  | @inner_apstack c cp r ccr st st1 st2 st3 hc hp hs1 hd hty _ hok _ hok2 _ ih1 ih2 ih3 =>
    intro hs ha
    obtain ⟨r1, r2, r3, r4⟩ := hs.after_resolve hMid ha
    have hty' : (h.get c).type = ClosureType.AP_STACK := hty
    obtain ⟨i1, i2⟩ := ih1 r1 (fun x hx => by
      rw [List.mem_singleton.1 hx]
      exact soundArrival_child r3 (r4 _ hd) (by simp [children, hty']))
    obtain ⟨j1, j2⟩ := ih2 i1 (stackCalls_sound hfit (i2.2 c r3) (r4 _ hd)
      (fun x hx => by simp [children, hty', hx]))
    obtain ⟨k1, k2⟩ := ih3 j1 trivial
    exact ⟨k1, ((r2.mono_trans i2).mono_trans j2).mono_trans k2⟩
  | inner_push_fail hc hp hs1 hd hss hpf =>
    intro hs ha
    obtain ⟨r1, r2, r3, r4⟩ := hs.after_resolve hMid ha
    obtain ⟨p1, p2, -⟩ := r1.after_push _ _ r3 (r4 _ hd)
    exact ⟨p1, r2.mono_trans p2⟩
  | inner_push_leaf hc hp hs1 hd hss hps hfc _ ih =>
    intro hs ha
    obtain ⟨r1, r2, r3, r4⟩ := hs.after_resolve hMid ha
    obtain ⟨p1, p2, -⟩ := r1.after_push _ _ r3 (r4 _ hd)
    obtain ⟨i1, i2⟩ := ih p1 trivial
    exact ⟨i1, (r2.mono_trans p2).mono_trans i2⟩
  | inner_push_child hc hp hs1 hd hss hps hfc _ ih =>
    intro hs ha
    obtain ⟨r1, r2, r3, r4⟩ := hs.after_resolve hMid ha
    obtain ⟨p1, p2, p3⟩ := r1.after_push _ _ r3 (r4 _ hd)
    obtain ⟨i1, i2⟩ := ih p1 (p3 hfc)
    exact ⟨i1, (r2.mono_trans p2).mono_trans i2⟩
  | calls_nil => intro hs _; exact ⟨hs, ValidMono.mono_refl _⟩
  | calls_barf => intro hs _; exact ⟨hs, ValidMono.mono_refl _⟩
  | calls_abort _ hab ih =>
    intro hs hp
    exact ih hs (hp _ (List.mem_cons_self _ _))
  | calls_cons _ hok _ ih1 ih2 =>
    intro hs hp
    obtain ⟨i1, i2⟩ := ih1 hs (hp _ (List.mem_cons_self _ _))
    obtain ⟨j1, j2⟩ := ih2 i1 (fun x hx => (hp x (List.mem_cons_of_mem _ hx)).mono i2)
    exact ⟨j1, i2.mono_trans j2⟩
  | stack_abort _ hab ih =>
    intro hs hp
    obtain ⟨i1, i2⟩ := ih (hs.sound_of_eq rfl rfl rfl) hp
    exact ⟨i1, i2⟩
  | stack_ok _ hok ih =>
    intro hs hp
    obtain ⟨i1, i2⟩ := ih (hs.sound_of_eq rfl rfl rfl) hp
    exact ⟨i1.sound_of_eq rfl rfl rfl, i2⟩
theorem SoundSlots.init (st0 : State) (hinit : ∀ a, readsNull st0 a = true) :
    SoundSlots h Mid roots st0 := by
  intro a S hv hset
  have := hinit a
  rw [readsNull, maybeInit_of_valid _ _ hv, retainerSetOf_of_valid _ _ hv] at this
  simp [RSWord.isNull, hset] at this

theorem sound_retainRoot (hfit : stacksFit h = true)
    (hMid : ∀ x, isRetainer h x ≠ some true → Mid x)
    (hRel : ∀ x, relocatedThread h x → Mid x)
    (fuel : Nat) (st : State) (tl : Nat) (htl : tl ∈ roots)
    (hs : SoundInv h Mid roots st) : SoundInv h Mid roots (retainRoot h fuel st tl) := by
  have hs1 : SoundInv h Mid roots { st with currentStackBoundary := st.stack.length } :=
    hs.sound_of_eq rfl rfl rfl
  unfold retainRoot
  dsimp only
  split
  · exact hs1
  · rename_i hb
    refine (sound_run hfit hMid hRel (exec_run h fuel _ _) hs1 ?_).1
    exact ⟨Justified.own hb (Reach.reach_refl _), Reach.reach_refl _, fun _ => Or.inl rfl⟩
  · rename_i hb
    refine (sound_run hfit hMid hRel (exec_run h fuel _ _) hs1 ?_).1
    exact ⟨Or.inr ⟨rfl, tl, htl, hb, Reach.reach_refl _⟩, Reach.reach_refl _, fun _ => Or.inl rfl⟩

theorem sound_retainRoots (hfit : stacksFit h = true)
    (hMid : ∀ x, isRetainer h x ≠ some true → Mid x)
    (hRel : ∀ x, relocatedThread h x → Mid x)
    (fuel : Nat) (ts : List Nat) (st : State) (hts : ∀ t ∈ ts, t ∈ roots)
    (hs : SoundInv h Mid roots st) : SoundInv h Mid roots (retainRoots h fuel st ts) := by
  induction ts generalizing st with
  | nil => exact hs
  | cons t ts ih =>
    have h1 := sound_retainRoot hfit hMid hRel fuel st t (hts t (List.mem_cons_self _ _)) hs
    simp only [retainRoots]
    rcases status_cases (retainRoot h fuel st t) with hf | hf
    · rw [andThen_of_isSome _ _ hf]; exact h1
    · rw [andThen_of_none _ _ hf]
      exact ih _ (fun x hx => hts x (List.mem_cons_of_mem _ hx)) h1

end Soundness

/-! ## Coverage: what `pop` retrieves -/

theorem restPtrs_cons (pos ptrs : Nat) (payload : List Nat) (hlt : pos < ptrs) :
    restPtrs pos ptrs payload = payload.getD pos 0 :: restPtrs (pos + 1) ptrs payload := by
  unfold restPtrs
  have e : ptrs - pos = (ptrs - (pos + 1)) + 1 := by omega
  rw [e, List.range'_succ]
  rfl

theorem restPtrs_nil (pos ptrs : Nat) (payload : List Nat) (hlt : ¬ pos < ptrs) :
    restPtrs pos ptrs payload = [] := by
  unfold restPtrs
  have e : ptrs - pos = 0 := by omega
  rw [e]; rfl

/-- The step of `find_ptrs` on a position whose pending fields are not `NULL`. -/
theorem find_ptrs_cov (h : Heap) (info info1 : stackPos) (x : Nat)
    (hb : PtrsBound h info) (hnz : ∀ y ∈ pendingPtrs info, y ≠ 0)
    (hf : find_ptrs h info = some (x, info1)) :
    info1.type = info.type ∧ PtrsBound h info1 ∧
    ((x ≠ 0 ∧ pendingPtrs info = x :: pendingPtrs info1) ∨
     (x = 0 ∧ pendingPtrs info = [])) := by
  obtain ⟨pos, ptrs, payload, hn, hty, hcase⟩ := find_ptrs_spec _ _ _ _ hf
  have hbound := hb pos ptrs payload hn
  rcases hcase with ⟨hlt, hx, hn1⟩ | ⟨hlt, h0, hi⟩
  · have hmod : (pos + 1) % 2 ^ h.posBits = pos + 1 := Nat.mod_eq_of_lt (by omega)
    rw [hmod] at hn1
    have hp : pendingPtrs info = x :: pendingPtrs info1 := by
      simp only [pendingPtrs, hn, hn1]
      rw [restPtrs_cons pos ptrs payload hlt, hx]
    refine ⟨hty, ?_, Or.inl ⟨?_, hp⟩⟩
    · intro p q w hw
      rw [hn1] at hw
      cases hw
      exact hbound
    · apply hnz
      rw [hp]
      exact List.mem_cons_self _ _
  · refine ⟨hty, ?_, Or.inr ⟨h0, ?_⟩⟩
    · rw [hi]; exact hb
    · simp only [pendingPtrs, hn]
      exact restPtrs_nil pos ptrs payload hlt

/-- The step of `find_srt` on a position whose pending entries are not `NULL`. -/
theorem find_srt_cov (info info1 : stackPos) (x : Nat)
    (hnz : ∀ y ∈ pendingSRT info, y ≠ 0)
    (hf : find_srt info = some (x, info1)) :
    info1.type = info.type ∧ (∀ pos ptrs payload, info1.next ≠ nextPos.ptrs pos ptrs payload) ∧
    ((x ≠ 0 ∧ pendingSRT info = x :: pendingSRT info1) ∨
     (x = 0 ∧ pendingSRT info = [])) := by
  obtain ⟨rest, hn, hty, hcase⟩ := find_srt_spec _ _ _ hf
  rcases hcase with ⟨tl, hrest, hn1⟩ | ⟨hrest, h0, hi⟩
  · have hp : pendingSRT info = x :: pendingSRT info1 := by
      simp only [pendingSRT, hn, hn1, hrest]
    refine ⟨hty, ?_, Or.inl ⟨?_, hp⟩⟩
    · intro p q w hw
      rw [hn1] at hw
      cases hw
    · apply hnz
      rw [hp]
      exact List.mem_cons_self _ _
  · refine ⟨hty, ?_, Or.inr ⟨h0, ?_⟩⟩
    · intro p q w hw
      rw [hi, hn] at hw
      cases hw
    · simp only [pendingSRT, hn, hrest]

theorem pop_do_srt_cov (h : Heap) (se : stackElement) (info : stackPos)
    (hse : pendingOf h se = pendingSRT info)
    (hnew : ∀ info1 : stackPos, info1.type = info.type →
      pendingOf h { se with info := info1 } = pendingSRT info1)
    (hnz : ∀ y ∈ pendingOf h se, y ≠ 0) :
    PopStepCov h se (pop_do_srt se info) := by
  unfold pop_do_srt
  split
  · rename_i x info1 hf
    rw [hse] at hnz
    obtain ⟨hty, hnp, hcase⟩ := find_srt_cov info info1 x hnz hf
    rcases hcase with ⟨hx, hp⟩ | ⟨hx, hp⟩
    · rw [if_pos hx]
      refine ⟨hx, rfl, ?_, fun p q w hw => absurd hw (hnp p q w)⟩
      rw [hse, hp, hnew info1 hty]
    · rw [if_neg (by simpa using hx)]
      show pendingOf h se = []
      rw [hse, hp]
  · trivial

theorem pop_step_cov (h : Heap) (se : stackElement) (a b : Nat)
    (hse : pendingOf h se =
      match se.info.next with
      | nextPos.step n => if n = 2 then [a, b] else [b]
      | _ => [])
    (hnew : ∀ n, pendingOf h { se with info := { se.info with next := nextPos.step n } } =
      if n = 2 then [a, b] else [b])
    (hnz : ∀ y ∈ pendingOf h se, y ≠ 0) :
    PopStepCov h se
      (match se.info.next with
      | nextPos.step n =>
        if n = 2 then
          PopStep.ret (some { se with info := { se.info with next := nextPos.step (n + 1) } }) a
        else PopStep.ret none b
      | _ => PopStep.bad Fatal.undefined_read) := by
  split
  · rename_i n hn
    rw [hn] at hse
    dsimp only at hse
    split
    · rename_i h2
      rw [if_pos h2] at hse
      subst h2
      refine ⟨?_, rfl, ?_, ?_⟩
      · apply hnz; rw [hse]; exact List.mem_cons_self _ _
      · rw [hse, hnew]; simp
      · intro p q w hw; cases hw
    · rename_i h2
      rw [if_neg h2] at hse
      exact hse
  · trivial

theorem pop_ptrs_cov (h : Heap) (se : stackElement)
    (hnew : ∀ info1 : stackPos, pendingOf h { se with info := info1 } = pendingPtrs info1)
    (hg : SeGood h se) :
    PopStepCov h se
      (match find_ptrs h se.info with
      | some (x, info1) =>
        if x = 0 then PopStep.exhausted
        else PopStep.ret (some { se with info := info1 }) x
      | none => PopStep.bad Fatal.undefined_read) := by
  have hse : pendingOf h se = pendingPtrs se.info := hnew se.info
  split
  · rename_i x info1 hf
    obtain ⟨-, hb1, hcase⟩ := find_ptrs_cov h se.info info1 x hg.2 (by rw [← hse]; exact hg.1) hf
    rcases hcase with ⟨hx, hp⟩ | ⟨hx, hp⟩
    · rw [if_neg hx]
      refine ⟨hx, rfl, ?_, hb1⟩
      rw [hse, hp, hnew info1]
    · rw [if_pos hx]
      show pendingOf h se = []
      rw [hse, hp]
  · trivial

theorem pop_ptrs_srt_cov (h : Heap) (se : stackElement)
    (hnew : ∀ info1 : stackPos, pendingOf h { se with info := info1 } =
      if info1.type = some nextPosType.posTypePtrs then pendingPtrs info1 ++ (h.get se.c).srt
      else pendingSRT info1)
    (hg : SeGood h se) :
    PopStepCov h se
      (match se.info.type with
      | some nextPosType.posTypePtrs =>
        match find_ptrs h se.info with
        | some (x, info1) =>
          if x ≠ 0 then PopStep.ret (some { se with info := info1 }) x
          else pop_do_srt se (init_srt h se.c)
        | none => PopStep.bad Fatal.undefined_read
      | some _ => pop_do_srt se se.info
      | none => PopStep.bad Fatal.undefined_read) := by
  have hse := hnew se.info
  have hse0 : pendingOf h { se with info := se.info } = pendingOf h se := rfl
  rw [hse0] at hse
  split
  · rename_i hty
    rw [if_pos hty] at hse
    split
    · rename_i x info1 hf
      have hnz : ∀ y ∈ pendingPtrs se.info, y ≠ 0 := by
        intro y hy
        apply hg.1
        rw [hse]
        exact List.mem_append_left _ hy
      obtain ⟨hty1, hb1, hcase⟩ := find_ptrs_cov h se.info info1 x hg.2 hnz hf
      rcases hcase with ⟨hx, hp⟩ | ⟨hx, hp⟩
      · rw [if_pos hx]
        refine ⟨hx, rfl, ?_, hb1⟩
        rw [hse, hp, hnew info1, if_pos (hty1.trans hty)]
        rfl
      · rw [if_neg (by simpa using hx)]
        apply pop_do_srt_cov h se _ _ _ hg.1
        · rw [hse, hp]; rfl
        · intro info2 h2
          rw [hnew info2, if_neg]
          rw [h2]; simp [init_srt]
    · trivial
  · rename_i ty hne hty
    have hne' : se.info.type ≠ some nextPosType.posTypePtrs := by
      intro e; rw [hty] at e
      injection e with e
      exact hne e
    rw [if_neg hne'] at hse
    apply pop_do_srt_cov h se _ hse _ hg.1
    intro info2 h2
    rw [hnew info2, if_neg]
    rw [h2]; exact hne'
  · trivial

/-- One iteration of `pop` on an element in order. -/
theorem popStep_cov (h : Heap) (se : stackElement) (hg : SeGood h se) :
    PopStepCov h se (popStep h se) := by
  unfold popStep
  dsimp only
  split
  all_goals first
    | trivial
    | (rename_i heq
       first
        | (show pendingOf h se = _; simp [pendingOf, heq])
        | exact pop_step_cov h se _ _ (by simp [pendingOf, heq]) (by simp [pendingOf, heq]) hg.1
        | exact pop_ptrs_cov h se (fun info1 => by simp [pendingOf, heq]) hg
        | exact pop_ptrs_srt_cov h se (fun info1 => by simp [pendingOf, heq]) hg
        | exact pop_do_srt_cov h se _ (by simp [pendingOf, heq])
            (fun info1 _ => by simp [pendingOf, heq]) hg.1)

/-- The loop of `pop` on a stack of elements in order, not below the
  boundary. -/
theorem popLoop_cov (h : Heap) (b : Nat) (stack : List stackElement)
    (hg : ∀ se ∈ stack, SeGood h se) (hb : b ≤ stack.length) :
    PopCov h b stack (popLoop h b stack) := by
  induction stack with
  | nil =>
    unfold popLoop
    split
    · rename_i h0
      intro _
      refine ⟨?_, ?_, ?_, ?_⟩
      · intro s hs; cases hs
      · intro x y hp; exact Or.inl hp
      · intro _; exact ⟨List.suffix_rfl, h0⟩
      · intro hc; exact absurd rfl hc
    · intro herr; cases herr
  | cons se rest ih =>
    have hrest : ∀ s ∈ rest, SeGood h s := fun s hs => hg s (List.mem_cons_of_mem _ hs)
    have keep : ∀ s ∈ rest, SeGood h s ∧ ∃ s0 ∈ se :: rest, s.c = s0.c :=
      fun s hs => ⟨hrest s hs, s, List.mem_cons_of_mem _ hs, rfl⟩
    have hse := hg se (List.mem_cons_self _ _)
    have hstep := popStep_cov h se hse
    unfold popLoop
    split
    · rename_i hlen
      intro _
      exact ⟨fun s hs => ⟨hg s hs, s, hs, rfl⟩, fun x y hp => Or.inl hp,
        fun _ => ⟨List.suffix_rfl, hlen⟩, fun hc => absurd rfl hc⟩
    · rename_i hlen
      have hb1 : b ≤ rest.length := by
        simp only [List.length_cons] at hlen hb
        omega
      split
      · rename_i se1 x hps
        rw [hps] at hstep
        obtain ⟨hx, hc1, hpend, hpb⟩ := hstep
        intro _
        refine ⟨?_, ?_, fun hc => absurd hc hx, fun _ => ⟨⟨se, List.mem_cons_self _ _, rfl⟩,
          rest, List.suffix_cons _ _, hb1, Or.inr ⟨se1, rfl⟩⟩⟩
        · intro s hs
          rcases List.mem_cons.1 hs with rfl | hs
          · refine ⟨⟨fun y hy => hse.1 y ?_, hpb⟩, se, List.mem_cons_self _ _, hc1⟩
            rw [hpend]; exact List.mem_cons_of_mem _ hy
          · exact keep s hs
        · rintro a y ⟨s, hs, hsc, hy⟩
          rcases List.mem_cons.1 hs with rfl | hs
          · rw [hpend] at hy
            rcases List.mem_cons.1 hy with rfl | hy
            · exact Or.inr ⟨hx, rfl⟩
            · exact Or.inl ⟨se1, List.mem_cons_self _ _, hc1.trans hsc, hy⟩
          · exact Or.inl ⟨s, List.mem_cons_of_mem _ hs, hsc, hy⟩
      · rename_i x hps
        rw [hps] at hstep
        have hpend : pendingOf h se = [x] := hstep
        have hx : x ≠ 0 := hse.1 x (by rw [hpend]; exact List.mem_cons_self _ _)
        intro _
        refine ⟨keep, ?_, fun hc => absurd hc hx, fun _ => ⟨⟨se, List.mem_cons_self _ _, rfl⟩,
          rest, List.suffix_cons _ _, hb1, Or.inl rfl⟩⟩
        rintro a y ⟨s, hs, hsc, hy⟩
        rcases List.mem_cons.1 hs with rfl | hs
        · rw [hpend] at hy
          rcases List.mem_cons.1 hy with rfl | hy
          · exact Or.inr ⟨hx, rfl⟩
          · cases hy
        · exact Or.inl ⟨s, hs, hsc, hy⟩
      · rename_i hps
        rw [hps] at hstep
        have hpend : pendingOf h se = [] := hstep
        have i0 := ih hrest hb1
        intro herr
        obtain ⟨i1, i2, i3, i4⟩ := i0 herr
        refine ⟨fun s hs => ?_, ?_, fun hc => ?_, fun hc => ?_⟩
        · obtain ⟨a, s0, hs0, e⟩ := i1 s hs
          exact ⟨a, s0, List.mem_cons_of_mem _ hs0, e⟩
        · rintro a y ⟨s, hs, hsc, hy⟩
          rcases List.mem_cons.1 hs with rfl | hs
          · rw [hpend] at hy; cases hy
          · exact i2 a y ⟨s, hs, hsc, hy⟩
        · obtain ⟨j1, j2⟩ := i3 hc
          exact ⟨j1.trans (List.suffix_cons _ _), j2⟩
        · obtain ⟨⟨s0, hs0, e⟩, r1, j1, j2, j3⟩ := i4 hc
          exact ⟨⟨s0, List.mem_cons_of_mem _ hs0, e⟩, r1, j1.trans (List.suffix_cons _ _), j2, j3⟩
      · intro herr; cases herr

/-! ## Coverage: what `push` records -/

theorem ptrFields_eq (cl : Closure) : ptrFields cl = restPtrs 0 cl.ptrs cl.payload := by
  unfold ptrFields restPtrs
  rw [List.range_eq_range']
  rfl

theorem PushCov.cov_leaf (h : Heap) (st : State) (c : Nat) (hch : children h c = []) :
    PushCov h st c { st := st, first_child := 0 } := by
  intro _
  exact ⟨rfl, rfl, rfl, Or.inl ⟨rfl, by simpa using hch⟩⟩

theorem PushCov.cov_single (h : Heap) (st : State) (c x : Nat) (hch : children h c = [x])
    (hc0 : 0 ∉ children h c) : PushCov h st c { st := st, first_child := x } := by
  intro _
  have hx : x ≠ 0 := by
    intro e; apply hc0; rw [hch, e]; exact List.mem_cons_self _ _
  exact ⟨rfl, rfl, rfl, Or.inl ⟨rfl, by simpa [hx] using hch⟩⟩

theorem PushCov.cov_pushed (h : Heap) (st : State) (c ccr x : Nat) (info : stackPos)
    (hch : children h c = x :: pendingOf h { c := c, c_child_r := ccr, info := info })
    (hb : PtrsBound h info) (hc0 : 0 ∉ children h c) :
    PushCov h st c
      { st := pushElement st { c := c, c_child_r := ccr, info := info }, first_child := x } := by
  intro _
  refine ⟨rfl, rfl, rfl, Or.inr ⟨_, rfl, rfl, ⟨?_, hb⟩, ?_, hch⟩⟩
  · intro y hy e
    apply hc0; rw [hch, ← e]; exact List.mem_cons_of_mem _ hy
  · intro e; apply hc0; rw [hch]
    have e' : x = 0 := e
    rw [e']; exact List.mem_cons_self _ _

theorem PushCov.cov_failed (h : Heap) (st : State) (c : Nat) (e : Fatal) :
    PushCov h st c { st := st.fail e, first_child := 0 } := by
  intro hs; cases hs

theorem push_srt_only_cov (h : Heap) (st : State) (c ccr : Nat)
    (hch : children h c = (h.get c).srt)
    (hnew : ∀ info1 : stackPos, info1.type = some nextPosType.posTypeSRT →
      pendingOf h { c := c, c_child_r := ccr, info := info1 } = pendingSRT info1)
    (hc0 : 0 ∉ children h c) :
    PushCov h st c (push_srt_only h st c ccr) := by
  unfold push_srt_only
  split
  · rename_i first info hf
    have hnz : ∀ y ∈ pendingSRT (init_srt h c), y ≠ 0 := by
      intro y hy e
      apply hc0; rw [hch, ← e]; exact hy
    obtain ⟨hty, hnp, hcase⟩ := find_srt_cov _ info first hnz hf
    have hinit : pendingSRT (init_srt h c) = (h.get c).srt := rfl
    rcases hcase with ⟨hx, hp⟩ | ⟨hx, hp⟩
    · rw [if_neg hx]
      apply PushCov.cov_pushed h st c ccr first info _ _ hc0
      · rw [hch, ← hinit, hp, hnew info (by rw [hty]; rfl)]
      · intro p q w hw; exact absurd hw (hnp p q w)
    · rw [if_pos hx]
      apply PushCov.cov_leaf
      rw [hch, ← hinit, hp]
  · exact PushCov.cov_failed h st c _

theorem init_ptrs_bound (h : Heap) (ptrs : Nat) (payload : List Nat) :
    PtrsBound h (init_ptrs h ptrs payload) := by
  intro p q w hw
  simp only [init_ptrs, nextPos.ptrs.injEq] at hw
  rw [← hw.2.1]
  exact Nat.mod_lt _ (Nat.pos_pow_of_pos _ (by decide))

theorem init_ptrs_pending (h : Heap) (cl : Closure) (hpt : cl.ptrs < 2 ^ h.posBits) :
    pendingPtrs (init_ptrs h cl.ptrs cl.payload) = ptrFields cl := by
  simp only [pendingPtrs, init_ptrs, Nat.mod_eq_of_lt hpt, ptrFields_eq]

theorem push_ptrs_cov (h : Heap) (st : State) (c ccr : Nat)
    (hch : children h c = ptrFields (h.get c))
    (hnew : ∀ info1 : stackPos,
      pendingOf h { c := c, c_child_r := ccr, info := info1 } = pendingPtrs info1)
    (hc0 : 0 ∉ children h c) (hpt : (h.get c).ptrs < 2 ^ h.posBits) :
    PushCov h st c
      (match find_ptrs h (init_ptrs h (h.get c).ptrs (h.get c).payload) with
      | some (first, info) =>
        if first = 0 then { st := st, first_child := 0 }
        else { st := pushElement st { c := c, c_child_r := ccr, info := info },
               first_child := first }
      | none => { st := st.fail Fatal.undefined_read, first_child := 0 }) := by
  have hinit := init_ptrs_pending h (h.get c) hpt
  split
  · rename_i first info hf
    have hnz : ∀ y ∈ pendingPtrs (init_ptrs h (h.get c).ptrs (h.get c).payload), y ≠ 0 := by
      intro y hy e
      apply hc0; rw [hch, ← hinit, ← e]; exact hy
    obtain ⟨-, hb1, hcase⟩ := find_ptrs_cov h _ info first (init_ptrs_bound h _ _) hnz hf
    rcases hcase with ⟨hx, hp⟩ | ⟨hx, hp⟩
    · rw [if_neg hx]
      apply PushCov.cov_pushed h st c ccr first info _ hb1 hc0
      rw [hch, ← hinit, hp, hnew info]
    · rw [if_pos hx]
      apply PushCov.cov_leaf
      rw [hch, ← hinit, hp]
  · exact PushCov.cov_failed h st c _

theorem push_ptrs_srt_cov (h : Heap) (st : State) (c ccr : Nat)
    (hch : children h c = ptrFields (h.get c) ++ (h.get c).srt)
    (hnew : ∀ info1 : stackPos,
      pendingOf h { c := c, c_child_r := ccr, info := info1 } =
        if info1.type = some nextPosType.posTypePtrs then pendingPtrs info1 ++ (h.get c).srt
        else pendingSRT info1)
    (hc0 : 0 ∉ children h c) (hpt : (h.get c).ptrs < 2 ^ h.posBits) :
    PushCov h st c
      (match find_ptrs h (init_ptrs h (h.get c).ptrs (h.get c).payload) with
      | some (first, info) =>
        if first = 0 then push_srt_only h st c ccr
        else { st := pushElement st { c := c, c_child_r := ccr, info := info },
               first_child := first }
      | none => { st := st.fail Fatal.undefined_read, first_child := 0 }) := by
  have hinit := init_ptrs_pending h (h.get c) hpt
  split
  · rename_i first info hf
    have hnz : ∀ y ∈ pendingPtrs (init_ptrs h (h.get c).ptrs (h.get c).payload), y ≠ 0 := by
      intro y hy e
      apply hc0; rw [hch, ← hinit, ← e]; exact List.mem_append_left _ hy
    obtain ⟨hty, hb1, hcase⟩ := find_ptrs_cov h _ info first (init_ptrs_bound h _ _) hnz hf
    rcases hcase with ⟨hx, hp⟩ | ⟨hx, hp⟩
    · rw [if_neg hx]
      apply PushCov.cov_pushed h st c ccr first info _ hb1 hc0
      rw [hch, ← hinit, hp, hnew info, if_pos (by rw [hty]; rfl)]
      rfl
    · rw [if_pos hx]
      apply push_srt_only_cov h st c ccr _ _ hc0
      · rw [hch, ← hinit, hp]; rfl
      · intro info1 h1
        rw [hnew info1, if_neg]
        rw [h1]; simp
  · exact PushCov.cov_failed h st c _

/-- The function `push` on a closure with no `NULL` child reference, whose
  number of pointer fields fits the position field. -/
theorem push_cov_at (h : Heap) (st : State) (c ccr : Nat) (hc0 : 0 ∉ children h c)
    (hpt : (h.get c).ptrs < 2 ^ h.posBits) :
    PushCov h st c (push h st c ccr) := by
  unfold push
  dsimp only
  split
  all_goals first
    | exact PushCov.cov_failed h st c _
    | (rename_i heq
       first
        | exact PushCov.cov_leaf h st c (by simp [children, heq])
        | exact PushCov.cov_single h st c _ (by simp [children, heq]) hc0
        | exact PushCov.cov_pushed h st c ccr _ _
            (by simp [children, pendingOf, heq, stackPos.uninit, init_srt, pendingSRT])
            (by intro p q w hw; simp [stackPos.uninit, init_srt] at hw) hc0
        | exact push_srt_only_cov h st c ccr (by simp [children, heq])
            (fun info1 h1 => by simp [pendingOf, heq, h1]) hc0
        | exact push_ptrs_cov h st c ccr (by simp [children, heq])
            (fun info1 => by simp [pendingOf, heq]) hc0 hpt
        | exact push_ptrs_srt_cov h st c ccr (by simp [children, heq])
            (fun info1 => by simp [pendingOf, heq]) hc0 hpt)

/-- The function `push` on a well-formed heap. -/
theorem push_cov (h : Heap) (hwf : WF h) (st : State) (c ccr : Nat) :
    PushCov h st c (push h st c ccr) :=
  push_cov_at h st c ccr (hwf c).1 (hwf c).2

/-! ## Coverage: the retainer-set resolution -/

theorem visited_iff (st : State) (c : Nat) :
    visited st c = true ↔ (st.rs c).low = st.flip ∧ (st.rs c).set.isSome = true := by
  unfold visited
  rw [Bool.and_eq_true, valid_iff]

theorem visited_of_slot (st : State) (c : Nat) (S : RetainerSet)
    (hs : st.rs c = { set := some S, low := st.flip }) : visited st c = true := by
  rw [visited_iff, hs]
  exact ⟨rfl, rfl⟩

/-- A slot that does not read as uninitialised is valid and holds a set. -/
theorem visited_of_not_readsNull (st : State) (c : Nat) (hn : readsNull st c = false) :
    visited st c = true := by
  rw [visited_iff]
  unfold readsNull at hn
  by_cases hv : (st.rs c).low = st.flip
  · rw [maybeInit_of_valid st c hv, retainerSetOf_of_valid st c hv] at hn
    refine ⟨hv, ?_⟩
    cases hset : (st.rs c).set with
    | none => simp [RSWord.isNull, hset] at hn
    | some S => rfl
  · have e : (retainerSetOf (maybeInitRetainerSet st c) c).isNull = true := by
      have hl := maybeInit_low st c
      have hs := maybeInit_set_of_invalid st c hv
      have hf : (maybeInitRetainerSet st c).flip = st.flip := by simp
      rw [retainerSetOf_of_valid _ c (by rw [hl, hf])]
      simp [RSWord.isNull, hs]
    rw [e] at hn
    cases hn

/-- The pointer `s` computed for a parent in order is `NULL` or a proper
  pointer to a set. -/
theorem parentSet_proper (h : Heap) (st : State) (c cp : Nat) (b : Bool)
    (hcp : isRetainer h cp = some b) (hpar : ParentOK h st c cp) :
    (parentSet (maybeInitRetainerSet (tick st) c) cp b).isNull = true ∨
    ((parentSet (maybeInitRetainerSet (tick st) c) cp b).low = false ∧
      (parentSet (maybeInitRetainerSet (tick st) c) cp b).set.isSome = true) := by
  cases b with
  | true => left; rfl
  | false =>
    have hv : ((maybeInitRetainerSet (tick st) c).rs cp).low =
        (maybeInitRetainerSet (tick st) c).flip := by
      by_cases e : cp = c
      · subst e
        rw [maybeInit_low]; simp
      · rcases hpar hcp with e1 | hv
        · exact absurd e1 e
        · rw [maybeInit_rs_other _ _ _ e]
          simpa using hv
    rw [parentSet_other, retainerSetOf_of_valid _ _ hv]
    cases hset : ((maybeInitRetainerSet (tick st) c).rs cp).set with
    | none => left; simp [RSWord.isNull]
    | some S => right; exact ⟨rfl, rfl⟩

theorem firstVisit_cov (h : Heap) (st : State) (c r : Nat) (s : RSWord)
    (hs : s.isNull = true ∨ (s.low = false ∧ s.set.isSome = true))
    (hok : (firstVisit h st c r s).1.status = none) :
    visited (firstVisit h st c r s).1 c = true ∧ (firstVisit h st c r s).2 ≠ Decision.stop := by
  have hslot := firstVisit_slot h st c r s
  have hfl : (firstVisit h st c r s).1.flip = st.flip := (firstVisit_frame h st c r s).1
  constructor
  · rw [visited_iff, hslot, hfl]
    rcases hs with hn | ⟨hl, hsome⟩
    · rw [if_pos hn]; exact ⟨rfl, rfl⟩
    · by_cases hn : s.isNull = true
      · rw [if_pos hn]; exact ⟨rfl, rfl⟩
      · rw [if_neg hn]
        exact ⟨by simp [hl], hsome⟩
  · unfold firstVisit at hok ⊢
    dsimp only at hok ⊢
    split
    · rename_i hc
      rw [hc] at hok
      cases hok
    · intro e; cases e

theorem revisit_cov (h : Heap) (st : State) (c r : Nat) (s : RSWord)
    (hv : visited st c = true)
    (hok : (revisit h st c r s (retainerSetOf st c)).1.status = none) :
    visited (revisit h st c r s (retainerSetOf st c)).1 c = true := by
  unfold revisit at hok ⊢
  split
  · rename_i hd
    rw [hd] at hok
    cases hok
  · rename_i rc hd
    rw [hd] at hok
    dsimp only at hok ⊢
    split
    · exact hv
    · rename_i hm
      rw [if_neg hm] at hok
      have hm' : isMember r rc = false := by simpa using hm
      split
      · rename_i hg
        rw [hg] at hok
        cases hok
      · rename_i st3 hg
        rw [hg] at hok
        dsimp only at hok
        obtain ⟨rc1, hslot, -⟩ := growSet_slot hg hm'
        have hfl : st3.flip = st.flip := (growSet_frame hg).1
        have hv3 : visited st3 c = true := visited_of_slot st3 c rc1 (by rw [hslot, hfl])
        split
        · rename_i hc
          rw [hc] at hok
          cases hok
        · split <;> exact hv3

/-- The resolution for an arrival whose parent is in order: when it ends without
  a fatal outcome the closure is visited, and it decides to stop only for a
  closure that was visited before. -/
theorem resolve_cov (h : Heap) (st : State) (c cp r : Nat) (hpar : ParentOK h st c cp)
    (hok : (resolve h st c cp r).1.status = none) :
    visited (resolve h st c cp r).1 c = true ∧
    ((resolve h st c cp r).2 = Decision.stop → visited st c = true) := by
  cases hcp : isRetainer h cp with
  | none =>
    rw [resolve_barf h st c cp r hcp] at hok
    cases hok
  | some b =>
    cases hn : readsNull st c with
    | true =>
      rw [resolve_first h st c cp r b hcp hn] at hok ⊢
      obtain ⟨h1, h2⟩ := firstVisit_cov h _ c r _ (parentSet_proper h st c cp b hcp hpar) hok
      exact ⟨h1, fun e => absurd e h2⟩
    | false =>
      have hv := visited_of_not_readsNull st c hn
      have hv2 : visited (maybeInitRetainerSet (tick st) c) c = true := by
        rw [visited_iff] at hv
        rw [maybeInit_of_valid (tick st) c (by simpa using hv.1)]
        rw [visited_iff]; simpa using hv
      rw [resolve_revisit h st c cp r b hcp hn] at hok ⊢
      exact ⟨revisit_cov h _ c r _ hv2 hok, fun _ => hv⟩

/-! ## Coverage: the invariant -/

theorem VisitedMono.vm_refl (st : State) : VisitedMono st st :=
  ⟨rfl, fun _ hv => hv, fun _ hv => hv⟩

theorem VisitedMono.vm_trans {st st1 st2 : State} (h1 : VisitedMono st st1)
    (h2 : VisitedMono st1 st2) : VisitedMono st st2 :=
  ⟨h2.1.trans h1.1, fun a hv => h2.2.1 a (h1.2.1 a hv), fun a hv => h2.2.2 a (h1.2.2 a hv)⟩

theorem visited_congr {st st1 : State} (hrs : st1.rs = st.rs) (hfl : st1.flip = st.flip)
    (a : Nat) : visited st1 a = visited st a := by
  unfold visited isRetainerSetFieldValid
  rw [hrs, hfl]

theorem VisitedMono.vm_of_eq {st st1 : State} (hrs : st1.rs = st.rs) (hfl : st1.flip = st.flip) :
    VisitedMono st st1 :=
  ⟨hfl, fun a hv => by rw [hrs, hfl]; exact hv, fun a hv => by rw [visited_congr hrs hfl]; exact hv⟩

theorem VisitedMono.vm_of_frame {c : Nat} {st st1 : State} (hf : FrameEq c st st1)
    (hv : visited st1 c = true) : VisitedMono st st1 := by
  refine ⟨hf.1, fun a ha => ?_, fun a ha => ?_⟩
  · by_cases e : a = c
    · subst e; exact ((visited_iff _ _).1 hv).1
    · rw [hf.2.2.2.2 a e, hf.1]; exact ha
  · by_cases e : a = c
    · subst e; exact hv
    · rw [visited_iff] at ha ⊢
      rw [hf.2.2.2.2 a e, hf.1]; exact ha

/-- A closure that a resolution for `c` makes visited is `c`. -/
theorem new_visited_eq {c x : Nat} {st st1 : State} (hf : FrameEq c st st1)
    (h1 : visited st1 x = true) (h0 : visited st x = false) : x = c := by
  by_contra e
  rw [visited_iff] at h1
  rw [hf.2.2.2.2 x e, hf.1, ← visited_iff] at h1
  rw [h1] at h0
  cases h0

theorem Settled.settled_mono {h : Heap} {st st1 : State} {T T1 : Nat → Prop}
    (hm : ∀ a, visited st a = true → visited st1 a = true)
    (hT : ∀ y, T y → Settled h st1 T1 y) {y : Nat} (hs : Settled h st T y) :
    Settled h st1 T1 y := by
  induction hs with
  | target ht => exact hT _ ht
  | skip hp => exact Settled.skip hp
  | seen hp hv => exact Settled.seen hp (hm _ hv)
  | via hp _ ih => exact Settled.via hp ih

theorem Settled.visited_of_visit {h : Heap} {st : State} {y : Nat}
    (hs : Settled h st noTarget y) (hp : preFilter h y = PreFilter.visit) :
    visited st y = true := by
  cases hs with
  | target ht => exact absurd ht (fun f => f)
  | skip hq => rw [hp] at hq; cases hq
  | seen _ hv => exact hv
  | via hq _ => rw [hp] at hq; cases hq

/-- The step of the invariant: the closed state `st` gives the closed state
  `st1` when visited closures stay visited, targets and pending children are
  settled or pending in `st1`, and the children of newly visited closures are
  settled or pending. -/
theorem Closed.closed_next {h : Heap} {st st1 : State} {T T1 : Nat → Prop}
    (hc : Closed h st T)
    (hm : ∀ a, visited st a = true → visited st1 a = true)
    (hT : ∀ y, T y → Settled h st1 T1 y)
    (hpend : ∀ x y, Pending h st.stack x y → Settled h st1 T1 y ∨ Pending h st1.stack x y)
    (hnew : ∀ x, visited st1 x = true → visited st x = false →
      preFilter h x = PreFilter.visit →
      ∀ y ∈ children h x, Settled h st1 T1 y ∨ Pending h st1.stack x y) :
    Closed h st1 T1 := by
  intro x hx hp y hy
  cases hv : visited st x with
  | false => exact hnew x hx hv hp y hy
  | true =>
    rcases hc x hv hp y hy with hs | hpd
    · exact Or.inl (hs.settled_mono hm hT)
    · exact hpend x y hpd

theorem StackGood.sg_mono {h : Heap} {st st1 : State} (hg : StackGood h st)
    (hm : VisitedMono st st1) (hstack : st1.stack = st.stack) : StackGood h st1 := by
  intro se hse
  rw [hstack] at hse
  exact ⟨(hg se hse).1, hm.2.1 _ (hg se hse).2⟩

theorem suffix_of_cons {α : Type} {l rest : List α} {a : α} (hs : l <:+ a :: rest)
    (hl : l.length ≤ rest.length) : l <:+ rest := by
  rcases List.suffix_cons_iff.1 hs with e | hs
  · rw [e] at hl
    simp only [List.length_cons] at hl
    omega
  · exact hs

/-- The stack slots of the owner that hold a reference are among the objects
  that the walk of its stack retains, when the run of the walk ends normally. -/
theorem stackCalls_cover {h : Heap} {c ccr : Nat} {st st1 : State}
    (hr : Run h (Task.stack (retainStackCalls h c ccr (h.get c).frames).1
      (retainStackCalls h c ccr (h.get c).frames).2) st st1) (hok : st1.status = none) :
    ∀ y ∈ stackSlots h c, y ∈ (retainStackCalls h c ccr (h.get c).frames).1.map Prod.fst :=
  retainStackCalls_cover h c ccr _ (run_stack_walk_ok hr hok)

/-- An object that `retainClosure` follows is not a non-retainer, and its
  only child reference is the object it is followed to. -/
theorem follow_cov {h : Heap} {c c1 : Nat} (hp : preFilter h c = PreFilter.follow c1) :
    children h c = [c1] ∧ isRetainer h c ≠ some false := by
  unfold preFilter at hp
  dsimp only at hp
  split at hp
  · rename_i hty
    split at hp
    · cases hp
    · split at hp
      · rename_i hw
        cases hp
        constructor
        · simp [children, hty, hw]
        · simp [isRetainer, typeOf, hty, isRetainerType]
      · cases hp
  · rename_i hty
    cases hp
    constructor
    · simp [children, hty]
    · simp [isRetainer, typeOf, hty, isRetainerType]
  all_goals first
    | cases hp
    | (split at hp <;> cases hp)

theorem ParentOK.parent_follow {h : Heap} {st : State} {c c1 cp : Nat}
    (hpar : ParentOK h st c cp) (hp : preFilter h c = PreFilter.follow c1) :
    ParentOK h st c1 cp := by
  intro hcp
  rcases hpar hcp with e | hv
  · subst e
    exact absurd hcp (follow_cov hp).2
  · exact Or.inr hv

/-- The closed state after the resolution for `c`: in a state `s2` with the
  slots of the state after the resolution, in which the pending children are
  still pending, and the children of `c`, if `c` was not visited before, are
  targets or pending. -/
theorem Closed.closed_after_resolve {h : Heap} {st s2 : State} {c cp r : Nat} {T T1 : Nat → Prop}
    (hcl : Closed h st (fun y => T y ∨ y ∈ [c]))
    (hpar : ParentOK h st c cp) (hp : preFilter h c = PreFilter.visit)
    (hok : (resolve h (logArrival st c cp r) c cp r).1.status = none)
    (hrs : s2.rs = (resolve h (logArrival st c cp r) c cp r).1.rs)
    (hfl : s2.flip = (resolve h (logArrival st c cp r) c cp r).1.flip)
    (hT : ∀ y, T y → T1 y)
    (hpend : ∀ x y, Pending h st.stack x y → Pending h s2.stack x y)
    (hch : visited st c = false → ∀ y ∈ children h c, T1 y ∨ Pending h s2.stack c y) :
    Closed h s2 T1 ∧ visited s2 c = true ∧ VisitedMono st s2 := by
  have hres := resolve_cov h (logArrival st c cp r) c cp r hpar hok
  have hfr : FrameEq c (logArrival st c cp r) (resolve h (logArrival st c cp r) c cp r).1 :=
    resolve_frame h _ c cp r
  have hvm1 : VisitedMono (logArrival st c cp r) (resolve h (logArrival st c cp r) c cp r).1 :=
    VisitedMono.vm_of_frame hfr hres.1
  have hvm0 : VisitedMono st (resolve h (logArrival st c cp r) c cp r).1 :=
    ⟨hvm1.1, hvm1.2.1, hvm1.2.2⟩
  have hvm : VisitedMono st s2 := hvm0.vm_trans (VisitedMono.vm_of_eq hrs hfl)
  have hvc : visited s2 c = true := by rw [visited_congr hrs hfl]; exact hres.1
  refine ⟨?_, hvc, hvm⟩
  apply hcl.closed_next hvm.2.2
  · intro y hy
    rcases hy with hy | hy
    · exact Settled.target (hT y hy)
    · have e : y = c := by simpa using hy
      rw [e]
      exact Settled.seen hp hvc
  · intro x y hpd; exact Or.inr (hpend x y hpd)
  · intro x hx hv _ y hy
    rw [visited_congr hrs hfl] at hx
    have e : x = c := new_visited_eq hfr hx hv
    subst e
    rcases hch hv y hy with ht | hpd
    · exact Or.inl (Settled.target ht)
    · exact Or.inr hpd

theorem Closed.retarget {h : Heap} {st st1 : State} {T T1 : Nat → Prop}
    (hc : Closed h st T) (hrs : st1.rs = st.rs) (hfl : st1.flip = st.flip)
    (hstack : st1.stack = st.stack) (hT : ∀ y, T y → Settled h st1 T1 y) :
    Closed h st1 T1 := by
  refine hc.closed_next ?_ hT ?_ ?_
  · intro a ha; rw [visited_congr hrs hfl]; exact ha
  · intro x y hp; right; rw [hstack]; exact hp
  · intro x hx hv
    rw [visited_congr hrs hfl, hv] at hx
    cases hx

theorem resolve_keep (h : Heap) (st : State) (c cp r : Nat) :
    (resolve h (logArrival st c cp r) c cp r).1.stack = st.stack ∧
    (resolve h (logArrival st c cp r) c cp r).1.currentStackBoundary =
      st.currentStackBoundary :=
  ⟨(resolve_frame h (logArrival st c cp r) c cp r).2.1,
   (resolve_frame h (logArrival st c cp r) c cp r).2.2.1⟩

/-- The state after the resolution for `c`, when the traversal goes on with
  the targets `L` that cover the children of `c`. -/
theorem cover_descend {h : Heap} {st : State} {c cp r : Nat} {T : Nat → Prop} (L : List Nat)
    (hcl : Closed h st (fun y => T y ∨ y ∈ [c])) (hg : StackGood h st)
    (hb : st.currentStackBoundary ≤ st.stack.length)
    (hpar : ParentOK h st c cp) (hp : preFilter h c = PreFilter.visit)
    (hok : (resolve h (logArrival st c cp r) c cp r).1.status = none)
    (hch : visited st c = false → ∀ y ∈ children h c, y ∈ L) :
    Closed h (resolve h (logArrival st c cp r) c cp r).1 (fun y => T y ∨ y ∈ L) ∧
    visited (resolve h (logArrival st c cp r) c cp r).1 c = true ∧
    VisitedMono st (resolve h (logArrival st c cp r) c cp r).1 ∧
    StackGood h (resolve h (logArrival st c cp r) c cp r).1 ∧
    (resolve h (logArrival st c cp r) c cp r).1.currentStackBoundary ≤
      (resolve h (logArrival st c cp r) c cp r).1.stack.length := by
  obtain ⟨k1, k2⟩ := resolve_keep h st c cp r
  obtain ⟨a1, a2, a3⟩ :
      Closed h (resolve h (logArrival st c cp r) c cp r).1 (fun y => T y ∨ y ∈ L) ∧
      visited (resolve h (logArrival st c cp r) c cp r).1 c = true ∧
      VisitedMono st (resolve h (logArrival st c cp r) c cp r).1 :=
    Closed.closed_after_resolve hcl hpar hp hok rfl rfl (fun y hy => Or.inl hy)
      (fun x y hpd => by rw [k1]; exact hpd)
      (fun hv y hy => Or.inl (Or.inr (hch hv y hy)))
  refine ⟨a1, a2, a3, hg.sg_mono a3 k1, ?_⟩
  rw [k1, k2]; exact hb

/-- The state after the resolution for `c` and `push`. -/
theorem cover_push {h : Heap} (hwf : WF h) {st : State} {c cp r ccr : Nat} {T : Nat → Prop}
    (hcl : Closed h st (fun y => T y ∨ y ∈ [c])) (hg : StackGood h st)
    (hb : st.currentStackBoundary ≤ st.stack.length)
    (hpar : ParentOK h st c cp) (hp : preFilter h c = PreFilter.visit)
    (hok : (resolve h (logArrival st c cp r) c cp r).1.status = none)
    (hps : (push h (resolve h (logArrival st c cp r) c cp r).1 c ccr).st.status = none) :
    Closed h (push h (resolve h (logArrival st c cp r) c cp r).1 c ccr).st
      (fun y => T y ∨
        ((push h (resolve h (logArrival st c cp r) c cp r).1 c ccr).first_child ≠ 0 ∧
          y = (push h (resolve h (logArrival st c cp r) c cp r).1 c ccr).first_child)) ∧
    visited (push h (resolve h (logArrival st c cp r) c cp r).1 c ccr).st c = true ∧
    VisitedMono st (push h (resolve h (logArrival st c cp r) c cp r).1 c ccr).st ∧
    StackGood h (push h (resolve h (logArrival st c cp r) c cp r).1 c ccr).st ∧
    (push h (resolve h (logArrival st c cp r) c cp r).1 c ccr).st.currentStackBoundary =
      st.currentStackBoundary ∧
    st.currentStackBoundary ≤
      (push h (resolve h (logArrival st c cp r) c cp r).1 c ccr).st.stack.length ∧
    ∀ l : List stackElement,
      l <:+ (push h (resolve h (logArrival st c cp r) c cp r).1 c ccr).st.stack →
      l.length = st.currentStackBoundary → l <:+ st.stack := by
  obtain ⟨k1, k2⟩ := resolve_keep h st c cp r
  obtain ⟨e1, e2, e3, hcase⟩ := push_cov h hwf (resolve h (logArrival st c cp r) c cp r).1 c ccr hps
  rw [k1] at hcase
  have hpend : ∀ x y, Pending h st.stack x y →
      Pending h (push h (resolve h (logArrival st c cp r) c cp r).1 c ccr).st.stack x y := by
    intro x y hpd
    rcases hcase with ⟨es, -⟩ | ⟨se, es, -⟩
    · rw [es]; exact hpd
    · rw [es]
      obtain ⟨s0, hs0, hrest⟩ := hpd
      exact ⟨s0, List.mem_cons_of_mem _ hs0, hrest⟩
  obtain ⟨a1, a2, a3⟩ :
      Closed h (push h (resolve h (logArrival st c cp r) c cp r).1 c ccr).st
        (fun y => T y ∨
          ((push h (resolve h (logArrival st c cp r) c cp r).1 c ccr).first_child ≠ 0 ∧
            y = (push h (resolve h (logArrival st c cp r) c cp r).1 c ccr).first_child)) ∧
      visited (push h (resolve h (logArrival st c cp r) c cp r).1 c ccr).st c = true ∧
      VisitedMono st (push h (resolve h (logArrival st c cp r) c cp r).1 c ccr).st := by
    refine Closed.closed_after_resolve hcl hpar hp hok e1 e2 (fun y hy => Or.inl hy) hpend ?_
    intro _ y hy
    rcases hcase with ⟨-, ech⟩ | ⟨se, es, hsc, -, hne, ech⟩
    · rw [ech] at hy
      split at hy
      · cases hy
      · rename_i hne
        exact Or.inl (Or.inr ⟨hne, List.mem_singleton.1 hy⟩)
    · rw [ech] at hy
      rcases List.mem_cons.1 hy with e | hy
      · exact Or.inl (Or.inr ⟨hne, e⟩)
      · right
        rw [es]
        exact ⟨se, List.mem_cons_self _ _, hsc, hy⟩
  have hvc : ((push h (resolve h (logArrival st c cp r) c cp r).1 c ccr).st.rs c).low =
      (push h (resolve h (logArrival st c cp r) c cp r).1 c ccr).st.flip :=
    ((visited_iff _ _).1 a2).1
  refine ⟨a1, a2, a3, ?_, e3.trans k2, ?_, ?_⟩
  · intro s hs
    rcases hcase with ⟨es, -⟩ | ⟨se, es, hsc, hgood, -⟩
    · rw [es] at hs
      exact ⟨(hg s hs).1, a3.2.1 _ (hg s hs).2⟩
    · rw [es] at hs
      rcases List.mem_cons.1 hs with e | hs
      · rw [e, hsc]; exact ⟨hgood, hvc⟩
      · exact ⟨(hg s hs).1, a3.2.1 _ (hg s hs).2⟩
  · rcases hcase with ⟨es, -⟩ | ⟨se, es, -⟩
    · rw [es]; exact hb
    · rw [es]; exact Nat.le_succ_of_le hb
  · intro l hl hlen
    rcases hcase with ⟨es, -⟩ | ⟨se, es, -⟩
    · rw [es] at hl; exact hl
    · rw [es] at hl
      exact suffix_of_cons hl (by rw [hlen]; exact hb)

theorem CoverPost.rebase {h : Heap} {t t2 : Task} {T : Nat → Prop} {st st' st1 : State}
    (hp : CoverPost h t T st' st1) (hvm : VisitedMono st st')
    (hb : st'.currentStackBoundary = st.currentStackBoundary)
    (hsuf : st1.stack <:+ st.stack)
    (htg : ∀ y ∈ targets t2, Settled h st1 noTarget y)
    (hdr : drains t2 = true → drains t = true) :
    CoverPost h t2 T st st1 := by
  obtain ⟨p1, -, p3, p4, -, p6, p7, p8⟩ := hp
  refine ⟨p1, htg, hvm.vm_trans p3, p4, hsuf, p6.trans hb, ?_, fun hd => ?_⟩
  · rw [← hb]; exact p7
  · rw [← hb]; exact p8 (hdr hd)

/-- The label `loop`: what `pop` leaves for the invariant. -/
theorem cover_pop {h : Heap} {st : State} {T : Nat → Prop}
    (hcl : Closed h st (fun y => T y ∨ y ∈ ([] : List Nat)))
    (hg : StackGood h st) (hb : st.currentStackBoundary ≤ st.stack.length)
    (herr : (pop h st).err = none) :
    StackGood h { st with stack := (pop h st).stack } ∧
    ((pop h st).c = 0 →
      Closed h { st with stack := (pop h st).stack } T ∧
      (pop h st).stack <:+ st.stack ∧ (pop h st).stack.length = st.currentStackBoundary) ∧
    ((pop h st).c ≠ 0 →
      Closed h { st with stack := (pop h st).stack } (fun y => T y ∨ y ∈ [(pop h st).c]) ∧
      st.currentStackBoundary ≤ (pop h st).stack.length ∧
      (st.rs (pop h st).cp).low = st.flip ∧
      ∀ l : List stackElement, l <:+ (pop h st).stack →
        l.length = st.currentStackBoundary → l <:+ st.stack) := by
  obtain ⟨i1, i2, i3, i4⟩ :=
    popLoop_cov h st.currentStackBoundary st.stack (fun se hse => (hg se hse).1) hb herr
  refine ⟨?_, fun hc => ⟨?_, i3 hc⟩, fun hc => ⟨?_, ?_, ?_, ?_⟩⟩
  · intro se hse
    obtain ⟨a, s0, hs0, e⟩ := i1 se hse
    refine ⟨a, ?_⟩
    show (st.rs se.c).low = st.flip
    rw [e]; exact (hg s0 hs0).2
  · refine hcl.closed_next ?_ ?_ ?_ ?_
    · intro a ha; exact ha
    · intro y hy
      rcases hy with hy | hy
      · exact Settled.target hy
      · cases hy
    · intro x y hpd
      rcases i2 x y hpd with hpd1 | ⟨hne, -⟩
      · exact Or.inr hpd1
      · exact absurd hc hne
    · intro x hx hv
      have : visited st x = true := hx
      rw [this] at hv; cases hv
  · refine hcl.closed_next ?_ ?_ ?_ ?_
    · intro a ha; exact ha
    · intro y hy
      rcases hy with hy | hy
      · exact Settled.target (Or.inl hy)
      · cases hy
    · intro x y hpd
      rcases i2 x y hpd with hpd1 | ⟨-, e⟩
      · exact Or.inr hpd1
      · exact Or.inl (Settled.target (Or.inr (by rw [e]; exact List.mem_cons_self _ _)))
    · intro x hx hv
      have : visited st x = true := hx
      rw [this] at hv; cases hv
  · obtain ⟨-, rest, j1, j2, j3⟩ := i4 hc
    rcases j3 with e | ⟨se1, e⟩
    · show st.currentStackBoundary ≤ (popLoop h st.currentStackBoundary st.stack).stack.length
      rw [e]; exact j2
    · show st.currentStackBoundary ≤ (popLoop h st.currentStackBoundary st.stack).stack.length
      rw [e]; exact Nat.le_succ_of_le j2
  · obtain ⟨⟨s0, hs0, e⟩, -⟩ := i4 hc
    show (st.rs (popLoop h st.currentStackBoundary st.stack).cp).low = st.flip
    rw [e]; exact (hg s0 hs0).2
  · obtain ⟨-, rest, j1, j2, j3⟩ := i4 hc
    intro l hl hlen
    have hl' : l <:+ (popLoop h st.currentStackBoundary st.stack).stack := hl
    rcases j3 with e | ⟨se1, e⟩
    · rw [e] at hl'; exact hl'.trans j1
    · rw [e] at hl'
      exact (suffix_of_cons hl' (by rw [hlen]; exact j2)).trans j1

theorem settled_of_visited {h : Heap} {s st1 : State} {c : Nat}
    (hp : preFilter h c = PreFilter.visit) (hv : visited s c = true)
    (hm : VisitedMono s st1) : ∀ y ∈ [c], Settled h st1 noTarget y := by
  intro y hy
  rw [List.mem_singleton.1 hy]
  exact Settled.seen hp (hm.2.2 c hv)

/-- The invariant of the coverage proof along a run that ends normally: from
  a closed state, up to the targets of the control point and the set `T`, with
  a stack in order and not below the boundary, the run ends in a state closed
  up to `T` in which the targets are settled. -/
theorem cover_run {h : Heap} (hwf : WF h) {t : Task} {st st1 : State} (hr : Run h t st st1) :
    st1.status = none → ∀ T : Nat → Prop,
      Closed h st (fun y => T y ∨ y ∈ targets t) → StackGood h st →
      st.currentStackBoundary ≤ st.stack.length → CoverPre h st t →
      CoverPost h t T st st1 := by
  induction hr with
  | out_of_fuel t st => intro hok; cases hok
  | loop_err he => intro hok; cases hok
  | loop_done he hc =>
    intro _ T hcl hg hb _
    obtain ⟨p1, p2, -⟩ := cover_pop hcl hg hb he
    obtain ⟨q1, q2, q3⟩ := p2 hc
    exact ⟨q1, fun y hy => (by cases hy), VisitedMono.vm_of_eq rfl rfl, p1, q2, rfl,
      le_of_eq q3.symm, fun _ => q3⟩
  | loop_next he hc _ ih =>
    intro hok T hcl hg hb _
    obtain ⟨p1, -, p3⟩ := cover_pop hcl hg hb he
    obtain ⟨q1, q2, q3, q4⟩ := p3 hc
    have post := ih hok T q1 p1 q2 (fun _ => Or.inr q3)
    refine post.rebase (VisitedMono.vm_of_eq rfl rfl) rfl ?_ (fun y hy => by cases hy)
      (fun _ => rfl)
    exact q4 _ post.2.2.2.2.1 (post.2.2.2.2.2.2.2 rfl)
  | inner_null => intro hok; cases hok
  | @inner_skip c cp r st st1 hc hp _ ih =>
    intro hok T hcl hg hb _
    have hcl1 : Closed h (logArrival st c cp r) (fun y => T y ∨ y ∈ targets Task.loop) := by
      refine hcl.retarget rfl rfl rfl ?_
      intro y hy
      rcases hy with hy | hy
      · exact Settled.target (Or.inl hy)
      · rw [List.mem_singleton.1 hy]; exact Settled.skip hp
    have post := ih hok T hcl1 hg hb trivial
    refine post.rebase (VisitedMono.vm_of_eq rfl rfl) rfl post.2.2.2.2.1 ?_ (fun _ => rfl)
    intro y hy
    rw [List.mem_singleton.1 hy]; exact Settled.skip hp
  | @inner_follow c c1 cp r st st1 hc hp _ ih =>
    intro hok T hcl hg hb hpar
    have hcl1 : Closed h (logArrival st c cp r)
        (fun y => T y ∨ y ∈ targets (Task.inner c1 cp r)) := by
      refine hcl.retarget rfl rfl rfl ?_
      intro y hy
      rcases hy with hy | hy
      · exact Settled.target (Or.inl hy)
      · rw [List.mem_singleton.1 hy]
        exact Settled.via hp (Settled.target (Or.inr (List.mem_singleton_self c1)))
    have post := ih hok T hcl1 hg hb (ParentOK.parent_follow hpar hp)
    refine post.rebase (VisitedMono.vm_of_eq rfl rfl) rfl post.2.2.2.2.1 ?_ (fun _ => rfl)
    intro y hy
    rw [List.mem_singleton.1 hy]
    exact Settled.via hp (post.2.1 c1 (List.mem_singleton_self c1))
  | inner_fail hc hp hf => intro hok; rw [hok] at hf; cases hf
  | @inner_stop c cp r st st1 hc hp hs1 hd _ ih =>
    intro hok T hcl hg hb hpar
    have hres := resolve_cov h (logArrival st c cp r) c cp r hpar hs1
    obtain ⟨k1, k2⟩ := resolve_keep h st c cp r
    obtain ⟨a1, a2, a3, a4, a5⟩ := cover_descend [] hcl hg hb hpar hp hs1
      (fun hv => by
        have := hres.2 hd
        have e : visited st c = true := this
        rw [e] at hv; cases hv)
    have post := ih hok T a1 a4 a5 trivial
    refine post.rebase a3 k2 ?_ (settled_of_visited hp a2 post.2.2.1) (fun _ => rfl)
    have := post.2.2.2.2.1
    rw [k1] at this; exact this
  | inner_tso_abort hc hp hs1 hd hty _ hab ih => intro hok; rw [hok] at hab; cases hab
  | @inner_tso c cp r ccr st st1 st2 hc hp hs1 hd hty hwalk hok1 _ ih1 ih2 =>
    intro hok T hcl hg hb hpar
    obtain ⟨k1, k2⟩ := resolve_keep h st c cp r
    obtain ⟨a1, a2, a3, a4, a5⟩ := cover_descend
      ((retainStackCalls h c ccr (h.get c).frames).1.map Prod.fst) hcl hg hb hpar hp hs1
      (fun _ y hy => by
        rw [children_tso hty hp] at hy
        exact stackCalls_cover hwalk hok1 y hy)
    have post1 := ih1 hok1 T a1 a4 a5 (fun x hx => by
      rw [(retainStackCalls_mem h c ccr x hx).1]
      exact ((visited_iff _ _).1 a2).1)
    obtain ⟨p1, -, p3, p4, p5, p6, p7, -⟩ := post1
    have post2 := ih2 hok T (p1.retarget rfl rfl rfl (fun y hy => Settled.target (Or.inl hy)))
      p4 (by rw [p6]; exact p7) trivial
    refine post2.rebase (a3.vm_trans p3) (p6.trans k2) ?_
      (settled_of_visited hp a2 (p3.vm_trans post2.2.2.1)) (fun _ => rfl)
    have := post2.2.2.2.2.1.trans p5
    rw [k1] at this; exact this
  | inner_pap_abort hc hp hs1 hd hty _ hab ih => intro hok; rw [hok] at hab; cases hab
  | @inner_pap c cp r ccr st st1 st2 hc hp hs1 hd hty _ hok1 _ ih1 ih2 =>
    intro hok T hcl hg hb hpar
    obtain ⟨k1, k2⟩ := resolve_keep h st c cp r
    have hch : children h c = argSlots h c := by
      have hty1 : (h.get c).type = ClosureType.PAP ∨ (h.get c).type = ClosureType.AP := hty
      rcases hty1 with e | e <;> simp [children, e]
    obtain ⟨a1, a2, a3, a4, a5⟩ := cover_descend
      ((retain_PAP h c ccr).map Prod.fst) hcl hg hb hpar hp hs1
      (fun _ y hy => by rw [retain_PAP_fst, ← hch]; exact hy)
    have post1 := ih1 hok1 T a1 a4 a5 (fun x hx => by
      rw [(retain_PAP_mem h c ccr x hx).1]
      exact ((visited_iff _ _).1 a2).1)
    obtain ⟨p1, -, p3, p4, p5, p6, p7, -⟩ := post1
    have post2 := ih2 hok T (p1.retarget rfl rfl rfl (fun y hy => Settled.target (Or.inl hy)))
      p4 (by rw [p6]; exact p7) trivial
    refine post2.rebase (a3.vm_trans p3) (p6.trans k2) ?_
      (settled_of_visited hp a2 (p3.vm_trans post2.2.2.1)) (fun _ => rfl)
    have := post2.2.2.2.2.1.trans p5
    rw [k1] at this; exact this
  | inner_apstack_abort1 hc hp hs1 hd hty _ hab ih => intro hok; rw [hok] at hab; cases hab
  | inner_apstack_abort2 hc hp hs1 hd hty _ hok1 _ hab ih1 ih2 =>
    intro hok; rw [hok] at hab; cases hab
  | @inner_apstack c cp r ccr st st1 st2 st3 hc hp hs1 hd hty _ hok1 hwalk hok2 _ ih1 ih2 ih3 =>
    intro hok T hcl hg hb hpar
    obtain ⟨k1, k2⟩ := resolve_keep h st c cp r
    have hty1 : (h.get c).type = ClosureType.AP_STACK := hty
    have hch : children h c = (h.get c).func :: stackSlots h c := by
      simp [children, hty1]
    obtain ⟨a1, a2, a3, a4, a5⟩ := cover_descend
      ((h.get c).func :: (retainStackCalls h c ccr (h.get c).frames).1.map Prod.fst)
      hcl hg hb hpar hp hs1
      (fun _ y hy => by
        rw [hch] at hy
        rcases List.mem_cons.1 hy with e | hy
        · rw [e]; exact List.mem_cons_self _ _
        · exact List.mem_cons_of_mem _ (stackCalls_cover hwalk hok2 y hy))
    have hcl1 : Closed h (resolve h (logArrival st c cp r) c cp r).1
        (fun y => (T y ∨ y ∈ targets (Task.stack (retainStackCalls h c ccr (h.get c).frames).1
            (retainStackCalls h c ccr (h.get c).frames).2)) ∨
          y ∈ targets (Task.calls [((h.get c).func, c, ccr)] false)) := by
      refine a1.retarget rfl rfl rfl ?_
      intro y hy
      rcases hy with hy | hy
      · exact Settled.target (Or.inl (Or.inl hy))
      · rcases List.mem_cons.1 hy with e | hy
        · exact Settled.target (Or.inr (by rw [e]; exact List.mem_singleton_self _))
        · exact Settled.target (Or.inl (Or.inr hy))
    have post1 := ih1 hok1 _ hcl1 a4 a5 (fun x hx => by
      rw [List.mem_singleton.1 hx]
      exact ((visited_iff _ _).1 a2).1)
    obtain ⟨p1, -, p3, p4, p5, p6, p7, -⟩ := post1
    have post2 := ih2 hok2 T p1 p4 (by rw [p6]; exact p7) (fun x hx => by
      rw [(retainStackCalls_mem h c ccr x hx).1]
      exact p3.2.1 c ((visited_iff _ _).1 a2).1)
    obtain ⟨q1, -, q3, q4, q5, q6, q7, -⟩ := post2
    have post3 := ih3 hok T (q1.retarget rfl rfl rfl (fun y hy => Settled.target (Or.inl hy)))
      q4 (by rw [q6]; exact q7) trivial
    refine post3.rebase ((a3.vm_trans p3).vm_trans q3) ((q6.trans p6).trans k2) ?_
      (settled_of_visited hp a2 ((p3.vm_trans q3).vm_trans post3.2.2.1)) (fun _ => rfl)
    have := (post3.2.2.2.2.1.trans q5).trans p5
    rw [k1] at this; exact this
  | inner_push_fail hc hp hs1 hd hss hpf => intro hok; rw [hok] at hpf; cases hpf
  | @inner_push_leaf c cp r ccr st st1 hc hp hs1 hd hss hps hfc _ ih =>
    intro hok T hcl hg hb hpar
    obtain ⟨a1, a2, a3, a4, a5, a6, a7⟩ := cover_push hwf hcl hg hb hpar hp hs1 hps
    have post := ih hok T (a1.retarget rfl rfl rfl (fun y hy => by
      rcases hy with hy | ⟨hne, -⟩
      · exact Settled.target (Or.inl hy)
      · exact absurd hfc hne)) a4 (by rw [a5]; exact a6) trivial
    refine post.rebase a3 a5 ?_ (settled_of_visited hp a2 post.2.2.1) (fun _ => rfl)
    exact a7 _ post.2.2.2.2.1 (by rw [post.2.2.2.2.2.2.2 rfl, a5])
  | @inner_push_child c cp r ccr st st1 hc hp hs1 hd hss hps hfc _ ih =>
    intro hok T hcl hg hb hpar
    obtain ⟨a1, a2, a3, a4, a5, a6, a7⟩ := cover_push hwf hcl hg hb hpar hp hs1 hps
    have post := ih hok T (a1.retarget rfl rfl rfl (fun y hy => by
      rcases hy with hy | ⟨-, e⟩
      · exact Settled.target (Or.inl hy)
      · exact Settled.target (Or.inr (by rw [e]; exact List.mem_singleton_self _))))
      a4 (by rw [a5]; exact a6) (fun _ => Or.inr ((visited_iff _ _).1 a2).1)
    refine post.rebase a3 a5 ?_ (settled_of_visited hp a2 post.2.2.1) (fun _ => rfl)
    exact a7 _ post.2.2.2.2.1 (by rw [post.2.2.2.2.2.2.2 rfl, a5])
  | @calls_nil st =>
    intro _ T hcl hg hb _
    refine ⟨hcl.retarget rfl rfl rfl ?_,
      fun y hy => (by cases hy), VisitedMono.vm_refl _, hg, List.suffix_rfl, rfl, hb,
      fun hd => (by cases hd)⟩
    intro y hy
    rcases hy with hy | hy
    · exact Settled.target hy
    · cases hy
  | calls_barf => intro hok; cases hok
  | calls_abort _ hab ih => intro hok; rw [hok] at hab; cases hab
  | @calls_cons c0 cp0 r0 rest bad st st1 st2 _ hok1 _ ih1 ih2 =>
    intro hok T hcl hg hb hpre
    have hcl1 : Closed h st
        (fun y => (T y ∨ y ∈ targets (Task.calls rest bad)) ∨
          y ∈ targets (Task.inner c0 cp0 r0)) := by
      refine hcl.retarget rfl rfl rfl ?_
      intro y hy
      rcases hy with hy | hy
      · exact Settled.target (Or.inl (Or.inl hy))
      · rcases List.mem_cons.1 hy with e | hy
        · exact Settled.target (Or.inr (by rw [e]; exact List.mem_singleton_self _))
        · exact Settled.target (Or.inl (Or.inr hy))
    have post1 := ih1 hok1 _ hcl1 hg hb (fun _ => Or.inr (hpre _ (List.mem_cons_self _ _)))
    obtain ⟨p1, p2, p3, p4, p5, p6, p7, -⟩ := post1
    have post2 := ih2 hok T p1 p4 (by rw [p6]; exact p7)
      (fun x hx => p3.2.1 _ (hpre x (List.mem_cons_of_mem _ hx)))
    refine post2.rebase p3 p6 (post2.2.2.2.2.1.trans p5) ?_ (fun hd => by cases hd)
    intro y hy
    rcases List.mem_cons.1 hy with e | hy
    · rw [e]
      exact (p2 c0 (List.mem_singleton_self _)).settled_mono post2.2.2.1.2.2
        (fun y hy => absurd hy (fun f => f))
    · exact post2.2.1 y hy
  | stack_abort _ hab ih => intro hok; rw [hok] at hab; cases hab
  | @stack_ok cs bad st st1 _ hok1 ih =>
    intro _ T hcl hg hb hpre
    have post := ih hok1 T (hcl.retarget rfl rfl rfl (fun y hy => Settled.target hy))
      hg (le_refl _) hpre
    obtain ⟨p1, p2, p3, p4, p5, p6, p7, -⟩ := post
    refine ⟨p1.retarget rfl rfl rfl (fun y hy => Settled.target hy), ?_,
      ⟨p3.1, p3.2.1, p3.2.2⟩, p4, p5, rfl, le_trans hb p7, fun hd => (by cases hd)⟩
    intro y hy
    refine Settled.settled_mono ?_ ?_ (p2 y hy)
    · intro a ha; exact ha
    · intro z hz; exact absurd hz (fun f => f)

theorem wfHeap_sound (h : Heap) (hw : wfHeap h = true) : WF h := by
  intro x
  by_cases hx : x < h.closures.length
  · unfold wfHeap at hw
    rw [List.all_eq_true] at hw
    have := hw x (List.mem_range.2 hx)
    simp only [Bool.and_eq_true, decide_eq_true_eq] at this
    exact this
  · have hget : h.get x = { type := ClosureType.INVALID_OBJECT } := by
      unfold Heap.get
      rw [List.getD_eq_default]
      omega
    constructor
    · simp [children, hget]
    · rw [hget]
      exact Nat.pos_pow_of_pos _ (by decide)

/-- In a closed state with nothing pending, the children of a settled object
  that is not skipped are settled. -/
theorem settled_child {h : Heap} {st : State} (hcl : Closed h st noTarget)
    (hstack : st.stack = []) {x y : Nat} (hx : Settled h st noTarget x)
    (hns : notSkipped h x) (hy : y ∈ children h x) : Settled h st noTarget y := by
  cases hx with
  | target ht => exact absurd ht (fun f => f)
  | skip hp => exact absurd hp hns
  | seen hp hv =>
    rcases hcl x hv hp y hy with hs | ⟨se, hse, -⟩
    · exact hs
    · rw [hstack] at hse; cases hse
  | via hp ht =>
    rw [(follow_cov hp).1] at hy
    rw [List.mem_singleton.1 hy]
    exact ht

theorem settled_thru {h : Heap} {st : State} (hcl : Closed h st noTarget)
    (hstack : st.stack = []) {a c : Nat} (ha : Settled h st noTarget a)
    (hns : notSkipped h a) (hp : Thru h (notSkipped h) a c) :
    Settled h st noTarget c := by
  induction hp with
  | one he => exact settled_child hcl hstack ha hns he
  | step _ hm he ih => exact settled_child hcl hstack ih hm he

/-- The state in which a call on an empty stack, from a closed state, ends
  normally: it is closed, with an empty stack, and `c0` is settled. -/
theorem cover_call {h : Heap} (hwf : WF h) (fuel : Nat) (st : State) (c0 cp0 r0 : Nat)
    (hstack : st.stack = []) (hbound : st.currentStackBoundary = 0)
    (hpar : ParentOK h st c0 cp0)
    (hclosed : ∀ x, visited st x = true → preFilter h x = PreFilter.visit →
      ∀ y ∈ children h x, y = c0 ∨ Settled h st noTarget y)
    (hok : (retainClosure h fuel st c0 cp0 r0).status = none) :
    Closed h (retainClosure h fuel st c0 cp0 r0) noTarget ∧
    (retainClosure h fuel st c0 cp0 r0).stack = [] ∧
    Settled h (retainClosure h fuel st c0 cp0 r0) noTarget c0 := by
  have hrun : Run h (Task.inner c0 cp0 r0) st (retainClosure h fuel st c0 cp0 r0) :=
    exec_run h fuel _ _
  have hcl : Closed h st (fun y => noTarget y ∨ y ∈ targets (Task.inner c0 cp0 r0)) := by
    intro x hx hp y hy
    rcases hclosed x hx hp y hy with e | hs
    · exact Or.inl (Settled.target (Or.inr (by rw [e]; exact List.mem_singleton_self _)))
    · exact Or.inl (hs.settled_mono (fun a ha => ha) (fun z hz => absurd hz (fun f => f)))
  have hg : StackGood h st := by
    intro se hse
    rw [hstack] at hse; cases hse
  have hb : st.currentStackBoundary ≤ st.stack.length := by rw [hbound]; exact Nat.zero_le _
  obtain ⟨p1, p2, -, -, p5, -⟩ := cover_run hwf hrun hok noTarget hcl hg hb hpar
  rw [hstack] at p5
  exact ⟨p1, List.suffix_nil.1 p5, p2 c0 (List.mem_singleton_self _)⟩

/-! ## The classifier -/

theorem statedRetainer_true :
    ∀ t ∈ statedRetainerKinds, isRetainerType t = some true := by decide

theorem statedNonRetainer_false :
    ∀ t ∈ statedNonRetainerKinds, isRetainerType t = some false := by decide

theorem fatal_isRetainer : ∀ t ∈ fatalTags, isRetainerType t = none := by decide

theorem fatal_push (h : Heap) (st : State) (c ccr : Nat) (ht : typeOf h c ∈ fatalTags) :
    push h st c ccr = { st := st.fail Fatal.barf_push, first_child := 0 } := by
  have ht1 : (h.get c).type ∈ fatalTags := ht
  simp only [fatalTags, List.mem_cons, List.mem_singleton, List.not_mem_nil, or_false] at ht1
  unfold push
  rcases ht1 with e | e | e | e | e | e | e | e | e | e | e | e | e | e | e | e | e | e | e <;>
    simp [e]

theorem fatal_popStep (h : Heap) (se : stackElement) (ht : typeOf h se.c ∈ fatalTags) :
    popStep h se = PopStep.bad Fatal.barf_pop := by
  have ht1 : (h.get se.c).type ∈ fatalTags := ht
  simp only [fatalTags, List.mem_cons, List.mem_singleton, List.not_mem_nil, or_false] at ht1
  unfold popStep
  rcases ht1 with e | e | e | e | e | e | e | e | e | e | e | e | e | e | e | e | e | e | e <;>
    simp [e]

theorem fatal_popLoop (h : Heap) (b : Nat) (se : stackElement) (rest : List stackElement)
    (ht : typeOf h se.c ∈ fatalTags) (hb : (se :: rest).length ≠ b) :
    (popLoop h b (se :: rest)).err = some Fatal.barf_pop := by
  unfold popLoop
  rw [if_neg hb, fatal_popStep h se ht]

/-! ## The traverse stack: closures with a single child -/

theorem fixedOne_push (h : Heap) (st : State) (c ccr : Nat)
    (ht : typeOf h c ∈ fixedOneChildKinds) :
    (push h st c ccr).st = st ∧ children h c = [(push h st c ccr).first_child] := by
  have ht1 : (h.get c).type ∈ fixedOneChildKinds := ht
  simp only [fixedOneChildKinds, List.mem_cons, List.mem_singleton, List.not_mem_nil,
    or_false] at ht1
  unfold push children
  rcases ht1 with e | e | e | e | e | e | e | e | e <;> simp [e]

theorem cons_ne_stack (se : stackElement) (l : List stackElement) : se :: l ≠ l := by
  intro e
  have := congrArg List.length e
  simp at this

theorem push_srt_only_same (h : Heap) (st : State) (c ccr : Nat)
    (hs : (push_srt_only h st c ccr).st.stack = st.stack) :
    (push_srt_only h st c ccr).first_child = 0 := by
  unfold push_srt_only at hs ⊢
  split
  · split
    · rfl
    · rename_i hf hne
      rw [hf] at hs
      dsimp only at hs
      rw [if_neg hne] at hs
      exact absurd hs (cons_ne_stack _ _)
  · rfl

theorem push_ptrs_same (st : State) (c ccr : Nat) (m : Option (Nat × stackPos))
    (hs : (match m with
      | some (first, info) =>
        if first = 0 then ({ st := st, first_child := 0 } : PushResult)
        else { st := pushElement st { c := c, c_child_r := ccr, info := info },
               first_child := first }
      | none => { st := st.fail Fatal.undefined_read, first_child := 0 }).st.stack = st.stack) :
    (match m with
      | some (first, info) =>
        if first = 0 then ({ st := st, first_child := 0 } : PushResult)
        else { st := pushElement st { c := c, c_child_r := ccr, info := info },
               first_child := first }
      | none => { st := st.fail Fatal.undefined_read, first_child := 0 }).first_child = 0 := by
  cases m with
  | none => rfl
  | some p =>
    obtain ⟨first, info⟩ := p
    dsimp only at hs ⊢
    split
    · rfl
    · rename_i hne
      rw [if_neg hne] at hs
      exact absurd hs (cons_ne_stack _ _)

theorem push_ptrs_srt_same (h : Heap) (st : State) (c ccr : Nat)
    (m : Option (Nat × stackPos))
    (hs : (match m with
      | some (first, info) =>
        if first = 0 then push_srt_only h st c ccr
        else { st := pushElement st { c := c, c_child_r := ccr, info := info },
               first_child := first }
      | none => { st := st.fail Fatal.undefined_read, first_child := 0 }).st.stack = st.stack) :
    (match m with
      | some (first, info) =>
        if first = 0 then push_srt_only h st c ccr
        else { st := pushElement st { c := c, c_child_r := ccr, info := info },
               first_child := first }
      | none => { st := st.fail Fatal.undefined_read, first_child := 0 }).first_child = 0 := by
  cases m with
  | none => rfl
  | some p =>
    obtain ⟨first, info⟩ := p
    dsimp only at hs ⊢
    split
    · rename_i h0
      rw [if_pos h0] at hs
      exact push_srt_only_same h st c ccr hs
    · rename_i hne
      rw [if_neg hne] at hs
      exact absurd hs (cons_ne_stack _ _)

/-- On a kind whose children are read from a position, `push` leaves the
  stack as it is only when it finds no child. -/
theorem position_push_same (h : Heap) (st : State) (c ccr : Nat)
    (ht : typeOf h c ∈ positionKinds)
    (hs : (push h st c ccr).st.stack = st.stack) : (push h st c ccr).first_child = 0 := by
  have ht1 : (h.get c).type ∈ positionKinds := ht
  simp only [positionKinds, List.mem_cons, List.mem_singleton, List.not_mem_nil,
    or_false] at ht1
  unfold push at hs ⊢
  rcases ht1 with e | e | e | e | e | e | e | e | e | e | e | e | e | e | e | e | e | e | e
    | e | e <;> simp only [e] at hs ⊢
  all_goals first
    | exact push_ptrs_same st c ccr _ hs
    | exact push_ptrs_srt_same h st c ccr _ hs
    | exact push_srt_only_same h st c ccr hs
    | exact absurd hs (cons_ne_stack _ _)

/-- On a kind whose children are read from a position, `push` stores an
  element whenever there is a child. -/
theorem position_push (h : Heap) (st : State) (c ccr : Nat)
    (hc0 : 0 ∉ children h c) (hpt : (h.get c).ptrs < 2 ^ h.posBits)
    (ht : typeOf h c ∈ positionKinds) (hch : children h c ≠ [])
    (hok : (push h st c ccr).st.status = none) :
    ∃ info, (push h st c ccr).st.stack = { c := c, c_child_r := ccr, info := info } :: st.stack ∧
      children h c =
        (push h st c ccr).first_child ::
          pendingOf h { c := c, c_child_r := ccr, info := info } ∧
      SeGood h { c := c, c_child_r := ccr, info := info } := by
  obtain ⟨-, -, -, hcase⟩ := push_cov_at h st c ccr hc0 hpt hok
  obtain ⟨-, -, -, -, hstack, -⟩ := push_ok h st c ccr
  rcases hcase with ⟨hs, hc⟩ | ⟨se, hs, -, hg, -, hc⟩
  · rw [position_push_same h st c ccr ht hs] at hc
    exact absurd hc hch
  · rcases hstack with he | ⟨info, he, -⟩
    · rw [he] at hs
      exact absurd hs.symm (cons_ne_stack _ _)
    · rw [he] at hs
      have e : se = { c := c, c_child_r := ccr, info := info } := (List.cons.inj hs).1.symm
      subst e
      exact ⟨info, he, hc, hg⟩

/-! ## The traverse stack: positions that `pop` can read -/

theorem find_ptrs_fine (h : Heap) (info : stackPos) (hp : info.isPtrs) :
    ∃ x info1, find_ptrs h info = some (x, info1) ∧ info1.isPtrs ∧ info1.type = info.type := by
  obtain ⟨pos, ptrs, payload, hn⟩ := hp
  unfold find_ptrs
  rw [hn]
  dsimp only
  split
  · exact ⟨_, _, rfl, ⟨_, _, _, rfl⟩, rfl⟩
  · exact ⟨_, _, rfl, ⟨_, _, _, hn⟩, rfl⟩

theorem find_srt_fine (info : stackPos) (hp : info.isSrt) :
    ∃ x info1, find_srt info = some (x, info1) ∧ info1.isSrt ∧ info1.type = info.type := by
  obtain ⟨rest, hn⟩ := hp
  unfold find_srt
  rw [hn]
  cases rest with
  | nil => exact ⟨_, _, rfl, ⟨_, hn⟩, rfl⟩
  | cons x tl => exact ⟨_, _, rfl, ⟨_, rfl⟩, rfl⟩

theorem pop_do_srt_fine (h : Heap) (se : stackElement) (info : stackPos) (hp : info.isSrt)
    (hnew : ∀ info1 : stackPos, info1.isSrt → info1.type = info.type →
      PosOK h { se with info := info1 }) :
    PopStepFine h (pop_do_srt se info) := by
  obtain ⟨x, info1, hf, h1, h2⟩ := find_srt_fine info hp
  unfold pop_do_srt
  rw [hf]
  dsimp only
  split
  · exact hnew info1 h1 h2
  · trivial

theorem pop_step_fine (h : Heap) (se : stackElement) (a b : Nat) (hp : se.info.isStep)
    (hnew : ∀ n, PosOK h { se with info := { se.info with next := nextPos.step n } }) :
    PopStepFine h
      (match se.info.next with
      | nextPos.step n =>
        if n = 2 then
          PopStep.ret (some { se with info := { se.info with next := nextPos.step (n + 1) } }) a
        else PopStep.ret none b
      | _ => PopStep.bad Fatal.undefined_read) := by
  obtain ⟨n, hn⟩ := hp
  rw [hn]
  dsimp only
  split
  · exact hnew _
  · trivial

theorem pop_ptrs_fine (h : Heap) (se : stackElement) (hp : se.info.isPtrs)
    (hnew : ∀ info1 : stackPos, info1.isPtrs → PosOK h { se with info := info1 }) :
    PopStepFine h
      (match find_ptrs h se.info with
      | some (x, info1) =>
        if x = 0 then PopStep.exhausted
        else PopStep.ret (some { se with info := info1 }) x
      | none => PopStep.bad Fatal.undefined_read) := by
  obtain ⟨x, info1, hf, h1, -⟩ := find_ptrs_fine h se.info hp
  rw [hf]
  dsimp only
  split
  · trivial
  · exact hnew info1 h1

theorem pop_ptrs_srt_fine (h : Heap) (se : stackElement)
    (hp : (se.info.type = some nextPosType.posTypePtrs ∧ se.info.isPtrs) ∨
      (se.info.type = some nextPosType.posTypeSRT ∧ se.info.isSrt))
    (hnew : ∀ info1 : stackPos,
      (info1.type = some nextPosType.posTypePtrs ∧ info1.isPtrs) ∨
        (info1.type = some nextPosType.posTypeSRT ∧ info1.isSrt) →
      PosOK h { se with info := info1 }) :
    PopStepFine h
      (match se.info.type with
      | some nextPosType.posTypePtrs =>
        match find_ptrs h se.info with
        | some (x, info1) =>
          if x ≠ 0 then PopStep.ret (some { se with info := info1 }) x
          else pop_do_srt se (init_srt h se.c)
        | none => PopStep.bad Fatal.undefined_read
      | some _ => pop_do_srt se se.info
      | none => PopStep.bad Fatal.undefined_read) := by
  rcases hp with ⟨hty, hp⟩ | ⟨hty, hp⟩
  · rw [hty]
    dsimp only
    obtain ⟨x, info1, hf, h1, h2⟩ := find_ptrs_fine h se.info hp
    rw [hf]
    dsimp only
    split
    · exact hnew info1 (Or.inl ⟨h2.trans hty, h1⟩)
    · apply pop_do_srt_fine h se _ ⟨_, rfl⟩
      intro info2 h3 h4
      exact hnew info2 (Or.inr ⟨h4, h3⟩)
  · rw [hty]
    dsimp only
    apply pop_do_srt_fine h se _ hp
    intro info2 h3 h4
    exact hnew info2 (Or.inr ⟨h4.trans hty, h3⟩)

/-- One iteration of `pop` on an element whose position is in order is not
  fatal, and an overwritten element has its position in order. -/
theorem popStep_fine (h : Heap) (se : stackElement) (hp : PosOK h se) :
    PopStepFine h (popStep h se) := by
  unfold PosOK at hp
  unfold popStep
  dsimp only
  split
  all_goals first
    | trivial
    | (rename_i heq
       simp only [heq] at hp
       done)
    | (rename_i heq
       simp only [heq] at hp
       first
        | exact pop_step_fine h se _ _ hp (fun n => by simp [PosOK, heq, stackPos.isStep])
        | exact pop_ptrs_fine h se hp (fun info1 h1 => by simpa [PosOK, heq] using h1)
        | exact pop_ptrs_srt_fine h se hp (fun info1 h1 => by simpa [PosOK, heq] using h1)
        | exact pop_do_srt_fine h se _ hp (fun info1 h1 _ => by simpa [PosOK, heq] using h1))

theorem stack_ne_cons (se : stackElement) (l : List stackElement) : l ≠ se :: l :=
  fun e => cons_ne_stack se l e.symm

theorem push_srt_only_pos (h : Heap) (st : State) (c ccr : Nat) (se : stackElement)
    (hk : ∀ info : stackPos, info.type = some nextPosType.posTypeSRT → info.isSrt →
      PosOK h { c := c, c_child_r := ccr, info := info })
    (hs : (push_srt_only h st c ccr).st.stack = se :: st.stack) : PosOK h se := by
  obtain ⟨x, info1, hf, h1, h2⟩ := find_srt_fine (init_srt h c) ⟨_, rfl⟩
  unfold push_srt_only at hs
  rw [hf] at hs
  dsimp only at hs
  split at hs
  · exact absurd hs (stack_ne_cons _ _)
  · have e : se = { c := c, c_child_r := ccr, info := info1 } := (List.cons.inj hs).1.symm
    rw [e]
    exact hk info1 h2 h1

theorem push_ptrs_pos (h : Heap) (st : State) (c ccr : Nat) (ptrs : Nat) (payload : List Nat)
    (se : stackElement)
    (hk : ∀ info : stackPos, info.type = some nextPosType.posTypePtrs → info.isPtrs →
      PosOK h { c := c, c_child_r := ccr, info := info })
    (hs : (match find_ptrs h (init_ptrs h ptrs payload) with
      | some (first, info) =>
        if first = 0 then ({ st := st, first_child := 0 } : PushResult)
        else { st := pushElement st { c := c, c_child_r := ccr, info := info },
               first_child := first }
      | none => { st := st.fail Fatal.undefined_read, first_child := 0 }).st.stack =
        se :: st.stack) : PosOK h se := by
  obtain ⟨x, info1, hf, h1, h2⟩ := find_ptrs_fine h (init_ptrs h ptrs payload) ⟨_, _, _, rfl⟩
  rw [hf] at hs
  dsimp only at hs
  split at hs
  · exact absurd hs (stack_ne_cons _ _)
  · have e : se = { c := c, c_child_r := ccr, info := info1 } := (List.cons.inj hs).1.symm
    rw [e]
    exact hk info1 h2 h1

theorem push_ptrs_srt_pos (h : Heap) (st : State) (c ccr : Nat) (ptrs : Nat)
    (payload : List Nat) (se : stackElement)
    (hk : ∀ info : stackPos,
      (info.type = some nextPosType.posTypePtrs ∧ info.isPtrs) ∨
        (info.type = some nextPosType.posTypeSRT ∧ info.isSrt) →
      PosOK h { c := c, c_child_r := ccr, info := info })
    (hs : (match find_ptrs h (init_ptrs h ptrs payload) with
      | some (first, info) =>
        if first = 0 then push_srt_only h st c ccr
        else { st := pushElement st { c := c, c_child_r := ccr, info := info },
               first_child := first }
      | none => { st := st.fail Fatal.undefined_read, first_child := 0 }).st.stack =
        se :: st.stack) : PosOK h se := by
  obtain ⟨x, info1, hf, h1, h2⟩ := find_ptrs_fine h (init_ptrs h ptrs payload) ⟨_, _, _, rfl⟩
  rw [hf] at hs
  dsimp only at hs
  split at hs
  · exact push_srt_only_pos h st c ccr se (fun info e1 e2 => hk info (Or.inr ⟨e1, e2⟩)) hs
  · have e : se = { c := c, c_child_r := ccr, info := info1 } := (List.cons.inj hs).1.symm
    rw [e]
    exact hk info1 (Or.inl ⟨h2, h1⟩)

theorem push_direct_pos (h : Heap) (st : State) (c ccr : Nat) (info : stackPos)
    (se : stackElement)
    (hk : PosOK h { c := c, c_child_r := ccr, info := info })
    (hs : (pushElement st { c := c, c_child_r := ccr, info := info }).stack = se :: st.stack) :
    PosOK h se := by
  have e : se = { c := c, c_child_r := ccr, info := info } := (List.cons.inj hs).1.symm
  rw [e]
  exact hk

/-- An element that `push` stores has its position in order. -/
theorem push_posOK (h : Heap) (st : State) (c ccr : Nat) (se : stackElement)
    (hs : (push h st c ccr).st.stack = se :: st.stack) : PosOK h se := by
  unfold push at hs
  dsimp only at hs
  split at hs
  all_goals first
    | exact absurd hs (stack_ne_cons _ _)
    | (rename_i heq
       first
        | exact push_direct_pos h st c ccr _ se
            (by simp [PosOK, heq, stackPos.isStep, stackPos.isSrt, init_srt, stackPos.uninit])
            hs
        | exact push_ptrs_pos h st c ccr _ _ se
            (fun info h1 h2 => by simpa [PosOK, heq] using h2) hs
        | exact push_ptrs_srt_pos h st c ccr _ _ se
            (fun info h1 => by simpa [PosOK, heq] using h1) hs
        | exact push_srt_only_pos h st c ccr se
            (fun info h1 h2 => by simpa [PosOK, heq] using h2) hs)

/-! ## The traverse stack: the children enumerated by `push` and `pop` -/

theorem popLoop_boundary (h : Heap) (S : List stackElement) :
    popLoop h S.length S = { stack := S, c := 0, cp := 0, r := 0, err := none } := by
  cases S with
  | nil => simp [popLoop]
  | cons s rest =>
    unfold popLoop
    rw [if_pos rfl]

theorem popAll_boundary (h : Heap) (S : List stackElement) (fuel : Nat) :
    popAll h S.length (fuel + 1) S = ([], S, none) := by
  unfold popAll
  rw [popLoop_boundary]
  all_goals rfl

/-- The calls of `pop` on the element `se` above the boundary report the
  children that `se` has yet to retrieve, in order, each with the closure and the
  retainer of `se`, and leave the stack at the boundary. -/
theorem popAll_element (h : Heap) (S : List stackElement) :
    ∀ (fuel : Nat) (se : stackElement), SeGood h se → PosOK h se → InfoOK h se →
      (pendingOf h se).length < fuel →
      popAll h S.length fuel (se :: S) =
        ((pendingOf h se).map (fun x => (x, se.c, se.c_child_r)), S, none) := by
  intro fuel
  induction fuel with
  | zero => intro se _ _ _ hl; cases hl
  | succ fuel ih =>
    intro se hg hp hi hl
    have hcov := popStep_cov h se hg
    have hfine := popStep_fine h se hp
    have hok := popStep_ok h se hi
    have hne : ¬ (se :: S).length = S.length := by simp
    have hloop : popLoop h S.length (se :: S) =
        match popStep h se with
        | PopStep.ret (some se1) c =>
          { stack := se1 :: S, c := c, cp := se.c, r := se.c_child_r, err := none }
        | PopStep.ret none c =>
          { stack := popOff (se :: S), c := c, cp := se.c, r := se.c_child_r, err := none }
        | PopStep.exhausted => popLoop h S.length (popOff (se :: S))
        | PopStep.bad e => { stack := se :: S, c := 0, cp := 0, r := 0, err := some e } := by
      conv => lhs; unfold popLoop
      rw [if_neg hne]
    cases hps : popStep h se with
    | ret o x =>
      cases o with
      | some se1 =>
        rw [hps] at hcov hfine hok hloop
        obtain ⟨hx, hc1, hpend, hpb⟩ := hcov
        obtain ⟨-, hk⟩ := hok
        obtain ⟨-, hr1, hi1⟩ := hk se1 rfl
        have hg1 : SeGood h se1 :=
          ⟨fun y hy => hg.1 y (by rw [hpend]; exact List.mem_cons_of_mem _ hy), hpb⟩
        have hl1 : (pendingOf h se1).length < fuel := by
          rw [hpend] at hl
          simp only [List.length_cons] at hl
          omega
        unfold popAll
        rw [hloop]
        dsimp only
        rw [if_neg hx, ih se1 hg1 hfine hi1 hl1, hpend, hc1, hr1]
        rfl
      | none =>
        rw [hps] at hcov hloop
        have hpend : pendingOf h se = [x] := hcov
        have hx : x ≠ 0 := hg.1 x (by rw [hpend]; exact List.mem_cons_self _ _)
        have hf : ∃ k, fuel = k + 1 := by
          rw [hpend] at hl
          simp only [List.length_cons, List.length_nil] at hl
          exact ⟨fuel - 1, by omega⟩
        obtain ⟨k, rfl⟩ := hf
        unfold popAll
        rw [hloop]
        dsimp only
        rw [if_neg hx]
        have : popOff (se :: S) = S := rfl
        rw [this, popAll_boundary, hpend]
        rfl
    | exhausted =>
      rw [hps] at hcov hloop
      have hpend : pendingOf h se = [] := hcov
      have : popOff (se :: S) = S := rfl
      rw [this, popLoop_boundary] at hloop
      unfold popAll
      rw [hloop]
      dsimp only
      rw [hpend]
      rfl
    | bad e =>
      rw [hps] at hfine
      exact absurd hfine (fun f => f)

/-! ## The log is a ghost: it does not influence the engine -/

theorem tick_withTrace (st : State) (tr : List (Nat × Nat × Nat)) :
    tick (st.withTrace tr) = (tick st).withTrace tr := rfl

theorem maybeInit_withTrace (st : State) (tr : List (Nat × Nat × Nat)) (c : Nat) :
    maybeInitRetainerSet (st.withTrace tr) c = (maybeInitRetainerSet st c).withTrace tr := by
  rw [maybeInit_eq, maybeInit_eq]
  have e1 : (st.withTrace tr).rs = st.rs := rfl
  have e2 : (st.withTrace tr).flip = st.flip := rfl
  rw [e1, e2]
  split <;> rfl

theorem retainerSetOf_withTrace (st : State) (tr : List (Nat × Nat × Nat)) (c : Nat) :
    retainerSetOf (st.withTrace tr) c = retainerSetOf st c := rfl

theorem parentSet_withTrace (st : State) (tr : List (Nat × Nat × Nat)) (cp : Nat) (b : Bool) :
    parentSet (st.withTrace tr) cp b = parentSet st cp b := rfl

theorem firstSet_withTrace (st : State) (tr : List (Nat × Nat × Nat)) (c r : Nat)
    (s : RSWord) :
    firstSet (st.withTrace tr) c r s = (firstSet st c r s).withTrace tr := by
  unfold firstSet
  split <;> rfl

theorem firstVisit_withTrace (h : Heap) (st : State) (tr : List (Nat × Nat × Nat))
    (c r : Nat) (s : RSWord) :
    firstVisit h (st.withTrace tr) c r s =
      ((firstVisit h st c r s).1.withTrace tr, (firstVisit h st c r s).2) := by
  unfold firstVisit
  have e : countVisited (st.withTrace tr) = (countVisited st).withTrace tr := rfl
  rw [e, firstSet_withTrace]
  dsimp only
  split <;> rfl

theorem growSet_withTrace (st : State) (tr : List (Nat × Nat × Nat)) (c r : Nat)
    (s : RSWord) (rc : RetainerSet) :
    growSet (st.withTrace tr) c r s rc =
      (growSet st c r s rc).map (fun x => x.withTrace tr) := by
  unfold growSet
  split
  · rfl
  · split
    · rfl
    · split <;> rfl

theorem revisit_withTrace (h : Heap) (st : State) (tr : List (Nat × Nat × Nat))
    (c r : Nat) (s w : RSWord) :
    revisit h (st.withTrace tr) c r s w =
      ((revisit h st c r s w).1.withTrace tr, (revisit h st c r s w).2) := by
  unfold revisit
  cases hw : w.deref with
  | none => rfl
  | some rc =>
    dsimp only
    split
    · rfl
    · rw [growSet_withTrace]
      cases hg : growSet st c r s rc with
      | none => rfl
      | some st3 =>
        dsimp only [Option.map]
        split <;> (try split) <;> rfl

/-- The retainer-set resolution does not read the log and leaves it as it
  is. -/
theorem resolve_withTrace (h : Heap) (st : State) (tr : List (Nat × Nat × Nat))
    (c cp r : Nat) :
    resolve h (st.withTrace tr) c cp r =
      ((resolve h st c cp r).1.withTrace tr, (resolve h st c cp r).2) := by
  unfold resolve
  rw [tick_withTrace, maybeInit_withTrace]
  dsimp only
  split
  · rfl
  · rw [parentSet_withTrace, retainerSetOf_withTrace]
    split
    · exact firstVisit_withTrace h _ tr c r _
    · exact revisit_withTrace h _ tr c r _ _

theorem push_srt_only_withTrace (h : Heap) (st : State) (tr : List (Nat × Nat × Nat))
    (c ccr : Nat) :
    push_srt_only h (st.withTrace tr) c ccr =
      { st := (push_srt_only h st c ccr).st.withTrace tr,
        first_child := (push_srt_only h st c ccr).first_child } := by
  unfold push_srt_only
  split
  · split <;> rfl
  · rfl

/-- The function `push` does not read the log and leaves it as it is. -/
theorem push_withTrace (h : Heap) (st : State) (tr : List (Nat × Nat × Nat)) (c ccr : Nat) :
    push h (st.withTrace tr) c ccr =
      { st := (push h st c ccr).st.withTrace tr,
        first_child := (push h st c ccr).first_child } := by
  unfold push
  dsimp only
  split
  all_goals first
    | rfl
    | exact push_srt_only_withTrace h st tr c ccr
    | (split
       · split
         · first
            | rfl
            | exact push_srt_only_withTrace h st tr c ccr
         · rfl
       · rfl)

theorem withTrace_status (st : State) (tr : List (Nat × Nat × Nat)) :
    (st.withTrace tr).status = st.status := rfl

theorem andThen_sameButLog {st st1 : State} {k k1 : State → State} (hs : sameButLog st st1)
    (hk : ∀ a a1, sameButLog a a1 → sameButLog (k a) (k1 a1)) :
    sameButLog (st.andThen k) (st1.andThen k1) := by
  have e : st1.status = st.status := by rw [hs]; rfl
  unfold State.andThen
  rw [e]
  split
  · exact hs
  · exact hk _ _ hs

theorem sameButLog_of_eq {st st1 : State} (tr : List (Nat × Nat × Nat))
    (e : st1 = st.withTrace tr) : sameButLog st st1 := by
  unfold sameButLog
  rw [e]
  rfl

/-- The engine does not read the log: from states that agree on everything
  but the log it returns states that agree on everything but the log. -/
theorem exec_sameButLog (h : Heap) (fuel : Nat) : ∀ (t : Task) (st st1 : State),
    sameButLog st st1 → sameButLog (exec h fuel t st) (exec h fuel t st1) := by
  induction fuel with
  | zero =>
    intro t st st1 hs
    exact sameButLog_of_eq st1.trace (by rw [hs]; rfl)
  | succ fuel ih =>
    intro t st st1 hs
    cases t with
    | loop =>
      have e : pop h st1 = pop h st := by rw [hs]; rfl
      simp only [exec]
      rw [e]
      split
      · exact sameButLog_of_eq st1.trace (by rw [hs]; rfl)
      · split
        · exact sameButLog_of_eq st1.trace (by rw [hs]; rfl)
        · exact ih _ _ _ (sameButLog_of_eq st1.trace (by rw [hs]; rfl))
    | inner c cp r =>
      have hl : logArrival st1 c cp r =
          (logArrival st c cp r).withTrace ((c, cp, r) :: st1.trace) := by
        rw [hs]; rfl
      simp only [exec]
      rw [hl]
      simp only [resolve_withTrace, push_withTrace, withTrace_status]
      split
      · exact sameButLog_of_eq _ rfl
      · split
        · exact ih _ _ _ (sameButLog_of_eq _ rfl)
        · exact ih _ _ _ (sameButLog_of_eq _ rfl)
        · split
          · exact sameButLog_of_eq _ rfl
          · split
            · exact ih _ _ _ (sameButLog_of_eq _ rfl)
            · split
              · exact andThen_sameButLog (ih _ _ _ (sameButLog_of_eq _ rfl))
                  (fun a a1 ha => ih _ _ _ ha)
              · exact andThen_sameButLog (ih _ _ _ (sameButLog_of_eq _ rfl))
                  (fun a a1 ha => ih _ _ _ ha)
              · exact andThen_sameButLog (ih _ _ _ (sameButLog_of_eq _ rfl))
                  (fun a a1 ha => ih _ _ _ ha)
              · exact andThen_sameButLog
                  (andThen_sameButLog (ih _ _ _ (sameButLog_of_eq _ rfl))
                    (fun a a1 ha => ih _ _ _ ha))
                  (fun a a1 ha => ih _ _ _ ha)
              · split
                · exact sameButLog_of_eq _ rfl
                · split
                  · exact ih _ _ _ (sameButLog_of_eq _ rfl)
                  · exact ih _ _ _ (sameButLog_of_eq _ rfl)
    | calls cs bad =>
      simp only [exec]
      split
      · split
        · exact sameButLog_of_eq st1.trace (by rw [hs]; rfl)
        · exact hs
      · exact andThen_sameButLog (ih _ _ _ hs) (fun a a1 ha => ih _ _ _ ha)
    | stack cs bad =>
      simp only [exec]
      have e : st1.stack = st.stack := by rw [hs]; rfl
      have e2 : st1.currentStackBoundary = st.currentStackBoundary := by rw [hs]; rfl
      rw [e, e2]
      refine andThen_sameButLog (ih _ _ _ (sameButLog_of_eq st1.trace (by rw [hs]; rfl))) ?_
      intro a a1 ha
      exact sameButLog_of_eq a1.trace (by rw [ha]; rfl)

/-! ## Invariants of the engine, in general -/

/-- A property of the state that every step of the engine preserves holds at
  the end of a run if it holds at its start. -/
theorem run_inv {h : Heap} (Φ : State → Prop)
    (hfail : ∀ st e, Φ st → Φ (st.fail e))
    (hpop : ∀ st : State, Φ st → Φ { st with stack := (pop h st).stack })
    (hlog : ∀ st c cp r, Φ st → Φ (logArrival st c cp r))
    (hres : ∀ st c cp r, c ≠ 0 → preFilter h c = PreFilter.visit → Φ st →
      Φ (resolve h st c cp r).1)
    (hpush : ∀ st c ccr, Φ st → Φ (push h st c ccr).st)
    (hbound : ∀ (st : State) b, Φ st → Φ { st with currentStackBoundary := b })
    {t : Task} {st st1 : State} (hr : Run h t st st1) : Φ st → Φ st1 := by
  induction hr with
  | out_of_fuel t st => intro hs; exact hfail _ _ hs
  | loop_err he => intro hs; exact hfail _ _ (hpop _ hs)
  | loop_done he hc => intro hs; exact hpop _ hs
  | loop_next he hc _ ih => intro hs; exact ih (hpop _ hs)
  | inner_null => intro hs; exact hfail _ _ (hlog _ _ _ _ hs)
  | inner_skip hc hp _ ih => intro hs; exact ih (hlog _ _ _ _ hs)
  | inner_follow hc hp _ ih => intro hs; exact ih (hlog _ _ _ _ hs)
  | inner_fail hc hp hf => intro hs; exact hres _ _ _ _ hc hp (hlog _ _ _ _ hs)
  | inner_stop hc hp hs1 hd _ ih => intro hs; exact ih (hres _ _ _ _ hc hp (hlog _ _ _ _ hs))
  | inner_tso_abort hc hp hs1 hd hty _ hab ih =>
    intro hs; exact ih (hres _ _ _ _ hc hp (hlog _ _ _ _ hs))
  | inner_tso hc hp hs1 hd hty _ hok _ ih1 ih2 =>
    intro hs; exact ih2 (ih1 (hres _ _ _ _ hc hp (hlog _ _ _ _ hs)))
  | inner_pap_abort hc hp hs1 hd hty _ hab ih =>
    intro hs; exact ih (hres _ _ _ _ hc hp (hlog _ _ _ _ hs))
  | inner_pap hc hp hs1 hd hty _ hok _ ih1 ih2 =>
    intro hs; exact ih2 (ih1 (hres _ _ _ _ hc hp (hlog _ _ _ _ hs)))
  | inner_apstack_abort1 hc hp hs1 hd hty _ hab ih =>
    intro hs; exact ih (hres _ _ _ _ hc hp (hlog _ _ _ _ hs))
  | inner_apstack_abort2 hc hp hs1 hd hty _ hok _ hab ih1 ih2 =>
    intro hs; exact ih2 (ih1 (hres _ _ _ _ hc hp (hlog _ _ _ _ hs)))
  | inner_apstack hc hp hs1 hd hty _ hok _ hok2 _ ih1 ih2 ih3 =>
    intro hs; exact ih3 (ih2 (ih1 (hres _ _ _ _ hc hp (hlog _ _ _ _ hs))))
  | inner_push_fail hc hp hs1 hd hss hpf =>
    intro hs; exact hpush _ _ _ (hres _ _ _ _ hc hp (hlog _ _ _ _ hs))
  | inner_push_leaf hc hp hs1 hd hss hps hfc _ ih =>
    intro hs; exact ih (hpush _ _ _ (hres _ _ _ _ hc hp (hlog _ _ _ _ hs)))
  | inner_push_child hc hp hs1 hd hss hps hfc _ ih =>
    intro hs; exact ih (hpush _ _ _ (hres _ _ _ _ hc hp (hlog _ _ _ _ hs)))
  | calls_nil => intro hs; exact hs
  | calls_barf => intro hs; exact hfail _ _ hs
  | calls_abort _ hab ih => intro hs; exact ih hs
  | calls_cons _ hok _ ih1 ih2 => intro hs; exact ih2 (ih1 hs)
  | stack_abort _ hab ih => intro hs; exact ih (hbound _ _ hs)
  | stack_ok _ hok ih => intro hs; exact hbound _ _ (ih (hbound _ _ hs))

/-- A property of the slots and the flip bit that the retainer-set resolution
  of the closures that are visited preserves holds at the end of a run if it
  holds at its start. -/
theorem run_slots {h : Heap} (Ψ : (Nat → RSWord) → Bool → Prop)
    (hres : ∀ st c cp r, c ≠ 0 → preFilter h c = PreFilter.visit → Ψ st.rs st.flip →
      Ψ (resolve h st c cp r).1.rs (resolve h st c cp r).1.flip)
    {t : Task} {st st1 : State} (hr : Run h t st st1) :
    Ψ st.rs st.flip → Ψ st1.rs st1.flip := by
  refine run_inv (fun s => Ψ s.rs s.flip) (fun _ _ hs => hs) (fun _ hs => hs)
    (fun _ _ _ _ hs => hs) hres ?_ (fun _ _ hs => hs) hr
  intro s c ccr hs
  obtain ⟨e1, e2, -⟩ := push_ok h s c ccr
  show Ψ (push h s c ccr).st.rs (push h s c ccr).st.flip
  rw [e1, e2]; exact hs

/-- The log only grows along a run. -/
theorem run_trace_mono {h : Heap} {t : Task} {st st1 : State} (hr : Run h t st st1)
    (x : Nat × Nat × Nat) (hx : x ∈ st.trace) : x ∈ st1.trace := by
  refine run_inv (fun s => x ∈ s.trace) (fun _ _ hs => hs) (fun _ hs => hs)
    (fun _ _ _ _ hs => List.mem_cons_of_mem _ hs) ?_ ?_ (fun _ _ hs => hs) hr hx
  · intro s c cp r _ _ hs
    show x ∈ (resolve h s c cp r).1.trace
    rw [(resolve_frame h s c cp r).2.2.2.1]; exact hs
  · intro s c ccr hs
    show x ∈ (push h s c ccr).st.trace
    rw [(push_ok h s c ccr).2.2.2.1]; exact hs

/-- The slot of a closure that the pre-filter does not let through to the
  retainer-set resolution is never written. -/
theorem run_slot_frame {h : Heap} {t : Task} {st st1 : State} (hr : Run h t st st1)
    (a : Nat) (ha : preFilter h a ≠ PreFilter.visit) : st1.rs a = st.rs a := by
  refine run_slots (fun rs _ => rs a = st.rs a) ?_ hr rfl
  intro s c cp r _ hp hs
  have hne : a ≠ c := fun e => ha (e ▸ hp)
  show (resolve h s c cp r).1.rs a = st.rs a
  rw [(resolve_frame h s c cp r).2.2.2.2 a hne]; exact hs

/-! ## Invariants of the log and the traverse stack -/

theorem visited_fail (st : State) (e : Fatal) (a : Nat) : visited (st.fail e) a = visited st a :=
  rfl

theorem revisit_visited (h : Heap) (st : State) (c r : Nat) (s w : RSWord)
    (hv : visited st c = true) : visited (revisit h st c r s w).1 c = true := by
  unfold revisit
  split
  · exact hv
  · rename_i rc hd
    split
    · exact hv
    · rename_i hm
      have hm1 : isMember r rc = false := by simpa using hm
      split
      · exact hv
      · rename_i st3 hg
        obtain ⟨rc1, hslot, -⟩ := growSet_slot hg hm1
        have hfl : st3.flip = st.flip := (growSet_frame hg).1
        have hv3 : visited st3 c = true := visited_of_slot st3 c rc1 (by rw [hslot, hfl])
        split
        · exact hv3
        · split <;> exact hv3

/-- The retainer-set resolution keeps every visited closure visited. -/
theorem resolve_visited (h : Heap) (st : State) (c cp r a : Nat)
    (hv : visited st a = true) : visited (resolve h st c cp r).1 a = true := by
  by_cases e : a = c
  · subst e
    have hv1 := (visited_iff _ _).1 hv
    have hv2 : visited (maybeInitRetainerSet (tick st) a) a = true := by
      rw [maybeInit_of_valid (tick st) a (by simpa using hv1.1)]
      exact hv
    cases hcp : isRetainer h cp with
    | none =>
      rw [resolve_barf h st a cp r hcp]
      exact hv2
    | some b =>
      have hn : readsNull st a = false := by
        cases hset : (st.rs a).set with
        | none => rw [hset] at hv1; cases hv1.2
        | some rc => exact readsNull_of_visited st a rc ((valid_iff _ _).2 hv1.1) hset
      rw [resolve_revisit h st a cp r b hcp hn]
      exact revisit_visited h _ a r _ _ hv2
  · have hf := resolve_frame h st c cp r
    rw [visited_iff] at hv ⊢
    rw [hf.2.2.2.2 a e, hf.1]
    exact hv

/-- A visited closure stays visited along a run. -/
theorem run_visited {h : Heap} {t : Task} {st st1 : State} (hr : Run h t st st1)
    (a : Nat) (hv : visited st a = true) : visited st1 a = true := by
  have key : (st1.rs a).low = st1.flip ∧ (st1.rs a).set.isSome = true := by
    refine run_slots (fun rs fl => (rs a).low = fl ∧ (rs a).set.isSome = true) ?_ hr
      ((visited_iff _ _).1 hv)
    intro s c cp r _ _ hs
    exact (visited_iff _ _).1 (resolve_visited h s c cp r a ((visited_iff _ _).2 hs))
  exact (visited_iff _ _).2 key

theorem LogCtx.ctx_log {h : Heap} {P : List Call → Nat → Nat → Prop}
    (hmono : ∀ tr tr1 cp r, (∀ x ∈ tr, x ∈ tr1) → P tr cp r → P tr1 cp r)
    {st : State} (hs : LogCtx h P st) (c cp r : Nat) (ha : P st.trace cp r) :
    LogCtx h P (logArrival st c cp r) := by
  have hsub : ∀ x ∈ st.trace, x ∈ (logArrival st c cp r).trace :=
    fun x hx => List.mem_cons_of_mem _ hx
  constructor
  · intro x hx
    rcases List.mem_cons.1 hx with rfl | hx
    · exact hmono _ _ _ _ hsub ha
    · exact hmono _ _ _ _ hsub (hs.1 x hx)
  · intro se hse
    exact ⟨(hs.2 se hse).1, hmono _ _ _ _ hsub (hs.2 se hse).2⟩

theorem LogCtx.ctx_of_eq {h : Heap} {P : List Call → Nat → Nat → Prop} {st st1 : State}
    (hs : LogCtx h P st) (ht : st1.trace = st.trace) (hk : st1.stack = st.stack) :
    LogCtx h P st1 := by
  unfold LogCtx; rw [ht, hk]; exact hs

theorem LogCtx.ctx_resolve {h : Heap} {P : List Call → Nat → Nat → Prop} {st : State}
    (hs : LogCtx h P st) (c cp r : Nat) : LogCtx h P (resolve h st c cp r).1 :=
  hs.ctx_of_eq (resolve_frame h st c cp r).2.2.2.1 (resolve_frame h st c cp r).2.1

theorem LogCtx.ctx_pop {h : Heap} {P : List Call → Nat → Nat → Prop} {st : State}
    (hs : LogCtx h P st) :
    LogCtx h P { st with stack := (pop h st).stack } ∧
    ((pop h st).c ≠ 0 → P st.trace (pop h st).cp (pop h st).r) := by
  obtain ⟨h1, h2⟩ := popLoop_ctx h (P st.trace) st.currentStackBoundary st.stack hs.2
  exact ⟨⟨hs.1, h1⟩, fun hc => (h2 hc).2.1⟩

theorem LogCtx.ctx_push {h : Heap} {P : List Call → Nat → Nat → Prop} {st : State}
    (hs : LogCtx h P st) (c ccr : Nat) (hp : P st.trace c ccr) :
    LogCtx h P (push h st c ccr).st := by
  have ht : (push h st c ccr).st.trace = st.trace := (push_ok h st c ccr).2.2.2.1
  constructor
  · rw [ht]; exact hs.1
  · rw [ht]; exact push_ctx h _ st c ccr hs.2 hp

/-- The invariant of the log and the traverse stack along a run, for a
  property `P` of a parent and the retainer handed to its children that is
  monotone in the log and holds for a closure and the retainer that the
  retainer-set resolution decides for its children. -/
theorem run_logctx {h : Heap} (P : List Call → Nat → Nat → Prop)
    (hmono : ∀ tr tr1 cp r, (∀ x ∈ tr, x ∈ tr1) → P tr cp r → P tr1 cp r)
    (hdesc : ∀ (st : State) c cp r ccr, preFilter h c = PreFilter.visit →
      (resolve h (logArrival st c cp r) c cp r).2 = Decision.descend ccr →
      P ((c, cp, r) :: st.trace) c ccr)
    {t : Task} {st st1 : State} (hr : Run h t st st1) :
    LogCtx h P st → (∀ x ∈ arrivalsOf t, P st.trace x.2.1 x.2.2) → LogCtx h P st1 := by
  have hd : ∀ (st : State) c cp r ccr, preFilter h c = PreFilter.visit →
      (resolve h (logArrival st c cp r) c cp r).2 = Decision.descend ccr →
      P (resolve h (logArrival st c cp r) c cp r).1.trace c ccr := by
    intro st c cp r ccr hp hdec
    rw [(resolve_frame h (logArrival st c cp r) c cp r).2.2.2.1]
    exact hdesc st c cp r ccr hp hdec
  induction hr with
  | out_of_fuel t st => intro hs _; exact hs
  | loop_err he => intro hs _; exact hs.ctx_pop.1
  | loop_done he hc => intro hs _; exact hs.ctx_pop.1
  | loop_next he hc _ ih =>
    intro hs _
    refine ih hs.ctx_pop.1 ?_
    intro x hx
    rw [List.mem_singleton.1 hx]
    exact hs.ctx_pop.2 hc
  | inner_null => intro hs hp; exact hs.ctx_log hmono _ _ _ (hp _ (List.mem_singleton_self _))
  | inner_skip hc hp _ ih =>
    intro hs ha
    exact ih (hs.ctx_log hmono _ _ _ (ha _ (List.mem_singleton_self _))) (fun x hx => by cases hx)
  | @inner_follow c c1 cp r st st1 hc hp _ ih =>
    intro hs ha
    have h0 := ha _ (List.mem_singleton_self _)
    refine ih (hs.ctx_log hmono _ _ _ h0) ?_
    intro x hx
    rw [List.mem_singleton.1 hx]
    exact hmono _ _ _ _ (fun y hy => List.mem_cons_of_mem _ hy) h0
  | inner_fail hc hp hf =>
    intro hs ha
    exact (hs.ctx_log hmono _ _ _ (ha _ (List.mem_singleton_self _))).ctx_resolve _ _ _
  | inner_stop hc hp hs1 hd1 _ ih =>
    intro hs ha
    exact ih ((hs.ctx_log hmono _ _ _ (ha _ (List.mem_singleton_self _))).ctx_resolve _ _ _)
      (fun x hx => by cases hx)
  | inner_tso_abort hc hp hs1 hd1 hty _ hab ih =>
    intro hs ha
    refine ih ((hs.ctx_log hmono _ _ _ (ha _ (List.mem_singleton_self _))).ctx_resolve _ _ _) ?_
    intro x hx
    rw [(retainStackCalls_mem h _ _ x hx).1]
    exact hd _ _ _ _ _ hp hd1
  | @inner_tso c cp r ccr st st1 st2 hc hp hs1 hd1 hty hr1 hok _ ih1 ih2 =>
    intro hs ha
    refine ih2 (ih1 ((hs.ctx_log hmono _ _ _ (ha _ (List.mem_singleton_self _))).ctx_resolve _ _ _)
      ?_) (fun x hx => by cases hx)
    intro x hx
    rw [(retainStackCalls_mem h _ _ x hx).1]
    exact hd _ _ _ _ _ hp hd1
  | inner_pap_abort hc hp hs1 hd1 hty _ hab ih =>
    intro hs ha
    refine ih ((hs.ctx_log hmono _ _ _ (ha _ (List.mem_singleton_self _))).ctx_resolve _ _ _) ?_
    intro x hx
    rw [(retain_PAP_mem h _ _ x hx).1]
    exact hd _ _ _ _ _ hp hd1
  | inner_pap hc hp hs1 hd1 hty _ hok _ ih1 ih2 =>
    intro hs ha
    refine ih2 (ih1 ((hs.ctx_log hmono _ _ _ (ha _ (List.mem_singleton_self _))).ctx_resolve _ _ _)
      ?_) (fun x hx => by cases hx)
    intro x hx
    rw [(retain_PAP_mem h _ _ x hx).1]
    exact hd _ _ _ _ _ hp hd1
  | inner_apstack_abort1 hc hp hs1 hd1 hty _ hab ih =>
    intro hs ha
    refine ih ((hs.ctx_log hmono _ _ _ (ha _ (List.mem_singleton_self _))).ctx_resolve _ _ _) ?_
    intro x hx
    rw [List.mem_singleton.1 hx]
    exact hd _ _ _ _ _ hp hd1
  | inner_apstack_abort2 hc hp hs1 hd1 hty hr1 hok _ hab ih1 ih2 =>
    intro hs ha
    refine ih2 (ih1
      ((hs.ctx_log hmono _ _ _ (ha _ (List.mem_singleton_self _))).ctx_resolve _ _ _) ?_) ?_
    · intro x hx
      rw [List.mem_singleton.1 hx]
      exact hd _ _ _ _ _ hp hd1
    · intro x hx
      rw [(retainStackCalls_mem h _ _ x hx).1]
      exact hmono _ _ _ _ (run_trace_mono hr1) (hd _ _ _ _ _ hp hd1)
  | inner_apstack hc hp hs1 hd1 hty hr1 hok _ hok2 _ ih1 ih2 ih3 =>
    intro hs ha
    refine ih3 (ih2 (ih1
      ((hs.ctx_log hmono _ _ _ (ha _ (List.mem_singleton_self _))).ctx_resolve _ _ _) ?_) ?_)
      (fun x hx => by cases hx)
    · intro x hx
      rw [List.mem_singleton.1 hx]
      exact hd _ _ _ _ _ hp hd1
    · intro x hx
      rw [(retainStackCalls_mem h _ _ x hx).1]
      exact hmono _ _ _ _ (run_trace_mono hr1) (hd _ _ _ _ _ hp hd1)
  | inner_push_fail hc hp hs1 hd1 hss hpf =>
    intro hs ha
    exact ((hs.ctx_log hmono _ _ _ (ha _ (List.mem_singleton_self _))).ctx_resolve _ _ _).ctx_push
      _ _ (hd _ _ _ _ _ hp hd1)
  | inner_push_leaf hc hp hs1 hd1 hss hps hfc _ ih =>
    intro hs ha
    exact ih (((hs.ctx_log hmono _ _ _ (ha _ (List.mem_singleton_self _))).ctx_resolve _ _
      _).ctx_push _ _ (hd _ _ _ _ _ hp hd1)) (fun x hx => by cases hx)
  | inner_push_child hc hp hs1 hd1 hss hps hfc _ ih =>
    intro hs ha
    refine ih (((hs.ctx_log hmono _ _ _ (ha _ (List.mem_singleton_self _))).ctx_resolve _ _
      _).ctx_push _ _ (hd _ _ _ _ _ hp hd1)) ?_
    intro x hx
    rw [List.mem_singleton.1 hx, (push_ok h _ _ _).2.2.2.1]
    exact hd _ _ _ _ _ hp hd1
  | calls_nil => intro hs _; exact hs
  | calls_barf => intro hs _; exact hs
  | calls_abort _ hab ih =>
    intro hs hp
    refine ih hs ?_
    intro x hx
    rw [List.mem_singleton.1 hx]
    exact hp _ (List.mem_cons_self _ _)
  | calls_cons hr1 hok _ ih1 ih2 =>
    intro hs hp
    refine ih2 (ih1 hs ?_) ?_
    · intro x hx
      rw [List.mem_singleton.1 hx]
      exact hp _ (List.mem_cons_self _ _)
    · intro x hx
      exact hmono _ _ _ _ (run_trace_mono hr1) (hp x (List.mem_cons_of_mem _ hx))
  | stack_abort _ hab ih =>
    intro hs hp
    exact ih (hs.ctx_of_eq rfl rfl) hp
  | stack_ok _ hok ih =>
    intro hs hp
    exact (ih (hs.ctx_of_eq rfl rfl) hp).ctx_of_eq rfl rfl

/-! ## The pre-filter and the decisions of the resolution -/

theorem skippedKind_preFilter {h : Heap} {c : Nat} (hk : skippedKind h c) :
    preFilter h c = PreFilter.skip := by
  unfold skippedKind typeOf at hk
  unfold preFilter
  rcases hk with ⟨e, hw⟩ | e | e | e | ⟨e | e, hs⟩
  · rcases hw with hw | hw <;> simp [e, hw]
  · simp [e]
  · simp [e]
  · simp [e]
  · simp [e, hs]
  · simp [e, hs]

theorem transparentTo_preFilter {h : Heap} {i t : Nat} (ht : transparentTo h i t) :
    preFilter h i = PreFilter.follow t := by
  unfold transparentTo typeOf at ht
  unfold preFilter
  rcases ht with ⟨e, rfl⟩ | ⟨e, hw, rfl⟩
  · simp [e]
  · simp [e, hw]

/-- Reaching a closure that the pre-filter skips: the engine goes to the label
  `loop` in the state of the arrival. -/
theorem exec_skip (h : Heap) (fuel : Nat) (st : State) (c cp r : Nat) (hc : c ≠ 0)
    (hp : preFilter h c = PreFilter.skip) :
    exec h (fuel + 1) (Task.inner c cp r) st = exec h fuel Task.loop (logArrival st c cp r) := by
  simp only [exec]
  rw [if_neg hc, hp]

/-- Reaching a closure that the pre-filter follows: the engine goes to
  `inner_loop` with its target, in the state of the arrival. -/
theorem exec_follow (h : Heap) (fuel : Nat) (st : State) (c c1 cp r : Nat) (hc : c ≠ 0)
    (hp : preFilter h c = PreFilter.follow c1) :
    exec h (fuel + 1) (Task.inner c cp r) st =
      exec h fuel (Task.inner c1 cp r) (logArrival st c cp r) := by
  simp only [exec]
  rw [if_neg hc, hp]

/-- Reaching a closure for which the resolution decides to stop: the engine
  goes to the label `loop` in the state after the resolution. -/
theorem exec_stop (h : Heap) (fuel : Nat) (st : State) (c cp r : Nat) (hc : c ≠ 0)
    (hp : preFilter h c = PreFilter.visit)
    (hs : (resolve h (logArrival st c cp r) c cp r).1.status = none)
    (hd : (resolve h (logArrival st c cp r) c cp r).2 = Decision.stop) :
    exec h (fuel + 1) (Task.inner c cp r) st =
      exec h fuel Task.loop (resolve h (logArrival st c cp r) c cp r).1 := by
  simp only [exec]
  rw [if_neg hc, hp]
  simp only [hs, hd]
  rfl

theorem resolve_first_decision (h : Heap) (st : State) (c cp r : Nat) (b bc : Bool)
    (hcp : isRetainer h cp = some b) (hc : isRetainer h c = some bc)
    (hn : readsNull st c = true) :
    (resolve h st c cp r).2 = Decision.descend (if bc then getRetainerFrom h c else r) := by
  rw [resolve_first h st c cp r b hcp hn]
  unfold firstVisit
  simp only [hc]

/-- The cases in which the resolution decides to visit the children, and the
  retainer it decides for them. -/
theorem resolve_descend_cases (h : Heap) (st : State) (c cp r ccr : Nat)
    (hd : (resolve h st c cp r).2 = Decision.descend ccr) :
    (isRetainer h c = some true ∧ readsNull st c = true ∧ ccr = getRetainerFrom h c) ∨
    (isRetainer h c = some false ∧ ccr = r) := by
  cases hcp : isRetainer h cp with
  | none =>
    rw [resolve_barf h st c cp r hcp] at hd
    cases hd
  | some b =>
    cases hn : readsNull st c with
    | true =>
      cases hc : isRetainer h c with
      | none =>
        rw [resolve_first h st c cp r b hcp hn] at hd
        unfold firstVisit at hd
        simp only [hc] at hd
        cases hd
      | some bc =>
        rw [resolve_first_decision h st c cp r b bc hcp hc hn] at hd
        cases bc with
        | true => left; exact ⟨rfl, rfl, by simpa using hd.symm⟩
        | false => right; exact ⟨rfl, by simpa using hd.symm⟩
    | false =>
      rw [resolve_revisit h st c cp r b hcp hn] at hd
      unfold revisit at hd
      split at hd
      · cases hd
      · split at hd
        · cases hd
        · split at hd
          · cases hd
          · split at hd
            · cases hd
            · rename_i bc hc
              split at hd
              · cases hd
              · rename_i hb
                right
                refine ⟨?_, ?_⟩
                · rw [hc]; simpa using hb
                · simp only [Decision.descend.injEq] at hd
                  exact hd.symm

/-! ## Revisits of a retainer, parents that are never visited -/

theorem sameButLog.fields {st st1 : State} (hs : sameButLog st st1) :
    st1.flip = st.flip ∧ st1.rs = st.rs ∧ st1.stack = st.stack ∧
    st1.currentStackBoundary = st.currentStackBoundary ∧
    st1.numObjectVisited = st.numObjectVisited ∧
    st1.timesAnyObjectVisited = st.timesAnyObjectVisited ∧ st1.status = st.status := by
  unfold sameButLog at hs
  rw [hs]
  exact ⟨rfl, rfl, rfl, rfl, rfl, rfl, rfl⟩

theorem visited_false_of_readsNull (st : State) (c : Nat) (hn : readsNull st c = true) :
    visited st c = false := by
  cases hv : visited st c with
  | false => rfl
  | true =>
    obtain ⟨h1, h2⟩ := (visited_iff st c).1 hv
    obtain ⟨rc, hrc⟩ := Option.isSome_iff_exists.1 h2
    rw [readsNull_of_visited st c rc ((valid_iff st c).2 h1) hrc] at hn
    cases hn

/-- The resolution at a visited retainer `c` with a retainer that its set does
  not hold: the slot takes `addElement(r, rc)` or the set of the parent, and the
  decision is to stop. -/
theorem resolve_retainer_revisit (h : Heap) (st : State) (c cp r : Nat) (b : Bool)
    (rc : RetainerSet) (hret : isRetainer h c = some true) (hcp : isRetainer h cp = some b)
    (hpar : b = false → isRetainerSetFieldValid st cp = true)
    (hv : isRetainerSetFieldValid st c = true) (hs : (st.rs c).set = some rc)
    (hm : isMember r rc = false) :
    ∃ S, (S = addElement r rc ∨ (b = false ∧ (st.rs cp).set = some S ∧ num S = num rc + 1)) ∧
      resolve h st c cp r = (associate (tick st) c (ptrTo S), Decision.stop) := by
  have hlow : (st.rs c).low = st.flip := (valid_iff st c).1 hv
  have hlow1 : ((tick st).rs c).low = (tick st).flip := hlow
  rw [resolve_revisit h st c cp r b hcp (readsNull_of_visited st c rc hv hs),
    maybeInit_of_valid _ _ hlow1, retainerSetOf_of_valid _ _ hlow1]
  unfold revisit
  simp only [RSWord.deref, tick_rs, hs, hm, Bool.false_eq_true, if_false, hret, if_true]
  cases b with
  | true =>
    refine ⟨addElement r rc, Or.inl rfl, ?_⟩
    simp [parentSet, growSet, RSWord.isNull]
  | false =>
    have hlowp : ((tick st).rs cp).low = (tick st).flip := (valid_iff st cp).1 (hpar rfl)
    simp only [parentSet, Bool.false_eq_true, if_false, retainerSetOf_of_valid _ _ hlowp,
      tick_rs]
    cases hp : (st.rs cp).set with
    | none =>
      refine ⟨addElement r rc, Or.inl rfl, ?_⟩
      simp [growSet, RSWord.isNull]
    | some sset =>
      by_cases hn : num sset = num rc + 1
      · refine ⟨sset, Or.inr ⟨trivial, rfl, hn⟩, ?_⟩
        simp [growSet, RSWord.isNull, RSWord.deref, hn, ptrTo]
      · refine ⟨addElement r rc, Or.inl rfl, ?_⟩
        simp [growSet, RSWord.isNull, RSWord.deref, hn]

/-- A closure that the pre-filter does not let through is the parent of no
  arrival but those given from outside. -/
theorem run_no_parent {h : Heap} {a : Nat} (ha : preFilter h a ≠ PreFilter.visit)
    {t : Task} {st st1 : State} (hr : Run h t st st1) (hs : st.stack = [])
    (htr : ∀ x ∈ st.trace, x.2.1 ≠ a) (hx : ∀ x ∈ arrivalsOf t, x.2.1 ≠ a) :
    ∀ x ∈ st1.trace, x.2.1 ≠ a := by
  have key := run_logctx (fun _ cp _ => cp ≠ a) (fun _ _ _ _ _ hp => hp)
    (fun _ c _ _ _ hp _ => fun e => ha (e ▸ hp)) hr
    ⟨htr, (by rw [hs]; intro se hse; cases hse)⟩ hx
  exact key.1

namespace Chunked

theorem stored_storeAt {sz : Nat} (hsz : 0 < sz) (mem : Nat → Option stackElement)
    (a : Nat) (se : stackElement) : ∀ (seg : List stackElement) (x : Nat),
    Stored sz mem x seg → (a + sz ≤ x ∨ x + seg.length * sz ≤ a) →
    Stored sz (storeAt sz mem a se) x seg := by
  intro seg
  induction seg with
  | nil => intro x _ _; trivial
  | cons y rest ih =>
    intro x hs hd
    obtain ⟨h1, h2⟩ := hs
    have hlen : (y :: rest).length * sz = rest.length * sz + sz := by
      rw [List.length_cons, Nat.succ_mul]
    rw [hlen] at hd
    refine ⟨?_, ih (x + sz) h2 ?_⟩
    · unfold storeAt
      rw [if_neg (by omega), if_neg (by omega)]
      exact h1
    · omega

theorem storeAt_self (sz : Nat) (mem : Nat → Option stackElement) (a : Nat)
    (se : stackElement) : storeAt sz mem a se a = some se := by
  unfold storeAt
  rw [if_pos rfl]

theorem readElements_stored (sz : Nat) (mem : Nat → Option stackElement) :
    ∀ (seg : List stackElement) (a : Nat), Stored sz mem a seg →
      readElements sz mem seg.length a = some seg := by
  intro seg
  induction seg with
  | nil => intro a _; rfl
  | cons y rest ih =>
    intro a hs
    obtain ⟨h1, h2⟩ := hs
    simp only [List.length_cons, readElements, h1, ih (a + sz) h2]

theorem fullAt_store {m : Machine} (hsz : 0 < m.sizeofElement) {bd : Nat → bdescr}
    {mem : Nat → Option stackElement} {p : Nat} {seg : List stackElement}
    (hf : FullAt m bd mem p seg) (a : Nat) (se : stackElement)
    (hd : (bd p).start + m.BLOCK_SIZE_W * (bd p).blocks ≤ a ∨
      a + m.sizeofElement ≤ (bd p).start) :
    Stored m.sizeofElement (storeAt m.sizeofElement mem a se) (bd p).free seg := by
  obtain ⟨h1, h2, _, h4⟩ := hf
  refine stored_storeAt hsz mem a se seg _ h4 ?_
  omega

theorem fullAt_ne_nil {m : Machine} {bd : Nat → bdescr}
    {mem : Nat → Option stackElement} {p : Nat} {seg : List stackElement}
    (hf : FullAt m bd mem p seg)
    (hcap : m.sizeofElement ≤ m.BLOCK_SIZE_W * (bd p).blocks) : seg ≠ [] := by
  obtain ⟨h1, h2, h3, _⟩ := hf
  intro e
  subst e
  simp only [List.length_nil, Nat.zero_mul, Nat.add_zero] at h1
  omega

theorem BackOK.back_frame {m : Machine} {bd bd1 : Nat → bdescr}
    {mem mem1 : Nat → Option stackElement} {first : Option Nat} :
    ∀ (backs : List (Nat × List stackElement)) (b : Nat),
    BackOK m bd mem first b backs → (bd1 b).back = (bd b).back →
    (∀ x ∈ backs, bd1 x.1 = bd x.1) →
    (∀ x ∈ backs, Stored m.sizeofElement mem1 (bd x.1).free x.2) →
    BackOK m bd1 mem1 first b backs := by
  intro backs
  induction backs with
  | nil => intro b hb _ _ _; exact hb
  | cons x rest ih =>
    intro b hb hback hbd hmem
    obtain ⟨h1, h2, h3, h4, h5⟩ := hb
    have ex : bd1 x.1 = bd x.1 := hbd x (List.mem_cons_self _ _)
    refine ⟨h1, by rw [hback]; exact h2, by rw [ex]; exact h3, ?_, ?_⟩
    · unfold FullAt
      rw [ex]
      exact ⟨h4.1, h4.2.1, h4.2.2.1, hmem x (List.mem_cons_self _ _)⟩
    · exact ih x.1 h5 (by rw [ex]) (fun y hy => hbd y (List.mem_cons_of_mem _ hy))
        (fun y hy => hmem y (List.mem_cons_of_mem _ hy))

theorem BackOK.full_of_mem {m : Machine} {bd : Nat → bdescr}
    {mem : Nat → Option stackElement} {first : Option Nat} :
    ∀ (backs : List (Nat × List stackElement)) (b : Nat),
    BackOK m bd mem first b backs → ∀ x ∈ backs, FullAt m bd mem x.1 x.2 := by
  intro backs
  induction backs with
  | nil => intro b _ x hx; cases hx
  | cons y rest ih =>
    intro b hb x hx
    obtain ⟨_, _, _, h4, h5⟩ := hb
    rcases List.mem_cons.1 hx with e | hx
    · rw [e]; exact h4
    · exact ih y.1 h5 x hx

theorem BackOK.first_mem {m : Machine} {bd : Nat → bdescr}
    {mem : Nat → Option stackElement} {first : Option Nat} :
    ∀ (backs : List (Nat × List stackElement)) (b : Nat),
    BackOK m bd mem first b backs → ∃ f, f ∈ b :: backs.map Prod.fst ∧ first = some f := by
  intro backs
  induction backs with
  | nil => intro b hb; exact ⟨b, List.mem_cons_self _ _, hb⟩
  | cons y rest ih =>
    intro b hb
    obtain ⟨f, hf, e⟩ := ih y.1 hb.2.2.2.2
    exact ⟨f, List.mem_cons_of_mem _ (by simpa using hf), e⟩

theorem FwdOK.links_frame {bd bd1 : Nat → bdescr} :
    ∀ (fwd : List Nat) (b : Nat), FwdOK bd b fwd →
    (∀ i ∈ b :: fwd, (bd1 i).link = (bd i).link ∧ (bd1 i).back = (bd i).back) →
    FwdOK bd1 b fwd := by
  intro fwd
  induction fwd with
  | nil =>
    intro b hb hl
    show (bd1 b).link = none
    rw [(hl b (List.mem_cons_self _ _)).1]; exact hb
  | cons n rest ih =>
    intro b hb hl
    obtain ⟨h1, h2, h3⟩ := hb
    refine ⟨by rw [(hl b (List.mem_cons_self _ _)).1]; exact h1, ?_, ?_⟩
    · rw [(hl n (List.mem_cons_of_mem _ (List.mem_cons_self _ _))).2]; exact h2
    · exact ih n h3 (fun i hi => hl i (List.mem_cons_of_mem _ hi))

theorem Layout.mem_chain (L : Layout) (i : Nat) :
    i ∈ L.chain ↔ i = L.cur ∨ i ∈ L.backs.map Prod.fst ∨ i ∈ L.fwd := by
  unfold Layout.chain
  simp only [List.mem_append, List.mem_reverse, List.mem_cons]
  tauto

theorem Rep.first_in_chain {m : Machine} {s : Stack} {L : Layout} (hr : Rep m s L) :
    ∃ f, (f = L.cur ∨ f ∈ L.backs.map Prod.fst) ∧ s.firstStack = some f := by
  obtain ⟨f, hf, e⟩ := hr.hback.first_mem
  exact ⟨f, List.mem_cons.1 hf, e⟩

/-- The element on top of the list is the one `stackTop` addresses. -/
theorem Rep.top_addressed {m : Machine} {s : Stack} {L : Layout} (hr : Rep m s L)
    (x : stackElement) (rest : List stackElement) (hl : L.list = x :: rest) :
    s.mem s.stackTop = some x := by
  have hseg := hr.hseg
  unfold Layout.list at hl
  cases hs : L.seg with
  | nil =>
    have hb : L.backs = [] := by
      by_contra hb
      exact hr.hne hb hs
    rw [hs, hb] at hl
    cases hl
  | cons y r =>
    rw [hs] at hl hseg
    cases hl
    exact hseg.1

end Chunked

namespace Chunked

theorem contentsFrom_back {m : Machine} (hsz : 0 < m.sizeofElement) (s : Stack) :
    ∀ (backs : List (Nat × List stackElement)) (b top : Nat) (seg : List stackElement)
      (fuel : Nat), backs.length < fuel →
    top + seg.length * m.sizeofElement = groupEnd m s b →
    Stored m.sizeofElement s.mem top seg →
    BackOK m s.bd s.mem s.firstStack b backs →
    contentsFrom m s fuel b top = some (seg ++ (backs.map Prod.snd).flatten) := by
  intro backs
  induction backs with
  | nil =>
    intro b top seg fuel hf htop hseg hb
    cases fuel with
    | zero => omega
    | succ fuel =>
      have hcount : (groupEnd m s b - top) / m.sizeofElement = seg.length := by
        rw [← htop, Nat.add_sub_cancel_left, Nat.mul_div_cancel _ hsz]
      have hfirst : s.firstStack = some b := hb
      simp only [contentsFrom, hcount, readElements_stored _ _ seg top hseg, hfirst, if_true,
        List.map_nil, List.flatten_nil, List.append_nil]
  | cons x rest ih =>
    intro b top seg fuel hf htop hseg hb
    cases fuel with
    | zero => omega
    | succ fuel =>
      obtain ⟨h1, h2, _, h4, h5⟩ := hb
      have hcount : (groupEnd m s b - top) / m.sizeofElement = seg.length := by
        rw [← htop, Nat.add_sub_cancel_left, Nat.mul_div_cancel _ hsz]
      have hrec := ih x.1 (s.bd x.1).free x.2 fuel
        (by simp only [List.length_cons] at hf; omega) h4.1 h4.2.2.2 h5
      simp only [contentsFrom, hcount, readElements_stored _ _ seg top hseg, if_neg h1, h2,
        hrec, List.map_cons, List.flatten_cons]

theorem nodup_length_le (l : List Nat) (n : Nat) (hn : l.Nodup) (hb : ∀ i ∈ l, i < n) :
    l.length ≤ n := by
  have h1 : l ⊆ List.range n := fun i hi => List.mem_range.2 (hb i hi)
  have h2 := (List.subperm_of_subset hn h1).length_le
  rwa [List.length_range] at h2

/-- Reading the memory from `stackTop` gives the list of the layout. -/
theorem Rep.contents_eq {m : Machine} (hsz : 0 < m.sizeofElement) {s : Stack} {L : Layout}
    (hr : Rep m s L) : contents m s = some L.list := by
  unfold contents
  rw [hr.hcur]
  have hlen : L.chain.length ≤ s.allocated :=
    nodup_length_le _ _ hr.hnodup (fun i hi => (hr.hbound i hi).1)
  have hbl : L.backs.length < s.allocated + 1 := by
    have : L.chain.length = L.backs.length + (L.fwd.length + 1) := by
      simp [Layout.chain]
    omega
  exact contentsFrom_back hsz s L.backs L.cur s.stackTop L.seg _ hbl
    (by rw [hr.htop, hr.hlim]; rfl) hr.hseg hr.hback

end Chunked

namespace Chunked

theorem freeChain_frame : ∀ (fuel : Nat) (s : Stack) (b : Option Nat),
    (freeChain fuel s b).bd = s.bd ∧ (freeChain fuel s b).allocated = s.allocated ∧
    (freeChain fuel s b).mem = s.mem := by
  intro fuel
  induction fuel with
  | zero => intro s b; exact ⟨rfl, rfl, rfl⟩
  | succ fuel ih =>
    intro s b
    cases b with
    | none => exact ⟨rfl, rfl, rfl⟩
    | some b =>
      have := ih { s with freed := b :: s.freed } (s.bd b).link
      exact this

/-- The state after `initializeTraverseStack` holds the empty list in the first
  block group. -/
theorem rep_init (m : Machine) (hcap : m.sizeofElement ≤ m.BLOCK_SIZE_W * BLOCKS_IN_STACK)
    (s0 : Stack) :
    ∃ L, Rep m (initializeTraverseStack m s0) L ∧ L.list = [] := by
  refine ⟨{ cur := s0.allocated, seg := [], backs := [], fwd := [] }, ?_, rfl⟩
  have key : ∀ s1 : Stack, s1.allocated = s0.allocated →
      Rep m (newStackBlock m
        { ((allocGroup m s1 BLOCKS_IN_STACK).1.setBd (allocGroup m s1 BLOCKS_IN_STACK).2
            { (allocGroup m s1 BLOCKS_IN_STACK).1.bd (allocGroup m s1 BLOCKS_IN_STACK).2 with
              link := none, back := none }) with
          firstStack := some (allocGroup m s1 BLOCKS_IN_STACK).2 }
        (allocGroup m s1 BLOCKS_IN_STACK).2)
        { cur := s0.allocated, seg := [], backs := [], fwd := [] } := by
    intro s1 ha
    refine
      { hcur := ?_, hbot := ?_, hlim := ?_, htop := ?_, hle := ?_, hseg := trivial,
        hne := fun hb => absurd rfl hb, hback := ?_, hfwd := ?_, hnodup := ?_, hbound := ?_,
        hapart := ?_ }
    · simp [newStackBlock, allocGroup, ha]
    · simp [newStackBlock, allocGroup, Stack.setBd, ha]
    · simp [newStackBlock, allocGroup, Stack.setBd, groupEnd, ha]
    · simp [newStackBlock, allocGroup, Stack.setBd, groupEnd, ha]
    · simp [newStackBlock, allocGroup, Stack.setBd, groupEnd, ha]
    · show _ = some _
      simp [newStackBlock, allocGroup, ha]
    · show _ = none
      simp [newStackBlock, allocGroup, Stack.setBd, ha]
    · simp [Layout.chain]
    · intro i hi
      have e : i = s0.allocated := by simpa [Layout.chain] using hi
      subst e
      refine ⟨?_, ?_, ?_⟩
      · simp [newStackBlock, allocGroup, Stack.setBd, ha]
      · simp [newStackBlock, allocGroup, Stack.setBd, ha, List.mem_filter]
      · simpa [newStackBlock, allocGroup, Stack.setBd, ha] using hcap
    · intro i hi j hj hne
      have e : i = s0.allocated := by simpa [Layout.chain] using hi
      have e1 : j = s0.allocated := by simpa [Layout.chain] using hj
      exact absurd (e.trans e1.symm) hne
  unfold initializeTraverseStack
  cases hf : s0.firstStack with
  | none => exact key s0 rfl
  | some b => exact key _ (freeChain_frame _ _ _).2.1

end Chunked

namespace Chunked

/-- The groups before the current one are apart from it. -/
theorem Rep.back_apart {m : Machine} {s : Stack} {L : Layout} (hr : Rep m s L)
    (x : Nat × List stackElement) (hx : x ∈ L.backs) :
    x.1 ≠ L.cur ∧ Apart m s x.1 L.cur := by
  have hmem : x.1 ∈ L.backs.map Prod.fst := List.mem_map.2 ⟨x, hx, rfl⟩
  have hne : x.1 ≠ L.cur := by
    intro e
    have hnd := hr.hnodup
    unfold Layout.chain at hnd
    rw [List.nodup_append] at hnd
    exact hnd.2.2 (List.mem_reverse.2 hmem) (by rw [e]; exact List.mem_cons_self _ _)
  exact ⟨hne, hr.hapart _ ((L.mem_chain _).2 (Or.inr (Or.inl hmem))) _
    ((L.mem_chain _).2 (Or.inl rfl)) hne⟩

/-- A push that stays in the current block group. -/
theorem rep_push_same {m : Machine} (hsz : 0 < m.sizeofElement) {s : Stack} {L : Layout}
    (hr : Rep m s L) (se : stackElement)
    (hx : ¬ s.stackTop < s.stackBottom + m.sizeofElement) :
    ∃ s1 L1, pushElement m s se = some s1 ∧ Rep m s1 L1 ∧ L1.list = se :: L.list := by
  refine ⟨{ s with
      stackTop := s.stackTop - m.sizeofElement
      mem := storeAt m.sizeofElement s.mem (s.stackTop - m.sizeofElement) se },
    { L with seg := se :: L.seg }, ?_, ?_, rfl⟩
  · simp only [pushElement, hr.hcur, if_neg hx]
  · have hge : s.stackBottom + m.sizeofElement ≤ s.stackTop := Nat.le_of_not_lt hx
    refine
      { hcur := hr.hcur, hbot := hr.hbot, hlim := hr.hlim, htop := ?_, hle := ?_, hseg := ?_,
        hne := fun _ => List.cons_ne_nil _ _, hback := ?_, hfwd := hr.hfwd,
        hnodup := hr.hnodup, hbound := hr.hbound, hapart := hr.hapart }
    · have := hr.htop
      show s.stackTop - m.sizeofElement + (se :: L.seg).length * m.sizeofElement = s.stackLimit
      rw [List.length_cons, Nat.succ_mul]
      omega
    · show s.stackBottom ≤ s.stackTop - m.sizeofElement
      omega
    · refine ⟨storeAt_self _ _ _ _, ?_⟩
      show Stored _ _ (s.stackTop - m.sizeofElement + m.sizeofElement) L.seg
      rw [Nat.sub_add_cancel (by omega)]
      exact stored_storeAt hsz _ _ _ _ _ hr.hseg (Or.inl (by omega))
    · refine hr.hback.back_frame L.backs L.cur rfl (fun _ _ => rfl) ?_
      intro x hx1
      have hfull := hr.hback.full_of_mem L.backs L.cur x hx1
      have hap := (hr.back_apart x hx1).2
      refine fullAt_store hsz hfull _ se ?_
      have h1 := hr.hbot
      have h2 := hr.hlim
      have h3 := hr.htop
      unfold Apart groupEnd at hap
      rcases hap with hap | hap
      · left; omega
      · right; omega

end Chunked

namespace Chunked

/-- The state after a push that has moved to the block group `n`, in terms of
  the state before it. -/
theorem rep_cross {m : Machine} (hsz : 0 < m.sizeofElement) {s s1 : Stack} {L : Layout}
    (hr : Rep m s L) (se : stackElement) (n : Nat) (fwd1 : List Nat)
    (hx : s.stackTop < s.stackBottom + m.sizeofElement)
    (hcur : s1.currentStack = some n)
    (hbot : s1.stackBottom = (s1.bd n).start)
    (hlim : s1.stackLimit = (s1.bd n).start + m.BLOCK_SIZE_W * (s1.bd n).blocks)
    (htop : s1.stackTop + m.sizeofElement = s1.stackLimit)
    (hmem : s1.mem = storeAt m.sizeofElement s.mem s1.stackTop se)
    (hfirst : s1.firstStack = s.firstStack)
    (hbn : (s1.bd n).back = some L.cur)
    (hbc : s1.bd L.cur = { s.bd L.cur with free := s.stackTop, link := some n })
    (hbo : ∀ i, i ≠ n → i ≠ L.cur → s1.bd i = s.bd i)
    (hfwd : FwdOK s1.bd n fwd1)
    (hnodup : (L.cross n se fwd1).chain.Nodup)
    (hbound : ∀ i ∈ (L.cross n se fwd1).chain,
      i < s1.allocated ∧ i ∉ s1.freed ∧ m.sizeofElement ≤ m.BLOCK_SIZE_W * (s1.bd i).blocks)
    (hapart : ∀ i ∈ (L.cross n se fwd1).chain,
      ∀ j ∈ (L.cross n se fwd1).chain, i ≠ j → Apart m s1 i j) :
    Rep m s1 (L.cross n se fwd1) := by
  have hmemc : ∀ i, i ∈ (L.cross n se fwd1).chain ↔
      i = n ∨ (i = L.cur ∨ i ∈ L.backs.map Prod.fst) ∨ i ∈ fwd1 := by
    intro i
    rw [Layout.mem_chain]
    simp only [Layout.cross, List.map_cons, List.mem_cons]
  have hncur : L.cur ≠ n := by
    intro e
    unfold Layout.chain at hnodup
    rw [List.nodup_append] at hnodup
    exact hnodup.2.2 (List.mem_reverse.2 (List.mem_cons_self _ _))
      (by rw [e]; exact List.mem_cons_self _ _)
  have hnback : ∀ x ∈ L.backs, x.1 ≠ n := by
    intro x hx1 e
    unfold Layout.chain at hnodup
    rw [List.nodup_append] at hnodup
    exact hnodup.2.2 (List.mem_reverse.2 (List.mem_cons_of_mem _ (List.mem_map.2 ⟨x, hx1, rfl⟩)))
      (by rw [e]; exact List.mem_cons_self _ _)
  have hsame : ∀ x ∈ L.backs, s1.bd x.1 = s.bd x.1 := fun x hx1 =>
    hbo x.1 (hnback x hx1) (hr.back_apart x hx1).1
  have hcapn := (hbound n ((hmemc n).2 (Or.inl rfl))).2.2
  have hge : s1.stackBottom ≤ s1.stackTop := by omega
  have hcs : (s1.bd L.cur).start = (s.bd L.cur).start := by rw [hbc]
  have hcb : (s1.bd L.cur).blocks = (s.bd L.cur).blocks := by rw [hbc]
  have hcf : (s1.bd L.cur).free = s.stackTop := by rw [hbc]
  have h1 := hr.hbot
  have h2 := hr.hlim
  have h3 := hr.htop
  have h4 := hr.hle
  refine
    { hcur := hcur, hbot := hbot, hlim := hlim, htop := ?_, hle := hge, hseg := ?_,
      hne := fun _ => List.cons_ne_nil _ _, hback := ?_, hfwd := hfwd,
      hnodup := hnodup, hbound := hbound, hapart := hapart }
  · show s1.stackTop + [se].length * m.sizeofElement = s1.stackLimit
    simpa using htop
  · refine ⟨?_, trivial⟩
    rw [hmem]
    exact storeAt_self _ _ _ _
  · refine ⟨?_, hbn, ?_, ?_, ?_⟩
    · obtain ⟨f, hf, e⟩ := hr.first_in_chain
      rw [hfirst, e]
      intro e1
      have e2 : f = n := Option.some.inj e1
      rcases hf with hf | hf
      · exact hncur (hf ▸ e2)
      · obtain ⟨x, hx1, hx2⟩ := List.mem_map.1 hf
        exact hnback x hx1 (hx2.trans e2)
    · show (s1.bd L.cur).link = some n
      rw [hbc]
    · have hap := hapart L.cur ((hmemc _).2 (Or.inr (Or.inl (Or.inl rfl)))) n
        ((hmemc _).2 (Or.inl rfl)) hncur
      unfold Apart groupEnd at hap
      refine ⟨?_, ?_, ?_, ?_⟩
      · show (s1.bd L.cur).free + L.seg.length * m.sizeofElement = _
        rw [hcf, hcs, hcb]; omega
      · show (s1.bd L.cur).start ≤ (s1.bd L.cur).free
        rw [hcf, hcs]; omega
      · show (s1.bd L.cur).free < (s1.bd L.cur).start + m.sizeofElement
        rw [hcf, hcs]; omega
      · show Stored _ s1.mem (s1.bd L.cur).free L.seg
        rw [hcf, hmem]
        refine stored_storeAt hsz _ _ _ _ _ hr.hseg ?_
        rw [hcs, hcb] at hap
        rcases hap with hap | hap
        · right; omega
        · left; omega
    · show BackOK m s1.bd s1.mem s1.firstStack L.cur L.backs
      rw [hfirst]
      refine hr.hback.back_frame L.backs L.cur (by rw [hbc]) hsame ?_
      intro x hx1
      have hfull := hr.hback.full_of_mem L.backs L.cur x hx1
      rw [hmem]
      refine fullAt_store hsz hfull _ se ?_
      have hap := hapart x.1 ((hmemc _).2 (Or.inr (Or.inl (Or.inr
        (List.mem_map.2 ⟨x, hx1, rfl⟩))))) n ((hmemc _).2 (Or.inl rfl)) (hnback x hx1)
      unfold Apart groupEnd at hap
      rw [hsame x hx1] at hap
      rcases hap with hap | hap
      · left; omega
      · right; omega

end Chunked

namespace Chunked

theorem FwdOK.cases_link {bd : Nat → bdescr} {b : Nat} {fwd : List Nat} (hf : FwdOK bd b fwd) :
    ((bd b).link = none ∧ fwd = []) ∨
    ∃ n rest, (bd b).link = some n ∧ fwd = n :: rest ∧ (bd n).back = some b ∧ FwdOK bd n rest := by
  cases fwd with
  | nil => exact Or.inl ⟨hf, rfl⟩
  | cons n rest => exact Or.inr ⟨n, rest, hf.1, rfl, hf.2.1, hf.2.2⟩

theorem Apart.of_geo {m : Machine} {s s1 : Stack} {i j : Nat} (hap : Apart m s i j)
    (hg : ∀ k, (s1.bd k).start = (s.bd k).start ∧ (s1.bd k).blocks = (s.bd k).blocks) :
    Apart m s1 i j := by
  unfold Apart groupEnd at hap ⊢
  rw [(hg i).1, (hg i).2, (hg j).1, (hg j).2]
  exact hap

theorem Layout.chain_cross (L : Layout) (n : Nat) (se : stackElement) (fwd1 : List Nat) :
    (L.cross n se fwd1).chain = (L.backs.map Prod.fst).reverse ++ L.cur :: n :: fwd1 := by
  simp [Layout.cross, Layout.chain]

/-- A push that moves to the next block group of the chain. -/
theorem rep_push_reuse {m : Machine} (hsz : 0 < m.sizeofElement) {s : Stack} {L : Layout}
    (hr : Rep m s L) (se : stackElement)
    (hx : s.stackTop < s.stackBottom + m.sizeofElement)
    (n : Nat) (rest : List Nat) (hlink : (s.bd L.cur).link = some n) (hfw : L.fwd = n :: rest)
    (hback : (s.bd n).back = some L.cur) (hrest : FwdOK s.bd n rest) :
    ∃ s1 L1, pushElement m s se = some s1 ∧ Rep m s1 L1 ∧ L1.list = se :: L.list := by
  have hchain : (L.cross n se rest).chain = L.chain := by
    rw [Layout.chain_cross, Layout.chain, hfw]
  have hnd := hr.hnodup
  have hncur : n ≠ L.cur := by
    intro e
    unfold Layout.chain at hnd
    rw [hfw, List.nodup_append] at hnd
    have := hnd.2.1
    rw [List.nodup_cons] at this
    exact this.1 (by rw [e]; exact List.mem_cons_self _ _)
  have hcapn := (hr.hbound n ((L.mem_chain n).2 (Or.inr (Or.inr
    (by rw [hfw]; exact List.mem_cons_self _ _))))).2.2
  simp only [pushElement, hr.hcur, if_pos hx, Stack.setBd, if_true, hlink]
  refine ⟨_, L.cross n se rest, rfl, ?_, ?_⟩
  · refine rep_cross hsz hr se n rest hx rfl ?_ ?_ ?_ rfl rfl ?_ ?_ ?_ ?_ ?_ ?_ ?_
    · simp [newStackBlock, hncur]
    · simp [newStackBlock, groupEnd, hncur]
    · show groupEnd m _ n - m.sizeofElement + m.sizeofElement = groupEnd m _ n
      refine Nat.sub_add_cancel ?_
      simp only [groupEnd, if_neg hncur]
      omega
    · simp [newStackBlock, hncur, hback]
    · simp [newStackBlock, hncur.symm]
    · intro i h1 h2
      simp [newStackBlock, h1, h2]
    · refine hrest.links_frame rest n ?_
      intro i _
      by_cases h1 : i = n
      · subst h1; simp [newStackBlock, hncur]
      · by_cases h2 : i = L.cur
        · subst h2; simp [newStackBlock, h1, hlink]
        · simp [newStackBlock, h1, h2]
    · rw [hchain]; exact hnd
    · rw [hchain]
      intro i hi
      obtain ⟨h1, h2, h3⟩ := hr.hbound i hi
      refine ⟨h1, h2, ?_⟩
      by_cases e1 : i = n
      · subst e1; simpa [newStackBlock, hncur] using h3
      · by_cases e2 : i = L.cur
        · subst e2; simpa [newStackBlock, e1] using h3
        · simpa [newStackBlock, e1, e2] using h3
    · rw [hchain]
      intro i hi j hj hne
      refine (hr.hapart i hi j hj hne).of_geo ?_
      intro k
      by_cases e1 : k = n
      · subst e1; simp [newStackBlock, hncur]
      · by_cases e2 : k = L.cur
        · subst e2; simp [newStackBlock, e1]
        · simp [newStackBlock, e1, e2]
  · simp [Layout.cross, Layout.list]

end Chunked

namespace Chunked

theorem Apart.of_geo2 {m : Machine} {s s1 : Stack} {i j : Nat} (hap : Apart m s i j)
    (hi : (s1.bd i).start = (s.bd i).start ∧ (s1.bd i).blocks = (s.bd i).blocks)
    (hj : (s1.bd j).start = (s.bd j).start ∧ (s1.bd j).blocks = (s.bd j).blocks) :
    Apart m s1 i j := by
  unfold Apart groupEnd at hap ⊢
  rw [hi.1, hi.2, hj.1, hj.2]
  exact hap

theorem Apart.symm_apart {m : Machine} {s : Stack} {i j : Nat} (hap : Apart m s i j) :
    Apart m s j i := Or.symm hap

/-- The state after a push that has moved to a block group allocated for
  it. -/
theorem pushElement_alloc (m : Machine) (s : Stack) (se : stackElement) (cur : Nat)
    (hcur : s.currentStack = some cur)
    (hx : s.stackTop < s.stackBottom + m.sizeofElement)
    (hlink : (s.bd cur).link = none) (hne : s.allocated ≠ cur) :
    pushElement m s se = some (allocPushed m s se cur) := by
  have hl2 : ((s.setBd cur { s.bd cur with free := s.stackTop }).bd cur).link = none := by
    simp [Stack.setBd, hlink]
  unfold pushElement
  rw [hcur]
  dsimp only
  rw [if_pos hx, hl2]
  dsimp only
  congr 1
  simp only [allocPushed, newStackBlock, allocGroup, Stack.setBd, groupEnd, Stack.mk.injEq, if_true,
    and_true, true_and]
  refine ⟨?_, ?_, ?_, ?_, ?_⟩
  · funext i
    by_cases h1 : i = s.allocated
    · subst h1; simp [hne]
    · by_cases h2 : i = cur
      · subst h2; simp [h1, hne]
      · simp [h1, h2]
  · simp [hne]
  · simp [hne]
  · simp [hne]
  · simp [hne]

end Chunked

namespace Chunked

/-- A push that moves to a block group allocated for it. -/
theorem rep_push_alloc {m : Machine} (hsz : 0 < m.sizeofElement)
    (hcap : m.sizeofElement ≤ m.BLOCK_SIZE_W * BLOCKS_IN_STACK) (hfresh : m.Fresh)
    {s : Stack} {L : Layout} (hr : Rep m s L) (se : stackElement)
    (hx : s.stackTop < s.stackBottom + m.sizeofElement)
    (hlink : (s.bd L.cur).link = none) (hfw : L.fwd = []) :
    ∃ s1 L1, pushElement m s se = some s1 ∧ Rep m s1 L1 ∧ L1.list = se :: L.list := by
  have hchain : (L.cross s.allocated se []).chain = L.chain ++ [s.allocated] := by
    rw [Layout.chain_cross, Layout.chain, hfw]
    simp
  have hlt : ∀ i ∈ L.chain, i ≠ s.allocated := fun i hi e => by
    have := (hr.hbound i hi).1
    omega
  have hcurc : L.cur ∈ L.chain := (L.mem_chain _).2 (Or.inl rfl)
  have hne : s.allocated ≠ L.cur := fun e => hlt _ hcurc e.symm
  have hmemc : ∀ i, i ∈ (L.cross s.allocated se []).chain ↔ i ∈ L.chain ∨ i = s.allocated := by
    intro i
    rw [hchain]
    simp
  refine ⟨_, L.cross s.allocated se [], pushElement_alloc m s se L.cur hr.hcur hx hlink hne,
    ?_, ?_⟩
  · refine rep_cross hsz hr se s.allocated [] hx rfl ?_ ?_ ?_ rfl rfl ?_ ?_ ?_ ?_ ?_ ?_ ?_
    · simp [allocPushed]
    · simp [allocPushed]
    · show _ - m.sizeofElement + m.sizeofElement = _
      exact Nat.sub_add_cancel (le_trans hcap (Nat.le_add_left _ _))
    · simp [allocPushed]
    · simp [allocPushed, hne.symm]
    · intro i h1 h2
      simp [allocPushed, h1, h2]
    · show _ = none
      simp [allocPushed]
    · rw [hchain]
      refine List.Nodup.append hr.hnodup (List.nodup_singleton _) ?_
      intro i hi hi1
      exact hlt i hi (List.mem_singleton.1 hi1)
    · intro i hi
      rcases (hmemc i).1 hi with hi | hi
      · obtain ⟨h1, h2, h3⟩ := hr.hbound i hi
        refine ⟨?_, ?_, ?_⟩
        · show i < s.allocated + 1
          omega
        · show i ∉ s.freed.filter _
          intro hmem
          exact h2 (List.mem_of_mem_filter hmem)
        · by_cases e2 : i = L.cur
          · subst e2; simpa [allocPushed, hlt _ hi] using h3
          · simpa [allocPushed, hlt _ hi, e2] using h3
      · subst hi
        refine ⟨?_, ?_, ?_⟩
        · show s.allocated < s.allocated + 1
          omega
        · show s.allocated ∉ s.freed.filter _
          simp [allocPushed, List.mem_filter]
        · simpa [allocPushed] using hcap
    · have hnew : ∀ i ∈ L.chain, Apart m (allocPushed m s se L.cur) i s.allocated := by
        intro i hi
        obtain ⟨h1, h2, _⟩ := hr.hbound i hi
        have hf := hfresh (s.setBd L.cur { s.bd L.cur with free := s.stackTop }).bd
          s.allocated s.freed BLOCKS_IN_STACK i h1 h2
        have hs : ((s.setBd L.cur { s.bd L.cur with free := s.stackTop }).bd i).start
            = (s.bd i).start := by
          by_cases e2 : i = L.cur
          · subst e2; simp [allocPushed, Stack.setBd]
          · simp [allocPushed, Stack.setBd, e2]
        have hb : ((s.setBd L.cur { s.bd L.cur with free := s.stackTop }).bd i).blocks
            = (s.bd i).blocks := by
          by_cases e2 : i = L.cur
          · subst e2; simp [allocPushed, Stack.setBd]
          · simp [allocPushed, Stack.setBd, e2]
        rw [hs, hb] at hf
        unfold Apart groupEnd
        by_cases e2 : i = L.cur
        · subst e2; simpa [allocPushed, hlt _ hi] using hf
        · simpa [allocPushed, hlt _ hi, e2] using hf
      intro i hi j hj hij
      rcases (hmemc i).1 hi with hi | hi <;> rcases (hmemc j).1 hj with hj | hj
      · refine (hr.hapart i hi j hj hij).of_geo2 ?_ ?_
        · by_cases e2 : i = L.cur
          · subst e2; simp [allocPushed, hlt _ hi]
          · simp [allocPushed, hlt _ hi, e2]
        · by_cases e2 : j = L.cur
          · subst e2; simp [allocPushed, hlt _ hj]
          · simp [allocPushed, hlt _ hj, e2]
      · subst hj; exact hnew i hi
      · subst hi; exact (hnew j hj).symm_apart
      · exact absurd (hi.trans hj.symm) hij
  · simp [allocPushed, Layout.cross, Layout.list]

end Chunked

namespace Chunked

/-- A push on a state that holds a list gives a state that holds the list with
  the element in front. -/
theorem rep_push {m : Machine} (hsz : 0 < m.sizeofElement)
    (hcap : m.sizeofElement ≤ m.BLOCK_SIZE_W * BLOCKS_IN_STACK) (hfresh : m.Fresh)
    {s : Stack} {L : Layout} (hr : Rep m s L) (se : stackElement) :
    ∃ s1 L1, pushElement m s se = some s1 ∧ Rep m s1 L1 ∧ L1.list = se :: L.list := by
  by_cases hx : s.stackTop < s.stackBottom + m.sizeofElement
  · rcases hr.hfwd.cases_link with ⟨hl, hf⟩ | ⟨n, rest, hl, hf, hb, hrest⟩
    · exact rep_push_alloc hsz hcap hfresh hr se hx hl hf
    · exact rep_push_reuse hsz hr se hx n rest hl hf hb hrest
  · exact rep_push_same hsz hr se hx

/-- The state after `popOff` within the current block group, or on the last
  element of the first one. -/
theorem rep_pop_same {m : Machine} {s : Stack} {L : Layout} (hr : Rep m s L)
    (x : stackElement) (rest : List stackElement) (hs : L.seg = x :: rest)
    (hb : rest = [] → L.backs = []) :
    Rep m { s with stackTop := s.stackTop + m.sizeofElement } { L with seg := rest } := by
  have h1 := hr.htop
  have hseg := hr.hseg
  rw [hs] at h1 hseg
  rw [List.length_cons, Nat.succ_mul] at h1
  refine
    { hcur := hr.hcur, hbot := hr.hbot, hlim := hr.hlim, htop := ?_, hle := ?_, hseg := hseg.2,
      hne := ?_, hback := hr.hback, hfwd := hr.hfwd,
      hnodup := hr.hnodup, hbound := hr.hbound, hapart := hr.hapart }
  · show s.stackTop + m.sizeofElement + rest.length * m.sizeofElement = s.stackLimit
    omega
  · show s.stackBottom ≤ s.stackTop + m.sizeofElement
    exact le_trans hr.hle (Nat.le_add_right _ _)
  · intro hne e
    exact hne (hb e)

theorem popOffReal_first (m : Machine) (s : Stack) (cur : Nat)
    (hcur : s.currentStack = some cur) (hf : s.firstStack = some cur) :
    popOffReal m s = some { s with stackTop := s.stackTop + m.sizeofElement } := by
  unfold popOffReal
  split
  · rename_i h; rw [hcur] at h; cases h
  · rename_i c h
    rw [hcur] at h
    cases h
    rw [if_pos hf]

theorem popOffReal_back (m : Machine) (s : Stack) (cur p : Nat)
    (hcur : s.currentStack = some cur) (hf : s.firstStack ≠ some cur)
    (hb : (s.bd cur).back = some p) :
    popOffReal m s =
      some (returnToOldStack m (s.setBd cur { s.bd cur with free := s.stackLimit }) p) := by
  have hb2 : ((s.setBd cur { s.bd cur with free := s.stackLimit }).bd cur).back = some p := by
    simp [Stack.setBd, hb]
  unfold popOffReal
  split
  · rename_i h; rw [hcur] at h; cases h
  · rename_i c h
    rw [hcur] at h
    cases h
    rw [if_neg hf]
    dsimp only
    rw [hb2]

/-- The function `popOff` on a state that holds a list that is not empty gives
  a state that holds the rest of the list. -/
theorem rep_pop {m : Machine} (hsz : 0 < m.sizeofElement) {s : Stack} {L : Layout}
    (hr : Rep m s L) (x : stackElement) (rest : List stackElement)
    (hl : L.list = x :: rest) :
    ∃ s2 L2, Chunked.popOff m s = some s2 ∧ Rep m s2 L2 ∧ L2.list = rest := by
  have htop := hr.htop
  obtain ⟨y, r, hs⟩ : ∃ y r, L.seg = y :: r := by
    cases hs : L.seg with
    | nil =>
      have hb : L.backs = [] := by
        by_contra hb
        exact hr.hne hb hs
      rw [Layout.list, hs, hb] at hl
      cases hl
    | cons y r => exact ⟨y, r, rfl⟩
  have hlist : rest = r ++ (L.backs.map Prod.snd).flatten := by
    rw [Layout.list, hs] at hl
    exact (List.cons.inj hl).2.symm
  rw [hs, List.length_cons, Nat.succ_mul] at htop
  unfold Chunked.popOff
  by_cases hx : s.stackTop + m.sizeofElement < s.stackLimit
  · rw [if_pos hx]
    refine ⟨_, { L with seg := r }, rfl, rep_pop_same hr y r hs ?_, hlist.symm⟩
    intro e
    subst e
    simp only [List.length_nil, Nat.zero_mul, Nat.zero_add] at htop
    omega
  · rw [if_neg hx]
    have hr0 : r = [] := by
      cases r with
      | nil => rfl
      | cons z r1 =>
        rw [List.length_cons, Nat.succ_mul] at htop
        omega
    subst hr0
    by_cases hf : s.firstStack = some L.cur
    · rw [popOffReal_first m s L.cur hr.hcur hf]
      have hb : L.backs = [] := by
        cases hbk : L.backs with
        | nil => rfl
        | cons p B =>
          have := hr.hback
          rw [hbk] at this
          exact absurd hf this.1
      refine ⟨_, { L with seg := [] }, rfl, rep_pop_same hr y [] hs (fun _ => hb), ?_⟩
      rw [hlist, hb]
      rfl
    · cases hbk : L.backs with
      | nil =>
        have := hr.hback
        rw [hbk] at this
        exact absurd this hf
      | cons p B =>
        have hback := hr.hback
        rw [hbk] at hback
        obtain ⟨_, hb2, hb3, hfull, hrest⟩ := hback
        have hpc : p.1 ≠ L.cur := (hr.back_apart p (by rw [hbk]; exact List.mem_cons_self _ _)).1
        rw [popOffReal_back m s L.cur p.1 hr.hcur hf hb2]
        have hchain : Layout.chain { cur := p.1, seg := p.2, backs := B, fwd := L.cur :: L.fwd }
            = L.chain := by
          simp [Layout.chain, hbk]
        have hnd := hr.hnodup
        have hBne : ∀ q ∈ B, q.1 ≠ p.1 ∧ q.1 ≠ L.cur := by
          intro q hq
          have hq1 : q.1 ∈ B.map Prod.fst := List.mem_map.2 ⟨q, hq, rfl⟩
          unfold Layout.chain at hnd
          rw [hbk, List.map_cons, List.reverse_cons, List.append_assoc, List.nodup_append] at hnd
          constructor
          · intro e
            refine hnd.2.2 (List.mem_reverse.2 hq1) ?_
            rw [e]; simp
          · intro e
            refine hnd.2.2 (List.mem_reverse.2 hq1) ?_
            rw [e]; simp
        have hcappos := (hr.hbound p.1 ((L.mem_chain _).2 (Or.inr (Or.inl
          (by rw [hbk]; simp))))).2.2
        refine ⟨_, { cur := p.1, seg := p.2, backs := B, fwd := L.cur :: L.fwd }, rfl, ?_, ?_⟩
        · refine
            { hcur := rfl, hbot := ?_, hlim := ?_, htop := ?_, hle := ?_, hseg := ?_,
              hne := fun _ => fullAt_ne_nil hfull hcappos, hback := ?_, hfwd := ?_,
              hnodup := ?_, hbound := ?_, hapart := ?_ }
          · simp [returnToOldStack, Stack.setBd, hpc]
          · simp [returnToOldStack, Stack.setBd, groupEnd, hpc]
          · have := hfull.1
            simpa [returnToOldStack, Stack.setBd, groupEnd, hpc] using this
          · have := hfull.2.1
            simpa [returnToOldStack, Stack.setBd, groupEnd, hpc] using this
          · have := hfull.2.2.2
            simpa [returnToOldStack, Stack.setBd, groupEnd, hpc] using this
          · refine hrest.back_frame B p.1 ?_ ?_ ?_
            · simp [returnToOldStack, Stack.setBd, hpc]
            · intro q hq
              simp [returnToOldStack, Stack.setBd, (hBne q hq).1, (hBne q hq).2]
            · intro q hq
              exact (hrest.full_of_mem B p.1 q hq).2.2.2
          · refine ⟨?_, ?_, ?_⟩
            · simpa [returnToOldStack, Stack.setBd, hpc] using hb3
            · simpa [returnToOldStack, Stack.setBd, hpc.symm] using hb2
            · refine hr.hfwd.links_frame L.fwd L.cur ?_
              intro i _
              by_cases e1 : i = p.1
              · subst e1; simp [returnToOldStack, Stack.setBd, hpc]
              · by_cases e2 : i = L.cur
                · subst e2; simp [returnToOldStack, Stack.setBd, e1]
                · simp [returnToOldStack, Stack.setBd, e1, e2]
          · rw [hchain]; exact hnd
          · rw [hchain]
            intro i hi
            obtain ⟨h1, h2, h3⟩ := hr.hbound i hi
            refine ⟨h1, h2, ?_⟩
            by_cases e1 : i = p.1
            · subst e1; simpa [returnToOldStack, Stack.setBd, hpc] using h3
            · by_cases e2 : i = L.cur
              · subst e2; simpa [returnToOldStack, Stack.setBd, e1] using h3
              · simpa [returnToOldStack, Stack.setBd, e1, e2] using h3
          · rw [hchain]
            intro i hi j hj hij
            refine (hr.hapart i hi j hj hij).of_geo ?_
            intro k
            by_cases e1 : k = p.1
            · subst e1; simp [returnToOldStack, Stack.setBd, hpc]
            · by_cases e2 : k = L.cur
              · subst e2; simp [returnToOldStack, Stack.setBd, e1]
              · simp [returnToOldStack, Stack.setBd, e1, e2]
        · rw [hlist, hbk]
          simp [Layout.list]

end Chunked

namespace Chunked

/-- A sequence of operations that does not pop the empty list keeps the state
  a layout of the list. -/
theorem runOps_rep {m : Machine} (hsz : 0 < m.sizeofElement)
    (hcap : m.sizeofElement ≤ m.BLOCK_SIZE_W * BLOCKS_IN_STACK) (hfresh : m.Fresh) :
    ∀ (ops : List StackOp) (s : Stack) (L : Layout) (l : List stackElement),
    Rep m s L → listOps ops L.list = some l →
    ∃ s1 L1, runOps m ops s = some s1 ∧ Rep m s1 L1 ∧ L1.list = l := by
  intro ops
  induction ops with
  | nil =>
    intro s L l hr hl
    exact ⟨s, L, rfl, hr, Option.some.inj hl⟩
  | cons op ops ih =>
    intro s L l hr hl
    cases op with
    | push se =>
      obtain ⟨s1, L1, h1, h2, h3⟩ := rep_push hsz hcap hfresh hr se
      have hl1 : listOps ops L1.list = some l := by rw [h3]; exact hl
      obtain ⟨s2, L2, h4, h5, h6⟩ := ih s1 L1 l h2 hl1
      refine ⟨s2, L2, ?_, h5, h6⟩
      simp only [runOps, h1, Option.bind_some]
      exact h4
    | popOff =>
      cases hll : L.list with
      | nil =>
        rw [hll] at hl
        cases hl
      | cons x rest =>
        rw [hll] at hl
        obtain ⟨s1, L1, h1, h2, h3⟩ := rep_pop hsz hr x rest hll
        have hl1 : listOps ops L1.list = some l := by rw [h3]; exact hl
        obtain ⟨s2, L2, h4, h5, h6⟩ := ih s1 L1 l h2 hl1
        refine ⟨s2, L2, ?_, h5, h6⟩
        simp only [runOps, h1, Option.bind_some]
        exact h4

theorem le_foldr_max : ∀ (l : List Nat) (x : Nat), x ∈ l → x ≤ l.foldr max 0 := by
  intro l
  induction l with
  | nil => intro x hx; cases hx
  | cons y rest ih =>
    intro x hx
    rcases List.mem_cons.1 hx with e | hx
    · subst e; exact le_max_left _ _
    · exact le_trans (ih x hx) (le_max_right _ _)

/-- The allocator `bumpStart` hands out block groups that overlap no group
  handed out before. -/
theorem bump_fresh (bsw sz : Nat) : (bumpMachine bsw sz).Fresh := by
  intro bd allocated freed n i hi _
  left
  refine le_foldr_max _ _ (List.mem_map.2 ⟨i, List.mem_range.2 hi, rfl⟩)

end Chunked

/-! ## The flip bit and the pass -/

theorem run_flip {h : Heap} {t : Task} {st st1 : State} (hr : Run h t st st1) :
    st1.flip = st.flip := by
  refine run_slots (fun _ fl => fl = st.flip) ?_ hr rfl
  intro s c cp r _ _ hs
  show (resolve h s c cp r).1.flip = st.flip
  rw [resolve_flip]; exact hs

theorem andThen_flip (st : State) (k : State → State) (hk : ∀ s, (k s).flip = s.flip) :
    (st.andThen k).flip = st.flip := by
  unfold State.andThen
  split
  · rfl
  · exact hk st

theorem retainRoot_flip (h : Heap) (fuel : Nat) (st : State) (tl : Nat) :
    (retainRoot h fuel st tl).flip = st.flip := by
  unfold retainRoot
  dsimp only
  split
  · rfl
  · have hr := exec_run h fuel (Task.inner tl tl (getRetainerFrom h tl))
      { st with currentStackBoundary := st.stack.length }
    have e := run_flip hr
    exact e
  · have hr := exec_run h fuel (Task.inner tl tl h.CCS_SYSTEM)
      { st with currentStackBoundary := st.stack.length }
    have e := run_flip hr
    exact e

theorem retainRoots_flip (h : Heap) (fuel : Nat) : ∀ (roots : List Nat) (st : State),
    (retainRoots h fuel st roots).flip = st.flip := by
  intro roots
  induction roots with
  | nil => intro st; rfl
  | cons tl rest ih =>
    intro st
    show ((retainRoot h fuel st tl).andThen _).flip = st.flip
    rw [andThen_flip _ _ (fun s => ih s), retainRoot_flip]

theorem foldl_maybeInit_flip : ∀ (muts : List Nat) (st : State),
    (muts.foldl maybeInitRetainerSet st).flip = st.flip := by
  intro muts
  induction muts with
  | nil => intro st; rfl
  | cons a rest ih =>
    intro st
    rw [List.foldl_cons, ih, maybeInit_flip]

theorem computeRetainerSet_flip (h : Heap) (fuel : Nat) (st : State) (roots muts : List Nat) :
    (computeRetainerSet h fuel st roots muts).flip = st.flip := by
  unfold computeRetainerSet
  rw [andThen_flip _ _ (fun s => foldl_maybeInit_flip muts s), retainRoots_flip]

theorem retainerProfile_flip (h : Heap) (fuel : Nat) (roots muts : List Nat) (p : Profiler) :
    (retainerProfile h fuel roots muts p).st.flip = !p.st.flip := by
  unfold retainerProfile
  dsimp only
  split <;> exact computeRetainerSet_flip h fuel _ roots muts

theorem maybeInit_setRS_invalid (st : State) (c : Nat) (w : RSWord)
    (hw : w.low ≠ st.flip) (hv : (st.rs c).low ≠ st.flip) :
    maybeInitRetainerSet (st.setRS c w) c = maybeInitRetainerSet st c := by
  rw [maybeInit_eq, maybeInit_eq]
  have h1 : ((st.setRS c w).rs c).low ≠ (st.setRS c w).flip := by
    simpa [State.setRS] using hw
  rw [if_neg h1, if_neg hv]
  simp only [State.setRS]
  congr 1
  funext a
  by_cases e : a = c
  · simp [e]
  · simp [e]

/-! ## The stack discipline of the engine -/

theorem StackKeep.weaken {d : Bool} {st st1 : State} (hk : StackKeep true st st1) :
    StackKeep d st st1 :=
  ⟨hk.1, hk.2.1, hk.2.2.1, fun _ => hk.2.2.2 rfl⟩

namespace Chunked

theorem listOps_count : ∀ (ops : List StackOp) (l0 l : List stackElement),
    listOps ops l0 = some l → l.length + pops ops = l0.length + pushes ops := by
  intro ops
  induction ops with
  | nil =>
    intro l0 l hl
    cases hl
    rfl
  | cons op ops ih =>
    intro l0 l hl
    cases op with
    | push se =>
      have := ih (se :: l0) l hl
      simp only [List.length_cons, pushes, pops] at this ⊢
      omega
    | popOff =>
      cases l0 with
      | nil => cases hl
      | cons x rest =>
        have := ih rest l hl
        simp only [List.length_cons, pushes, pops] at this ⊢
        omega

/-- The emptiness test on a state that holds a list. -/
theorem Rep.empty_iff {m : Machine} (hsz : 0 < m.sizeofElement) {s : Stack} {L : Layout}
    (hr : Rep m s L) : isEmptyRetainerStack s = true ↔ L.list = [] := by
  unfold isEmptyRetainerStack
  rw [Bool.and_eq_true, decide_eq_true_iff, decide_eq_true_iff]
  constructor
  · rintro ⟨h1, h2⟩
    have hb : L.backs = [] := by
      cases hbk : L.backs with
      | nil => rfl
      | cons p B =>
        have := hr.hback
        rw [hbk] at this
        exact absurd (h1.trans hr.hcur) this.1
    have hs : L.seg = [] := by
      have := hr.htop
      rw [h2] at this
      have h0 : L.seg.length * m.sizeofElement = 0 := by omega
      rcases Nat.mul_eq_zero.1 h0 with e | e
      · exact List.length_eq_zero.1 e
      · omega
    rw [Layout.list, hs, hb]
    rfl
  · intro hl
    have hs : L.seg = [] := by
      unfold Layout.list at hl
      exact (List.append_eq_nil.1 hl).1
    have hb : L.backs = [] := by
      by_contra hb
      exact hr.hne hb hs
    have hback := hr.hback
    rw [hb] at hback
    have htop := hr.htop
    rw [hs] at htop
    refine ⟨?_, ?_⟩
    · rw [hr.hcur]; exact hback
    · simpa using htop

theorem back_to_fwd {m : Machine} {bd : Nat → bdescr} {mem : Nat → Option stackElement}
    {first : Option Nat} : ∀ (backs : List (Nat × List stackElement)) (b : Nat) (tl : List Nat),
    BackOK m bd mem first b backs → FwdOK bd b tl →
    ∃ f rest, (backs.map Prod.fst).reverse ++ b :: tl = f :: rest ∧ first = some f ∧
      FwdOK bd f rest := by
  intro backs
  induction backs with
  | nil =>
    intro b tl hb hf
    exact ⟨b, tl, rfl, hb, hf⟩
  | cons x B ih =>
    intro b tl hb hf
    obtain ⟨_, h2, h3, _, h5⟩ := hb
    obtain ⟨f, rest, e, hfirst, hfw⟩ := ih x.1 (b :: tl) h5 ⟨h3, h2, hf⟩
    refine ⟨f, rest, ?_, hfirst, hfw⟩
    rw [← e]
    simp

/-- The chain of a layout is the chain of `link` from `firstStack`, linked in
  both directions. -/
theorem Rep.chain_fwd {m : Machine} {s : Stack} {L : Layout} (hr : Rep m s L) :
    ∃ f rest, L.chain = f :: rest ∧ s.firstStack = some f ∧ FwdOK s.bd f rest :=
  back_to_fwd L.backs L.cur L.fwd hr.hback hr.hfwd

theorem chainFrom_fwd (s : Stack) : ∀ (rest : List Nat) (x fuel : Nat),
    FwdOK s.bd x rest → rest.length < fuel → chainFrom s fuel (some x) = some (x :: rest) := by
  intro rest
  induction rest with
  | nil =>
    intro x fuel hf hlt
    cases fuel with
    | zero => omega
    | succ fuel =>
      have hl : (s.bd x).link = none := hf
      cases fuel <;> simp [chainFrom, hl]
  | cons n r ih =>
    intro x fuel hf hlt
    cases fuel with
    | zero => omega
    | succ fuel =>
      obtain ⟨h1, _, h3⟩ := hf
      simp only [List.length_cons] at hlt
      simp only [chainFrom, h1, ih n fuel h3 (by omega), Option.map_some']

theorem blocksFrom_fwd (s : Stack) : ∀ (rest : List Nat) (x fuel : Nat),
    FwdOK s.bd x rest → rest.length < fuel →
    blocksFrom s fuel (some x) = some ((x :: rest).map (fun i => (s.bd i).blocks)).sum := by
  intro rest
  induction rest with
  | nil =>
    intro x fuel hf hlt
    cases fuel with
    | zero => omega
    | succ fuel =>
      have hl : (s.bd x).link = none := hf
      cases fuel <;> simp [blocksFrom, hl]
  | cons n r ih =>
    intro x fuel hf hlt
    cases fuel with
    | zero => omega
    | succ fuel =>
      obtain ⟨h1, _, h3⟩ := hf
      simp only [List.length_cons] at hlt
      simp only [blocksFrom, h1, ih n fuel h3 (by omega), Option.map_some', List.map_cons,
        List.sum_cons]

theorem Rep.chain_length {m : Machine} {s : Stack} {L : Layout} (hr : Rep m s L) :
    L.chain.length ≤ s.allocated :=
  nodup_length_le _ _ hr.hnodup (fun i hi => (hr.hbound i hi).1)

/-- The walks along `link` from `firstStack` on a state that holds a layout. -/
theorem Rep.walks {m : Machine} {s : Stack} {L : Layout} (hr : Rep m s L) :
    linkedChunks s = some L.chain ∧
    retainerStackBlocks s = some (L.chain.map (fun i => (s.bd i).blocks)).sum := by
  obtain ⟨f, rest, e, hfirst, hfw⟩ := hr.chain_fwd
  have hlen := hr.chain_length
  rw [e, List.length_cons] at hlen
  unfold linkedChunks retainerStackBlocks
  rw [hfirst, e]
  exact ⟨chainFrom_fwd s rest f _ hfw (by omega), blocksFrom_fwd s rest f _ hfw (by omega)⟩

theorem freeChain_freed_mono : ∀ (fuel : Nat) (s : Stack) (b : Option Nat) (i : Nat),
    i ∈ s.freed → i ∈ (freeChain fuel s b).freed := by
  intro fuel
  induction fuel with
  | zero => intro s b i hi; exact hi
  | succ fuel ih =>
    intro s b i hi
    cases b with
    | none => exact hi
    | some b =>
      exact ih { s with freed := b :: s.freed } (s.bd b).link i (List.mem_cons_of_mem _ hi)

theorem freeChain_fwd : ∀ (rest : List Nat) (x fuel : Nat) (s : Stack),
    FwdOK s.bd x rest → rest.length < fuel →
    ∀ i ∈ x :: rest, i ∈ (freeChain fuel s (some x)).freed := by
  intro rest
  induction rest with
  | nil =>
    intro x fuel s _ hlt i hi
    cases fuel with
    | zero => omega
    | succ fuel =>
      rw [List.mem_singleton.1 hi]
      exact freeChain_freed_mono fuel { s with freed := x :: s.freed } (s.bd x).link x
        (List.mem_cons_self _ _)
  | cons n r ih =>
    intro x fuel s hf hlt i hi
    cases fuel with
    | zero => omega
    | succ fuel =>
      obtain ⟨h1, _, h3⟩ := hf
      simp only [List.length_cons] at hlt
      show i ∈ (freeChain fuel { s with freed := x :: s.freed } (s.bd x).link).freed
      rw [h1]
      rcases List.mem_cons.1 hi with e | hi
      · rw [e]
        exact freeChain_freed_mono fuel _ _ x (List.mem_cons_self _ _)
      · exact ih n fuel { s with freed := x :: s.freed } h3 (by omega) i hi

/-- The function `closeTraverseStack` on a state that holds a layout: no chain
  is left, and every block group of the chain is freed. -/
theorem Rep.close {m : Machine} {s : Stack} {L : Layout} (hr : Rep m s L) :
    (closeTraverseStack s).firstStack = none ∧
    retainerStackBlocks (closeTraverseStack s) = some 0 ∧
    ∀ i ∈ L.chain, i ∈ (closeTraverseStack s).freed := by
  refine ⟨rfl, ?_, ?_⟩
  · unfold retainerStackBlocks closeTraverseStack
    cases (freeChain s.allocated s s.firstStack).allocated <;> rfl
  · obtain ⟨f, rest, e, hfirst, hfw⟩ := hr.chain_fwd
    have hlen := hr.chain_length
    rw [e, List.length_cons] at hlen
    intro i hi
    show i ∈ (freeChain s.allocated s s.firstStack).freed
    rw [hfirst]
    exact freeChain_fwd rest f s.allocated s hfw (by omega) i (e ▸ hi)

end Chunked

namespace Chunked

/-- What a push leaves of the chain: `firstStack`, the descriptors handed out,
  the sizes of the block groups, and every link that was set; no descriptor is
  freed. -/
theorem pushElement_frame (m : Machine) (s s1 : Stack) (se : stackElement) (cur : Nat)
    (hcur : s.currentStack = some cur) (hlt : cur < s.allocated)
    (h : pushElement m s se = some s1) :
    s1.firstStack = s.firstStack ∧ s.allocated ≤ s1.allocated ∧
    (∀ i, i ∈ s1.freed → i ∈ s.freed) ∧
    ∀ i, i < s.allocated → (s1.bd i).blocks = (s.bd i).blocks ∧
      ∀ j, (s.bd i).link = some j → (s1.bd i).link = some j := by
  by_cases hx : s.stackTop < s.stackBottom + m.sizeofElement
  · cases hl : (s.bd cur).link with
    | none =>
      rw [pushElement_alloc m s se cur hcur hx hl (by omega)] at h
      cases h
      refine ⟨rfl, Nat.le_succ _, ?_, ?_⟩
      · intro i hi
        exact (List.mem_filter.1 hi).1
      · intro i hi
        have h1 : i ≠ s.allocated := by omega
        by_cases h2 : i = cur
        · subst h2
          simp only [allocPushed, if_neg h1, if_true, true_and]
          intro j hj
          rw [hl] at hj
          cases hj
        · simp only [allocPushed, if_neg h1, if_neg h2, true_and]
          intro j hj
          exact hj
    | some n =>
      simp only [pushElement, hcur, if_pos hx, Stack.setBd, if_true, hl] at h
      cases h
      refine ⟨rfl, le_refl _, fun i hi => hi, ?_⟩
      intro i _
      simp only [newStackBlock]
      by_cases h1 : i = n
      · subst h1
        by_cases h2 : i = cur
        · subst h2
          simp [hl]
        · simp [h2]
      · by_cases h2 : i = cur
        · subst h2
          simp [h1, hl]
        · simp [h1, h2]
  · simp only [pushElement, hcur, if_neg hx] at h
    cases h
    exact ⟨rfl, le_refl _, fun i hi => hi, fun i _ => ⟨rfl, fun j hj => hj⟩⟩

/-- What `popOff` leaves of the chain: `firstStack`, the descriptors handed out
  and freed, the sizes of the block groups and every link. -/
theorem popOff_frame (m : Machine) (s s1 : Stack) (h : Chunked.popOff m s = some s1) :
    s1.firstStack = s.firstStack ∧ s1.allocated = s.allocated ∧ s1.freed = s.freed ∧
    ∀ i, (s1.bd i).blocks = (s.bd i).blocks ∧ (s1.bd i).link = (s.bd i).link := by
  unfold Chunked.popOff at h
  by_cases hx : s.stackTop + m.sizeofElement < s.stackLimit
  · rw [if_pos hx] at h
    cases h
    exact ⟨rfl, rfl, rfl, fun i => ⟨rfl, rfl⟩⟩
  · rw [if_neg hx] at h
    unfold popOffReal at h
    cases hc : s.currentStack with
    | none => rw [hc] at h; cases h
    | some cur =>
      rw [hc] at h
      dsimp only at h
      by_cases hf : s.firstStack = some cur
      · rw [if_pos hf] at h
        cases h
        exact ⟨rfl, rfl, rfl, fun i => ⟨rfl, rfl⟩⟩
      · rw [if_neg hf] at h
        cases hb : ((s.setBd cur { s.bd cur with free := s.stackLimit }).bd cur).back with
        | none => rw [hb] at h; cases h
        | some p =>
          rw [hb] at h
          cases h
          refine ⟨rfl, rfl, rfl, ?_⟩
          intro i
          simp only [returnToOldStack, Stack.setBd]
          by_cases h1 : i = p
          · subst h1
            by_cases h2 : i = cur
            · subst h2; simp
            · simp [h2]
          · by_cases h2 : i = cur
            · subst h2; simp [h1]
            · simp [h1, h2]

theorem fwd_prefix {bd bd1 : Nat → bdescr} : ∀ (rest : List Nat) (x : Nat) (rest1 : List Nat),
    FwdOK bd x rest → FwdOK bd1 x rest1 →
    (∀ i ∈ x :: rest, ∀ j, (bd i).link = some j → (bd1 i).link = some j) →
    (x :: rest) <+: (x :: rest1) := by
  intro rest
  induction rest with
  | nil =>
    intro x rest1 _ _ _
    exact ⟨rest1, rfl⟩
  | cons n r ih =>
    intro x rest1 hf hf1 hk
    obtain ⟨h1, _, h3⟩ := hf
    have hl1 := hk x (List.mem_cons_self _ _) n h1
    cases rest1 with
    | nil =>
      have : (bd1 x).link = none := hf1
      rw [this] at hl1
      cases hl1
    | cons n1 r1 =>
      obtain ⟨g1, _, g3⟩ := hf1
      rw [hl1] at g1
      cases g1
      have := ih n r1 h3 g3 (fun i hi j hj => hk i (List.mem_cons_of_mem _ hi) j hj)
      exact (List.prefix_cons_inj x).2 this

/-- The chain of a state is an initial segment of the chain of a state that
  has the same `firstStack` and every link of the first chain. -/
theorem Rep.chain_prefix {m : Machine} {s s1 : Stack} {L L1 : Layout} (hr : Rep m s L)
    (hr1 : Rep m s1 L1) (hfirst : s1.firstStack = s.firstStack)
    (hk : ∀ i ∈ L.chain, ∀ j, (s.bd i).link = some j → (s1.bd i).link = some j) :
    L.chain <+: L1.chain := by
  obtain ⟨f, rest, e, hf, hfw⟩ := hr.chain_fwd
  obtain ⟨f1, rest1, e1, hf1, hfw1⟩ := hr1.chain_fwd
  rw [hfirst, hf] at hf1
  cases hf1
  rw [e, e1]
  rw [e] at hk
  exact fwd_prefix rest f rest1 hfw hfw1 hk

/-- The relation between the chains of two states of one use of the traverse
  stack: the first chain is an initial segment of the second one, and its
  block groups have kept their sizes. -/
theorem keep_step {m : Machine} {s s1 : Stack} {L L1 : Layout} (hr : Rep m s L)
    (hr1 : Rep m s1 L1) (hfirst : s1.firstStack = s.firstStack)
    (hk : ∀ i, i < s.allocated → (s1.bd i).blocks = (s.bd i).blocks ∧
      ∀ j, (s.bd i).link = some j → (s1.bd i).link = some j) :
    L.chain <+: L1.chain ∧ ∀ i ∈ L.chain, (s1.bd i).blocks = (s.bd i).blocks :=
  ⟨hr.chain_prefix hr1 hfirst (fun i hi => (hk i (hr.hbound i hi).1).2),
    fun i hi => (hk i (hr.hbound i hi).1).1⟩

/-- A sequence of operations that does not pop the empty list unlinks no
  block group: the chain at the start is an initial segment of the chain at
  the end, with the same sizes. -/
theorem runOps_keep {m : Machine} (hsz : 0 < m.sizeofElement)
    (hcap : m.sizeofElement ≤ m.BLOCK_SIZE_W * BLOCKS_IN_STACK) (hfresh : m.Fresh) :
    ∀ (ops : List StackOp) (s : Stack) (L : Layout) (l : List stackElement),
    Rep m s L → listOps ops L.list = some l →
    ∃ s1 L1, runOps m ops s = some s1 ∧ Rep m s1 L1 ∧ L1.list = l ∧
      L.chain <+: L1.chain ∧ (∀ i ∈ L.chain, (s1.bd i).blocks = (s.bd i).blocks) ∧
      s1.firstStack = s.firstStack := by
  intro ops
  induction ops with
  | nil =>
    intro s L l hr hl
    exact ⟨s, L, rfl, hr, Option.some.inj hl, List.prefix_refl _, fun _ _ => rfl, rfl⟩
  | cons op ops ih =>
    intro s L l hr hl
    cases op with
    | push se =>
      obtain ⟨s1, L1, h1, h2, h3⟩ := rep_push hsz hcap hfresh hr se
      have hl1 : listOps ops L1.list = some l := by rw [h3]; exact hl
      obtain ⟨s2, L2, h4, h5, h6, h7, h8, h9⟩ := ih s1 L1 l h2 hl1
      have hcl : L.cur < s.allocated := (hr.hbound L.cur ((L.mem_chain _).2 (Or.inl rfl))).1
      obtain ⟨f1, _, _, f4⟩ := pushElement_frame m s s1 se L.cur hr.hcur hcl h1
      obtain ⟨k1, k2⟩ := keep_step hr h2 f1 f4
      refine ⟨s2, L2, ?_, h5, h6, k1.trans h7, ?_, h9.trans f1⟩
      · simp only [runOps, h1, Option.bind_some]
        exact h4
      · intro i hi
        rw [h8 i (k1.subset hi), k2 i hi]
    | popOff =>
      cases hll : L.list with
      | nil =>
        rw [hll] at hl
        cases hl
      | cons x rest =>
        rw [hll] at hl
        obtain ⟨s1, L1, h1, h2, h3⟩ := rep_pop hsz hr x rest hll
        have hl1 : listOps ops L1.list = some l := by rw [h3]; exact hl
        obtain ⟨s2, L2, h4, h5, h6, h7, h8, h9⟩ := ih s1 L1 l h2 hl1
        obtain ⟨f1, _, _, f4⟩ := popOff_frame m s s1 h1
        obtain ⟨k1, k2⟩ := keep_step hr h2 f1
          (fun i _ => ⟨(f4 i).1, fun j hj => by rw [(f4 i).2]; exact hj⟩)
        refine ⟨s2, L2, ?_, h5, h6, k1.trans h7, ?_, h9.trans f1⟩
        · simp only [runOps, h1, Option.bind_some]
          exact h4
        · intro i hi
          rw [h8 i (k1.subset hi), k2 i hi]

theorem sum_prefix_le (f g : Nat → Nat) : ∀ (l l1 : List Nat), l <+: l1 →
    (∀ i ∈ l, g i = f i) → (l.map f).sum ≤ (l1.map g).sum := by
  intro l l1 hp he
  obtain ⟨t, rfl⟩ := hp
  have : l.map g = l.map f := List.map_congr_left he
  rw [List.map_append, List.sum_append, this]
  exact Nat.le_add_right _ _

/-- What a push does with the descriptors: it allocates one exactly when the
  current block group is full and has no next one, and moves to the next one
  when the current block group is full. -/
theorem pushElement_step (m : Machine) (s : Stack) (se : stackElement) (cur : Nat)
    (hcur : s.currentStack = some cur) :
    ∃ s1, pushElement m s se = some s1 ∧
      s1.allocated =
        (if s.stackTop < s.stackBottom + m.sizeofElement ∧ (s.bd cur).link = none
          then s.allocated + 1 else s.allocated) ∧
      s1.currentStack =
        (if s.stackTop < s.stackBottom + m.sizeofElement then
          (match (s.bd cur).link with
            | none => some s.allocated
            | some n => some n)
        else some cur) := by
  by_cases hx : s.stackTop < s.stackBottom + m.sizeofElement
  · cases hl : (s.bd cur).link with
    | none =>
      have hl2 : ((s.setBd cur { s.bd cur with free := s.stackTop }).bd cur).link = none := by
        simp [Stack.setBd, hl]
      unfold pushElement
      rw [hcur]
      dsimp only
      rw [if_pos hx, hl2]
      dsimp only
      refine ⟨_, rfl, ?_, ?_⟩
      · simp [newStackBlock, allocGroup, Stack.setBd, hx]
      · simp [newStackBlock, allocGroup, Stack.setBd, hx]
    | some n =>
      have hl2 : ((s.setBd cur { s.bd cur with free := s.stackTop }).bd cur).link = some n := by
        simp [Stack.setBd, hl]
      unfold pushElement
      rw [hcur]
      dsimp only
      rw [if_pos hx, hl2]
      dsimp only
      refine ⟨_, rfl, ?_, ?_⟩
      · simp [newStackBlock, Stack.setBd]
      · simp [newStackBlock, Stack.setBd, hx]
  · simp only [pushElement, hcur, if_neg hx]
    refine ⟨_, rfl, ?_, rfl⟩
    simp [hx]

end Chunked

/-! ## The engine reads the slots through their validity only -/

theorem view_flip (V : Nat → Bool) (st : State) : (st.view V).flip = true := rfl
theorem view_status (V : Nat → Bool) (st : State) : (st.view V).status = st.status := rfl
theorem view_stack (V : Nat → Bool) (st : State) : (st.view V).stack = st.stack := rfl
theorem view_boundary (V : Nat → Bool) (st : State) :
    (st.view V).currentStackBoundary = st.currentStackBoundary := rfl
theorem view_trace (V : Nat → Bool) (st : State) : (st.view V).trace = st.trace := rfl
theorem view_rs (V : Nat → Bool) (st : State) (a : Nat) :
    (st.view V).rs a = viewSlot V st a := rfl

theorem viewSlot_low (V : Nat → Bool) (st : State) (a : Nat) :
    (viewSlot V st a).low = true ↔ V a = true ∧ (st.rs a).low = st.flip := by
  unfold viewSlot
  rw [← valid_iff]
  cases V a <;> cases isRetainerSetFieldValid st a <;> simp

theorem viewSlot_of_valid (V : Nat → Bool) (st : State) (a : Nat) (hV : V a = true)
    (hv : (st.rs a).low = st.flip) :
    viewSlot V st a = { set := (st.rs a).set, low := true } := by
  unfold viewSlot
  rw [hV, (valid_iff st a).2 hv]
  rfl

theorem viewSlot_congr (V : Nat → Bool) (st st1 : State) (a : Nat) (hf : st1.flip = st.flip)
    (hr : st1.rs a = st.rs a) : viewSlot V st1 a = viewSlot V st a := by
  unfold viewSlot isRetainerSetFieldValid
  rw [hf, hr]

/-- Writing a valid word into the slot of a closure of `V`, seen through the
  view. -/
theorem setRS_view (V : Nat → Bool) (st : State) (c : Nat) (w : RSWord) (hV : V c = true)
    (hw : w.low = st.flip) :
    (st.setRS c w).view V = (st.view V).setRS c { set := w.set, low := true } := by
  unfold State.view State.withSlots State.setRS
  congr 1
  funext a
  by_cases e : a = c
  · subst e
    rw [if_pos rfl]
    have := viewSlot_of_valid V (st.setRS a w) a hV (by rw [setRS_rs_self]; exact hw)
    rw [setRS_rs_self] at this
    exact this
  · rw [if_neg e]
    exact viewSlot_congr V st (st.setRS c w) a rfl (setRS_rs_other st c a w e)

theorem maybeInit_view (V : Nat → Bool) (st : State) (c : Nat) (hV : V c = true) :
    maybeInitRetainerSet (st.view V) c = (maybeInitRetainerSet st c).view V := by
  rw [maybeInit_eq, maybeInit_eq]
  by_cases hv : (st.rs c).low = st.flip
  · rw [if_pos hv, if_pos]
    rw [view_rs, view_flip]
    exact (viewSlot_low V st c).2 ⟨hV, hv⟩
  · rw [if_neg hv, if_neg]
    · rw [setRS_view V st c _ hV rfl]
      rfl
    · rw [view_rs, view_flip]
      intro hl
      exact hv ((viewSlot_low V st c).1 hl).2

theorem associate_view (V : Nat → Bool) (st : State) (c : Nat) (s : RSWord) (hV : V c = true)
    (hs : s.low = false) : associate (st.view V) c s = (associate st c s).view V := by
  unfold associate
  rw [setRS_view V st c _ hV (by rw [hs]; rfl)]
  rw [hs]
  rfl

theorem retainerSetOf_view (V : Nat → Bool) (st : State) (a : Nat)
    (hv : ((st.view V).rs a).low = true) :
    retainerSetOf (st.view V) a = retainerSetOf st a ∧ (retainerSetOf st a).low = false := by
  rw [view_rs] at hv
  obtain ⟨hV, hl⟩ := (viewSlot_low V st a).1 hv
  rw [retainerSetOf_of_valid st a hl]
  refine ⟨?_, rfl⟩
  rw [retainerSetOf_of_valid (st.view V) a (by rw [view_rs, view_flip]; exact hv), view_rs,
    viewSlot_of_valid V st a hV hl]

theorem parentSet_view (V : Nat → Bool) (st : State) (cp : Nat) (b : Bool)
    (hv : b = false → ((st.view V).rs cp).low = true) :
    parentSet (st.view V) cp b = parentSet st cp b ∧ (parentSet st cp b).low = false := by
  unfold parentSet
  cases b with
  | true => exact ⟨rfl, rfl⟩
  | false => exact retainerSetOf_view V st cp (hv rfl)

theorem firstSet_view (V : Nat → Bool) (st : State) (c r : Nat) (s : RSWord) (hV : V c = true)
    (hs : s.low = false) : firstSet (st.view V) c r s = (firstSet st c r s).view V := by
  unfold firstSet
  split
  · exact associate_view V st c _ hV rfl
  · exact associate_view V st c s hV hs

theorem firstVisit_view (h : Heap) (V : Nat → Bool) (st : State) (c r : Nat) (s : RSWord)
    (hV : V c = true) (hs : s.low = false) :
    firstVisit h (st.view V) c r s =
      ((firstVisit h st c r s).1.view V, (firstVisit h st c r s).2) := by
  unfold firstVisit
  have e : countVisited (st.view V) = (countVisited st).view V := rfl
  rw [e, firstSet_view V _ c r s hV hs]
  dsimp only
  split <;> rfl

theorem growSet_view (V : Nat → Bool) (st : State) (c r : Nat) (s : RSWord)
    (rc : RetainerSet) (hV : V c = true) (hs : s.low = false) :
    growSet (st.view V) c r s rc = (growSet st c r s rc).map (fun x => x.view V) := by
  unfold growSet
  split
  · rw [associate_view V st c _ hV rfl]
    rfl
  · split
    · rfl
    · split
      · rw [associate_view V st c s hV hs]
        rfl
      · rw [associate_view V st c _ hV rfl]
        rfl

theorem revisit_view (h : Heap) (V : Nat → Bool) (st : State) (c r : Nat) (s w : RSWord)
    (hV : V c = true) (hs : s.low = false) :
    revisit h (st.view V) c r s w =
      ((revisit h st c r s w).1.view V, (revisit h st c r s w).2) := by
  unfold revisit
  cases hw : w.deref with
  | none => rfl
  | some rc =>
    dsimp only
    split
    · rfl
    · rw [growSet_view V st c r s rc hV hs]
      cases hg : growSet st c r s rc with
      | none => rfl
      | some st3 =>
        dsimp only [Option.map]
        split <;> (try split) <;> rfl

/-- The retainer-set resolution for a closure of `V` with a parent in order
  reads the slots through the view only. -/
theorem resolve_view (h : Heap) (V : Nat → Bool) (st : State) (c cp r : Nat)
    (hV : V c = true) (hpar : ParentOK h (st.view V) c cp) :
    resolve h (st.view V) c cp r =
      ((resolve h st c cp r).1.view V, (resolve h st c cp r).2) := by
  unfold resolve
  have e : tick (st.view V) = (tick st).view V := rfl
  rw [e, maybeInit_view V _ c hV]
  dsimp only
  cases hcp : isRetainer h cp with
  | none => rfl
  | some b =>
    dsimp only
    have hself : (((maybeInitRetainerSet (tick st) c).view V).rs c).low = true := by
      rw [← maybeInit_view V _ c hV, maybeInit_low]
      rfl
    have hp : b = false → (((maybeInitRetainerSet (tick st) c).view V).rs cp).low = true := by
      intro hb
      subst hb
      rcases hpar hcp with e1 | hv
      · rw [e1]; exact hself
      · by_cases e1 : cp = c
        · rw [e1]; exact hself
        · rw [← maybeInit_view V _ c hV, maybeInit_rs_other _ _ _ e1]
          exact hv
    obtain ⟨p1, p2⟩ := parentSet_view V (maybeInitRetainerSet (tick st) c) cp b hp
    obtain ⟨q1, -⟩ := retainerSetOf_view V (maybeInitRetainerSet (tick st) c) c hself
    rw [p1, q1]
    split
    · exact firstVisit_view h V _ c r _ hV p2
    · exact revisit_view h V _ c r _ _ hV p2

theorem push_srt_only_withSlots (h : Heap) (st : State) (fl : Bool) (rs : Nat → RSWord)
    (c ccr : Nat) :
    push_srt_only h (st.withSlots fl rs) c ccr =
      { st := (push_srt_only h st c ccr).st.withSlots fl rs,
        first_child := (push_srt_only h st c ccr).first_child } := by
  unfold push_srt_only
  split
  · split <;> rfl
  · rfl

/-- The function `push` does not read the slots and leaves them as they
  are. -/
theorem push_withSlots (h : Heap) (st : State) (fl : Bool) (rs : Nat → RSWord) (c ccr : Nat) :
    push h (st.withSlots fl rs) c ccr =
      { st := (push h st c ccr).st.withSlots fl rs,
        first_child := (push h st c ccr).first_child } := by
  unfold push
  dsimp only
  split
  all_goals first
    | rfl
    | exact push_srt_only_withSlots h st fl rs c ccr
    | (split
       · split
         · first
            | rfl
            | exact push_srt_only_withSlots h st fl rs c ccr
         · rfl
       · rfl)

theorem push_view (h : Heap) (V : Nat → Bool) (st : State) (c ccr : Nat) :
    push h (st.view V) c ccr =
      { st := (push h st c ccr).st.view V, first_child := (push h st c ccr).first_child } := by
  have e := push_withSlots h st true (viewSlot V st) c ccr
  have e2 : (push h st c ccr).st.view V = (push h st c ccr).st.withSlots true (viewSlot V st) := by
    obtain ⟨e1, e2, -⟩ := push_ok h st c ccr
    unfold State.view
    congr 1
    funext a
    exact viewSlot_congr V st _ a e2 (by rw [e1])
  rw [e2]
  exact e

theorem growSet_lit {st st3 : State} {c r : Nat} {s : RSWord} {rc : RetainerSet}
    (hg : growSet st c r s rc = some st3) (hf : st.flip = true) : Lit st3 c := by
  unfold growSet at hg
  split at hg
  · cases hg
    exact ⟨hf, by rw [associate_rs_self, hf]; simp⟩
  · split at hg
    · cases hg
    · split at hg <;> cases hg <;> exact ⟨hf, by rw [associate_rs_self, hf]; simp⟩

theorem Lit.lit_fail {st : State} {a : Nat} (hl : Lit st a) (e : Fatal) : Lit (st.fail e) a := hl

theorem revisit_lit (h : Heap) (st : State) (c r : Nat) (s w : RSWord) (hl : Lit st c) :
    Lit (revisit h st c r s w).1 c := by
  unfold revisit
  split
  · exact hl
  · split
    · exact hl
    · split
      · exact hl
      · rename_i st3 hg
        have h3 := growSet_lit hg hl.1
        split
        · exact h3
        · split <;> exact h3

theorem firstVisit_lit (h : Heap) (st : State) (c r : Nat) (s : RSWord) (hf : st.flip = true) :
    Lit (firstVisit h st c r s).1 c := by
  refine ⟨?_, ?_⟩
  · rw [(firstVisit_frame h st c r s).1]; exact hf
  · rw [firstVisit_slot]
    split <;> simp [hf]

/-- With the flip bit `1`, the slot of the closure that the retainer-set
  resolution is for carries the marker `1` afterwards. -/
theorem resolve_lit_self (h : Heap) (st : State) (c cp r : Nat) (hf : st.flip = true) :
    Lit (resolve h st c cp r).1 c := by
  have h2 : Lit (maybeInitRetainerSet (tick st) c) c :=
    ⟨by rw [maybeInit_flip, tick_flip]; exact hf, by rw [maybeInit_low, tick_flip]; exact hf⟩
  unfold resolve
  dsimp only
  split
  · exact h2
  · split
    · exact firstVisit_lit h _ c r _ h2.1
    · exact revisit_lit h _ c r _ _ h2

theorem resolve_lit (h : Heap) (st : State) (c cp r a : Nat) (hl : Lit st a) :
    Lit (resolve h st c cp r).1 a := by
  by_cases e : a = c
  · rw [e]; exact resolve_lit_self h st c cp r hl.1
  · have hf := resolve_frame h st c cp r
    exact ⟨by rw [hf.1]; exact hl.1, by rw [hf.2.2.2.2 a e]; exact hl.2⟩

theorem run_lit {h : Heap} {t : Task} {st st1 : State} (hr : Run h t st st1) (a : Nat)
    (hl : Lit st a) : Lit st1 a :=
  run_slots (fun rs fl => fl = true ∧ (rs a).low = true)
    (fun s c cp r _ _ hs => resolve_lit h s c cp r a hs) hr hl

theorem exec_lit (h : Heap) (fuel : Nat) (t : Task) (st : State) (a : Nat) (hl : Lit st a) :
    Lit (exec h fuel t st) a := run_lit (exec_run h fuel t st) a hl

theorem andThen_lit {st : State} {k : State → State} {a : Nat} (hl : Lit st a)
    (hk : ∀ s, Lit s a → Lit (k s) a) : Lit (st.andThen k) a := by
  unfold State.andThen
  split
  · exact hl
  · exact hk st hl

theorem push_lit (h : Heap) (st : State) (c ccr a : Nat) (hl : Lit st a) :
    Lit (push h st c ccr).st a := by
  obtain ⟨e1, e2, -⟩ := push_ok h st c ccr
  exact ⟨by rw [e2]; exact hl.1, by rw [e1]; exact hl.2⟩

/-- With the flip bit `1`, the slot of a closure that `inner_loop` lets
  through to the retainer-set resolution carries the marker `1` when the call
  ends, however it ends. -/
theorem exec_inner_lit (h : Heap) (fuel : Nat) (st : State) (c cp r : Nat)
    (hf : st.flip = true) (hc : c ≠ 0) (hp : preFilter h c = PreFilter.visit) :
    Lit (exec h (fuel + 1) (Task.inner c cp r) st) c := by
  have hres : Lit (resolve h (logArrival st c cp r) c cp r).1 c :=
    resolve_lit_self h _ c cp r hf
  have hmono : ∀ (tk : Task) (s1 : State), Lit s1 c → Lit (exec h fuel tk s1) c :=
    fun tk s1 hs1 => exec_lit h fuel tk s1 c hs1
  simp only [exec, if_neg hc, hp]
  split
  · exact hres
  · split
    · exact hmono _ _ hres
    · split
      · exact andThen_lit (hmono _ _ hres) (fun s hs => hmono _ s hs)
      · exact andThen_lit (hmono _ _ hres) (fun s hs => hmono _ s hs)
      · exact andThen_lit (hmono _ _ hres) (fun s hs => hmono _ s hs)
      · exact andThen_lit (andThen_lit (hmono _ _ hres) (fun s hs => hmono _ s hs))
          (fun s hs => hmono _ s hs)
      · have hpush : ∀ ccr, Lit (push h (resolve h (logArrival st c cp r) c cp r).1 c ccr).st c :=
          fun ccr => push_lit h _ c ccr c hres
        split
        · exact hpush _
        · split
          · exact hmono _ _ (hpush _)
          · exact hmono _ _ (hpush _)

theorem pop_do_srt_c (se : stackElement) (info : stackPos) (se1 : stackElement) (x : Nat)
    (e : pop_do_srt se info = PopStep.ret (some se1) x) : se1.c = se.c := by
  unfold pop_do_srt at e
  split at e
  · split at e
    · cases e; rfl
    · cases e
  · cases e

/-- An element that `pop` overwrites keeps its closure. -/
theorem popStep_c (h : Heap) (se se1 : stackElement) (x : Nat)
    (e : popStep h se = PopStep.ret (some se1) x) : se1.c = se.c := by
  unfold popStep at e
  dsimp only at e
  split at e
  all_goals first
    | cases e
    | exact pop_do_srt_c _ _ _ _ e
    | (split at e
       all_goals first
         | cases e
         | exact pop_do_srt_c _ _ _ _ e
         | (split at e
            all_goals first
              | (cases e; rfl)
              | cases e
              | exact pop_do_srt_c _ _ _ _ e
              | (split at e
                 all_goals first
                   | (cases e; rfl)
                   | cases e
                   | exact pop_do_srt_c _ _ _ _ e)))

/-- The closures of the elements that `pop` leaves, and the parent it
  returns, are closures of elements of the stack. -/
theorem popLoop_c (h : Heap) (b : Nat) : ∀ (stack : List stackElement),
    (∀ se1 ∈ (popLoop h b stack).stack, ∃ se ∈ stack, se1.c = se.c) ∧
    ((popLoop h b stack).c ≠ 0 → ∃ se ∈ stack, (popLoop h b stack).cp = se.c) := by
  intro stack
  induction stack with
  | nil =>
    unfold popLoop
    split
    · exact ⟨fun se1 hs => (by cases hs), fun hc => absurd rfl hc⟩
    · exact ⟨fun se1 hs => (by cases hs), fun hc => absurd rfl hc⟩
  | cons se rest ih =>
    unfold popLoop
    split
    · exact ⟨fun se1 hs => ⟨se1, hs, rfl⟩, fun hc => absurd rfl hc⟩
    · split
      · rename_i se2 x hstep
        refine ⟨?_, fun _ => ⟨se, List.mem_cons_self _ _, rfl⟩⟩
        intro se1 hs
        rcases List.mem_cons.1 hs with e | hs
        · exact ⟨se, List.mem_cons_self _ _, by rw [e]; exact popStep_c h se se2 x hstep⟩
        · exact ⟨se1, List.mem_cons_of_mem _ hs, rfl⟩
      · refine ⟨?_, fun _ => ⟨se, List.mem_cons_self _ _, rfl⟩⟩
        intro se1 hs
        exact ⟨se1, List.mem_cons_of_mem _ hs, rfl⟩
      · obtain ⟨i1, i2⟩ := ih
        refine ⟨?_, ?_⟩
        · intro se1 hs
          obtain ⟨s0, hs0, e⟩ := i1 se1 hs
          exact ⟨s0, List.mem_cons_of_mem _ hs0, e⟩
        · intro hc
          obtain ⟨s0, hs0, e⟩ := i2 hc
          exact ⟨s0, List.mem_cons_of_mem _ hs0, e⟩
      · exact ⟨fun se1 hs => ⟨se1, hs, rfl⟩, fun hc => absurd rfl hc⟩

/-- A closure that the pre-filter follows is a retainer, or one on which
  `isRetainer` ends in `barf`. -/
theorem follow_not_plain (h : Heap) (c c1 : Nat) (hp : preFilter h c = PreFilter.follow c1) :
    isRetainer h c ≠ some false := by
  unfold preFilter at hp
  unfold isRetainer typeOf
  dsimp only at hp
  cases hty : (h.get c).type <;> rw [hty] at hp <;> simp [isRetainerType] at hp ⊢
  all_goals (split at hp <;> cases hp)

theorem StackValid.of_rs {st st1 : State} (hs : StackValid st) (hk : st1.stack = st.stack)
    (hm : ∀ a, (st.rs a).low = st.flip → (st1.rs a).low = st1.flip) : StackValid st1 := by
  intro se hse
  rw [hk] at hse
  exact hm _ (hs se hse)

theorem exec_flip (h : Heap) (fuel : Nat) (t : Task) (st : State) :
    (exec h fuel t st).flip = st.flip := run_flip (exec_run h fuel t st)

theorem resolve_stackValid (h : Heap) (st : State) (c cp r : Nat) (hf : st.flip = true)
    (hs : StackValid st) : StackValid (resolve h st c cp r).1 := by
  refine hs.of_rs (resolve_frame h st c cp r).2.1 ?_
  intro a ha
  have := resolve_lit h st c cp r a ⟨hf, by rw [ha, hf]⟩
  rw [this.2, this.1]

theorem push_stackValid (h : Heap) (st : State) (c ccr : Nat) (hs : StackValid st)
    (hc : (st.rs c).low = st.flip) : StackValid (push h st c ccr).st := by
  obtain ⟨e1, e2, -, -, hstack, -⟩ := push_ok h st c ccr
  intro se hse
  rw [e1, e2]
  rcases hstack with e | ⟨info, e, -⟩
  · rw [e] at hse; exact hs se hse
  · rw [e] at hse
    rcases List.mem_cons.1 hse with e3 | hse
    · rw [e3]; exact hc
    · exact hs se hse

theorem pop_stackValid (h : Heap) (st : State) (hs : StackValid st) :
    StackValid { st with stack := (pop h st).stack } ∧
    ((pop h st).c ≠ 0 → ((st.rs (pop h st).cp).low = st.flip)) := by
  obtain ⟨p1, p2⟩ := popLoop_c h st.currentStackBoundary st.stack
  constructor
  · intro se1 hse1
    obtain ⟨se, hse, e⟩ := p1 se1 hse1
    show (st.rs se1.c).low = st.flip
    rw [e]
    exact hs se hse
  · intro hc
    obtain ⟨se, hse, e⟩ := p2 hc
    show (st.rs (popLoop h st.currentStackBoundary st.stack).cp).low = st.flip
    rw [e]
    exact hs se hse

/-- Two control points in sequence commute with the view if each of them
  does. -/
theorem chain_view (V : Nat → Bool) (x y : State) (k : State → State)
    (hkl : ∀ s a, Lit s a → Lit (k s) a) (hx : x.flip = true)
    (H : ∀ a, ((x.andThen k).rs a).low = true → V a = true)
    (hA : (∀ a, (x.rs a).low = true → V a = true) → x = y.view V ∧ StackValid x)
    (hB : x = y.view V → y.status = none → StackValid x →
      (∀ a, ((k x).rs a).low = true → V a = true) →
      k x = (k y).view V ∧ StackValid (k x)) :
    x.andThen k = (y.andThen k).view V ∧ StackValid (x.andThen k) := by
  have HA : ∀ a, (x.rs a).low = true → V a = true :=
    fun a ha => H a (andThen_lit ⟨hx, ha⟩ (fun s hs => hkl s a hs)).2
  obtain ⟨e, hs⟩ := hA HA
  rcases status_cases y with h1 | h1
  · have h1x : x.status.isSome = true := by rw [e, view_status]; exact h1
    rw [andThen_of_isSome _ _ h1x, andThen_of_isSome _ _ h1]
    exact ⟨e, hs⟩
  · have h1x : x.status = none := by rw [e, view_status]; exact h1
    rw [andThen_of_none _ _ h1x] at H ⊢
    rw [andThen_of_none _ _ h1]
    exact hB e h1 hs H

/-- The engine commutes with the view: run on the view of a state, it ends in
  the view of the state it ends in when run on the state itself, provided the
  closures whose slots carry the marker at the end are all in `V`, the
  elements of the stack are for closures with valid slots and the parents of
  the arrivals are in order. -/
theorem exec_view (h : Heap) (V : Nat → Bool) (fuel : Nat) : ∀ (t : Task) (st : State),
    StackValid (st.view V) → CoverPre h (st.view V) t →
    (∀ a, ((exec h fuel t (st.view V)).rs a).low = true → V a = true) →
    exec h fuel t (st.view V) = (exec h fuel t st).view V ∧
    StackValid (exec h fuel t (st.view V)) := by
  induction fuel with
  | zero =>
    intro t st hsv _ _
    exact ⟨rfl, hsv⟩
  | succ fuel ih =>
    intro t st hsv hpre H
    have hkl : ∀ (tk : Task) (s : State) (a : Nat), Lit s a → Lit (exec h fuel tk s) a :=
      fun tk s a hl => exec_lit h fuel tk s a hl
    cases t with
    | loop =>
      obtain ⟨q1, q2⟩ := pop_stackValid h (st.view V) hsv
      have e : pop h (st.view V) = pop h st := rfl
      rw [e] at q1 q2
      revert H
      simp only [exec]
      rw [e]
      split
      · intro _
        exact ⟨rfl, q1⟩
      · split
        · intro _
          exact ⟨rfl, q1⟩
        · rename_i hc
          intro H
          exact ih (Task.inner (pop h st).c (pop h st).cp (pop h st).r)
            { st with stack := (pop h st).stack } q1 (fun _ => Or.inr (q2 hc)) H
    | inner c cp r =>
      by_cases hc : c = 0
      · subst hc
        simp only [exec, if_true]
        exact ⟨rfl, hsv⟩
      · cases hp : preFilter h c with
        | skip =>
          simp only [exec_skip h fuel _ c cp r hc hp] at H ⊢
          exact ih Task.loop (logArrival st c cp r) hsv trivial H
        | follow c1 =>
          simp only [exec_follow h fuel _ c c1 cp r hc hp] at H ⊢
          refine ih (Task.inner c1 cp r) (logArrival st c cp r) hsv ?_ H
          intro hcp
          rcases hpre hcp with e | hv
          · exact absurd (e ▸ hcp) (follow_not_plain h c c1 hp)
          · exact Or.inr hv
        | visit =>
          have hVc : V c = true :=
            H c (exec_inner_lit h fuel (st.view V) c cp r rfl hc hp).2
          have hresE : resolve h (logArrival (st.view V) c cp r) c cp r =
              ((resolve h (logArrival st c cp r) c cp r).1.view V,
                (resolve h (logArrival st c cp r) c cp r).2) :=
            resolve_view h V (logArrival st c cp r) c cp r hVc hpre
          have hsvres : StackValid ((resolve h (logArrival st c cp r) c cp r).1.view V) := by
            have := resolve_stackValid h (logArrival (st.view V) c cp r) c cp r rfl hsv
            rw [hresE] at this
            exact this
          have hlitc : Lit ((resolve h (logArrival st c cp r) c cp r).1.view V) c := by
            have := resolve_lit_self h (logArrival (st.view V) c cp r) c cp r rfl
            rw [hresE] at this
            exact this
          have hpushsv : ∀ ccr, StackValid
              ((push h (resolve h (logArrival st c cp r) c cp r).1 c ccr).st.view V) := by
            intro ccr
            have := push_stackValid h _ c ccr hsvres hlitc.2
            rw [push_view] at this
            exact this
          have hpushlit : ∀ ccr, Lit
              ((push h (resolve h (logArrival st c cp r) c cp r).1 c ccr).st.view V) c := by
            intro ccr
            have := push_lit h _ c ccr c hlitc
            rw [push_view] at this
            exact this
          revert H
          simp only [exec, if_neg hc, hp, hresE, view_status, push_view]
          split
          · intro _
            exact ⟨rfl, hsvres⟩
          · split
            · intro H
              exact ih Task.loop _ hsvres trivial H
            · rename_i ccr hd
              have hwalk : ∀ (y : State), Lit (y.view V) c →
                  CoverPre h (y.view V)
                    (Task.stack (retainStackCalls h c ccr (h.get c).frames).1
                      (retainStackCalls h c ccr (h.get c).frames).2) := by
                intro y hy x hx
                rw [(retainStackCalls_mem h c ccr x hx).1]
                exact hy.2
              have hpap : CoverPre h ((resolve h (logArrival st c cp r) c cp r).1.view V)
                    (Task.calls (retain_PAP h c ccr) false) := by
                intro x hx
                rw [(retain_PAP_mem h c ccr x hx).1]
                exact hlitc.2
              split
              · intro H
                refine chain_view V _ _ _ (hkl _) (by rw [exec_flip]; rfl) H
                  (fun HA => ih _ _ hsvres (hwalk _ hlitc) HA) ?_
                intro e _ hs HB
                rw [e] at hs HB ⊢
                exact ih Task.loop _ hs trivial HB
              · intro H
                refine chain_view V _ _ _ (hkl _) (by rw [exec_flip]; rfl) H
                  (fun HA => ih _ _ hsvres hpap HA) ?_
                intro e _ hs HB
                rw [e] at hs HB ⊢
                exact ih Task.loop _ hs trivial HB
              · intro H
                refine chain_view V _ _ _ (hkl _) (by rw [exec_flip]; rfl) H
                  (fun HA => ih _ _ hsvres hpap HA) ?_
                intro e _ hs HB
                rw [e] at hs HB ⊢
                exact ih Task.loop _ hs trivial HB
              · intro H
                have hfun : CoverPre h ((resolve h (logArrival st c cp r) c cp r).1.view V)
                    (Task.calls [((h.get c).func, c, ccr)] false) := by
                  intro x hx
                  rw [List.mem_singleton.1 hx]
                  exact hlitc.2
                refine chain_view V _ _ _ (hkl _)
                  (by rw [andThen_flip _ _ (fun s => exec_flip h fuel _ s), exec_flip]; rfl) H
                  (fun HA => chain_view V _ _ _ (hkl _) (by rw [exec_flip]; rfl) HA
                    (fun HA1 => ih _ _ hsvres hfun HA1) ?_) ?_
                · intro e _ hs HB
                  have hl : Lit (exec h fuel (Task.calls [((h.get c).func, c, ccr)] false)
                      ((resolve h (logArrival st c cp r) c cp r).1.view V)) c :=
                    hkl _ _ _ hlitc
                  rw [e] at hs HB hl ⊢
                  exact ih _ _ hs (hwalk _ hl) HB
                · intro e _ hs HB
                  rw [e] at hs HB ⊢
                  exact ih Task.loop _ hs trivial HB
              · split
                · intro _
                  exact ⟨rfl, hpushsv ccr⟩
                · split
                  · intro H
                    exact ih Task.loop _ (hpushsv ccr) trivial H
                  · intro H
                    exact ih _ _ (hpushsv ccr) (fun _ => Or.inr (hpushlit ccr).2) H
    | calls cs bad =>
      revert H
      simp only [exec]
      split
      · split
        · intro _; exact ⟨rfl, hsv⟩
        · intro _; exact ⟨rfl, hsv⟩
      · rename_i c0 cp0 r0 rest
        intro H
        have hp0 : ParentOK h (st.view V) c0 cp0 :=
          fun _ => Or.inr (hpre (c0, cp0, r0) (List.mem_cons_self _ _))
        refine chain_view V _ _ _ (hkl _) (by rw [exec_flip]; rfl) H
          (fun HA => ih _ _ hsv hp0 HA) ?_
        intro e _ hs HB
        have hrest : CoverPre h (exec h fuel (Task.inner c0 cp0 r0) (st.view V))
            (Task.calls rest bad) := by
          intro x hx
          have hl : Lit (st.view V) x.2.1 :=
            ⟨rfl, hpre x (List.mem_cons_of_mem _ hx)⟩
          have := hkl (Task.inner c0 cp0 r0) _ _ hl
          rw [this.2, this.1]
        rw [e] at hs HB hrest ⊢
        exact ih _ _ hs hrest HB
    | stack cs bad =>
      revert H
      simp only [exec]
      intro H
      have hx := chain_view V
        (exec h fuel (Task.calls cs bad)
          (State.view V { st with currentStackBoundary := st.stack.length }))
        (exec h fuel (Task.calls cs bad) { st with currentStackBoundary := st.stack.length })
        (fun st2 => { st2 with currentStackBoundary := st.currentStackBoundary })
        (fun s a hl => hl) (by rw [exec_flip]; rfl) H
        (fun HA => ih _ _ hsv hpre HA)
        (fun e _ hs _ => ⟨by rw [e]; rfl, hs⟩)
      exact hx

/-! ## The pass and the view -/

theorem retainRoot_lit (h : Heap) (fuel : Nat) (st : State) (tl a : Nat) (hl : Lit st a) :
    Lit (retainRoot h fuel st tl) a := by
  unfold retainRoot
  dsimp only
  split
  · exact hl
  · exact exec_lit h fuel _ _ a hl
  · exact exec_lit h fuel _ _ a hl

theorem retainRoots_lit (h : Heap) (fuel : Nat) : ∀ (roots : List Nat) (st : State) (a : Nat),
    Lit st a → Lit (retainRoots h fuel st roots) a := by
  intro roots
  induction roots with
  | nil => intro st a hl; exact hl
  | cons tl rest ih =>
    intro st a hl
    show Lit ((retainRoot h fuel st tl).andThen _) a
    exact andThen_lit (retainRoot_lit h fuel st tl a hl) (fun s hs => ih s a hs)

theorem maybeInit_lit (st : State) (c a : Nat) (hl : Lit st a) :
    Lit (maybeInitRetainerSet st c) a := by
  refine ⟨by rw [maybeInit_flip]; exact hl.1, ?_⟩
  by_cases e : a = c
  · rw [e, maybeInit_low]; exact hl.1
  · rw [maybeInit_rs_other _ _ _ e]; exact hl.2

theorem foldl_maybeInit_lit : ∀ (muts : List Nat) (st : State) (a : Nat),
    Lit st a → Lit (muts.foldl maybeInitRetainerSet st) a := by
  intro muts
  induction muts with
  | nil => intro st a hl; exact hl
  | cons c rest ih =>
    intro st a hl
    rw [List.foldl_cons]
    exact ih _ a (maybeInit_lit st c a hl)

theorem foldl_maybeInit_stack : ∀ (muts : List Nat) (st : State),
    (muts.foldl maybeInitRetainerSet st).stack = st.stack := by
  intro muts
  induction muts with
  | nil => intro st; rfl
  | cons c rest ih =>
    intro st
    rw [List.foldl_cons, ih, maybeInit_stack]

theorem retainRoot_view (h : Heap) (V : Nat → Bool) (fuel : Nat) (st : State) (tl : Nat)
    (hsv : StackValid (st.view V))
    (H : ∀ a, ((retainRoot h fuel (st.view V) tl).rs a).low = true → V a = true) :
    retainRoot h fuel (st.view V) tl = (retainRoot h fuel st tl).view V ∧
    StackValid (retainRoot h fuel (st.view V) tl) := by
  revert H
  unfold retainRoot retainClosure
  dsimp only
  split
  · intro _
    exact ⟨rfl, hsv⟩
  · intro H
    exact exec_view h V fuel _ { st with currentStackBoundary := st.stack.length } hsv
      (fun _ => Or.inl rfl) H
  · intro H
    exact exec_view h V fuel _ { st with currentStackBoundary := st.stack.length } hsv
      (fun _ => Or.inl rfl) H

theorem retainRoots_view (h : Heap) (V : Nat → Bool) (fuel : Nat) :
    ∀ (roots : List Nat) (st : State), StackValid (st.view V) →
    (∀ a, ((retainRoots h fuel (st.view V) roots).rs a).low = true → V a = true) →
    retainRoots h fuel (st.view V) roots = (retainRoots h fuel st roots).view V ∧
    StackValid (retainRoots h fuel (st.view V) roots) := by
  intro roots
  induction roots with
  | nil =>
    intro st hsv _
    exact ⟨rfl, hsv⟩
  | cons tl rest ih =>
    intro st hsv H
    refine chain_view V (retainRoot h fuel (st.view V) tl) (retainRoot h fuel st tl)
      (fun st1 => retainRoots h fuel st1 rest) (fun s a hl => retainRoots_lit h fuel rest s a hl)
      (by rw [retainRoot_flip]; rfl) H (fun HA => retainRoot_view h V fuel st tl hsv HA) ?_
    intro e _ hs HB
    rw [e] at hs HB ⊢
    exact ih _ hs HB

theorem foldl_maybeInit_view (V : Nat → Bool) : ∀ (muts : List Nat) (st : State),
    (∀ a, (((muts.foldl maybeInitRetainerSet (st.view V))).rs a).low = true → V a = true) →
    muts.foldl maybeInitRetainerSet (st.view V) = (muts.foldl maybeInitRetainerSet st).view V := by
  intro muts
  induction muts with
  | nil => intro st _; rfl
  | cons c rest ih =>
    intro st H
    rw [List.foldl_cons] at H ⊢
    rw [List.foldl_cons]
    have hV : V c = true := by
      refine H c (foldl_maybeInit_lit rest _ c ⟨?_, ?_⟩).2
      · rw [maybeInit_flip]; rfl
      · rw [maybeInit_low]; rfl
    rw [maybeInit_view V st c hV] at H ⊢
    exact ih _ H

theorem foldl_maybeInit_stackValid (muts : List Nat) (st : State) (hf : st.flip = true)
    (hs : StackValid st) : StackValid (muts.foldl maybeInitRetainerSet st) := by
  refine hs.of_rs (foldl_maybeInit_stack muts st) ?_
  intro a ha
  have := foldl_maybeInit_lit muts st a ⟨hf, by rw [ha, hf]⟩
  rw [this.2, this.1]

/-- The function `computeRetainerSet` commutes with the view. -/
theorem computeRetainerSet_view (h : Heap) (V : Nat → Bool) (fuel : Nat) (roots muts : List Nat)
    (st : State) (hsv : StackValid (st.view V))
    (H : ∀ a, ((computeRetainerSet h fuel (st.view V) roots muts).rs a).low = true →
      V a = true) :
    computeRetainerSet h fuel (st.view V) roots muts =
      (computeRetainerSet h fuel st roots muts).view V := by
  unfold computeRetainerSet at H ⊢
  refine (chain_view V (retainRoots h fuel (st.view V) roots) (retainRoots h fuel st roots)
    (fun st1 => muts.foldl maybeInitRetainerSet st1)
    (fun s a hl => foldl_maybeInit_lit muts s a hl)
    (by rw [retainRoots_flip]; rfl) H (fun HA => retainRoots_view h V fuel roots st hsv HA) ?_).1
  intro e _ hs HB
  rw [e] at hs HB ⊢
  exact ⟨foldl_maybeInit_view V muts _ HB, foldl_maybeInit_stackValid muts _ rfl hs⟩

/-! ## The pass does not read the log, nor the boundary it starts with -/

theorem sameButLogBoundary.of_sameButLog {st st1 : State} (hs : sameButLog st st1) :
    sameButLogBoundary st st1 := by
  unfold sameButLog at hs
  unfold sameButLogBoundary
  rw [hs]
  rfl

theorem sameButLogBoundary.slb_fields {st st1 : State} (hs : sameButLogBoundary st st1) :
    st1.flip = st.flip ∧ st1.rs = st.rs ∧ st1.stack = st.stack ∧
    st1.numObjectVisited = st.numObjectVisited ∧
    st1.timesAnyObjectVisited = st.timesAnyObjectVisited ∧ st1.status = st.status := by
  unfold sameButLogBoundary at hs
  rw [hs]
  exact ⟨rfl, rfl, rfl, rfl, rfl, rfl⟩

theorem sameButLogBoundary.of_fields {st st1 : State} (h1 : st1.flip = st.flip)
    (h2 : st1.rs = st.rs) (h3 : st1.stack = st.stack)
    (h4 : st1.numObjectVisited = st.numObjectVisited)
    (h5 : st1.timesAnyObjectVisited = st.timesAnyObjectVisited) (h6 : st1.status = st.status) :
    sameButLogBoundary st st1 := by
  unfold sameButLogBoundary
  cases st
  cases st1
  simp only at h1 h2 h3 h4 h5 h6
  subst h1 h2 h3 h4 h5 h6
  rfl

theorem retainRoot_slb (h : Heap) (fuel : Nat) (st st1 : State) (tl : Nat)
    (hs : sameButLogBoundary st st1) :
    sameButLog (retainRoot h fuel st tl) (retainRoot h fuel st1 tl) := by
  have e : ({ st1 with currentStackBoundary := st1.stack.length } : State) =
      State.withTrace { st with currentStackBoundary := st.stack.length } st1.trace := by
    unfold sameButLogBoundary at hs
    rw [hs]
    rfl
  have hsl : sameButLog { st with currentStackBoundary := st.stack.length }
      { st1 with currentStackBoundary := st1.stack.length } := sameButLog_of_eq _ e
  unfold retainRoot retainClosure
  dsimp only
  split
  · exact sameButLog_of_eq st1.trace (by rw [e]; rfl)
  · exact exec_sameButLog h fuel _ _ _ hsl
  · exact exec_sameButLog h fuel _ _ _ hsl

theorem andThen_slb {st st1 : State} {k : State → State} (hs : sameButLogBoundary st st1)
    (hk : ∀ a a1, sameButLogBoundary a a1 → sameButLogBoundary (k a) (k a1)) :
    sameButLogBoundary (st.andThen k) (st1.andThen k) := by
  have e : st1.status = st.status := hs.slb_fields.2.2.2.2.2
  unfold State.andThen
  rw [e]
  split
  · exact hs
  · exact hk _ _ hs

theorem retainRoots_slb (h : Heap) (fuel : Nat) : ∀ (roots : List Nat) (st st1 : State),
    sameButLogBoundary st st1 →
    sameButLogBoundary (retainRoots h fuel st roots) (retainRoots h fuel st1 roots) := by
  intro roots
  induction roots with
  | nil => intro st st1 hs; exact hs
  | cons tl rest ih =>
    intro st st1 hs
    exact andThen_slb (sameButLogBoundary.of_sameButLog (retainRoot_slb h fuel st st1 tl hs))
      (fun a a1 ha => ih a a1 ha)

theorem maybeInit_slb (st st1 : State) (c : Nat) (hs : sameButLogBoundary st st1) :
    sameButLogBoundary (maybeInitRetainerSet st c) (maybeInitRetainerSet st1 c) := by
  obtain ⟨h1, h2, h3, h4, h5, h6⟩ := hs.slb_fields
  rw [maybeInit_eq, maybeInit_eq, h1, h2]
  split
  · exact hs
  · exact sameButLogBoundary.of_fields h1 (by simp only [State.setRS, h2]) h3 h4 h5 h6

theorem foldl_maybeInit_slb : ∀ (muts : List Nat) (st st1 : State),
    sameButLogBoundary st st1 →
    sameButLogBoundary (muts.foldl maybeInitRetainerSet st)
      (muts.foldl maybeInitRetainerSet st1) := by
  intro muts
  induction muts with
  | nil => intro st st1 hs; exact hs
  | cons c rest ih =>
    intro st st1 hs
    rw [List.foldl_cons, List.foldl_cons]
    exact ih _ _ (maybeInit_slb st st1 c hs)

/-- The function `computeRetainerSet` reads neither the log nor the boundary
  it starts with. -/
theorem computeRetainerSet_slb (h : Heap) (fuel : Nat) (roots muts : List Nat)
    (st st1 : State) (hs : sameButLogBoundary st st1) :
    sameButLogBoundary (computeRetainerSet h fuel st roots muts)
      (computeRetainerSet h fuel st1 roots muts) := by
  unfold computeRetainerSet
  exact andThen_slb (retainRoots_slb h fuel roots st st1 hs)
    (fun a a1 ha => foldl_maybeInit_slb muts a a1 ha)

/-- The pass from a state `st` in which no slot is valid, and the pass from a
  state `st1` in which no slot is valid that the first pass has made valid:
  the second pass ends with the same outcome and the same counters, and every
  slot that the first pass has made valid is valid after the second one and
  holds the same set. -/
theorem computeRetainerSet_agree (h : Heap) (fuel : Nat) (roots muts : List Nat)
    (st st1 : State)
    (hfresh : ∀ c, isRetainerSetFieldValid st c = false)
    (hfree : ∀ c, isRetainerSetFieldValid (computeRetainerSet h fuel st roots muts) c = true →
      isRetainerSetFieldValid st1 c = false)
    (hstack : st.stack = []) (hstack1 : st1.stack = [])
    (hnov : st1.numObjectVisited = st.numObjectVisited)
    (htaov : st1.timesAnyObjectVisited = st.timesAnyObjectVisited)
    (hstatus : st1.status = st.status) :
    (computeRetainerSet h fuel st1 roots muts).status =
      (computeRetainerSet h fuel st roots muts).status ∧
    (computeRetainerSet h fuel st1 roots muts).numObjectVisited =
      (computeRetainerSet h fuel st roots muts).numObjectVisited ∧
    (computeRetainerSet h fuel st1 roots muts).timesAnyObjectVisited =
      (computeRetainerSet h fuel st roots muts).timesAnyObjectVisited ∧
    ∀ c, isRetainerSetFieldValid (computeRetainerSet h fuel st roots muts) c = true →
      isRetainerSetFieldValid (computeRetainerSet h fuel st1 roots muts) c = true ∧
      ((computeRetainerSet h fuel st1 roots muts).rs c).set =
        ((computeRetainerSet h fuel st roots muts).rs c).set := by
  have hsv : ∀ (W : Nat → Bool) (s : State), s.stack = [] → StackValid (s.view W) := by
    intro W s hs se hse
    rw [view_stack, hs] at hse
    cases hse
  have hnull : ∀ (W : Nat → Bool) (s : State) (c : Nat),
      (W c = true → isRetainerSetFieldValid s c = false) →
      viewSlot W s c = { set := none, low := false } := by
    intro W s c hw
    unfold viewSlot
    cases hW : W c with
    | false => rfl
    | true => rw [hw hW]; rfl
  -- the first pass, through the view of all closures
  have eA := computeRetainerSet_view h (fun _ => true) fuel roots muts st
    (hsv _ st hstack) (fun _ _ => rfl)
  -- the views of the start states
  have e0 : st.view (fun c => isRetainerSetFieldValid (computeRetainerSet h fuel st roots muts) c)
      = st.view (fun _ => true) := by
    unfold State.view
    congr 1
    funext c
    rw [hnull _ st c (fun _ => hfresh c), hnull _ st c (fun _ => hfresh c)]
  have eF : (computeRetainerSet h fuel st roots muts).view
        (fun c => isRetainerSetFieldValid (computeRetainerSet h fuel st roots muts) c)
      = (computeRetainerSet h fuel st roots muts).view (fun _ => true) := by
    unfold State.view
    congr 1
    funext c
    unfold viewSlot
    dsimp only
    cases hv : isRetainerSetFieldValid (computeRetainerSet h fuel st roots muts) c <;> simp
  have hslb : sameButLogBoundary
      (st.view (fun c => isRetainerSetFieldValid (computeRetainerSet h fuel st roots muts) c))
      (st1.view (fun c => isRetainerSetFieldValid (computeRetainerSet h fuel st roots muts) c)) := by
    refine sameButLogBoundary.of_fields rfl ?_ (by rw [view_stack, view_stack, hstack, hstack1])
      hnov htaov hstatus
    funext c
    rw [view_rs, view_rs, hnull _ st c (fun _ => hfresh c), hnull _ st1 c (fun hc => hfree c hc)]
  have hrun := computeRetainerSet_slb h fuel roots muts _ _ hslb
  rw [e0, eA, ← eF] at hrun
  obtain ⟨-, r2, -, r4, r5, r6⟩ := hrun.slb_fields
  have eB := computeRetainerSet_view h
    (fun c => isRetainerSetFieldValid (computeRetainerSet h fuel st roots muts) c) fuel roots muts
    st1 (hsv _ st1 hstack1) (by
      intro a ha
      rw [r2, view_rs] at ha
      exact ((viewSlot_low _ _ a).1 ha).1)
  rw [eB] at r2 r4 r5 r6
  refine ⟨r6, r4, r5, ?_⟩
  intro c hc
  have hslot := congrFun r2 c
  rw [view_rs, view_rs, viewSlot_of_valid _ _ c hc ((valid_iff _ c).1 hc)] at hslot
  have hlow : (viewSlot (fun c => isRetainerSetFieldValid
      (computeRetainerSet h fuel st roots muts) c)
      (computeRetainerSet h fuel st1 roots muts) c).low = true := by rw [hslot]
  obtain ⟨-, hv1⟩ := (viewSlot_low _ _ c).1 hlow
  refine ⟨(valid_iff _ c).2 hv1, ?_⟩
  rw [viewSlot_of_valid _ _ c hc hv1] at hslot
  exact (RSWord.mk.injEq _ _ _ _ ▸ hslot).1

/-! ## Words of the slot: encoding and validity -/

/-! ## The slot as a machine word -/

theorem even_or_one (s : Nat) (hs : s % 2 = 0) : s ||| 1 = s + 1 := by
  apply Nat.eq_of_testBit_eq
  intro i
  cases i with
  | zero => simp [Nat.testBit_lor]; omega
  | succ i =>
    rw [Nat.testBit_lor, Nat.testBit_succ, Nat.testBit_succ, Nat.testBit_succ]
    have e1 : (1 : Nat) / 2 = 0 := rfl
    have e2 : (s + 1) / 2 = s / 2 := by omega
    rw [e1, e2]
    simp

theorem succ_xor_one (s : Nat) (hs : s % 2 = 0) : (s + 1) ^^^ 1 = s := by
  apply Nat.eq_of_testBit_eq
  intro i
  cases i with
  | zero => simp [Nat.testBit_xor]; omega
  | succ i =>
    rw [Nat.testBit_xor, Nat.testBit_succ, Nat.testBit_succ, Nat.testBit_succ]
    have e1 : (1 : Nat) / 2 = 0 := rfl
    have e2 : (s + 1) / 2 = s / 2 := by omega
    rw [e1, e2]
    simp

/-- The word stored for an aligned pointer: the pointer with flip `0`, the
  next byte with flip `1`. -/
theorem associateWord_eq (flip s : Nat) (hf : flip < 2) (hs : s % 2 = 0) :
    associateWord flip s = s + flip := by
  unfold associateWord
  have : flip = 0 ∨ flip = 1 := by omega
  rcases this with e | e
  · rw [e]; simp
  · rw [e]; exact even_or_one s hs

theorem retainerSetOfWord_associate (flip s : Nat) (hf : flip < 2) (hs : s % 2 = 0) :
    retainerSetOfWord flip (associateWord flip s) = s := by
  rw [associateWord_eq flip s hf hs]
  unfold retainerSetOfWord
  have : flip = 0 ∨ flip = 1 := by omega
  rcases this with e | e
  · rw [e]; simp
  · rw [e]; exact succ_xor_one s hs

/-- The validity of a word as the comparison of its low bit with flip. -/
theorem isValidWord_iff (flip w : Nat) (hf : flip < 2) :
    isValidWord flip w = true ↔ w % 2 = flip := by
  unfold isValidWord
  rw [Nat.and_one_is_mod]
  have h2 : w % 2 = 0 ∨ w % 2 = 1 := by omega
  have : flip = 0 ∨ flip = 1 := by omega
  rcases this with e | e <;> rcases h2 with e2 | e2 <;> rw [e, e2] <;> decide

theorem isValidWord_associate (flip s : Nat) (hf : flip < 2) (hs : s % 2 = 0) :
    isValidWord flip (associateWord flip s) = true := by
  rw [isValidWord_iff _ _ hf, associateWord_eq flip s hf hs]
  omega

theorem xor_one_lt (flip : Nat) (hf : flip < 2) : flip ^^^ 1 < 2 ∧ flip ^^^ 1 ≠ flip ∧
    (flip ^^^ 1) + flip = 1 := by
  have : flip = 0 ∨ flip = 1 := by omega
  rcases this with e | e <;> rw [e] <;> decide

theorem flipWord_lt (b : Bool) : flipWord b < 2 := by
  cases b <;> decide

theorem flipWord_not (b : Bool) : flipWord (!b) = flipWord b ^^^ 1 := by
  cases b <;> decide

/-- The slot that `associate` writes in the model stands for the word that
  `associate` stores. -/
theorem encode_associate (addr : RetainerSet → Nat) (st : State) (c : Nat) (s : RSWord)
    (ha : ∀ S, addr S % 2 = 0) (hs : s.low = false) :
    RSWord.encode addr ((associate st c s).rs c) =
      associateWord (flipWord st.flip) (RSWord.encode addr s) := by
  have hev : RSWord.encode addr s % 2 = 0 := by
    unfold RSWord.encode
    rw [hs]
    cases s.set with
    | none => rfl
    | some S => simpa [flipWord] using ha S
  rw [associateWord_eq _ _ (flipWord_lt _) hev, associate_rs_self]
  unfold RSWord.encode
  simp only [hs, Bool.false_or]
  simp [flipWord]

/-- The validity of a slot of the model is the validity of the word that
  stands for it. -/
theorem encode_valid (addr : RetainerSet → Nat) (st : State) (c : Nat)
    (ha : ∀ S, addr S % 2 = 0) :
    isValidWord (flipWord st.flip) (RSWord.encode addr (st.rs c)) =
      isRetainerSetFieldValid st c := by
  have hm : RSWord.encode addr (st.rs c) % 2 = flipWord (st.rs c).low := by
    unfold RSWord.encode
    cases (st.rs c).set with
    | none => cases (st.rs c).low <;> rfl
    | some S =>
      have := ha S
      cases (st.rs c).low <;> simp [flipWord] <;> omega
  cases hv : isRetainerSetFieldValid st c with
  | true =>
    rw [isValidWord_iff _ _ (flipWord_lt _), hm, (valid_iff st c).1 hv]
  | false =>
    cases hw : isValidWord (flipWord st.flip) (RSWord.encode addr (st.rs c)) with
    | false => rfl
    | true =>
      rw [isValidWord_iff _ _ (flipWord_lt _), hm] at hw
      have : (st.rs c).low = st.flip := by
        cases h1 : (st.rs c).low <;> cases h2 : st.flip <;> simp [h1, h2, flipWord] at hw ⊢
      rw [(valid_iff st c).2 this] at hv
      cases hv

/-! ## The large-bitmap walk -/

theorem retain_large_bitmap_loop_reads (W : Nat) (payload lb : List Nat) (c ccr : Nat) :
    ∀ (n i p b bitmap : Nat), b = i / W →
      (retain_large_bitmap_loop W payload lb c ccr n i p b bitmap).2 =
        List.range' (i / W + 1) ((i + n) / W - i / W) := by
  intro n
  induction n with
  | zero => intro i p b bitmap _; simp [retain_large_bitmap_loop]
  | succ n ih =>
    intro i p b bitmap hb
    obtain ⟨hz, hnz⟩ := succ_div_mod_step W i
    have e : i + (n + 1) = i + 1 + n := by omega
    have hmono : (i + 1) / W ≤ (i + 1 + n) / W := Nat.div_le_div_right (by omega)
    simp only [retain_large_bitmap_loop]
    split
    · rename_i hmod
      dsimp only
      rw [ih (i + 1) (p + 1) (b + 1) _ (by rw [hb, hz hmod]), e, hb]
      have hd := hz hmod
      rw [hd] at hmono ⊢
      have : (i + 1 + n) / W - i / W = ((i + 1 + n) / W - (i / W + 1)) + 1 := by omega
      rw [this, List.range'_succ]
    · rename_i hmod
      dsimp only
      obtain ⟨hd, -⟩ := hnz hmod
      rw [ih (i + 1) (p + 1) b _ (by rw [hb, hd]), e, hd]

theorem retain_large_bitmap_reads (h : Heap) (payload : List Nat) (p : Nat) (lb : List Nat)
    (size c ccr : Nat) :
    (retain_large_bitmap h payload p lb size c ccr).2 = List.range (size / h.wordBits + 1) := by
  unfold retain_large_bitmap
  dsimp only
  rw [retain_large_bitmap_loop_reads h.wordBits payload lb c ccr size 0 p 0 _ (by simp)]
  simp only [Nat.zero_add, Nat.zero_div, Nat.sub_zero]
  rw [List.range_eq_range', List.range'_succ]

namespace Chunked

/-! ### The field `free` of the current block group -/

theorem newStackBlock_free (m : Machine) (s : Stack) (b : Nat) :
    FreeOK (newStackBlock m s b) := by
  intro cur hc
  have e : cur = b := (Option.some.inj hc).symm
  subst e
  simp [newStackBlock]

theorem returnToOldStack_free (m : Machine) (s : Stack) (b : Nat) :
    FreeOK (returnToOldStack m s b) := by
  intro cur hc
  have e : cur = b := (Option.some.inj hc).symm
  subst e
  simp [returnToOldStack]

theorem initializeTraverseStack_free (m : Machine) (s : Stack) :
    FreeOK (initializeTraverseStack m s) := by
  unfold initializeTraverseStack
  exact newStackBlock_free m _ _

theorem pushElement_free (m : Machine) (s s1 : Stack) (se : stackElement)
    (h1 : pushElement m s se = some s1) (hf : FreeOK s) : FreeOK s1 := by
  unfold pushElement at h1
  cases hcur : s.currentStack with
  | none => rw [hcur] at h1; cases h1
  | some cur =>
    rw [hcur] at h1
    dsimp only at h1
    have key : ∀ s2 : Stack, FreeOK s2 →
        FreeOK { s2 with
          stackTop := s2.stackTop - m.sizeofElement
          mem := storeAt m.sizeofElement s2.mem (s2.stackTop - m.sizeofElement) se } :=
      fun s2 h2 c hc => h2 c hc
    cases Option.some.inj h1
    apply key
    split
    · split
      · exact newStackBlock_free m _ _
      · exact newStackBlock_free m _ _
    · exact hf

theorem popOff_free (m : Machine) (s s1 : Stack)
    (h1 : Chunked.popOff m s = some s1) (hf : FreeOK s) : FreeOK s1 := by
  unfold Chunked.popOff at h1
  split at h1
  · cases Option.some.inj h1
    exact fun c hc => hf c hc
  · unfold popOffReal at h1
    cases hcur : s.currentStack with
    | none => rw [hcur] at h1; cases h1
    | some cur =>
      rw [hcur] at h1
      dsimp only at h1
      split at h1
      · cases Option.some.inj h1
        exact fun c hc => hf c (hcur.trans hc)
      · split at h1
        · cases h1
        · cases Option.some.inj h1
          exact returnToOldStack_free m _ _

theorem runOps_free (m : Machine) :
    ∀ (ops : List StackOp) (s s1 : Stack), runOps m ops s = some s1 → FreeOK s → FreeOK s1 := by
  intro ops
  induction ops with
  | nil =>
    intro s s1 h1 hf
    cases Option.some.inj h1
    exact hf
  | cons op ops ih =>
    intro s s1 h1 hf
    cases op with
    | push se =>
      simp only [runOps] at h1
      cases h2 : pushElement m s se with
      | none => rw [h2] at h1; cases h1
      | some s2 =>
        rw [h2] at h1
        exact ih s2 s1 h1 (pushElement_free m s s2 se h2 hf)
    | popOff =>
      simp only [runOps] at h1
      cases h2 : Chunked.popOff m s with
      | none => rw [h2] at h1; cases h1
      | some s2 =>
        rw [h2] at h1
        exact ih s2 s1 h1 (popOff_free m s s2 h2 hf)

theorem Rep.invariants {m : Machine} (hsz : 0 < m.sizeofElement) {s : Stack} {L : Layout}
    (hr : Rep m s L) (hf : FreeOK s) : StackInvariants m s L.list := by
  refine ⟨L.cur, hr.hcur, hr.hbot, hr.hlim, hf _ hr.hcur, hr.hle, ?_, ?_⟩
  · have := hr.htop
    omega
  · intro e
    have htop := hr.htop
    rw [e] at htop
    have hz : L.seg.length * m.sizeofElement = 0 := by omega
    have hseg : L.seg = [] := by
      rcases Nat.mul_eq_zero.1 hz with h0 | h0
      · exact List.length_eq_zero.1 h0
      · omega
    have hb : L.backs = [] := by
      by_contra hb
      exact hr.hne hb hseg
    have hfirst := hr.hback
    rw [hb] at hfirst
    simp only [BackOK] at hfirst
    refine ⟨?_, ?_⟩
    · rw [hfirst, hr.hcur]
    · simp [Layout.list, hseg, hb]

end Chunked

/-! ## `pop` and the elements that `push` stores -/

theorem growSet_status (st st3 : State) (c r : Nat) (s : RSWord) (rc : RetainerSet)
    (hg : growSet st c r s rc = some st3) : st3.status = st.status := by
  unfold growSet at hg
  split at hg
  · cases Option.some.inj hg; rfl
  · split at hg
    · cases hg
    · split at hg <;> (cases Option.some.inj hg; rfl)

theorem resolve_status (h : Heap) (st : State) (c cp r : Nat) :
    (resolve h st c cp r).1.status = st.status ∨
    (resolve h st c cp r).1.status = some Fatal.barf_isRetainer ∨
    (resolve h st c cp r).1.status = some Fatal.undefined_read := by
  unfold resolve
  dsimp only
  split
  · exact Or.inr (Or.inl rfl)
  · split
    · unfold firstVisit
      dsimp only
      split
      · exact Or.inr (Or.inl rfl)
      · left
        show (firstSet (countVisited (maybeInitRetainerSet (tick st) c)) c r _).status = st.status
        unfold firstSet
        split <;> simp [countVisited]
    · unfold revisit
      split
      · exact Or.inr (Or.inr rfl)
      · split
        · left; simp
        · split
          · exact Or.inr (Or.inr rfl)
          · rename_i st3 hg
            have e := growSet_status _ _ _ _ _ _ hg
            split
            · exact Or.inr (Or.inl rfl)
            · split <;> (left; dsimp only; rw [e]; simp)

theorem push_srt_only_status (h : Heap) (st : State) (c ccr : Nat) :
    (push_srt_only h st c ccr).st.status = st.status ∨
    (push_srt_only h st c ccr).st.status = some Fatal.undefined_read := by
  unfold push_srt_only
  split
  · split <;> exact Or.inl rfl
  · exact Or.inr rfl

theorem push_status (h : Heap) (st : State) (c ccr : Nat) :
    (push h st c ccr).st.status = st.status ∨
    (push h st c ccr).st.status = some Fatal.barf_push ∨
    (push h st c ccr).st.status = some Fatal.undefined_read := by
  have hs := push_srt_only_status h st c ccr
  unfold push
  dsimp only
  split
  all_goals first
    | exact Or.inl rfl
    | exact Or.inr (Or.inl rfl)
    | (rcases hs with e | e
       · exact Or.inl e
       · exact Or.inr (Or.inr e))
    | (split
       · split
         · exact Or.inl rfl
         · exact Or.inl rfl
       · exact Or.inr (Or.inr rfl))
    | (split
       · split
         · rcases hs with e | e
           · exact Or.inl e
           · exact Or.inr (Or.inr e)
         · exact Or.inl rfl
       · exact Or.inr (Or.inr rfl))

theorem popLoop_posOK (h : Heap) (b : Nat) :
    ∀ stack : List stackElement, (∀ se ∈ stack, PosOK h se) →
      (∀ se ∈ (popLoop h b stack).stack, PosOK h se) ∧
      (popLoop h b stack).err ≠ some Fatal.barf_pop := by
  intro stack
  induction stack with
  | nil =>
    intro _
    unfold popLoop
    split
    · exact ⟨fun se hse => (by cases hse), fun e => (by cases e)⟩
    · exact ⟨fun se hse => (by cases hse), fun e => (by cases e)⟩
  | cons se rest ih =>
    intro hall
    have hrest : ∀ x ∈ rest, PosOK h x := fun x hx => hall x (List.mem_cons_of_mem _ hx)
    have hfine := popStep_fine h se (hall se (List.mem_cons_self _ _))
    unfold popLoop
    split
    · exact ⟨hall, fun e => by cases e⟩
    · split
      · rename_i se1 x heq
        rw [heq] at hfine
        refine ⟨?_, fun e => by cases e⟩
        intro y hy
        rcases List.mem_cons.1 hy with e | hy
        · rw [e]; exact hfine
        · exact hrest y hy
      · exact ⟨hrest, fun e => by cases e⟩
      · exact ih hrest
      · rename_i e heq
        rw [heq] at hfine
        exact absurd hfine (fun x => x)


theorem popSafe_fail {h : Heap} (st : State) (e : Fatal) (he : e ≠ Fatal.barf_pop)
    (hs : PopSafe h st) : PopSafe h (st.fail e) :=
  ⟨hs.1, fun x => he (Option.some.inj x)⟩

theorem popSafe_pop {h : Heap} (st : State) (hs : PopSafe h st) :
    PopSafe h { st with stack := (pop h st).stack } :=
  ⟨(popLoop_posOK h st.currentStackBoundary st.stack hs.1).1, hs.2⟩

theorem popSafe_err {h : Heap} (st : State) (e : Fatal) (hs : PopSafe h st)
    (he : (pop h st).err = some e) : e ≠ Fatal.barf_pop := by
  intro x
  subst x
  exact (popLoop_posOK h st.currentStackBoundary st.stack hs.1).2 he

theorem popSafe_resolve {h : Heap} (st : State) (c cp r : Nat) (hs : PopSafe h st) :
    PopSafe h (resolve h st c cp r).1 := by
  refine ⟨?_, ?_⟩
  · rw [(resolve_frame h st c cp r).2.1]
    exact hs.1
  · rcases resolve_status h st c cp r with e | e | e
    · rw [e]; exact hs.2
    · rw [e]; exact fun x => by cases x
    · rw [e]; exact fun x => by cases x

theorem popSafe_push {h : Heap} (st : State) (c ccr : Nat) (hs : PopSafe h st) :
    PopSafe h (push h st c ccr).st := by
  refine ⟨?_, ?_⟩
  · obtain ⟨-, -, -, -, hstack, -⟩ := push_ok h st c ccr
    rcases hstack with e | ⟨info, e, -⟩
    · rw [e]; exact hs.1
    · intro se hse
      rw [e] at hse
      rcases List.mem_cons.1 hse with e1 | hse
      · rw [e1]
        exact push_posOK h st c ccr _ e
      · exact hs.1 se hse
  · rcases push_status h st c ccr with e | e | e
    · rw [e]; exact hs.2
    · rw [e]; exact fun x => by cases x
    · rw [e]; exact fun x => by cases x

theorem run_popSafe {h : Heap} {t : Task} {st st1 : State} (hr : Run h t st st1) :
    PopSafe h st → PopSafe h st1 := by
  have hne1 : Fatal.out_of_fuel ≠ Fatal.barf_pop := fun x => by cases x
  have hne2 : Fatal.undefined_read ≠ Fatal.barf_pop := fun x => by cases x
  have hne3 : Fatal.barf_retainStack ≠ Fatal.barf_pop := fun x => by cases x
  have hlog : ∀ (s : State) c cp r, PopSafe h s → PopSafe h (logArrival s c cp r) :=
    fun _ _ _ _ hs => hs
  have hbound : ∀ (s : State) b, PopSafe h s → PopSafe h { s with currentStackBoundary := b } :=
    fun _ _ hs => hs
  induction hr with
  | out_of_fuel t st => intro hs; exact popSafe_fail _ _ hne1 hs
  | loop_err he =>
    intro hs
    exact popSafe_fail _ _ (popSafe_err _ _ hs he) (popSafe_pop _ hs)
  | loop_done he hc => intro hs; exact popSafe_pop _ hs
  | loop_next he hc _ ih => intro hs; exact ih (popSafe_pop _ hs)
  | inner_null => intro hs; exact popSafe_fail _ _ hne2 (hlog _ _ _ _ hs)
  | inner_skip hc hp _ ih => intro hs; exact ih (hlog _ _ _ _ hs)
  | inner_follow hc hp _ ih => intro hs; exact ih (hlog _ _ _ _ hs)
  | inner_fail hc hp hf => intro hs; exact popSafe_resolve _ _ _ _ (hlog _ _ _ _ hs)
  | inner_stop hc hp hs1 hd _ ih => intro hs; exact ih (popSafe_resolve _ _ _ _ (hlog _ _ _ _ hs))
  | inner_tso_abort hc hp hs1 hd hty _ hab ih =>
    intro hs; exact ih (popSafe_resolve _ _ _ _ (hlog _ _ _ _ hs))
  | inner_tso hc hp hs1 hd hty _ hok _ ih1 ih2 =>
    intro hs; exact ih2 (ih1 (popSafe_resolve _ _ _ _ (hlog _ _ _ _ hs)))
  | inner_pap_abort hc hp hs1 hd hty _ hab ih =>
    intro hs; exact ih (popSafe_resolve _ _ _ _ (hlog _ _ _ _ hs))
  | inner_pap hc hp hs1 hd hty _ hok _ ih1 ih2 =>
    intro hs; exact ih2 (ih1 (popSafe_resolve _ _ _ _ (hlog _ _ _ _ hs)))
  | inner_apstack_abort1 hc hp hs1 hd hty _ hab ih =>
    intro hs; exact ih (popSafe_resolve _ _ _ _ (hlog _ _ _ _ hs))
  | inner_apstack_abort2 hc hp hs1 hd hty _ hok _ hab ih1 ih2 =>
    intro hs; exact ih2 (ih1 (popSafe_resolve _ _ _ _ (hlog _ _ _ _ hs)))
  | inner_apstack hc hp hs1 hd hty _ hok _ hok2 _ ih1 ih2 ih3 =>
    intro hs; exact ih3 (ih2 (ih1 (popSafe_resolve _ _ _ _ (hlog _ _ _ _ hs))))
  | inner_push_fail hc hp hs1 hd hss hpf =>
    intro hs; exact popSafe_push _ _ _ (popSafe_resolve _ _ _ _ (hlog _ _ _ _ hs))
  | inner_push_leaf hc hp hs1 hd hss hps hfc _ ih =>
    intro hs; exact ih (popSafe_push _ _ _ (popSafe_resolve _ _ _ _ (hlog _ _ _ _ hs)))
  | inner_push_child hc hp hs1 hd hss hps hfc _ ih =>
    intro hs; exact ih (popSafe_push _ _ _ (popSafe_resolve _ _ _ _ (hlog _ _ _ _ hs)))
  | calls_nil => intro hs; exact hs
  | calls_barf => intro hs; exact popSafe_fail _ _ hne3 hs
  | calls_abort _ hab ih => intro hs; exact ih hs
  | calls_cons _ hok _ ih1 ih2 => intro hs; exact ih2 (ih1 hs)
  | stack_abort _ hab ih => intro hs; exact ih (hbound _ _ hs)
  | stack_ok _ hok ih => intro hs; exact hbound _ _ (ih (hbound _ _ hs))

theorem retainRoots_popSafe (h : Heap) (fuel : Nat) :
    ∀ (roots : List Nat) (st : State), PopSafe h st → PopSafe h (retainRoots h fuel st roots) := by
  intro roots
  induction roots with
  | nil => intro st hs; exact hs
  | cons tl rest ih =>
    intro st hs
    have h1 : PopSafe h (retainRoot h fuel st tl) := by
      have hb : PopSafe h { st with currentStackBoundary := st.stack.length } := hs
      unfold retainRoot
      dsimp only
      split
      · exact popSafe_fail _ _ (fun x => by cases x) hb
      · exact run_popSafe (exec_run h fuel _ _) hb
      · exact run_popSafe (exec_run h fuel _ _) hb
    simp only [retainRoots, State.andThen]
    split
    · exact h1
    · exact ih _ h1

/-! ## Termination: the fuel -/

theorem andThen_eq_of (a a1 : State) (K K1 : State → State)
    (H : (a.andThen K).status ≠ some Fatal.out_of_fuel)
    (h1 : a.status ≠ some Fatal.out_of_fuel → a1 = a)
    (h2 : a.status = none → (K a).status ≠ some Fatal.out_of_fuel → K1 a = K a) :
    a1.andThen K1 = a.andThen K := by
  unfold State.andThen at H ⊢
  by_cases hs : a.status.isSome = true
  · rw [if_pos hs] at H
    rw [h1 H, if_pos hs, if_pos hs]
  · rw [if_neg hs] at H
    have hn : a.status = none := by
      cases hx : a.status with
      | none => rfl
      | some e => rw [hx] at hs; exact absurd rfl hs
    have e1 : a1 = a := h1 (by rw [hn]; exact fun x => by cases x)
    rw [e1, if_neg hs, if_neg hs]
    exact h2 hn H

/-- More fuel does not change the outcome of a run that has not run out of
  fuel. -/
theorem exec_mono (h : Heap) : ∀ (f : Nat) (t : Task) (st : State),
    (exec h f t st).status ≠ some Fatal.out_of_fuel →
    ∀ g, f ≤ g → exec h g t st = exec h f t st := by
  intro f
  induction f with
  | zero =>
    intro t st H
    exact absurd rfl H
  | succ f ih =>
    intro t st H g hg
    obtain ⟨g, rfl⟩ : ∃ g1, g = g1 + 1 := ⟨g - 1, by omega⟩
    have hle : f ≤ g := by omega
    have ih1 : ∀ t1 s1, (exec h f t1 s1).status ≠ some Fatal.out_of_fuel →
        exec h g t1 s1 = exec h f t1 s1 := fun t1 s1 H1 => ih t1 s1 H1 g hle
    have seq : ∀ (t1 t2 : Task) (s : State),
        ((exec h f t1 s).andThen (exec h f t2)).status ≠ some Fatal.out_of_fuel →
        (exec h g t1 s).andThen (exec h g t2) = (exec h f t1 s).andThen (exec h f t2) :=
      fun t1 t2 s H1 => andThen_eq_of _ _ _ _ H1 (fun hx => ih1 _ _ hx) (fun _ hx => ih1 _ _ hx)
    revert H
    cases t with
    | loop =>
      simp only [exec]
      split
      · intro _; rfl
      · split
        · intro _; rfl
        · intro H; exact ih1 _ _ H
    | inner c cp r =>
      simp only [exec]
      split
      · intro _; rfl
      · split
        · intro H; exact ih1 _ _ H
        · intro H; exact ih1 _ _ H
        · split
          · intro _; rfl
          · split
            · intro H; exact ih1 _ _ H
            · split
              · intro H; exact seq _ _ _ H
              · intro H; exact seq _ _ _ H
              · intro H; exact seq _ _ _ H
              · intro H
                exact andThen_eq_of _ _ _ _ H (fun hx => seq _ _ _ hx) (fun _ hx => ih1 _ _ hx)
              · split
                · intro _; rfl
                · split
                  · intro H; exact ih1 _ _ H
                  · intro H; exact ih1 _ _ H
    | calls cs bad =>
      cases cs with
      | nil => simp only [exec]; intro _; trivial
      | cons x rest =>
        obtain ⟨c0, cp0, r0⟩ := x
        simp only [exec]
        intro H
        exact seq _ _ _ H
    | stack cs bad =>
      simp only [exec]
      intro H
      exact andThen_eq_of _ _ _ _ H (fun hx => ih1 _ _ hx) (fun _ _ => rfl)

/-! ## Termination: `pop` -/

theorem find_ptrs_term (h : Heap) (se : stackElement) (x : Nat) (info1 : stackPos)
    (hb : PtrsBound h se.info) (hf : find_ptrs h se.info = some (x, info1)) (hx : x ≠ 0) :
    PtrsBound h info1 ∧
      infoWeight h { se with info := info1 } < infoWeight h se := by
  unfold find_ptrs at hf
  split at hf
  · rename_i pos ptrs payload hn
    have hlt := hb pos ptrs payload hn
    split at hf
    · rename_i hpos
      cases hf
      have hmod : (pos + 1) % 2 ^ h.posBits = pos + 1 := Nat.mod_eq_of_lt (by omega)
      refine ⟨?_, ?_⟩
      · intro p q pl e
        cases e
        exact hlt
      · simp only [infoWeight, hn, hmod]
        omega
    · cases hf
      exact absurd rfl hx
  · cases hf

theorem pop_do_srt_term (h : Heap) (se : stackElement) (info : stackPos) (w : Nat)
    (hw : ∀ rest, info.next = nextPos.srt rest → rest.length ≤ w)
    (hse : w ≤ infoWeight h se) :
    PopStepTerm h se (pop_do_srt se info) := by
  unfold pop_do_srt find_srt
  split
  · rename_i x info1 hf
    split at hf
    · cases hf
      simp only [ne_eq, not_true_eq_false, if_false]
      trivial
    · rename_i y rest hn
      cases hf
      split
      · refine ⟨rfl, rfl, ?_, ?_⟩
        · intro p q pl e
          cases e
        · have := hw _ hn
          have e : infoWeight h { se with info := { info with next := nextPos.srt rest } } =
              rest.length := rfl
          rw [e]
          simp only [List.length_cons] at this
          omega
      · trivial
    · cases hf
  · exact fun e => by cases e

theorem popStep_term (h : Heap) (se : stackElement) (hb : PtrsBound h se.info) :
    PopStepTerm h se (popStep h se) := by
  have hself : PopStepTerm h se (pop_do_srt se se.info) := by
    refine pop_do_srt_term h se se.info (infoWeight h se) ?_ (Nat.le_refl _)
    intro rest hn
    simp only [infoWeight, hn]
    exact Nat.le_refl _
  have hstep : ∀ a b : Nat, PopStepTerm h se
      (match se.info.next with
      | nextPos.step n =>
        if n = 2 then
          PopStep.ret (some { se with info := { se.info with next := nextPos.step (n + 1) } }) a
        else PopStep.ret none b
      | _ => PopStep.bad Fatal.undefined_read) := by
    intro a b
    split
    · rename_i n hn
      split
      · rename_i h2
        refine ⟨rfl, rfl, ?_, ?_⟩
        · intro p q pl e
          cases e
        · simp only [infoWeight, hn, h2]
          decide
      · trivial
    · exact fun e => by cases e
  have hptrs : PopStepTerm h se
      (match find_ptrs h se.info with
      | some (x, info1) =>
        if x = 0 then PopStep.exhausted
        else PopStep.ret (some { se with info := info1 }) x
      | none => PopStep.bad Fatal.undefined_read) := by
    split
    · rename_i x info1 hf
      split
      · trivial
      · rename_i hx
        obtain ⟨h1, h2⟩ := find_ptrs_term h se x info1 hb hf hx
        exact ⟨rfl, rfl, h1, h2⟩
    · exact fun e => by cases e
  have hboth : PopStepTerm h se
      (match se.info.type with
      | some nextPosType.posTypePtrs =>
        match find_ptrs h se.info with
        | some (x, info1) =>
          if x ≠ 0 then PopStep.ret (some { se with info := info1 }) x
          else pop_do_srt se (init_srt h se.c)
        | none => PopStep.bad Fatal.undefined_read
      | some _ => pop_do_srt se se.info
      | none => PopStep.bad Fatal.undefined_read) := by
    split
    · split
      · rename_i x info1 hf
        split
        · rename_i hx
          obtain ⟨h1, h2⟩ := find_ptrs_term h se x info1 hb hf hx
          exact ⟨rfl, rfl, h1, h2⟩
        · unfold find_ptrs at hf
          split at hf
          · rename_i pos ptrs payload hn
            refine pop_do_srt_term h se _ (h.get se.c).srt.length ?_ ?_
            · intro rest hr
              simp only [init_srt] at hr
              cases hr
              exact Nat.le_refl _
            · simp only [infoWeight, hn]
              omega
          · cases hf
      · exact fun e => by cases e
    · exact hself
    · exact fun e => by cases e
  unfold popStep
  dsimp only
  split
  all_goals first
    | trivial
    | exact hstep _ _
    | exact hptrs
    | exact hboth
    | exact hself
    | exact fun e => by cases e

theorem stackWeight_cons (h : Heap) (se : stackElement) (rest : List stackElement) :
    stackWeight h (se :: rest) = infoWeight h se + 1 + stackWeight h rest := by
  simp [stackWeight]

/-- The loop of `pop`: the elements left are in order and are elements for
  closures and retainers of the stack, the work left on the stack does not
  grow, it shrinks when an object is retrieved, and the parent and retainer
  returned are those of an element of the stack. -/
theorem popLoop_term (h : Heap) (b : Nat) : ∀ (stack : List stackElement),
    (∀ se ∈ stack, PtrsBound h se.info) →
    (∀ se1 ∈ (popLoop h b stack).stack,
      PtrsBound h se1.info ∧ ∃ se ∈ stack, se1.c = se.c ∧ se1.c_child_r = se.c_child_r) ∧
    stackWeight h (popLoop h b stack).stack ≤ stackWeight h stack ∧
    ((popLoop h b stack).c ≠ 0 →
      stackWeight h (popLoop h b stack).stack < stackWeight h stack ∧
      ∃ se ∈ stack, (popLoop h b stack).cp = se.c ∧ (popLoop h b stack).r = se.c_child_r) ∧
    (∀ e, (popLoop h b stack).err = some e → e ≠ Fatal.out_of_fuel) := by
  intro stack
  induction stack with
  | nil =>
    intro _
    unfold popLoop
    split
    · exact ⟨fun s hs => (by cases hs), Nat.le_refl _, fun hc => absurd rfl hc,
        fun e he => (by cases he)⟩
    · refine ⟨fun s hs => (by cases hs), Nat.le_refl _, fun hc => absurd rfl hc, ?_⟩
      intro e he
      cases he
      exact fun x => by cases x
  | cons se rest ih =>
    intro hall
    have hrest : ∀ s ∈ rest, PtrsBound h s.info := fun s hs => hall s (List.mem_cons_of_mem _ hs)
    have keep : ∀ s ∈ rest, PtrsBound h s.info ∧
        ∃ s0 ∈ se :: rest, s.c = s0.c ∧ s.c_child_r = s0.c_child_r :=
      fun s hs => ⟨hrest s hs, s, List.mem_cons_of_mem _ hs, rfl, rfl⟩
    have hstep := popStep_term h se (hall se (List.mem_cons_self _ _))
    have hw := stackWeight_cons h se rest
    unfold popLoop
    split
    · exact ⟨fun s hs => ⟨hall s hs, s, hs, rfl, rfl⟩, Nat.le_refl _, fun hc => absurd rfl hc,
        fun e he => (by cases he)⟩
    · split
      · rename_i se1 x hps
        rw [hps] at hstep
        obtain ⟨e1, e2, e3, e4⟩ := hstep
        have hw1 := stackWeight_cons h se1 rest
        refine ⟨?_, ?_, fun _ => ⟨?_, se, List.mem_cons_self _ _, rfl, rfl⟩,
          fun e he => (by cases he)⟩
        · intro s hs
          rcases List.mem_cons.1 hs with rfl | hs
          · exact ⟨e3, se, List.mem_cons_self _ _, e1, e2⟩
          · exact keep s hs
        · show stackWeight h (se1 :: rest) ≤ _
          omega
        · show stackWeight h (se1 :: rest) < _
          omega
      · rename_i x hps
        refine ⟨keep, ?_, fun _ => ⟨?_, se, List.mem_cons_self _ _, rfl, rfl⟩,
          fun e he => (by cases he)⟩
        · show stackWeight h rest ≤ _
          omega
        · show stackWeight h rest < _
          omega
      · obtain ⟨i1, i2, i3, i4⟩ := ih hrest
        have e : popOff (se :: rest) = rest := rfl
        rw [e]
        refine ⟨fun s hs => ?_, by omega, fun hc => ?_, i4⟩
        · obtain ⟨a, s0, hs0, e⟩ := i1 s hs
          exact ⟨a, s0, List.mem_cons_of_mem _ hs0, e⟩
        · obtain ⟨a, s0, hs0, e⟩ := i3 hc
          exact ⟨by omega, s0, List.mem_cons_of_mem _ hs0, e⟩
      · rename_i e0 hps
        rw [hps] at hstep
        refine ⟨fun s hs => ⟨hall s hs, s, hs, rfl, rfl⟩, Nat.le_refl _,
          fun hc => absurd rfl hc, ?_⟩
        intro e he
        cases he
        exact hstep

/-! ## Termination: the retainer-set resolution -/

theorem insertSorted_nodup (r : Nat) (l : List Nat) (hr : r ∉ l) (hn : l.Nodup) :
    (insertSorted r l).Nodup := by
  induction l with
  | nil => simp [insertSorted]
  | cons x xs ih =>
    simp only [List.mem_cons, not_or] at hr
    obtain ⟨hx, hxs⟩ := List.nodup_cons.1 hn
    unfold insertSorted
    split
    · exact List.nodup_cons.2 ⟨by simp [hr.1, hr.2], hn⟩
    · split
      · exact hn
      · refine List.nodup_cons.2 ⟨?_, ih hr.2 hxs⟩
        rw [mem_insertSorted]
        intro e
        rcases e with e | e
        · exact hr.1 e.symm
        · exact hx e

theorem addElement_nodup (r : Nat) (rc : RetainerSet) (hn : rc.Nodup) :
    (addElement r rc).Nodup := by
  unfold addElement
  split
  · exact hn
  · rename_i hm
    exact insertSorted_nodup r rc (by simpa [isMember] using hm) hn

theorem num_lt_pool (P : List Nat) (rc : RetainerSet) (r : Nat) (hn : rc.Nodup)
    (hs : ∀ x ∈ rc, x ∈ P) (hr : r ∈ P) (hm : r ∉ rc) : num rc < P.length := by
  have h1 : (r :: rc).Nodup := List.nodup_cons.2 ⟨hm, hn⟩
  have h2 : ∀ x ∈ r :: rc, x ∈ P := by
    intro x hx
    rcases List.mem_cons.1 hx with e | hx
    · rw [e]; exact hr
    · exact hs x hx
  have := (List.subperm_of_subset h1 h2).length_le
  simp only [List.length_cons] at this
  unfold num
  omega

theorem SlotStep.step_trans {P : List Nat} {st st1 st2 : State} {c : Nat}
    (h1 : SlotStep P st st1 c) (h2 : SlotStep P st1 st2 c) : SlotStep P st st2 c := by
  obtain ⟨a1, a2, a3, a4, a5⟩ := h1
  obtain ⟨b1, b2, b3, b4, b5⟩ := h2
  exact ⟨b1.trans a1, fun a ha => (b2 a ha).trans (a2 a ha), b3.trans a1, b4,
    Nat.le_trans b5 a5⟩

theorem SlotStep.step_fail {P : List Nat} {st st1 : State} {c : Nat}
    (h1 : SlotStep P st st1 c) (e : Fatal) : SlotStep P st (st1.fail e) c := h1

theorem slotWeight_congr (B : Nat) (st st1 : State) (a : Nat) (hf : st1.flip = st.flip)
    (hr : st1.rs a = st.rs a) : slotWeight B st1 a = slotWeight B st a := by
  unfold slotWeight
  rw [hf, hr]

theorem SlotStep.slots {P : List Nat} {st st1 : State} {c : Nat}
    (h1 : SlotStep P st st1 c) (hS : SlotsIn P st) : SlotsIn P st1 := by
  obtain ⟨a1, a2, a3, a4, -⟩ := h1
  intro a S hv hs
  by_cases e : a = c
  · subst e
    exact a4 S hs
  · rw [a2 a e] at hv hs
    rw [a1] at hv
    exact hS a S hv hs

theorem SlotStep.valid_mono {P : List Nat} {st st1 : State} {c : Nat}
    (h1 : SlotStep P st st1 c) (a : Nat) (hv : (st.rs a).low = st.flip) :
    (st1.rs a).low = st1.flip := by
  obtain ⟨a1, a2, a3, -, -⟩ := h1
  by_cases e : a = c
  · subst e
    rw [a3, a1]
  · rw [a2 a e, a1]
    exact hv

theorem SlotStep.weight_le {P : List Nat} {st st1 : State} {c : Nat}
    (h1 : SlotStep P st st1 c) (h : Heap) :
    heapWeight h P.length st1 ≤ heapWeight h P.length st := by
  obtain ⟨a1, a2, -, -, a5⟩ := h1
  unfold heapWeight
  apply List.sum_le_sum
  intro a _
  by_cases e : a = c
  · subst e
    exact a5
  · exact Nat.le_of_eq (slotWeight_congr _ _ _ a a1 (a2 a e))

theorem SlotStep.weight_lt {P : List Nat} {st st1 : State} {c : Nat}
    (h1 : SlotStep P st st1 c) (h : Heap) (hc : c < h.closures.length)
    (hlt : slotWeight P.length st1 c < slotWeight P.length st c) :
    heapWeight h P.length st1 < heapWeight h P.length st := by
  obtain ⟨a1, a2, -, -, a5⟩ := h1
  unfold heapWeight
  apply List.sum_lt_sum
  · intro a _
    by_cases e : a = c
    · subst e
      exact a5
    · exact Nat.le_of_eq (slotWeight_congr _ _ _ a a1 (a2 a e))
  · exact ⟨c, List.mem_range.2 hc, hlt⟩

theorem slotStep_maybeInit (P : List Nat) (st : State) (c : Nat) (hS : SlotsIn P st) :
    SlotStep P st (maybeInitRetainerSet (tick st) c) c := by
  have hfr : FrameEq c st (maybeInitRetainerSet (tick st) c) :=
    (FrameEq.tick c st).frame_trans (FrameEq.maybeInit _ _)
  refine ⟨hfr.1, hfr.2.2.2.2, ?_, ?_, ?_⟩
  · rw [maybeInit_low]
    rfl
  · intro S hs
    by_cases hv : (st.rs c).low = st.flip
    · rw [maybeInit_of_valid (tick st) c hv] at hs
      exact hS c S hv hs
    · rw [maybeInit_set_of_invalid (tick st) c hv] at hs
      cases hs
  · by_cases hv : (st.rs c).low = st.flip
    · rw [maybeInit_of_valid (tick st) c hv]
      exact Nat.le_refl _
    · have h1 := maybeInit_set_of_invalid (tick st) c hv
      have h2 := maybeInit_low (tick st) c
      have hf : (maybeInitRetainerSet (tick st) c).flip = st.flip := hfr.1
      have e1 : slotWeight P.length st c = P.length + 1 := by
        unfold slotWeight
        rw [if_neg hv]
      have e2 : slotWeight P.length (maybeInitRetainerSet (tick st) c) c = P.length + 1 := by
        unfold slotWeight
        rw [hf, h1]
        split <;> rfl
      rw [e1, e2]

theorem get_out_of_range (h : Heap) (c : Nat) (hc : h.closures.length ≤ c) :
    h.get c = { type := ClosureType.INVALID_OBJECT } := by
  unfold Heap.get
  exact List.getD_eq_default _ _ hc

theorem isRetainer_lt (h : Heap) (c : Nat) (b : Bool) (hb : isRetainer h c = some b) :
    c < h.closures.length := by
  by_contra hc
  have e := get_out_of_range h c (Nat.le_of_not_lt hc)
  unfold isRetainer typeOf at hb
  rw [e] at hb
  cases hb

theorem preFilter_out_of_range (h : Heap) (c : Nat) (hc : h.closures.length ≤ c) :
    preFilter h c = PreFilter.visit := by
  unfold preFilter
  rw [get_out_of_range h c hc]

theorem retainersIn_sound (h : Heap) (P : List Nat) (hR : retainersIn h P = true) (a : Nat)
    (ha : a < h.closures.length) : getRetainerFrom h a ∈ P := by
  unfold retainersIn at hR
  rw [List.all_eq_true] at hR
  exact of_decide_eq_true (hR a (List.mem_range.2 ha))

theorem followRankOK_sound (h : Heap) (rank : Nat → Nat) (hF : followRankOK h rank = true)
    (c c1 : Nat) (hf : preFilter h c = PreFilter.follow c1) : rank c1 < rank c := by
  have hc : c < h.closures.length := by
    by_contra hc
    rw [preFilter_out_of_range h c (Nat.le_of_not_lt hc)] at hf
    cases hf
  unfold followRankOK at hF
  rw [List.all_eq_true] at hF
  have := hF c (List.mem_range.2 hc)
  rw [hf] at this
  exact of_decide_eq_true this

theorem slotWeight_valid (B : Nat) (st : State) (c : Nat) (hv : (st.rs c).low = st.flip) :
    slotWeight B st c = match (st.rs c).set with
      | some S => B - num S
      | none => B + 1 := by
  unfold slotWeight
  rw [if_pos hv]

theorem slotStep_refl (P : List Nat) (st : State) (c : Nat) (hv : (st.rs c).low = st.flip)
    (hg : ∀ S, (st.rs c).set = some S → S.Nodup ∧ ∀ x ∈ S, x ∈ P) : SlotStep P st st c :=
  ⟨rfl, fun _ _ => rfl, hv, hg, Nat.le_refl _⟩

theorem slotStep_firstVisit (h : Heap) (P : List Nat) (st : State) (c r : Nat) (s : RSWord)
    (hv : (st.rs c).low = st.flip) (hnone : (st.rs c).set = none) (hr : r ∈ P)
    (hlow : s.low = false) (hset : ∀ S, s.set = some S → S.Nodup ∧ ∀ x ∈ S, x ∈ P) :
    SlotStep P st (firstVisit h st c r s).1 c ∧
    slotWeight P.length (firstVisit h st c r s).1 c < slotWeight P.length st c := by
  have hfr := firstVisit_frame h st c r s
  have hslot := firstVisit_slot h st c r s
  have hw : slotWeight P.length st c = P.length + 1 := by
    rw [slotWeight_valid _ _ _ hv, hnone]
  have hv1 : ((firstVisit h st c r s).1.rs c).low = st.flip := by
    rw [hslot]
    split
    · rfl
    · simp [hlow]
  have hset1 : ∀ S, ((firstVisit h st c r s).1.rs c).set = some S →
      S.Nodup ∧ (∀ x ∈ S, x ∈ P) := by
    intro S hs
    rw [hslot] at hs
    split at hs
    · simp only [Option.some.injEq] at hs
      subst hs
      refine ⟨by simp [singleton], ?_⟩
      intro x hx
      simp only [singleton, List.mem_singleton] at hx
      rw [hx]; exact hr
    · simp only at hs
      exact ⟨(hset S hs).1, (hset S hs).2⟩
  have hsome : ∃ S, ((firstVisit h st c r s).1.rs c).set = some S := by
    rw [hslot]
    split
    · exact ⟨_, rfl⟩
    · rename_i hn
      cases hx : s.set with
      | none => simp [RSWord.isNull, hx, hlow] at hn
      | some S => exact ⟨S, rfl⟩
  obtain ⟨S, hS⟩ := hsome
  have hw1 : slotWeight P.length (firstVisit h st c r s).1 c = P.length - num S := by
    rw [slotWeight_valid _ _ _ (by rw [hv1]; exact hfr.1.symm), hS]
  have hlt : slotWeight P.length (firstVisit h st c r s).1 c < slotWeight P.length st c := by
    rw [hw, hw1]
    omega
  exact ⟨⟨hfr.1, hfr.2.2.2.2, hv1, hset1, Nat.le_of_lt hlt⟩, hlt⟩

theorem growSet_pool {P : List Nat} {st st3 : State} {c r : Nat} {s : RSWord}
    {rc : RetainerSet} (hg : growSet st c r s rc = some st3) (hm : isMember r rc = false)
    (hrc : rc.Nodup ∧ ∀ x ∈ rc, x ∈ P) (hr : r ∈ P)
    (hset : ∀ S, s.set = some S → S.Nodup ∧ ∀ x ∈ S, x ∈ P) :
    ∃ rc1, st3.rs c = { set := some rc1, low := st.flip } ∧ num rc1 = num rc + 1 ∧
      rc1.Nodup ∧ ∀ x ∈ rc1, x ∈ P := by
  have hadd : (addElement r rc).Nodup ∧ ∀ x ∈ addElement r rc, x ∈ P := by
    refine ⟨addElement_nodup r rc hrc.1, ?_⟩
    intro x hx
    rcases (mem_addElement r x rc).1 hx with e | hx
    · rw [e]; exact hr
    · exact hrc.2 x hx
  unfold growSet at hg
  split at hg
  · cases hg
    exact ⟨_, by simp [ptrTo], num_addElement _ _ hm, hadd.1, hadd.2⟩
  · split at hg
    · cases hg
    · rename_i sset hd
      have hlow : s.low = false ∧ s.set = some sset := by
        unfold RSWord.deref at hd
        split at hd
        · cases hd
        · rename_i hl; exact ⟨by simpa using hl, hd⟩
      split at hg
      · rename_i hnum
        cases hg
        refine ⟨sset, ?_, hnum, (hset sset hlow.2).1, (hset sset hlow.2).2⟩
        rw [associate_rs_self]
        simp [hlow.1, hlow.2]
      · cases hg
        exact ⟨_, by simp [ptrTo], num_addElement _ _ hm, hadd.1, hadd.2⟩

theorem slotStep_revisit (h : Heap) (P : List Nat) (st : State) (c r : Nat) (s : RSWord)
    (hv : (st.rs c).low = st.flip)
    (hg : ∀ S, (st.rs c).set = some S → S.Nodup ∧ ∀ x ∈ S, x ∈ P) (hr : r ∈ P)
    (hset : ∀ S, s.set = some S → S.Nodup ∧ ∀ x ∈ S, x ∈ P) :
    SlotStep P st (revisit h st c r s (retainerSetOf st c)).1 c ∧
    (∀ ccr, (revisit h st c r s (retainerSetOf st c)).2 = Decision.descend ccr →
      slotWeight P.length (revisit h st c r s (retainerSetOf st c)).1 c <
        slotWeight P.length st c ∧ ccr = r ∧ isRetainer h c = some false) := by
  have hrefl := slotStep_refl P st c hv hg
  have hw := retainerSetOf_of_valid st c hv
  unfold revisit
  split
  · exact ⟨hrefl, fun ccr e => by cases e⟩
  · rename_i rc hd
    have hrcset : (st.rs c).set = some rc := by
      rw [hw] at hd
      simpa [RSWord.deref] using hd
    split
    · exact ⟨hrefl, fun ccr e => by cases e⟩
    · rename_i hmem
      have hm : isMember r rc = false := by simpa using hmem
      split
      · exact ⟨hrefl, fun ccr e => by cases e⟩
      · rename_i st3 hgrow
        obtain ⟨rc1, e1, e2, e3, e4⟩ := growSet_pool hgrow hm (hg rc hrcset) hr hset
        have hfr := growSet_frame hgrow
        have hlt0 : num rc < P.length :=
          num_lt_pool P rc r (hg rc hrcset).1 (hg rc hrcset).2 hr
            (by simpa [isMember] using hm)
        have hw0 : slotWeight P.length st c = P.length - num rc := by
          rw [slotWeight_valid _ _ _ hv, hrcset]
        have hw3 : slotWeight P.length st3 c = P.length - num rc1 := by
          rw [slotWeight_valid _ _ _ (by rw [e1]; exact hfr.1.symm), e1]
        have hlt : slotWeight P.length st3 c < slotWeight P.length st c := by
          rw [hw0, hw3]
          omega
        have hstep : SlotStep P st st3 c := by
          refine ⟨hfr.1, hfr.2.2.2.2, by rw [e1], ?_, Nat.le_of_lt hlt⟩
          intro S hS
          rw [e1] at hS
          simp only [Option.some.injEq] at hS
          subst hS
          exact ⟨e3, e4⟩
        split
        · exact ⟨hstep, fun ccr e => by cases e⟩
        · rename_i bc hbc
          split
          · exact ⟨hstep, fun ccr e => by cases e⟩
          · rename_i hb
            refine ⟨hstep, fun ccr e => ?_⟩
            simp only [Decision.descend.injEq] at e
            refine ⟨hlt, e.symm, ?_⟩
            rw [hbc]
            simpa using hb

theorem parentSet_pool (h : Heap) (P : List Nat) (st : State) (cp : Nat) (b : Bool)
    (hS : SlotsIn P st) (hcp : isRetainer h cp = some b)
    (hp : isRetainer h cp = some false → (st.rs cp).low = st.flip) :
    (parentSet st cp b).low = false ∧
    ∀ S, (parentSet st cp b).set = some S → S.Nodup ∧ ∀ x ∈ S, x ∈ P := by
  cases b with
  | true => exact ⟨rfl, fun S e => by cases e⟩
  | false =>
    have hv := hp hcp
    have e : parentSet st cp false = { set := (st.rs cp).set, low := false } := by
      unfold parentSet
      simp only [Bool.false_eq_true, if_false]
      exact retainerSetOf_of_valid st cp hv
    rw [e]
    exact ⟨rfl, fun S hs => hS cp S hv hs⟩

/-- The retainer-set resolution: it writes the slot of `c` at most, keeps the
  sets within the pool, leaves no more room in the slots, and leaves less room
  when it decides to visit the children of `c`, which is then a closure of the
  heap, with a retainer of the pool for them. -/
theorem resolve_term (h : Heap) (P : List Nat) (st : State) (c cp r : Nat)
    (hS : SlotsIn P st) (hr : r ∈ P) (hp : ParentOK h st c cp)
    (hR : retainersIn h P = true) :
    SlotStep P st (resolve h st c cp r).1 c ∧
    (∀ ccr, (resolve h st c cp r).2 = Decision.descend ccr →
      slotWeight P.length (resolve h st c cp r).1 c < slotWeight P.length st c ∧
      ccr ∈ P ∧ c < h.closures.length) := by
  have h2 := slotStep_maybeInit P st c hS
  have hS2 := h2.slots hS
  have hv2 : ((maybeInitRetainerSet (tick st) c).rs c).low =
      (maybeInitRetainerSet (tick st) c).flip := by
    rw [h2.2.2.1, h2.1]
  have hw2 := h2.2.2.2.2
  cases hcp : isRetainer h cp with
  | none =>
    rw [resolve_barf h st c cp r hcp]
    exact ⟨h2, fun ccr e => by cases e⟩
  | some b =>
    have hpv : isRetainer h cp = some false →
        ((maybeInitRetainerSet (tick st) c).rs cp).low =
          (maybeInitRetainerSet (tick st) c).flip := by
      intro e
      by_cases hc : cp = c
      · rw [hc]; exact hv2
      · rcases hp e with e1 | e1
        · exact absurd e1 hc
        · rw [h2.2.1 cp hc, h2.1]
          exact e1
    obtain ⟨hlow, hset⟩ := parentSet_pool h P _ cp b hS2 hcp hpv
    have hrs : retainerSetOf (maybeInitRetainerSet (tick st) c) c =
        { set := ((maybeInitRetainerSet (tick st) c).rs c).set, low := false } :=
      retainerSetOf_of_valid _ c hv2
    cases hn : readsNull st c with
    | true =>
      rw [resolve_first h st c cp r b hcp hn]
      have hnone : ((maybeInitRetainerSet (tick st) c).rs c).set = none := by
        have hx : (retainerSetOf (maybeInitRetainerSet (tick st) c) c).isNull = true := by
          rw [maybeInit_tick, retainerSetOf_tick]; exact hn
        rw [hrs] at hx
        cases hy : ((maybeInitRetainerSet (tick st) c).rs c).set with
        | none => rfl
        | some S => simp [RSWord.isNull, hy] at hx
      obtain ⟨h3, hlt⟩ := slotStep_firstVisit h P _ c r _ hv2 hnone hr hlow hset
      refine ⟨h2.step_trans h3, ?_⟩
      intro ccr e
      unfold firstVisit at e
      split at e
      · cases e
      · rename_i bc hbc
        simp only [Decision.descend.injEq] at e
        have hc := isRetainer_lt h c bc hbc
        refine ⟨Nat.lt_of_lt_of_le hlt hw2, ?_, hc⟩
        rw [← e]
        split
        · exact retainersIn_sound h P hR c hc
        · exact hr
    | false =>
      rw [resolve_revisit h st c cp r b hcp hn]
      obtain ⟨h3, hd⟩ := slotStep_revisit h P _ c r
        (parentSet (maybeInitRetainerSet (tick st) c) cp b) hv2 (fun S hs => hS2 c S hv2 hs)
        hr hset
      refine ⟨h2.step_trans h3, ?_⟩
      intro ccr e
      obtain ⟨d1, d2, d3⟩ := hd ccr e
      exact ⟨Nat.lt_of_lt_of_le d1 hw2, by rw [d2]; exact hr, isRetainer_lt h c false d3⟩

/-! ## Termination: `push` -/

theorem ptrsBound_of_srt (h : Heap) (info : stackPos) (hs : info.isSrt) : PtrsBound h info := by
  obtain ⟨rest, hn⟩ := hs
  intro p q w e
  rw [hn] at e
  cases e

theorem find_ptrs_init_bound (h : Heap) (ptrs : Nat) (payload : List Nat) (x : Nat)
    (info : stackPos) (hf : find_ptrs h (init_ptrs h ptrs payload) = some (x, info)) :
    PtrsBound h info := by
  have hb := init_ptrs_bound h ptrs payload
  unfold find_ptrs at hf
  split at hf
  · rename_i pos q w hn
    split at hf
    · cases hf
      intro p1 q1 w1 e
      cases e
      exact hb _ _ _ hn
    · cases hf
      exact hb
  · cases hf

theorem push_srt_only_bound (h : Heap) (st : State) (c ccr : Nat) (se : stackElement)
    (hs : (push_srt_only h st c ccr).st.stack = se :: st.stack) : PtrsBound h se.info := by
  obtain ⟨x, info1, hf, h1, -⟩ := find_srt_fine (init_srt h c) ⟨_, rfl⟩
  unfold push_srt_only at hs
  rw [hf] at hs
  dsimp only at hs
  split at hs
  · exact absurd hs (stack_ne_cons _ _)
  · have e : se = { c := c, c_child_r := ccr, info := info1 } := (List.cons.inj hs).1.symm
    rw [e]
    exact ptrsBound_of_srt h info1 h1

theorem push_ptrs_bound (h : Heap) (st : State) (c ccr : Nat) (ptrs : Nat) (payload : List Nat)
    (se : stackElement)
    (hs : (match find_ptrs h (init_ptrs h ptrs payload) with
      | some (first, info) =>
        if first = 0 then ({ st := st, first_child := 0 } : PushResult)
        else { st := pushElement st { c := c, c_child_r := ccr, info := info },
               first_child := first }
      | none => { st := st.fail Fatal.undefined_read, first_child := 0 }).st.stack =
        se :: st.stack) : PtrsBound h se.info := by
  split at hs
  · rename_i first info hf
    split at hs
    · exact absurd hs (stack_ne_cons _ _)
    · have e : se = { c := c, c_child_r := ccr, info := info } := (List.cons.inj hs).1.symm
      rw [e]
      exact find_ptrs_init_bound h ptrs payload first info hf
  · exact absurd hs (stack_ne_cons _ _)

theorem push_ptrs_srt_bound (h : Heap) (st : State) (c ccr : Nat) (ptrs : Nat)
    (payload : List Nat) (se : stackElement)
    (hs : (match find_ptrs h (init_ptrs h ptrs payload) with
      | some (first, info) =>
        if first = 0 then push_srt_only h st c ccr
        else { st := pushElement st { c := c, c_child_r := ccr, info := info },
               first_child := first }
      | none => { st := st.fail Fatal.undefined_read, first_child := 0 }).st.stack =
        se :: st.stack) : PtrsBound h se.info := by
  split at hs
  · rename_i first info hf
    split at hs
    · exact push_srt_only_bound h st c ccr se hs
    · have e : se = { c := c, c_child_r := ccr, info := info } := (List.cons.inj hs).1.symm
      rw [e]
      exact find_ptrs_init_bound h ptrs payload first info hf
  · exact absurd hs (stack_ne_cons _ _)

theorem push_direct_bound (h : Heap) (st : State) (c ccr : Nat) (info : stackPos)
    (se : stackElement) (hk : PtrsBound h info)
    (hs : (pushElement st { c := c, c_child_r := ccr, info := info }).stack = se :: st.stack) :
    PtrsBound h se.info := by
  have e : se = { c := c, c_child_r := ccr, info := info } := (List.cons.inj hs).1.symm
  rw [e]
  exact hk

/-- The bound of a pointer position that `push` stores fits the position
  field. -/
theorem push_ptrsBound (h : Heap) (st : State) (c ccr : Nat) (se : stackElement)
    (hs : (push h st c ccr).st.stack = se :: st.stack) : PtrsBound h se.info := by
  unfold push at hs
  dsimp only at hs
  split at hs
  all_goals first
    | exact absurd hs (stack_ne_cons _ _)
    | exact push_direct_bound h st c ccr _ se
        (fun p q w e => by simp [stackPos.uninit, init_srt] at e) hs
    | exact push_ptrs_bound h st c ccr _ _ se hs
    | exact push_ptrs_srt_bound h st c ccr _ _ se hs
    | exact push_srt_only_bound h st c ccr se hs

/-! ## Termination: the order along a run -/

theorem below_refl (h : Heap) (P : List Nat) (st : State) : Below h P st st :=
  ⟨rfl, fun _ hv => hv, Nat.le_refl _, fun _ => Nat.le_refl _⟩

theorem Below.below_trans {h : Heap} {P : List Nat} {st st1 st2 : State}
    (h1 : Below h P st st1) (h2 : Below h P st1 st2) : Below h P st st2 := by
  obtain ⟨a1, a2, a3, a4⟩ := h1
  obtain ⟨b1, b2, b3, b4⟩ := h2
  refine ⟨b1.trans a1, fun a hv => b2 a (by rw [a1]; simpa [a1] using a2 a hv),
    Nat.le_trans b3 a3, ?_⟩
  intro e
  have e1 : heapWeight h P.length st2 = heapWeight h P.length st1 := by omega
  have e2 : heapWeight h P.length st1 = heapWeight h P.length st := by omega
  exact Nat.le_trans (b4 e1) (a4 e2)

theorem StrictBelow.then_below {h : Heap} {P : List Nat} {st st1 st2 : State}
    (h1 : StrictBelow h P st st1) (h2 : Below h P st1 st2) : StrictBelow h P st st2 := by
  obtain ⟨a1, a2, a3⟩ := h1
  obtain ⟨b1, b2, b3, -⟩ := h2
  exact ⟨b1.trans a1, fun a hv => b2 a (by rw [a1]; simpa [a1] using a2 a hv), by omega⟩

theorem StrictBelow.to_below {h : Heap} {P : List Nat} {st st1 : State}
    (h1 : StrictBelow h P st st1) : Below h P st st1 := by
  obtain ⟨a1, a2, a3⟩ := h1
  exact ⟨a1, a2, Nat.le_of_lt a3, fun e => by omega⟩

theorem Below.then_strict {h : Heap} {P : List Nat} {st st1 st2 : State}
    (h1 : Below h P st st1) (h2 : StrictBelow h P st1 st2) : StrictBelow h P st st2 := by
  obtain ⟨a1, a2, a3, -⟩ := h1
  obtain ⟨b1, b2, b3⟩ := h2
  exact ⟨b1.trans a1, fun a hv => b2 a (by rw [a1]; simpa [a1] using a2 a hv), by omega⟩

theorem termInv_pop {h : Heap} {P : List Nat} {st : State} (hi : TermInv h P st) :
    TermInv h P { st with stack := (pop h st).stack } ∧
    Below h P st { st with stack := (pop h st).stack } ∧
    ((pop h st).c ≠ 0 →
      stackWeight h (pop h st).stack < stackWeight h st.stack ∧
      TaskIn h P { st with stack := (pop h st).stack }
        (Task.inner (pop h st).c (pop h st).cp (pop h st).r)) := by
  obtain ⟨hS, hK⟩ := hi
  obtain ⟨p1, p2, p3, -⟩ := popLoop_term h st.currentStackBoundary st.stack
    (fun se hse => (hK se hse).1)
  refine ⟨⟨hS, ?_⟩, ⟨rfl, fun _ hv => hv, Nat.le_refl _, fun _ => p2⟩, ?_⟩
  · intro se1 hse1
    obtain ⟨q1, se, hse, e1, e2⟩ := p1 se1 hse1
    obtain ⟨-, k2, k3⟩ := hK se hse
    refine ⟨q1, by rw [e2]; exact k2, ?_⟩
    intro hr
    rw [e1] at hr ⊢
    exact k3 hr
  · intro hc
    obtain ⟨q1, se, hse, e1, e2⟩ := p3 hc
    obtain ⟨-, k2, k3⟩ := hK se hse
    refine ⟨q1, ?_, ?_⟩
    · show (pop h st).r ∈ P
      unfold pop
      rw [e2]; exact k2
    · intro hr
      right
      have e3 : (pop h st).cp = se.c := e1
      rw [e3] at hr ⊢
      exact k3 hr

theorem termInv_resolve {h : Heap} {P : List Nat} (hR : retainersIn h P = true) {st : State}
    {c cp r : Nat} (hi : TermInv h P st) (ht : TaskIn h P st (Task.inner c cp r)) :
    TermInv h P (resolve h st c cp r).1 ∧ Below h P st (resolve h st c cp r).1 ∧
    ((resolve h st c cp r).1.rs c).low = (resolve h st c cp r).1.flip ∧
    (∀ ccr, (resolve h st c cp r).2 = Decision.descend ccr →
      StrictBelow h P st (resolve h st c cp r).1 ∧ ccr ∈ P) := by
  obtain ⟨hS, hK⟩ := hi
  obtain ⟨hrP, hpar⟩ := ht
  obtain ⟨hstep, hdesc⟩ := resolve_term h P st c cp r hS hrP hpar hR
  have hstack : (resolve h st c cp r).1.stack = st.stack := (resolve_frame h st c cp r).2.1
  have hflip := hstep.1
  have hmono := hstep.valid_mono
  refine ⟨⟨hstep.slots hS, ?_⟩, ⟨hflip, hmono, hstep.weight_le h, ?_⟩, ?_, ?_⟩
  · intro se hse
    rw [hstack] at hse
    obtain ⟨k1, k2, k3⟩ := hK se hse
    exact ⟨k1, k2, fun hr => hmono _ (k3 hr)⟩
  · intro _
    rw [hstack]
  · rw [hstep.2.2.1, hflip]
  · intro ccr hd
    obtain ⟨d1, d2, d3⟩ := hdesc ccr hd
    exact ⟨⟨hflip, hmono, hstep.weight_lt h d3 d1⟩, d2⟩

theorem heapWeight_congr (h : Heap) (B : Nat) (st st1 : State) (hf : st1.flip = st.flip)
    (hr : st1.rs = st.rs) : heapWeight h B st1 = heapWeight h B st := by
  unfold heapWeight
  congr 1
  apply List.map_congr_left
  intro a _
  exact slotWeight_congr B st st1 a hf (by rw [hr])

theorem termInv_push {h : Heap} {P : List Nat} {st : State} {c ccr : Nat}
    (hi : TermInv h P st) (hc : ccr ∈ P) (hv : (st.rs c).low = st.flip) :
    TermInv h P (push h st c ccr).st ∧ (push h st c ccr).st.flip = st.flip ∧
    (push h st c ccr).st.rs = st.rs := by
  obtain ⟨hS, hK⟩ := hi
  obtain ⟨e1, e2, -, -, hstack, -⟩ := push_ok h st c ccr
  have hS1 : SlotsIn P (push h st c ccr).st := by
    intro a S ha hs
    rw [e1] at ha hs
    rw [e2] at ha
    exact hS a S ha hs
  have hpv : ∀ a, ParentValid h st a → ParentValid h (push h st c ccr).st a := by
    intro a ha hr
    rw [e1, e2]
    exact ha hr
  refine ⟨⟨hS1, ?_⟩, e2, e1⟩
  rcases hstack with e | ⟨info, e, -⟩
  · intro se hse
    rw [e] at hse
    obtain ⟨k1, k2, k3⟩ := hK se hse
    exact ⟨k1, k2, hpv _ k3⟩
  · intro se hse
    rw [e] at hse
    rcases List.mem_cons.1 hse with e3 | hse
    · have hb := push_ptrsBound h st c ccr _ e
      rw [e3]
      exact ⟨hb, hc, hpv c (fun _ => hv)⟩
    · obtain ⟨k1, k2, k3⟩ := hK se hse
      exact ⟨k1, k2, hpv _ k3⟩

theorem taskIn_calls_of_mem {h : Heap} {P : List Nat} {st : State} {c ccr : Nat}
    {cs : List Call} (hc : ccr ∈ P) (hv : (st.rs c).low = st.flip)
    (hm : ∀ x ∈ cs, x.2 = (c, ccr)) :
    ∀ x ∈ cs, x.2.2 ∈ P ∧ ParentValid h st x.2.1 := by
  intro x hx
  rw [hm x hx]
  exact ⟨hc, fun _ => hv⟩

theorem taskIn_mono {h : Heap} {P : List Nat} {st st1 : State} {cs : List Call}
    (hb : Below h P st st1) (ht : ∀ x ∈ cs, x.2.2 ∈ P ∧ ParentValid h st x.2.1) :
    ∀ x ∈ cs, x.2.2 ∈ P ∧ ParentValid h st1 x.2.1 :=
  fun x hx => ⟨(ht x hx).1, fun hr => hb.2.1 _ ((ht x hx).2 hr)⟩

/-- Along a run the invariant of the termination argument is kept, and the
  state at the end is not above the state at the start. -/
theorem run_term {h : Heap} {P : List Nat} (hR : retainersIn h P = true)
    {t : Task} {st st1 : State} (hr : Run h t st st1) :
    TermInv h P st → TaskIn h P st t → TermInv h P st1 ∧ Below h P st st1 := by
  have hres : ∀ (s : State) (c cp r : Nat), TermInv h P s → TaskIn h P s (Task.inner c cp r) →
      TermInv h P (resolve h (logArrival s c cp r) c cp r).1 ∧
      Below h P s (resolve h (logArrival s c cp r) c cp r).1 ∧
      ((resolve h (logArrival s c cp r) c cp r).1.rs c).low =
        (resolve h (logArrival s c cp r) c cp r).1.flip ∧
      (∀ ccr, (resolve h (logArrival s c cp r) c cp r).2 = Decision.descend ccr →
        StrictBelow h P s (resolve h (logArrival s c cp r) c cp r).1 ∧ ccr ∈ P) :=
    fun s c cp r hi ht => @termInv_resolve h P hR (logArrival s c cp r) c cp r hi ht
  have hpush : ∀ (s s2 : State) (c ccr : Nat), TermInv h P s2 → StrictBelow h P s s2 →
      ccr ∈ P → (s2.rs c).low = s2.flip →
      TermInv h P (push h s2 c ccr).st ∧ StrictBelow h P s (push h s2 c ccr).st ∧
      ((push h s2 c ccr).st.rs c).low = (push h s2 c ccr).st.flip := by
    intro s s2 c ccr hi hb hc hv
    obtain ⟨p1, p2, p3⟩ := termInv_push hi hc hv
    refine ⟨p1, ⟨p2.trans hb.1, fun a ha => ?_, ?_⟩, by rw [p3, p2]; exact hv⟩
    · rw [p3, p2]; exact hb.2.1 a ha
    · rw [heapWeight_congr h P.length s2 _ p2 p3]; exact hb.2.2
  induction hr with
  | out_of_fuel t st => intro hi _; exact ⟨hi, below_refl h P _⟩
  | loop_err he => intro hi _; exact ⟨(termInv_pop hi).1, (termInv_pop hi).2.1⟩
  | loop_done he hc => intro hi _; exact ⟨(termInv_pop hi).1, (termInv_pop hi).2.1⟩
  | loop_next he hc _ ih =>
    intro hi _
    obtain ⟨p1, p2, p3⟩ := termInv_pop hi
    obtain ⟨q1, q2⟩ := ih p1 (p3 hc).2
    exact ⟨q1, p2.below_trans q2⟩
  | inner_null => intro hi _; exact ⟨hi, below_refl h P _⟩
  | inner_skip hc hp _ ih =>
    intro hi _
    exact ih hi trivial
  | inner_follow hc hp _ ih =>
    intro hi ht
    refine ih hi ⟨ht.1, ?_⟩
    intro hcp
    rcases ht.2 hcp with e | e
    · rw [e] at hcp
      exact absurd hcp (follow_not_plain h _ _ hp)
    · exact Or.inr e
  | inner_fail hc hp hf =>
    intro hi ht
    obtain ⟨r1, r2, -, -⟩ := hres _ _ _ _ hi ht
    exact ⟨r1, r2⟩
  | inner_stop hc hp hs1 hd _ ih =>
    intro hi ht
    obtain ⟨r1, r2, -, -⟩ := hres _ _ _ _ hi ht
    obtain ⟨q1, q2⟩ := ih r1 trivial
    exact ⟨q1, r2.below_trans q2⟩
  | inner_tso_abort hc hp hs1 hd hty _ hab ih =>
    intro hi ht
    obtain ⟨r1, r2, r3, r4⟩ := hres _ _ _ _ hi ht
    obtain ⟨q1, q2⟩ := ih r1
      (taskIn_calls_of_mem (r4 _ hd).2 r3 (fun x hx => (retainStackCalls_mem h _ _ x hx).1))
    exact ⟨q1, r2.below_trans q2⟩
  | inner_tso hc hp hs1 hd hty _ hok _ ih1 ih2 =>
    intro hi ht
    obtain ⟨r1, r2, r3, r4⟩ := hres _ _ _ _ hi ht
    obtain ⟨q1, q2⟩ := ih1 r1
      (taskIn_calls_of_mem (r4 _ hd).2 r3 (fun x hx => (retainStackCalls_mem h _ _ x hx).1))
    obtain ⟨q3, q4⟩ := ih2 q1 trivial
    exact ⟨q3, (r2.below_trans q2).below_trans q4⟩
  | inner_pap_abort hc hp hs1 hd hty _ hab ih =>
    intro hi ht
    obtain ⟨r1, r2, r3, r4⟩ := hres _ _ _ _ hi ht
    obtain ⟨q1, q2⟩ := ih r1
      (taskIn_calls_of_mem (r4 _ hd).2 r3 (fun x hx => (retain_PAP_mem h _ _ x hx).1))
    exact ⟨q1, r2.below_trans q2⟩
  | inner_pap hc hp hs1 hd hty _ hok _ ih1 ih2 =>
    intro hi ht
    obtain ⟨r1, r2, r3, r4⟩ := hres _ _ _ _ hi ht
    obtain ⟨q1, q2⟩ := ih1 r1
      (taskIn_calls_of_mem (r4 _ hd).2 r3 (fun x hx => (retain_PAP_mem h _ _ x hx).1))
    obtain ⟨q3, q4⟩ := ih2 q1 trivial
    exact ⟨q3, (r2.below_trans q2).below_trans q4⟩
  | inner_apstack_abort1 hc hp hs1 hd hty _ hab ih =>
    intro hi ht
    obtain ⟨r1, r2, r3, r4⟩ := hres _ _ _ _ hi ht
    obtain ⟨q1, q2⟩ := ih r1
      (taskIn_calls_of_mem (r4 _ hd).2 r3 (fun x hx => by
        rw [List.mem_singleton.1 hx]))
    exact ⟨q1, r2.below_trans q2⟩
  | inner_apstack_abort2 hc hp hs1 hd hty _ hok _ hab ih1 ih2 =>
    intro hi ht
    obtain ⟨r1, r2, r3, r4⟩ := hres _ _ _ _ hi ht
    obtain ⟨q1, q2⟩ := ih1 r1
      (taskIn_calls_of_mem (r4 _ hd).2 r3 (fun x hx => by
        rw [List.mem_singleton.1 hx]))
    obtain ⟨q3, q4⟩ := ih2 q1
      (taskIn_calls_of_mem (r4 _ hd).2 (q2.2.1 _ r3)
        (fun x hx => (retainStackCalls_mem h _ _ x hx).1))
    exact ⟨q3, (r2.below_trans q2).below_trans q4⟩
  | inner_apstack hc hp hs1 hd hty _ hok _ hok2 _ ih1 ih2 ih3 =>
    intro hi ht
    obtain ⟨r1, r2, r3, r4⟩ := hres _ _ _ _ hi ht
    obtain ⟨q1, q2⟩ := ih1 r1
      (taskIn_calls_of_mem (r4 _ hd).2 r3 (fun x hx => by
        rw [List.mem_singleton.1 hx]))
    obtain ⟨q3, q4⟩ := ih2 q1
      (taskIn_calls_of_mem (r4 _ hd).2 (q2.2.1 _ r3)
        (fun x hx => (retainStackCalls_mem h _ _ x hx).1))
    obtain ⟨q5, q6⟩ := ih3 q3 trivial
    exact ⟨q5, ((r2.below_trans q2).below_trans q4).below_trans q6⟩
  | inner_push_fail hc hp hs1 hd hss hpf =>
    intro hi ht
    obtain ⟨r1, r2, r3, r4⟩ := hres _ _ _ _ hi ht
    obtain ⟨p1, p2, -⟩ := hpush _ _ _ _ r1 (r4 _ hd).1 (r4 _ hd).2 r3
    exact ⟨p1, p2.to_below⟩
  | inner_push_leaf hc hp hs1 hd hss hps hfc _ ih =>
    intro hi ht
    obtain ⟨r1, r2, r3, r4⟩ := hres _ _ _ _ hi ht
    obtain ⟨p1, p2, -⟩ := hpush _ _ _ _ r1 (r4 _ hd).1 (r4 _ hd).2 r3
    obtain ⟨q1, q2⟩ := ih p1 trivial
    exact ⟨q1, (p2.then_below q2).to_below⟩
  | inner_push_child hc hp hs1 hd hss hps hfc _ ih =>
    intro hi ht
    obtain ⟨r1, r2, r3, r4⟩ := hres _ _ _ _ hi ht
    obtain ⟨p1, p2, p3⟩ := hpush _ _ _ _ r1 (r4 _ hd).1 (r4 _ hd).2 r3
    obtain ⟨q1, q2⟩ := ih p1 ⟨(r4 _ hd).2, fun _ => Or.inr p3⟩
    exact ⟨q1, (p2.then_below q2).to_below⟩
  | calls_nil => intro hi _; exact ⟨hi, below_refl h P _⟩
  | calls_barf => intro hi _; exact ⟨hi, below_refl h P _⟩
  | calls_abort _ hab ih =>
    intro hi ht
    exact ih hi ⟨(ht _ (List.mem_cons_self _ _)).1,
      fun hcp => Or.inr ((ht _ (List.mem_cons_self _ _)).2 hcp)⟩
  | calls_cons _ hok _ ih1 ih2 =>
    intro hi ht
    obtain ⟨q1, q2⟩ := ih1 hi ⟨(ht _ (List.mem_cons_self _ _)).1,
      fun hcp => Or.inr ((ht _ (List.mem_cons_self _ _)).2 hcp)⟩
    obtain ⟨q3, q4⟩ := ih2 q1
      (taskIn_mono q2 (fun x hx => ht x (List.mem_cons_of_mem _ hx)))
    exact ⟨q3, q2.below_trans q4⟩
  | stack_abort _ hab ih =>
    intro hi ht
    exact ih hi ht
  | stack_ok _ hok ih =>
    intro hi ht
    exact ih hi ht

/-! ## Termination: one step of the engine -/

theorem exec_loop_err (h : Heap) (f : Nat) (st : State) (e : Fatal)
    (he : (pop h st).err = some e) :
    exec h (f + 1) Task.loop st = State.fail { st with stack := (pop h st).stack } e := by
  simp only [exec]
  rw [he]

theorem exec_loop_done (h : Heap) (f : Nat) (st : State) (he : (pop h st).err = none)
    (hc : (pop h st).c = 0) :
    exec h (f + 1) Task.loop st = { st with stack := (pop h st).stack } := by
  simp only [exec]
  rw [he]
  simp only [hc, if_true]

theorem exec_loop_next (h : Heap) (f : Nat) (st : State) (he : (pop h st).err = none)
    (hc : (pop h st).c ≠ 0) :
    exec h (f + 1) Task.loop st =
      exec h f (Task.inner (pop h st).c (pop h st).cp (pop h st).r)
        { st with stack := (pop h st).stack } := by
  simp only [exec]
  rw [he]
  simp only [hc, if_false]

theorem exec_null (h : Heap) (f : Nat) (st : State) (cp r : Nat) :
    exec h (f + 1) (Task.inner 0 cp r) st =
      (logArrival st 0 cp r).fail Fatal.undefined_read := by
  simp only [exec, if_true]

theorem exec_fail (h : Heap) (f : Nat) (st : State) (c cp r : Nat) (hc : c ≠ 0)
    (hp : preFilter h c = PreFilter.visit)
    (hs : (resolve h (logArrival st c cp r) c cp r).1.status.isSome = true) :
    exec h (f + 1) (Task.inner c cp r) st = (resolve h (logArrival st c cp r) c cp r).1 := by
  simp only [exec]
  rw [if_neg hc, hp]
  simp only [hs, if_true]

theorem exec_tso (h : Heap) (f : Nat) (st : State) (c cp r ccr : Nat) (hc : c ≠ 0)
    (hp : preFilter h c = PreFilter.visit)
    (hs : (resolve h (logArrival st c cp r) c cp r).1.status = none)
    (hd : (resolve h (logArrival st c cp r) c cp r).2 = Decision.descend ccr)
    (hty : typeOf h c = ClosureType.TSO) :
    exec h (f + 1) (Task.inner c cp r) st =
      (exec h f (Task.stack (retainStackCalls h c ccr (h.get c).frames).1
          (retainStackCalls h c ccr (h.get c).frames).2)
        (resolve h (logArrival st c cp r) c cp r).1).andThen (exec h f Task.loop) := by
  simp only [exec]
  rw [if_neg hc, hp]
  simp only [hs, hd, hty]
  rfl

theorem exec_pap (h : Heap) (f : Nat) (st : State) (c cp r ccr : Nat) (hc : c ≠ 0)
    (hp : preFilter h c = PreFilter.visit)
    (hs : (resolve h (logArrival st c cp r) c cp r).1.status = none)
    (hd : (resolve h (logArrival st c cp r) c cp r).2 = Decision.descend ccr)
    (hty : typeOf h c = ClosureType.PAP ∨ typeOf h c = ClosureType.AP) :
    exec h (f + 1) (Task.inner c cp r) st =
      (exec h f (Task.calls (retain_PAP h c ccr) false)
        (resolve h (logArrival st c cp r) c cp r).1).andThen (exec h f Task.loop) := by
  simp only [exec]
  rw [if_neg hc, hp]
  rcases hty with hty | hty
  · simp only [hs, hd, hty]
    rfl
  · simp only [hs, hd, hty]
    rfl

theorem exec_apstack (h : Heap) (f : Nat) (st : State) (c cp r ccr : Nat) (hc : c ≠ 0)
    (hp : preFilter h c = PreFilter.visit)
    (hs : (resolve h (logArrival st c cp r) c cp r).1.status = none)
    (hd : (resolve h (logArrival st c cp r) c cp r).2 = Decision.descend ccr)
    (hty : typeOf h c = ClosureType.AP_STACK) :
    exec h (f + 1) (Task.inner c cp r) st =
      ((exec h f (Task.calls [((h.get c).func, c, ccr)] false)
          (resolve h (logArrival st c cp r) c cp r).1).andThen
        (exec h f (Task.stack (retainStackCalls h c ccr (h.get c).frames).1
          (retainStackCalls h c ccr (h.get c).frames).2))).andThen (exec h f Task.loop) := by
  simp only [exec]
  rw [if_neg hc, hp]
  simp only [hs, hd, hty]
  rfl

theorem exec_push (h : Heap) (f : Nat) (st : State) (c cp r ccr : Nat) (hc : c ≠ 0)
    (hp : preFilter h c = PreFilter.visit)
    (hs : (resolve h (logArrival st c cp r) c cp r).1.status = none)
    (hd : (resolve h (logArrival st c cp r) c cp r).2 = Decision.descend ccr)
    (hss : stackShaped (typeOf h c) = false) :
    exec h (f + 1) (Task.inner c cp r) st =
      if (push h (resolve h (logArrival st c cp r) c cp r).1 c ccr).st.status.isSome then
        (push h (resolve h (logArrival st c cp r) c cp r).1 c ccr).st
      else if (push h (resolve h (logArrival st c cp r) c cp r).1 c ccr).first_child = 0 then
        exec h f Task.loop (push h (resolve h (logArrival st c cp r) c cp r).1 c ccr).st
      else
        exec h f
          (Task.inner (push h (resolve h (logArrival st c cp r) c cp r).1 c ccr).first_child
            c ccr)
          (push h (resolve h (logArrival st c cp r) c cp r).1 c ccr).st := by
  simp only [exec]
  rw [if_neg hc, hp]
  simp only [hs, hd]
  cases hty : typeOf h c <;> rw [hty] at hss <;> simp [stackShaped] at hss <;> rfl

theorem exec_calls_nil (h : Heap) (f : Nat) (st : State) (bad : Bool) :
    exec h (f + 1) (Task.calls [] bad) st =
      if bad then st.fail Fatal.barf_retainStack else st := by
  simp only [exec]

theorem exec_calls_cons (h : Heap) (f : Nat) (st : State) (c0 cp0 r0 : Nat) (rest : List Call)
    (bad : Bool) :
    exec h (f + 1) (Task.calls ((c0, cp0, r0) :: rest) bad) st =
      (exec h f (Task.inner c0 cp0 r0) st).andThen (exec h f (Task.calls rest bad)) := by
  simp only [exec]

theorem exec_stack (h : Heap) (f : Nat) (st : State) (cs : List Call) (bad : Bool) :
    exec h (f + 1) (Task.stack cs bad) st =
      (exec h f (Task.calls cs bad) { st with currentStackBoundary := st.stack.length }).andThen
        (fun st2 => { st2 with currentStackBoundary := st.currentStackBoundary }) := by
  simp only [exec]

/-! ## Termination: the run ends -/

theorem halts_andThen (h : Heap) (t1 t2 : Task) (s : State) (H1 : Halts h t1 s)
    (H2 : ∀ f, (exec h f t1 s).status = none → Halts h t2 (exec h f t1 s)) :
    ∃ f, ((exec h f t1 s).andThen (exec h f t2)).status ≠ some Fatal.out_of_fuel := by
  obtain ⟨f1, hf1⟩ := H1
  rcases status_cases (exec h f1 t1 s) with hs | hs
  · exact ⟨f1, by rw [andThen_of_isSome _ _ hs]; exact hf1⟩
  · obtain ⟨f2, hf2⟩ := H2 f1 hs
    refine ⟨max f1 f2, ?_⟩
    rw [exec_mono h f1 t1 s hf1 _ (Nat.le_max_left _ _), andThen_of_none _ _ hs,
      exec_mono h f2 t2 _ hf2 _ (Nat.le_max_right _ _)]
    exact hf2

theorem halts_andThen3 (h : Heap) (t1 t2 t3 : Task) (s : State) (H1 : Halts h t1 s)
    (H2 : ∀ f, (exec h f t1 s).status = none → Halts h t2 (exec h f t1 s))
    (H3 : ∀ f g, (exec h f t1 s).status = none →
      (exec h g t2 (exec h f t1 s)).status = none →
      Halts h t3 (exec h g t2 (exec h f t1 s))) :
    ∃ f, (((exec h f t1 s).andThen (exec h f t2)).andThen (exec h f t3)).status ≠
      some Fatal.out_of_fuel := by
  obtain ⟨f1, hf1⟩ := H1
  rcases status_cases (exec h f1 t1 s) with hs | hs
  · exact ⟨f1, by rw [andThen_of_isSome _ _ hs, andThen_of_isSome _ _ hs]; exact hf1⟩
  · obtain ⟨f2, hf2⟩ := H2 f1 hs
    rcases status_cases (exec h f2 t2 (exec h f1 t1 s)) with hs2 | hs2
    · refine ⟨max f1 f2, ?_⟩
      rw [exec_mono h f1 t1 s hf1 _ (Nat.le_max_left _ _), andThen_of_none _ _ hs,
        exec_mono h f2 t2 _ hf2 _ (Nat.le_max_right _ _), andThen_of_isSome _ _ hs2]
      exact hf2
    · obtain ⟨f3, hf3⟩ := H3 f1 f2 hs hs2
      refine ⟨max (max f1 f2) f3, ?_⟩
      rw [exec_mono h f1 t1 s hf1 _ (Nat.le_trans (Nat.le_max_left _ _) (Nat.le_max_left _ _)),
        andThen_of_none _ _ hs,
        exec_mono h f2 t2 _ hf2 _ (Nat.le_trans (Nat.le_max_right _ _) (Nat.le_max_left _ _)),
        andThen_of_none _ _ hs2, exec_mono h f3 t3 _ hf3 _ (Nat.le_max_right _ _)]
      exact hf3

theorem lex3_induction (C : Nat → Nat → Nat → Prop)
    (step : ∀ m p k, (∀ m1 p1 k1,
      (m1 < m ∨ (m1 = m ∧ p1 < p) ∨ (m1 = m ∧ p1 = p ∧ k1 < k)) → C m1 p1 k1) → C m p k) :
    ∀ m p k, C m p k := by
  intro m
  induction m using Nat.strong_induction_on with
  | _ m ihm =>
    intro p
    induction p using Nat.strong_induction_on with
    | _ p ihp =>
      intro k
      induction k using Nat.strong_induction_on with
      | _ k ihk =>
        apply step
        intro m1 p1 k1 hlt
        rcases hlt with hl | ⟨rfl, hl⟩ | ⟨rfl, rfl, hl⟩
        · exact ihm m1 hl p1 k1
        · exact ihp p1 hl k1
        · exact ihk k1 hl

theorem lex_of_below {h : Heap} {P : List Nat} {st s1 : State} (hb : Below h P st s1)
    (k1 k : Nat) (hk : k1 < k) :
    heapWeight h P.length s1 < heapWeight h P.length st ∨
    (heapWeight h P.length s1 = heapWeight h P.length st ∧
      stackWeight h s1.stack < stackWeight h st.stack) ∨
    (heapWeight h P.length s1 = heapWeight h P.length st ∧
      stackWeight h s1.stack = stackWeight h st.stack ∧ k1 < k) := by
  obtain ⟨-, -, b3, b4⟩ := hb
  rcases Nat.lt_or_ge (heapWeight h P.length s1) (heapWeight h P.length st) with hl | hl
  · exact Or.inl hl
  · have e : heapWeight h P.length s1 = heapWeight h P.length st := by omega
    have := b4 e
    rcases Nat.lt_or_ge (stackWeight h s1.stack) (stackWeight h st.stack) with hl2 | hl2
    · exact Or.inr (Or.inl ⟨e, hl2⟩)
    · exact Or.inr (Or.inr ⟨e, by omega, hk⟩)

theorem status_ne_of_none {st : State} (hs : st.status = none) :
    st.status ≠ some Fatal.out_of_fuel := by
  rw [hs]
  exact fun x => by cases x

theorem taskWeight_cons_lt (rank : Nat → Nat) (x : Call) (rest : List Call) (bad : Bool) :
    taskWeight rank (Task.inner x.1 x.2.1 x.2.2) < taskWeight rank (Task.calls (x :: rest) bad) ∧
    taskWeight rank (Task.calls rest bad) < taskWeight rank (Task.calls (x :: rest) bad) := by
  simp only [taskWeight, List.map_cons, List.sum_cons]
  omega

/-- From every state that satisfies the invariant of the termination argument,
  the run from every control point whose arguments are in order ends with some
  fuel. -/
theorem halts_all {h : Heap} {P : List Nat} (hR : retainersIn h P = true) (rank : Nat → Nat)
    (hF : followRankOK h rank = true) :
    ∀ (m p k : Nat) (t : Task) (st : State),
      heapWeight h P.length st = m → stackWeight h st.stack = p → taskWeight rank t = k →
      TermInv h P st → TaskIn h P st t → st.status ≠ some Fatal.out_of_fuel →
      Halts h t st := by
  intro m p k
  refine lex3_induction (fun m p k => ∀ (t : Task) (st : State),
      heapWeight h P.length st = m → stackWeight h st.stack = p → taskWeight rank t = k →
      TermInv h P st → TaskIn h P st t → st.status ≠ some Fatal.out_of_fuel →
      Halts h t st) ?_ m p k
  clear m p k
  intro m p k IH t st hm hp hk hi ht hs
  subst hm hp hk
  have rec : ∀ (t1 : Task) (s1 : State),
      (heapWeight h P.length s1 < heapWeight h P.length st ∨
        (heapWeight h P.length s1 = heapWeight h P.length st ∧
          stackWeight h s1.stack < stackWeight h st.stack) ∨
        (heapWeight h P.length s1 = heapWeight h P.length st ∧
          stackWeight h s1.stack = stackWeight h st.stack ∧
          taskWeight rank t1 < taskWeight rank t)) →
      TermInv h P s1 → TaskIn h P s1 t1 → s1.status ≠ some Fatal.out_of_fuel →
      Halts h t1 s1 :=
    fun t1 s1 hl h1 h2 h3 => IH _ _ _ hl t1 s1 rfl rfl rfl h1 h2 h3
  cases t with
  | loop =>
    obtain ⟨p1, p2, p3⟩ := termInv_pop hi
    cases he : (pop h st).err with
    | some e =>
      refine ⟨1, ?_⟩
      rw [exec_loop_err h 0 st e he]
      have := (popLoop_term h st.currentStackBoundary st.stack (fun se hse => (hi.2 se hse).1)).2.2.2
        e he
      exact fun x => this (Option.some.inj x)
    | none =>
      by_cases hc : (pop h st).c = 0
      · refine ⟨1, ?_⟩
        rw [exec_loop_done h 0 st he hc]
        exact hs
      · obtain ⟨hlt, htask⟩ := p3 hc
        obtain ⟨f, hf⟩ := rec (Task.inner (pop h st).c (pop h st).cp (pop h st).r)
          { st with stack := (pop h st).stack } (Or.inr (Or.inl ⟨rfl, hlt⟩)) p1 htask hs
        exact ⟨f + 1, by rw [exec_loop_next h f st he hc]; exact hf⟩
  | inner c cp r =>
    by_cases hc : c = 0
    · subst hc
      exact ⟨1, by rw [exec_null]; exact fun x => by cases x⟩
    · cases hp : preFilter h c with
      | skip =>
        obtain ⟨f, hf⟩ := rec Task.loop (logArrival st c cp r)
          (Or.inr (Or.inr ⟨rfl, rfl, by simp [taskWeight]⟩)) hi trivial hs
        exact ⟨f + 1, by rw [exec_skip h f st c cp r hc hp]; exact hf⟩
      | follow c1 =>
        have hrk := followRankOK_sound h rank hF c c1 hp
        have ht1 : TaskIn h P (logArrival st c cp r) (Task.inner c1 cp r) := by
          refine ⟨ht.1, ?_⟩
          intro hcp
          rcases ht.2 hcp with e | e
          · rw [e] at hcp
            exact absurd hcp (follow_not_plain h _ _ hp)
          · exact Or.inr e
        obtain ⟨f, hf⟩ := rec (Task.inner c1 cp r) (logArrival st c cp r)
          (Or.inr (Or.inr ⟨rfl, rfl, by simp only [taskWeight]; omega⟩)) hi ht1 hs
        exact ⟨f + 1, by rw [exec_follow h f st c c1 cp r hc hp]; exact hf⟩
      | visit =>
        obtain ⟨r1, r2, r3, r4⟩ :=
          @termInv_resolve h P hR (logArrival st c cp r) c cp r hi ht
        rcases status_cases (resolve h (logArrival st c cp r) c cp r).1 with hs1 | hs1
        · refine ⟨1, ?_⟩
          rw [exec_fail h 0 st c cp r hc hp hs1]
          rcases resolve_status h (logArrival st c cp r) c cp r with e | e | e
          · rw [e]; exact hs
          · rw [e]; exact fun x => by cases x
          · rw [e]; exact fun x => by cases x
        · have hb0 : Below h P st (resolve h (logArrival st c cp r) c cp r).1 := r2
          cases hd : (resolve h (logArrival st c cp r) c cp r).2 with
          | stop =>
            obtain ⟨f, hf⟩ := rec Task.loop _
              (lex_of_below hb0 _ _ (by simp [taskWeight])) r1 trivial (status_ne_of_none hs1)
            exact ⟨f + 1, by rw [exec_stop h f st c cp r hc hp hs1 hd]; exact hf⟩
          | descend ccr =>
            obtain ⟨hsb, hccr⟩ := r4 ccr hd
            have hsb0 : StrictBelow h P st (resolve h (logArrival st c cp r) c cp r).1 := hsb
            have after : ∀ (t1 : Task) (f : Nat),
                TaskIn h P (resolve h (logArrival st c cp r) c cp r).1 t1 →
                TermInv h P (exec h f t1 (resolve h (logArrival st c cp r) c cp r).1) ∧
                StrictBelow h P st
                  (exec h f t1 (resolve h (logArrival st c cp r) c cp r).1) := by
              intro t1 f ht1
              obtain ⟨q1, q2⟩ := run_term hR (exec_run h f t1 _) r1 ht1
              exact ⟨q1, hsb0.then_below q2⟩
            have hstackT : TaskIn h P (resolve h (logArrival st c cp r) c cp r).1
                (Task.stack (retainStackCalls h c ccr (h.get c).frames).1
                  (retainStackCalls h c ccr (h.get c).frames).2) :=
              taskIn_calls_of_mem hccr r3 (fun x hx => (retainStackCalls_mem h _ _ x hx).1)
            by_cases hT : typeOf h c = ClosureType.TSO
            · obtain ⟨f, hf⟩ := halts_andThen h
                (Task.stack (retainStackCalls h c ccr (h.get c).frames).1
                  (retainStackCalls h c ccr (h.get c).frames).2) Task.loop
                (resolve h (logArrival st c cp r) c cp r).1
                (rec _ _ (Or.inl hsb0.2.2) r1 hstackT (status_ne_of_none hs1))
                (fun f hn => rec _ _ (Or.inl (after _ f hstackT).2.2.2) (after _ f hstackT).1
                  trivial (status_ne_of_none hn))
              exact ⟨f + 1, by rw [exec_tso h f st c cp r ccr hc hp hs1 hd hT]; exact hf⟩
            · by_cases hPA : typeOf h c = ClosureType.PAP ∨ typeOf h c = ClosureType.AP
              · have hpapT : TaskIn h P (resolve h (logArrival st c cp r) c cp r).1
                    (Task.calls (retain_PAP h c ccr) false) :=
                  taskIn_calls_of_mem hccr r3 (fun x hx => (retain_PAP_mem h _ _ x hx).1)
                obtain ⟨f, hf⟩ := halts_andThen h (Task.calls (retain_PAP h c ccr) false)
                  Task.loop (resolve h (logArrival st c cp r) c cp r).1
                  (rec _ _ (Or.inl hsb0.2.2) r1 hpapT (status_ne_of_none hs1))
                  (fun f hn => rec _ _ (Or.inl (after _ f hpapT).2.2.2) (after _ f hpapT).1
                    trivial (status_ne_of_none hn))
                exact ⟨f + 1, by rw [exec_pap h f st c cp r ccr hc hp hs1 hd hPA]; exact hf⟩
              · by_cases hA : typeOf h c = ClosureType.AP_STACK
                · have hfunT : TaskIn h P (resolve h (logArrival st c cp r) c cp r).1
                      (Task.calls [((h.get c).func, c, ccr)] false) :=
                    taskIn_calls_of_mem hccr r3 (fun x hx => by rw [List.mem_singleton.1 hx])
                  have after2 : ∀ (f g : Nat),
                      TermInv h P (exec h g
                        (Task.stack (retainStackCalls h c ccr (h.get c).frames).1
                          (retainStackCalls h c ccr (h.get c).frames).2)
                        (exec h f (Task.calls [((h.get c).func, c, ccr)] false)
                          (resolve h (logArrival st c cp r) c cp r).1)) ∧
                      StrictBelow h P st (exec h g
                        (Task.stack (retainStackCalls h c ccr (h.get c).frames).1
                          (retainStackCalls h c ccr (h.get c).frames).2)
                        (exec h f (Task.calls [((h.get c).func, c, ccr)] false)
                          (resolve h (logArrival st c cp r) c cp r).1)) := by
                    intro f g
                    obtain ⟨q1, q2⟩ := run_term hR (exec_run h f
                      (Task.calls [((h.get c).func, c, ccr)] false) _) r1 hfunT
                    obtain ⟨q3, q4⟩ := run_term hR (exec_run h g
                      (Task.stack (retainStackCalls h c ccr (h.get c).frames).1
                        (retainStackCalls h c ccr (h.get c).frames).2) _) q1
                      (taskIn_mono q2 hstackT)
                    exact ⟨q3, (hsb0.then_below q2).then_below q4⟩
                  obtain ⟨f, hf⟩ := halts_andThen3 h
                    (Task.calls [((h.get c).func, c, ccr)] false)
                    (Task.stack (retainStackCalls h c ccr (h.get c).frames).1
                      (retainStackCalls h c ccr (h.get c).frames).2) Task.loop
                    (resolve h (logArrival st c cp r) c cp r).1
                    (rec _ _ (Or.inl hsb0.2.2) r1 hfunT (status_ne_of_none hs1))
                    (fun f hn => rec _ _ (Or.inl (after _ f hfunT).2.2.2) (after _ f hfunT).1
                      (taskIn_mono (run_term hR (exec_run h f _ _) r1 hfunT).2 hstackT)
                      (status_ne_of_none hn))
                    (fun f g _ hn2 => rec _ _ (Or.inl (after2 f g).2.2.2) (after2 f g).1
                      trivial (status_ne_of_none hn2))
                  exact ⟨f + 1, by rw [exec_apstack h f st c cp r ccr hc hp hs1 hd hA]; exact hf⟩
                · have hss : stackShaped (typeOf h c) = false := by
                    cases hty : typeOf h c <;> simp_all [stackShaped]
                  obtain ⟨p1, p2, p3⟩ := @termInv_push h P
                    (resolve h (logArrival st c cp r) c cp r).1 c ccr r1 hccr r3
                  have hlt : heapWeight h P.length
                      (push h (resolve h (logArrival st c cp r) c cp r).1 c ccr).st <
                      heapWeight h P.length st := by
                    rw [heapWeight_congr h P.length _ _ p2 p3]
                    exact hsb0.2.2
                  have hv : ((push h (resolve h (logArrival st c cp r) c cp r).1 c ccr).st.rs
                      c).low = (push h (resolve h (logArrival st c cp r) c cp r).1 c ccr).st.flip := by
                    rw [p3, p2]; exact r3
                  rcases status_cases
                    (push h (resolve h (logArrival st c cp r) c cp r).1 c ccr).st with hps | hps
                  · refine ⟨1, ?_⟩
                    rw [exec_push h 0 st c cp r ccr hc hp hs1 hd hss, if_pos hps]
                    rcases push_status h (resolve h (logArrival st c cp r) c cp r).1 c ccr
                      with e | e | e
                    · rw [e]; exact status_ne_of_none hs1
                    · rw [e]; exact fun x => by cases x
                    · rw [e]; exact fun x => by cases x
                  · have hps1 : ¬ (push h (resolve h (logArrival st c cp r) c cp r).1 c
                        ccr).st.status.isSome = true := by rw [hps]; simp
                    by_cases hfc :
                      (push h (resolve h (logArrival st c cp r) c cp r).1 c ccr).first_child = 0
                    · obtain ⟨f, hf⟩ := rec Task.loop _ (Or.inl hlt) p1 trivial
                        (status_ne_of_none hps)
                      refine ⟨f + 1, ?_⟩
                      rw [exec_push h f st c cp r ccr hc hp hs1 hd hss, if_neg hps1, if_pos hfc]
                      exact hf
                    · obtain ⟨f, hf⟩ := rec
                        (Task.inner
                          (push h (resolve h (logArrival st c cp r) c cp r).1 c ccr).first_child
                          c ccr) _ (Or.inl hlt) p1 ⟨hccr, fun _ => Or.inr hv⟩
                        (status_ne_of_none hps)
                      refine ⟨f + 1, ?_⟩
                      rw [exec_push h f st c cp r ccr hc hp hs1 hd hss, if_neg hps1, if_neg hfc]
                      exact hf
  | calls cs bad =>
    cases cs with
    | nil =>
      refine ⟨1, ?_⟩
      rw [exec_calls_nil]
      split
      · exact fun x => by cases x
      · exact hs
    | cons x rest =>
      obtain ⟨c0, cp0, r0⟩ := x
      obtain ⟨w1, w2⟩ := taskWeight_cons_lt rank (c0, cp0, r0) rest bad
      have ht0 : TaskIn h P st (Task.inner c0 cp0 r0) :=
        ⟨(ht _ (List.mem_cons_self _ _)).1,
          fun hcp => Or.inr ((ht _ (List.mem_cons_self _ _)).2 hcp)⟩
      obtain ⟨f, hf⟩ := halts_andThen h (Task.inner c0 cp0 r0) (Task.calls rest bad) st
        (rec _ _ (Or.inr (Or.inr ⟨rfl, rfl, w1⟩)) hi ht0 hs)
        (fun f hn => by
          obtain ⟨q1, q2⟩ := run_term hR (exec_run h f (Task.inner c0 cp0 r0) st) hi ht0
          exact rec _ _ (lex_of_below q2 _ _ w2) q1
            (taskIn_mono q2 (fun y hy => ht y (List.mem_cons_of_mem _ hy)))
            (status_ne_of_none hn))
      exact ⟨f + 1, by rw [exec_calls_cons]; exact hf⟩
  | stack cs bad =>
    obtain ⟨f, hf⟩ := rec (Task.calls cs bad)
      { st with currentStackBoundary := st.stack.length }
      (Or.inr (Or.inr ⟨rfl, rfl, by simp [taskWeight]⟩)) hi ht hs
    refine ⟨f + 1, ?_⟩
    rw [exec_stack]
    rcases status_cases (exec h f (Task.calls cs bad)
      { st with currentStackBoundary := st.stack.length }) with h1 | h1
    · rw [andThen_of_isSome _ _ h1]; exact hf
    · rw [andThen_of_none _ _ h1]; exact hf

/-- A visit that goes on to the children of `c` is the first visit of `c` in
  the pass, or it replaces the set of `c` by a set with one element more. -/
theorem resolve_descend_grows (h : Heap) (s : State) (c cp r ccr : Nat)
    (hd : (resolve h s c cp r).2 = Decision.descend ccr) :
    visited s c = false ∨
    ∃ rc rc1, visited s c = true ∧ (s.rs c).set = some rc ∧
      ((resolve h s c cp r).1.rs c).set = some rc1 ∧ num rc1 = num rc + 1 := by
  cases hn : readsNull s c with
  | true => exact Or.inl (visited_false_of_readsNull s c hn)
  | false =>
    right
    cases hcp : isRetainer h cp with
    | none =>
      rw [resolve_barf h s c cp r hcp] at hd
      cases hd
    | some b =>
      have hv : (s.rs c).low = s.flip := by
        by_contra hv
        have h1 := maybeInit_set_of_invalid s c hv
        have h2 := maybeInit_low s c
        have h3 : (maybeInitRetainerSet s c).flip = s.flip := maybeInit_flip s c
        have : readsNull s c = true := by
          unfold readsNull
          rw [retainerSetOf_of_valid _ c (by rw [h2, h3])]
          simp [RSWord.isNull, h1]
        rw [hn] at this
        cases this
      have hv2 : ((maybeInitRetainerSet (tick s) c).rs c).low =
          (maybeInitRetainerSet (tick s) c).flip := by
        rw [maybeInit_low, maybeInit_flip]
      have e2 : maybeInitRetainerSet (tick s) c = tick s := maybeInit_of_valid (tick s) c hv
      have hrs : retainerSetOf (maybeInitRetainerSet (tick s) c) c =
          { set := (s.rs c).set, low := false } := by
        rw [retainerSetOf_of_valid _ c hv2, e2]
        rfl
      rw [resolve_revisit h s c cp r b hcp hn] at hd ⊢
      rw [hrs] at hd ⊢
      unfold revisit at hd ⊢
      split at hd
      · cases hd
      · rename_i rc hderef
        have hset : (s.rs c).set = some rc := by simpa [RSWord.deref] using hderef
        have hvis : visited s c = true := by
          unfold visited
          rw [(valid_iff s c).2 hv, hset]
          rfl
        split at hd
        · cases hd
        · rename_i hmem
          have hm : isMember r rc = false := by simpa using hmem
          split at hd
          · cases hd
          · rename_i st3 hg
            obtain ⟨rc1, e1, e2⟩ := growSet_slot hg hm
            refine ⟨rc, rc1, hvis, hset, ?_, e2⟩
            simp only [hderef, hmem, hg]
            split at hd
            · cases hd
            · rename_i bc hbc
              simp only [Bool.false_eq_true, if_false]
              split
              · rw [e1]
              · rw [e1]

theorem retainRoot_halts {h : Heap} {P : List Nat} (hR : retainersIn h P = true)
    (rank : Nat → Nat) (hF : followRankOK h rank = true) (hsys : h.CCS_SYSTEM ∈ P)
    (st : State) (tl : Nat) (hi : TermInv h P st) (hs : st.status ≠ some Fatal.out_of_fuel) :
    ∃ f, (retainRoot h f st tl).status ≠ some Fatal.out_of_fuel ∧
      (∀ g, f ≤ g → retainRoot h g st tl = retainRoot h f st tl) ∧
      TermInv h P (retainRoot h f st tl) := by
  have hi1 : TermInv h P { st with currentStackBoundary := st.stack.length } := hi
  cases hb : isRetainer h tl with
  | none =>
    refine ⟨0, ?_, ?_, ?_⟩
    · unfold retainRoot
      simp only [hb]
      exact fun x => by cases x
    · intro g _
      unfold retainRoot
      simp only [hb]
    · unfold retainRoot
      simp only [hb]
      exact hi1
  | some b =>
    have key : ∀ r0, r0 ∈ P →
        ∃ f, (exec h f (Task.inner tl tl r0)
            { st with currentStackBoundary := st.stack.length }).status ≠
              some Fatal.out_of_fuel ∧
          (∀ g, f ≤ g →
            exec h g (Task.inner tl tl r0) { st with currentStackBoundary := st.stack.length } =
            exec h f (Task.inner tl tl r0) { st with currentStackBoundary := st.stack.length }) ∧
          TermInv h P (exec h f (Task.inner tl tl r0)
            { st with currentStackBoundary := st.stack.length }) := by
      intro r0 hr0
      have ht : TaskIn h P { st with currentStackBoundary := st.stack.length }
          (Task.inner tl tl r0) := ⟨hr0, fun _ => Or.inl rfl⟩
      obtain ⟨f, hf⟩ := halts_all hR rank hF _ _ _ (Task.inner tl tl r0)
        { st with currentStackBoundary := st.stack.length } rfl rfl rfl hi1 ht hs
      exact ⟨f, hf, fun g hg => exec_mono h f _ _ hf g hg,
        (run_term hR (exec_run h f _ _) hi1 ht).1⟩
    cases b with
    | true =>
      obtain ⟨f, k1, k2, k3⟩ := key (getRetainerFrom h tl)
        (retainersIn_sound h P hR tl (isRetainer_lt h tl true hb))
      refine ⟨f, ?_, ?_, ?_⟩
      · unfold retainRoot retainClosure
        simp only [hb]
        exact k1
      · intro g hg
        unfold retainRoot retainClosure
        simp only [hb]
        exact k2 g hg
      · unfold retainRoot retainClosure
        simp only [hb]
        exact k3
    | false =>
      obtain ⟨f, k1, k2, k3⟩ := key h.CCS_SYSTEM hsys
      refine ⟨f, ?_, ?_, ?_⟩
      · unfold retainRoot retainClosure
        simp only [hb]
        exact k1
      · intro g hg
        unfold retainRoot retainClosure
        simp only [hb]
        exact k2 g hg
      · unfold retainRoot retainClosure
        simp only [hb]
        exact k3

/-- The traversal of a list of roots ends with some fuel, and more fuel does
  not change its outcome. -/
theorem retainRoots_halts {h : Heap} {P : List Nat} (hR : retainersIn h P = true)
    (rank : Nat → Nat) (hF : followRankOK h rank = true) (hsys : h.CCS_SYSTEM ∈ P) :
    ∀ (roots : List Nat) (st : State), TermInv h P st →
      st.status ≠ some Fatal.out_of_fuel →
      ∃ f, (retainRoots h f st roots).status ≠ some Fatal.out_of_fuel ∧
        ∀ g, f ≤ g → retainRoots h g st roots = retainRoots h f st roots := by
  intro roots
  induction roots with
  | nil =>
    intro st _ hs
    exact ⟨0, hs, fun _ _ => rfl⟩
  | cons tl rest ih =>
    intro st hi hs
    obtain ⟨f1, k1, k2, k3⟩ := retainRoot_halts hR rank hF hsys st tl hi hs
    rcases status_cases (retainRoot h f1 st tl) with h1 | h1
    · refine ⟨f1, ?_, ?_⟩
      · simp only [retainRoots]
        rw [andThen_of_isSome _ _ h1]
        exact k1
      · intro g hg
        simp only [retainRoots]
        rw [k2 g hg, andThen_of_isSome _ _ h1, andThen_of_isSome _ _ h1]
    · obtain ⟨f2, j1, j2⟩ := ih (retainRoot h f1 st tl) k3 (status_ne_of_none h1)
      have e1 : ∀ g, max f1 f2 ≤ g → retainRoots h g st (tl :: rest) =
          retainRoots h f2 (retainRoot h f1 st tl) rest := by
        intro g hg
        simp only [retainRoots]
        rw [k2 g (Nat.le_trans (Nat.le_max_left _ _) hg), andThen_of_none _ _ h1]
        exact j2 g (Nat.le_trans (Nat.le_max_right _ _) hg)
      refine ⟨max f1 f2, ?_, ?_⟩
      · rw [e1 _ (Nat.le_refl _)]
        exact j1
      · intro g hg
        rw [e1 g hg, e1 _ (Nat.le_refl _)]

/-! ## The claims -/

/-- C1 (completeness), evaluated on `heapShare`.  The pass over the roots `1`,
  `2` ends normally with an empty traverse stack.  The mutable cell `1` is a
  visited retainer with `R(1) = 101`, and the visited leaf `8` is a child
  reference of `1` (a path without intermediate objects); yet the final set of
  `8` is `{102, 105}`, and `101` is not a member of it. -/
theorem C1_incomplete_on_heapShare :
    (retainRoots heapShare 20 (initState true) [1, 2]).status = none ∧
    (retainRoots heapShare 20 (initState true) [1, 2]).stack = [] ∧
    isRetainer heapShare 1 = some true ∧ getRetainerFrom heapShare 1 = 101 ∧
    visited (retainRoots heapShare 20 (initState true) [1, 2]) 1 = true ∧
    visited (retainRoots heapShare 20 (initState true) [1, 2]) 8 = true ∧
    8 ∈ children heapShare 1 ∧ preFilter heapShare 8 = PreFilter.visit ∧
    (retainRoots heapShare 20 (initState true) [1, 2]).rs 8 =
      { set := some [102, 105], low := true } ∧
    isMember 101 [102, 105] = false := by
  decide

/-- C2, as stated, fails in two ways.  On `heapReloc`, after the pass over the
  root `1` the thread `3` holds `{101}`, the identity of the mutable cell `1`;
  but `3` is reachable from `1` only through the relocated thread `2`, which is
  a retainer (a `TSO`), and `101` is neither the identity of another retainer
  nor `CCS_SYSTEM`.  On `heapWide`, after the pass over the thread `1` the word
  `3` of slot `32` of its frame holds `{101}`, the identity of the thread; but
  the bitmap of the frame marks slot `32` as not live, no closure has `3` as a
  child reference, and `3` is not a retainer: `101` is justified for `3` by no
  path at all, whatever the intermediate objects may be. -/
theorem C2_counterexample :
    ((retainRoots heapReloc 20 (initState true) [1]).status = none ∧
      (retainRoots heapReloc 20 (initState true) [1]).rs 3 =
        { set := some [101], low := true } ∧
      ¬ Justified heapReloc (nonRetainer heapReloc) [1] 3 101) ∧
    ((retainRoots heapWide 60 (initState true) [1]).status = none ∧
      (retainRoots heapWide 60 (initState true) [1]).rs 3 =
        { set := some [101], low := true } ∧
      frame33.bitmap_size = 33 ∧ frame33.bitmap_bits / 2 ^ 32 % 2 = 1 ∧
      frame33.payload.getD 32 0 = 3 ∧
      children heapWide 1 = List.replicate 32 2 ∧
      ∀ Mid : Nat → Prop, ¬ Justified heapWide Mid [1] 3 101) := by
  refine ⟨⟨by decide, by decide, ?_⟩, by decide, by decide, rfl, by decide, by decide,
    by decide, ?_⟩
  · have hget : ∀ x, 4 ≤ x → heapReloc.get x = { type := ClosureType.INVALID_OBJECT } := by
      intro x hx
      unfold Heap.get
      exact List.getD_eq_default _ _ (by simpa [heapReloc] using hx)
    have hsmall : ∀ x, x < 4 → x = 0 ∨ x = 1 ∨ x = 2 ∨ x = 3 := by omega
    have hedge : ∀ x, 3 ∈ children heapReloc x → x = 2 := by
      intro x hx
      by_cases hlt : x < 4
      · rcases hsmall x hlt with rfl | rfl | rfl | rfl
        · revert hx; decide
        · revert hx; decide
        · rfl
        · revert hx; decide
      · have := hget x (by omega)
        simp [children, this] at hx
    have hid : ∀ t, getRetainerFrom heapReloc t = 101 → t = 1 := by
      intro t ht
      by_cases hlt : t < 4
      · rcases hsmall t hlt with rfl | rfl | rfl | rfl
        · revert ht; decide
        · rfl
        · revert ht; decide
        · revert ht; decide
      · have := hget t (by omega)
        simp [getRetainerFrom, heapReloc] at ht
        rw [show heapReloc = _ from rfl] at this
        simp [heapReloc] at this
        rw [this] at ht
        simp at ht
    have hno : ¬ Thru heapReloc (nonRetainer heapReloc) 1 3 := by
      intro ht
      cases ht with
      | one he => have := hedge 1 he; omega
      | step _ hm he =>
        have := hedge _ he
        subst this
        exact hm (by decide)
    rintro (⟨t, -, hr, hreach⟩ | ⟨hr, -⟩)
    · have := hid t hr
      subst this
      rcases hreach with h0 | h0
      · omega
      · exact hno h0
    · revert hr; decide
  · intro Mid
    have hget : ∀ x, 4 ≤ x → heapWide.get x = { type := ClosureType.INVALID_OBJECT } := by
      intro x hx
      unfold Heap.get
      exact List.getD_eq_default _ _ (by simpa [heapWide] using hx)
    have hsmall : ∀ x, x < 4 → x = 0 ∨ x = 1 ∨ x = 2 ∨ x = 3 := by omega
    have hedge : ∀ x, 3 ∉ children heapWide x := by
      intro x hx
      by_cases hlt : x < 4
      · rcases hsmall x hlt with rfl | rfl | rfl | rfl
        · revert hx; decide
        · revert hx; decide
        · revert hx; decide
        · revert hx; decide
      · have := hget x (by omega)
        simp [children, this] at hx
    have hno : ∀ t, ¬ Thru heapWide Mid t 3 := by
      intro t ht
      cases ht with
      | one he => exact hedge _ he
      | step _ _ he => exact hedge _ he
    rintro (⟨t, hret, -, hreach⟩ | ⟨hr, -⟩)
    · rcases hreach with h0 | h0
      · subst h0
        revert hret; decide
      · exact hno t h0
    · revert hr; decide

/-- C2 (soundness), amended.  Let every one-word liveness bitmap of a stack
  frame of the heap be within the reach of a 32-bit word (it marks no slot from
  index 32 on as a non-pointer), and let a pass (`retainRoot` on
  every root, in order) start in a state in which every slot reads as
  uninitialised and the traverse stack is empty.  Then, however the pass ends,
  every member `r` of the set held by a slot that is valid for the current flip
  is justified: it is `R(t)` for a retainer `t` from which the closure is
  reachable (`t` itself included) along child references whose intermediate
  objects are each a non-retainer or a relocated thread, or it is `CCS_SYSTEM`
  and the closure is so reachable from a root that is not a retainer.  The child
  references of a thread, of an `AP_STACK` and of a partial application are the
  stack slots and argument words that the bitmaps mark live. -/
theorem C2_soundness (h : Heap) (fuel : Nat) (roots : List Nat) (st0 : State)
    (hfit : stacksFit h = true)
    (hinit : ∀ a, readsNull st0 a = true) (hstack : st0.stack = []) :
    ∀ c S, isRetainerSetFieldValid (retainRoots h fuel st0 roots) c = true →
      ((retainRoots h fuel st0 roots).rs c).set = some S →
      ∀ r ∈ S, Justified h (passesOn h) roots c r := by
  have h0 : SoundInv h (passesOn h) roots st0 := by
    refine ⟨SoundSlots.init st0 hinit, ?_, ?_⟩ <;> rw [hstack] <;> intro se hse <;> cases hse
  have hfin : SoundInv h (passesOn h) roots (retainRoots h fuel st0 roots) :=
    sound_retainRoots hfit (fun x hx => Or.inl hx) (fun x hx => Or.inr hx) fuel roots st0
      (fun t ht => ht) h0
  intro c S hv hset
  exact hfin.1 c S ((valid_iff _ _).1 hv) hset

/-- The slots of `initState` all read as uninitialised. -/
theorem initState_readsNull (flip : Bool) (a : Nat) : readsNull (initState flip) a = true := by
  cases flip <;> simp [readsNull, maybeInit_eq, initState, nullWord, retainerSetOf, RSWord.isNull]

/-- C2, at concrete inputs: the member `105` of the final set of the leaf `8`
  of `heapShare`, and the member `101` of the final set of the leaf `4`, which
  the thread `1` of `heapFrame5` holds in the live slot `2` of its frame. -/
theorem C2_soundness_witness :
    (stacksFit heapShare = true ∧
      (∀ a, readsNull (initState true) a = true) ∧ (initState true).stack = [] ∧
      isRetainerSetFieldValid (retainRoots heapShare 20 (initState true) [1, 2]) 8 = true ∧
      ((retainRoots heapShare 20 (initState true) [1, 2]).rs 8).set = some [102, 105] ∧
      Justified heapShare (passesOn heapShare) [1, 2] 8 105) ∧
    (stacksFit heapFrame5 = true ∧ children heapFrame5 1 = [2, 4, 6] ∧
      isRetainerSetFieldValid (retainRoots heapFrame5 20 (initState true) [1]) 4 = true ∧
      ((retainRoots heapFrame5 20 (initState true) [1]).rs 4).set = some [101] ∧
      Justified heapFrame5 (passesOn heapFrame5) [1] 4 101) :=
  ⟨⟨by decide, initState_readsNull true, rfl, by decide, by decide,
    C2_soundness heapShare 20 [1, 2] (initState true) (by decide) (initState_readsNull true) rfl
      8 [102, 105] (by decide) (by decide) 105 (by decide)⟩,
   ⟨by decide, by decide, by decide, by decide,
    C2_soundness heapFrame5 20 [1] (initState true) (by decide) (initState_readsNull true) rfl
      4 [101] (by decide) (by decide) 101 (by decide)⟩⟩

/-- C3 (coverage), as stated, fails in two ways.  On `heapInd` the call
  `retainClosure(1, 1, 101)` from the initial state returns normally; the static
  indirection `2` is a child reference of `1` and neither is among the objects
  that the pre-filter skips, yet the slot of `2` is not valid for the current
  flip: a static indirection is followed, never visited.  On `heapNest` the call
  `retainClosure(2, 3, 101)` that `retainStack` makes for the thread `3` returns
  normally, while the leaf `4`, a child of `2`, is still not visited: the
  constructor `2` is found visited with `101` in its set, and its second child
  is pending on the traverse stack below the boundary. -/
theorem C3_counterexample :
    ((retainClosure heapInd 10 (initState true) 1 1 101).status = none ∧
      2 ∈ children heapInd 1 ∧ notSkipped heapInd 1 ∧ notSkipped heapInd 2 ∧
      isRetainerSetFieldValid (retainClosure heapInd 10 (initState true) 1 1 101) 2 = false) ∧
    ((retainClosure heapNest 10 stNestMid 2 3 101).status = none ∧
      stNestMid.trace = [(3, 2, 101), (2, 1, 101), (1, 1, 101)] ∧
      isRetainerSetFieldValid stNestMid 3 = true ∧
      4 ∈ children heapNest 2 ∧ notSkipped heapNest 2 ∧ notSkipped heapNest 4 ∧
      visited (retainClosure heapNest 10 stNestMid 2 3 101) 4 = false) := by
  unfold notSkipped
  decide

/-- C3 (coverage), amended.  Let the heap be well formed (no child reference
  is `NULL`, and the number of pointer fields of a closure fits the position
  field of a stack element), and let `retainClosure(c0, cp0, r0)` be called on an
  empty traverse stack with the boundary at its bottom, with a parent `cp0` that
  is a retainer, `c0` itself, or a closure with a valid slot, in a state in which
  every child reference of every closure already visited is `c0` or is settled
  (skipped by the pre-filter, or visited, or a static indirection or relocated
  thread that leads to a settled closure).  If the call returns without a fatal
  outcome, then `c0`, if it is not skipped, and every closure `c` reachable from
  `c0` through child references along a path of objects that are not skipped,
  has a slot that is valid for the current flip and holds a set, unless `c` is
  itself a static indirection or a relocated thread, which `retainClosure`
  follows and never visits.  The child references of a thread, of an `AP_STACK`
  and of a partial application are the stack slots and argument words that the
  bitmaps mark live. -/
theorem C3_coverage (h : Heap) (fuel : Nat) (st : State) (c0 cp0 r0 : Nat)
    (hwf : WF h) (hstack : st.stack = []) (hbound : st.currentStackBoundary = 0)
    (hpar : isRetainer h cp0 = some false → cp0 = c0 ∨ (st.rs cp0).low = st.flip)
    (hclosed : ∀ x, visited st x = true → preFilter h x = PreFilter.visit →
      ∀ y ∈ children h x, y = c0 ∨ Settled h st noTarget y)
    (hok : (retainClosure h fuel st c0 cp0 r0).status = none) :
    ∀ c, notSkipped h c0 → Reach h (notSkipped h) c0 c → preFilter h c = PreFilter.visit →
      visited (retainClosure h fuel st c0 cp0 r0) c = true := by
  obtain ⟨p1, p2, p3⟩ := cover_call hwf fuel st c0 cp0 r0 hstack hbound hpar hclosed hok
  intro c hns hreach hp
  have hs : Settled h (retainClosure h fuel st c0 cp0 r0) noTarget c := by
    rcases hreach with e | ht
    · rw [← e]; exact p3
    · exact settled_thru p1 p2 p3 hns ht
  exact hs.visited_of_visit hp

/-- C3, at concrete inputs: the leaf `3` of `heapInd`, reached from the root
  `1` through the static indirection `2`, and the leaf `4` of `heapFrame5`, which
  the thread `1` holds in the live slot `2` of its frame, are visited when the
  call returns. -/
theorem C3_coverage_witness :
    (WF heapInd ∧ (retainClosure heapInd 10 (initState true) 1 1 101).status = none ∧
      Reach heapInd (notSkipped heapInd) 1 3 ∧
      visited (retainClosure heapInd 10 (initState true) 1 1 101) 3 = true) ∧
    (WF heapFrame5 ∧ (retainClosure heapFrame5 10 (initState true) 1 1 101).status = none ∧
      children heapFrame5 1 = [2, 4, 6] ∧
      Reach heapFrame5 (notSkipped heapFrame5) 1 4 ∧
      visited (retainClosure heapFrame5 10 (initState true) 1 1 101) 4 = true) :=
  ⟨⟨wfHeap_sound heapInd (by decide), by decide,
    Or.inr (Thru.step (Thru.one (by decide : 2 ∈ children heapInd 1))
        (by unfold notSkipped; decide : notSkipped heapInd 2)
        (by decide : 3 ∈ children heapInd 2)),
    C3_coverage heapInd 10 (initState true) 1 1 101 (wfHeap_sound heapInd (by decide)) rfl rfl
      (fun _ => Or.inl rfl)
      (fun x hx => by
        have : visited (initState true) x = false := by
          simp [visited, initState, isRetainerSetFieldValid, nullWord]
        rw [this] at hx; cases hx)
      (by decide) 3 (by unfold notSkipped; decide)
      (Or.inr (Thru.step (Thru.one (by decide : 2 ∈ children heapInd 1))
        (by unfold notSkipped; decide : notSkipped heapInd 2)
        (by decide : 3 ∈ children heapInd 2))) (by decide)⟩,
   ⟨wfHeap_sound heapFrame5 (by decide), by decide, by decide,
    Or.inr (Thru.one (by decide : 4 ∈ children heapFrame5 1)),
    C3_coverage heapFrame5 10 (initState true) 1 1 101 (wfHeap_sound heapFrame5 (by decide))
      rfl rfl (fun _ => Or.inl rfl)
      (fun x hx => by
        have : visited (initState true) x = false := by
          simp [visited, initState, isRetainerSetFieldValid, nullWord]
        rw [this] at hx; cases hx)
      (by decide) 4 (by unfold notSkipped; decide)
      (Or.inr (Thru.one (by decide : 4 ∈ children heapFrame5 1))) (by decide)⟩⟩

/-- C4 (sharing correctness), evaluated on `heapOnlyParent`.  The pass over the
  root `1` ends normally.  The visited leaf `9` is not a root and is a child
  reference of the constructor `2` only; `2` is not a retainer; yet the slot of
  `2` ends with `{104, 107}` and the slot of `9` with `{101, 104, 107}`. -/
theorem C4_only_parent_sets_differ :
    (retainRoots heapOnlyParent 20 (initState true) [1]).status = none ∧
    (retainRoots heapOnlyParent 20 (initState true) [1]).stack = [] ∧
    (∀ a, a < 10 → (9 ∈ children heapOnlyParent a ↔ a = 2)) ∧
    isRetainer heapOnlyParent 2 = some false ∧
    visited (retainRoots heapOnlyParent 20 (initState true) [1]) 9 = true ∧
    (retainRoots heapOnlyParent 20 (initState true) [1]).rs 2 =
      { set := some [104, 107], low := true } ∧
    (retainRoots heapOnlyParent 20 (initState true) [1]).rs 9 =
      { set := some [101, 104, 107], low := true } := by
  decide

/-- C5 (retainer stop rule).  In a pass that starts with an empty traverse
  stack and an empty log, every arrival `(c, cp, r)` at `inner_loop` whose
  parent `cp` is a retainer has `r = R(cp)`; consequently a closure that reads
  as uninitialised when it is resolved at such an arrival is associated with
  `singleton(R(cp))`, whatever the set of `cp` itself holds. -/
theorem C5_retainer_stop_rule (h : Heap) (fuel : Nat) (roots : List Nat) (st0 : State)
    (hstack : st0.stack = []) (htrace : st0.trace = []) :
    ∀ c cp r, (c, cp, r) ∈ (retainRoots h fuel st0 roots).trace →
      isRetainer h cp = some true →
      r = getRetainerFrom h cp ∧
      ∀ st : State, readsNull st c = true →
        (resolve h st c cp r).1.rs c =
          { set := some (singleton (getRetainerFrom h cp)), low := st.flip } := by
  have h0 : StopRule h st0 := by
    constructor
    · rw [htrace]; intro x hx; cases hx
    · rw [hstack]; intro se hse; cases hse
  have hfin := stopRule_retainRoots h fuel roots st0 h0
  intro c cp r hmem hcp
  have hr : r = getRetainerFrom h cp := hfin.1 (c, cp, r) hmem hcp
  refine ⟨hr, fun st hn => ?_⟩
  rw [hr]
  exact (resolve_retainer_parent h st c cp _ hcp).1 hn

/-- C5, at a concrete input: the scenario `A -> T -> L` of `heapThunk`; the
  thunk `2` ends with `{101}` and the leaf `3` with `{102}`. -/
theorem C5_retainer_stop_rule_witness :
    (initState true).stack = [] ∧ (initState true).trace = [] ∧
    (3, 2, 102) ∈ (retainRoots heapThunk 20 (initState true) [1]).trace ∧
    isRetainer heapThunk 2 = some true ∧
    102 = getRetainerFrom heapThunk 2 ∧
    (retainRoots heapThunk 20 (initState true) [1]).rs 2 = { set := some [101], low := true } ∧
    (retainRoots heapThunk 20 (initState true) [1]).rs 3 = { set := some [102], low := true } :=
  ⟨rfl, rfl, by decide, by decide,
    (C5_retainer_stop_rule heapThunk 20 [1] (initState true) rfl rfl 3 2 102
      (by decide) (by decide)).1,
    by decide, by decide⟩

/-- C6 (monotonicity).  When the retainer-set resolution of `retainClosure` is
  run on a closure `c` that has been visited in this pass (its slot is valid and
  holds the set `rc`), the slot of `c` holds afterwards a set whose cardinality
  `num` is not less than that of `rc`, and the slot is still valid.  The
  resolution step is the only place where `retainClosure` calls `associate`. -/
theorem C6_monotone_cardinality (h : Heap) (st : State) (c cp r : Nat) (rc : RetainerSet)
    (hv : isRetainerSetFieldValid st c = true) (hs : (st.rs c).set = some rc) :
    ∃ rc', ((resolve h st c cp r).1.rs c).set = some rc' ∧ num rc ≤ num rc' ∧
      isRetainerSetFieldValid (resolve h st c cp r).1 c = true := by
  have hlow : (st.rs c).low = st.flip := (valid_iff st c).1 hv
  have hlow' : ((tick st).rs c).low = (tick st).flip := hlow
  have keep : ∀ st1 : State, st1.rs c = st.rs c → st1.flip = st.flip →
      ∃ rc', (st1.rs c).set = some rc' ∧ num rc ≤ num rc' ∧
        isRetainerSetFieldValid st1 c = true := by
    intro st1 h1 h2
    exact ⟨rc, by rw [h1, hs], le_refl _, by rw [valid_iff, h1, h2, hlow]⟩
  cases hcp : isRetainer h cp with
  | none =>
    rw [resolve_barf h st c cp r hcp, maybeInit_of_valid _ _ hlow']
    exact keep _ rfl rfl
  | some b =>
    rw [resolve_revisit h st c cp r b hcp (readsNull_of_visited st c rc hv hs),
      maybeInit_of_valid _ _ hlow', retainerSetOf_of_valid _ _ hlow']
    unfold revisit
    simp only [RSWord.deref, tick_rs, hs, Bool.false_eq_true, if_false]
    split
    · exact keep _ rfl rfl
    · rename_i hm
      have hm' : isMember r rc = false := by simpa using hm
      split
      · exact keep _ rfl rfl
      · rename_i st3 hg
        obtain ⟨rc', hrs, hnum⟩ := growSet_slot hg hm'
        have hfl := (growSet_frame hg).1
        have fin : ∀ st1 : State, st1.rs c = st3.rs c → st1.flip = st3.flip →
            ∃ rc', (st1.rs c).set = some rc' ∧ num rc ≤ num rc' ∧
              isRetainerSetFieldValid st1 c = true := by
          intro st1 h1 h2
          refine ⟨rc', by rw [h1, hrs], by omega, ?_⟩
          rw [valid_iff, h1, h2, hrs, hfl]
        split
        · exact fin _ rfl rfl
        · split <;> exact fin _ rfl rfl

/-- C6, at a concrete input: the leaf of `heapTwo`, visited from the retainer
  `1`, is reached again from the retainer `2`. -/
theorem C6_monotone_cardinality_witness :
    isRetainerSetFieldValid stTwoOnce 3 = true ∧ (stTwoOnce.rs 3).set = some [101] ∧
    ∃ rc', ((resolve heapTwo stTwoOnce 3 2 102).1.rs 3).set = some rc' ∧ num [101] ≤ num rc' ∧
      isRetainerSetFieldValid (resolve heapTwo stTwoOnce 3 2 102).1 3 = true :=
  ⟨by decide, by decide,
    C6_monotone_cardinality heapTwo stTwoOnce 3 2 102 [101] (by decide) (by decide)⟩

/-- C7 (growing writes), evaluated on `heapShare`.  When the pass over the
  roots `1`, `2` arrives at the leaf `8` with parent `6` and retainer `105`,
  the leaf holds `{101}`, the parent `6` is not a retainer and holds
  `{102, 105}`, of cardinality `num {101} + 1`; the sharing branch stores the
  set of the parent, which is not `addElement(105, {101}) = {101, 105}`, and
  the member `101` of the old set is lost. -/
theorem C7_sharing_branch_drops_member :
    stShareMid.rs 8 = { set := some [101], low := true } ∧
    stShareMid.flip = true ∧
    isRetainer heapShare 6 = some false ∧
    stShareMid.rs 6 = { set := some [102, 105], low := true } ∧
    isMember 105 [101] = false ∧
    (resolve heapShare stShareMid 8 6 105).1.rs 8 = { set := some [102, 105], low := true } ∧
    addElement 105 [101] = [101, 105] ∧
    isMember 101 [102, 105] = false ∧
    (8, 6, 105) ∈ (retainRoots heapShare 20 (initState true) [1, 2]).trace ∧
    (retainRoots heapShare 20 (initState true) [1, 2]).status = none := by
  decide

/-- C8, as stated, fails for a root that is not a retainer: the constructor `1`
  of `heapRootConstr` is visited as its own parent with the retainer
  `CCS_SYSTEM = 7`; its parent (itself) is not a retainer and holds no set, and
  the closure is associated with `singleton(7)`, not with the set of its
  parent. -/
theorem C8_counterexample :
    readsNull (initState true) 1 = true ∧
    isRetainer heapRootConstr 1 = some false ∧
    (retainerSetOf (maybeInitRetainerSet (initState true) 1) 1).set = none ∧
    ((resolve heapRootConstr (initState true) 1 1 7).1.rs 1).set = some (singleton 7) ∧
    ((retainRoot heapRootConstr 10 (initState true) 1).rs 1).set = some (singleton 7) := by
  decide

/-- C8 (first-visit resolution), amended.  When `retainClosure` resolves a
  closure `c` whose slot reads as uninitialised, with parent `cp` and retainer
  `r`: if `cp` is a retainer, `c` is associated with `singleton(r)`; if `cp` is
  not a retainer, is not `c` itself, and its slot is valid and holds a set, the
  slot of `c` becomes the very word of the slot of `cp` (the identical set
  instance); if `cp` is not a retainer and is `c` itself or holds `NULL`, `c`
  is associated with `singleton(r)`; and whenever `isRetainer(cp)` does not
  abort, `numObjectVisited` is incremented by one (as a 32-bit counter). -/
theorem C8_first_visit_resolution (h : Heap) (st : State) (c cp r : Nat) (hfirst : readsNull st c = true) :
    (isRetainer h cp = some true →
      (resolve h st c cp r).1.rs c = { set := some (singleton r), low := st.flip }) ∧
    (isRetainer h cp = some false → cp ≠ c → isRetainerSetFieldValid st cp = true →
      (st.rs cp).set ≠ none → (resolve h st c cp r).1.rs c = st.rs cp) ∧
    (isRetainer h cp = some false →
      (cp = c ∨ (isRetainerSetFieldValid st cp = true ∧ (st.rs cp).set = none)) →
      (resolve h st c cp r).1.rs c = { set := some (singleton r), low := st.flip }) ∧
    (isRetainer h cp ≠ none →
      (resolve h st c cp r).1.numObjectVisited = natIncr st.numObjectVisited) := by
  refine ⟨?_, ?_, ?_, ?_⟩
  · intro hcp
    rw [resolve_first h st c cp r true hcp hfirst, firstVisit_slot, parentSet_retainer]
    simp [RSWord.isNull]
  · intro hcp hne hv hset
    rw [valid_iff] at hv
    rw [resolve_first h st c cp r false hcp hfirst, firstVisit_slot, parentSet_other]
    have hcp2 : (maybeInitRetainerSet (tick st) c).rs cp = st.rs cp := by
      rw [maybeInit_rs_other _ _ _ hne]; rfl
    simp only [retainerSetOf, hcp2, maybeInit_flip, tick_flip, hv, RSWord.isNull]
    cases hs : (st.rs cp).set with
    | none => exact absurd hs hset
    | some S =>
      simp
      cases hw : st.rs cp with
      | mk set low =>
        rw [hw] at hs hv
        simp at hs hv
        simp [hs, hv]
  · intro hcp hor
    rw [resolve_first h st c cp r false hcp hfirst, firstVisit_slot, parentSet_other]
    have hnull : (retainerSetOf (maybeInitRetainerSet (tick st) c) cp).isNull = true := by
      rcases hor with rfl | ⟨hv, hset⟩
      · rw [maybeInit_tick, retainerSetOf_tick]; exact hfirst
      · rw [valid_iff] at hv
        by_cases hcc : cp = c
        · subst hcc; rw [maybeInit_tick, retainerSetOf_tick]; exact hfirst
        · have hcp2 : (maybeInitRetainerSet (tick st) c).rs cp = st.rs cp := by
            rw [maybeInit_rs_other _ _ _ hcc]; rfl
          simp [retainerSetOf, hcp2, hv, RSWord.isNull, hset]
    rw [if_pos hnull]; simp
  · intro hcp
    cases hb : isRetainer h cp with
    | none => exact absurd hb hcp
    | some b =>
      rw [resolve_first h st c cp r b hb hfirst, firstVisit_nov]; simp

/-- C8, at a concrete input: in the scenario `A -> B -> C, D` the leaf `3` is
  first visited from the constructor `2`; after the pass the slots of `2`, `3`
  and `4` hold the same set `{101}`. -/
theorem C8_first_visit_resolution_witness :
    readsNull stPairMid 3 = true ∧
    (resolve heapPair stPairMid 3 2 101).1.rs 3 = stPairMid.rs 2 ∧
    (retainRoots heapPair 20 (initState true) [1]).rs 2 = { set := some [101], low := true } ∧
    (retainRoots heapPair 20 (initState true) [1]).rs 3 = { set := some [101], low := true } ∧
    (retainRoots heapPair 20 (initState true) [1]).rs 4 = { set := some [101], low := true } :=
  ⟨by decide,
    (C8_first_visit_resolution heapPair stPairMid 3 2 101 (by decide)).2.1
      (by decide) (by decide) (by decide) (by decide),
    by decide, by decide, by decide⟩

/-- C9 (membership stop).  When `retainClosure` arrives at a closure `c` that is
  not pre-filtered, has been visited (valid slot holding `rc`) and whose set
  holds the retainer `r`, the resolution changes nothing but
  `timesAnyObjectVisited` and decides to stop; control goes to the label `loop`
  with the slots and the traverse stack as they were: the slot of `c` is
  unchanged, nothing is pushed and no child of `c` is visited. -/
theorem C9_membership_stop (h : Heap) (fuel : Nat) (st : State) (c cp r : Nat) (b : Bool) (rc : RetainerSet)
    (hst : st.status = none) (hc : c ≠ 0) (hpre : preFilter h c = PreFilter.visit)
    (hcp : isRetainer h cp = some b)
    (hv : isRetainerSetFieldValid st c = true) (hs : (st.rs c).set = some rc)
    (hm : isMember r rc = true) :
    resolve h st c cp r = (tick st, Decision.stop) ∧
    exec h (fuel + 1) (Task.inner c cp r) st =
      exec h fuel Task.loop (tick (logArrival st c cp r)) := by
  have hlow : (st.rs c).low = st.flip := (valid_iff st c).1 hv
  have key : ∀ st1 : State, st1.rs = st.rs → st1.flip = st.flip →
      resolve h st1 c cp r = (tick st1, Decision.stop) := by
    intro st1 h1 h2
    have hv1 : isRetainerSetFieldValid st1 c = true := by rw [valid_iff, h1, h2]; exact hlow
    have hs1 : (st1.rs c).set = some rc := by rw [h1]; exact hs
    have hlow1 : ((tick st1).rs c).low = (tick st1).flip := by
      rw [tick_rs, tick_flip, h1, h2]; exact hlow
    rw [resolve_revisit h st1 c cp r b hcp (readsNull_of_visited st1 c rc hv1 hs1),
      maybeInit_of_valid _ _ hlow1, retainerSetOf_of_valid _ _ hlow1]
    unfold revisit
    simp [RSWord.deref, hs1, hm]
  refine ⟨key st rfl rfl, ?_⟩
  have hk := key (logArrival st c cp r) rfl rfl
  simp only [exec, hc, if_false, hpre, hk]
  simp [tick, hst, logArrival]

/-- C9, at a concrete input: the leaf of `heapTwo`, visited from the retainer
  `1`, is reached from `1` again. -/
theorem C9_membership_stop_witness :
    stTwoOnce.status = none ∧ preFilter heapTwo 3 = PreFilter.visit ∧
    isRetainer heapTwo 1 = some true ∧ isRetainerSetFieldValid stTwoOnce 3 = true ∧
    (stTwoOnce.rs 3).set = some [101] ∧ isMember 101 [101] = true ∧
    resolve heapTwo stTwoOnce 3 1 101 = (tick stTwoOnce, Decision.stop) ∧
    exec heapTwo (4 + 1) (Task.inner 3 1 101) stTwoOnce =
      exec heapTwo 4 Task.loop (tick (logArrival stTwoOnce 3 1 101)) :=
  ⟨by decide, by decide, by decide, by decide, by decide, by decide,
    C9_membership_stop heapTwo 4 stTwoOnce 3 1 101 true [101] (by decide) (by decide)
      (by decide) (by decide) (by decide) (by decide) (by decide)⟩

/-- C10 (order independence for directly retained objects).  Let the closure
  `c` read as uninitialised and be visited from the retainer parents `ps`, each
  with its own identity as the retainer.  The slot of `c` is the same for every
  order of the visits; it holds exactly the set of the identities `R(p)`,
  `p` in `ps`; and one more visit from a parent of `ps` leaves it unchanged. -/
theorem C10_order_independence (h : Heap) (st : State) (c : Nat) (ps ps1 : List Nat)
    (hret : ∀ p ∈ ps, isRetainer h p = some true) (hne : ps ≠ [])
    (hn : readsNull st c = true) (hperm : ps.Perm ps1) :
    (visits h c st ps1).rs c = (visits h c st ps).rs c ∧
    (∃ S, (visits h c st ps).rs c = { set := some S, low := st.flip } ∧
      ∀ r, r ∈ S ↔ ∃ p ∈ ps, getRetainerFrom h p = r) ∧
    (∀ p ∈ ps, (visits h c st (ps ++ [p])).rs c = (visits h c st ps).rs c) := by
  have hret1 : ∀ p ∈ ps1, isRetainer h p = some true :=
    fun p hp => hret p (hperm.mem_iff.2 hp)
  have hne1 : ps1 ≠ [] := by
    intro h0; subst h0; exact hne (List.perm_nil.1 hperm)
  have e := visits_first h c ps st hret hne hn
  have e1 := visits_first h c ps1 st hret1 hne1 hn
  refine ⟨?_, ⟨_, e.1, ?_⟩, ?_⟩
  · rw [e.1, e1.1, setOfList_perm _ _ (hperm.map _)]
  · intro r
    simp only [mem_setOfList, List.mem_map, List.not_mem_nil, false_or]
  · intro p hp
    have hret2 : ∀ q ∈ ps ++ [p], isRetainer h q = some true := by
      intro q hq
      rcases List.mem_append.1 hq with hq | hq
      · exact hret q hq
      · rw [List.mem_singleton.1 hq]; exact hret p hp
    have e2 := visits_first h c (ps ++ [p]) st hret2 (by simp) hn
    rw [e2.1, e.1]
    congr 2
    apply sorted_ext
    · exact setOfList_sorted _ _ List.sorted_nil
    · exact setOfList_sorted _ _ List.sorted_nil
    · intro x
      simp only [mem_setOfList, List.mem_map, List.not_mem_nil, false_or, List.mem_append,
        List.mem_singleton]
      constructor
      · rintro ⟨q, hq | rfl, rfl⟩
        · exact ⟨q, hq, rfl⟩
        · exact ⟨q, hp, rfl⟩
      · rintro ⟨q, hq, rfl⟩
        exact ⟨q, Or.inl hq, rfl⟩

/-- C10, at a concrete input: the retainers `1` and `2` of `heapTwo` both hold
  the leaf `3`. -/
theorem C10_order_independence_witness :
    (∀ p ∈ [1, 2], isRetainer heapTwo p = some true) ∧ [1, 2] ≠ [] ∧
    readsNull (initState true) 3 = true ∧ [1, 2].Perm [2, 1] ∧
    ((visits heapTwo 3 (initState true) [2, 1]).rs 3 =
        (visits heapTwo 3 (initState true) [1, 2]).rs 3 ∧
      (∃ S, (visits heapTwo 3 (initState true) [1, 2]).rs 3 =
          { set := some S, low := (initState true).flip } ∧
        ∀ r, r ∈ S ↔ ∃ p ∈ [1, 2], getRetainerFrom heapTwo p = r) ∧
      (∀ p ∈ [1, 2], (visits heapTwo 3 (initState true) ([1, 2] ++ [p])).rs 3 =
        (visits heapTwo 3 (initState true) [1, 2]).rs 3)) :=
  ⟨by decide, by decide, by decide, List.Perm.swap 2 1 [],
    C10_order_independence heapTwo (initState true) 3 [1, 2] [2, 1] (by decide) (by decide)
      (by decide) (List.Perm.swap 2 1 [])⟩

/-- C12 (retainer revisit).  Let `retainClosure` arrive at a closure `c` that is
  a retainer, is not pre-filtered and has been visited in this pass (valid slot
  holding `rc`), with a retainer `r` that is not in `rc`, from a parent `cp`
  that is a retainer or has a valid slot.  The slot of `c` takes a set `S` that
  is `addElement(r, rc)` or the set of the parent (of cardinality
  `num rc + 1`), the decision is to stop, and control goes to the label `loop`
  with the traverse stack as it was: nothing is pushed for `c` and no child of
  `c` is visited.  The resolution decides to visit the children of a retainer
  only when the retainer has not been visited, and a visited closure stays
  visited for the rest of the pass. -/
theorem C12_retainer_revisit (h : Heap) (fuel : Nat) (st : State) (c cp r : Nat) (b : Bool)
    (rc : RetainerSet) (hst : st.status = none) (hc : c ≠ 0)
    (hpre : preFilter h c = PreFilter.visit)
    (hret : isRetainer h c = some true) (hcp : isRetainer h cp = some b)
    (hpar : b = false → isRetainerSetFieldValid st cp = true)
    (hv : isRetainerSetFieldValid st c = true) (hs : (st.rs c).set = some rc)
    (hm : isMember r rc = false) :
    (∃ S, (S = addElement r rc ∨ (b = false ∧ (st.rs cp).set = some S ∧ num S = num rc + 1)) ∧
      resolve h st c cp r = (associate (tick st) c (ptrTo S), Decision.stop) ∧
      exec h (fuel + 1) (Task.inner c cp r) st =
        exec h fuel Task.loop (associate (tick (logArrival st c cp r)) c (ptrTo S)) ∧
      (associate (tick (logArrival st c cp r)) c (ptrTo S)).stack = st.stack ∧
      (associate (tick (logArrival st c cp r)) c (ptrTo S)).rs c =
        { set := some S, low := st.flip }) ∧
    (∀ (s : State) (cp1 r1 ccr : Nat),
      (resolve h s c cp1 r1).2 = Decision.descend ccr → visited s c = false) ∧
    (∀ (fuel1 : Nat) (t : Task) (s : State),
      visited s c = true → visited (exec h fuel1 t s) c = true) := by
  refine ⟨?_, ?_, ?_⟩
  · obtain ⟨S, hS, hres⟩ := resolve_retainer_revisit h st c cp r b rc hret hcp hpar hv hs hm
    obtain ⟨S1, hS1, hres1⟩ := resolve_retainer_revisit h (logArrival st c cp r) c cp r b rc
      hret hcp hpar hv hs hm
    have e : S1 = S := by
      have h1 := congrArg (fun p => (p.1.rs c).set) hres
      have h2 := congrArg (fun p => (p.1.rs c).set) hres1
      have h3 : ((resolve h (logArrival st c cp r) c cp r).1.rs c).set =
          ((resolve h st c cp r).1.rs c).set := by
        have := resolve_withTrace h st ((c, cp, r) :: st.trace) c cp r
        have e1 : logArrival st c cp r = st.withTrace ((c, cp, r) :: st.trace) := rfl
        rw [e1, this]
        rfl
      simp only [associate, ptrTo, State.setRS, if_true] at h1 h2
      rw [h1, h2] at h3
      exact Option.some.inj h3
    subst e
    refine ⟨S1, hS, hres, ?_, rfl, ?_⟩
    · rw [exec_stop h fuel st c cp r hc hpre (by rw [hres1]; exact hst) (by rw [hres1]), hres1]
    · simp [associate, ptrTo, State.setRS, tick, logArrival]
  · intro s cp1 r1 ccr hd
    rcases resolve_descend_cases h s c cp1 r1 ccr hd with ⟨_, hn, _⟩ | ⟨h1, _⟩
    · exact visited_false_of_readsNull s c hn
    · rw [hret] at h1; cases h1
  · intro fuel1 t s hvis
    exact run_visited (exec_run h fuel1 t s) c hvis

/-- C12, at a concrete input: the cell `3` of `heapCells`, visited from the
  cell `1`, is reached from the cell `2`. -/
theorem C12_retainer_revisit_witness :
    stCellsOnce.status = none ∧ preFilter heapCells 3 = PreFilter.visit ∧
    isRetainer heapCells 3 = some true ∧ isRetainer heapCells 2 = some true ∧
    isRetainerSetFieldValid stCellsOnce 3 = true ∧ (stCellsOnce.rs 3).set = some [101] ∧
    isMember 102 [101] = false ∧
    ∃ S, (S = addElement 102 [101] ∨
        (true = false ∧ (stCellsOnce.rs 2).set = some S ∧ num S = num [101] + 1)) ∧
      resolve heapCells stCellsOnce 3 2 102 = (associate (tick stCellsOnce) 3 (ptrTo S),
        Decision.stop) ∧
      exec heapCells (4 + 1) (Task.inner 3 2 102) stCellsOnce =
        exec heapCells 4 Task.loop (associate (tick (logArrival stCellsOnce 3 2 102)) 3 (ptrTo S)) ∧
      (associate (tick (logArrival stCellsOnce 3 2 102)) 3 (ptrTo S)).stack = stCellsOnce.stack ∧
      (associate (tick (logArrival stCellsOnce 3 2 102)) 3 (ptrTo S)).rs 3 =
        { set := some S, low := stCellsOnce.flip } :=
  ⟨by decide, by decide, by decide, by decide, by decide, by decide, by decide,
    (C12_retainer_revisit heapCells 4 stCellsOnce 3 2 102 true [101] (by decide) (by decide)
      (by decide) (by decide) (by decide) (by decide) (by decide) (by decide) (by decide)).1⟩

/-- C13 (pre-filter skip).  Let `c` be a closure that `retainClosure` skips (a
  finished or killed thread, a `CONSTR_INTLIKE`, `CONSTR_CHARLIKE` or
  `CONSTR_NOCAF_STATIC`, a static thunk or function with `srt_len == 0`).
  Reaching `c`, `retainClosure` goes to the label `loop` in the very state of
  the arrival: the slots, the traverse stack and both counters are as they
  were.  The slot of `c` is written by no step of the engine, and in a traversal
  from an empty traverse stack no closure arrives at `inner_loop` as a child of
  `c`, unless the caller hands `c` over as the parent. -/
theorem C13_prefilter_skip (h : Heap) (c : Nat) (hc : c ≠ 0) (hk : skippedKind h c) :
    (∀ fuel st cp r, retainClosure h (fuel + 1) st c cp r =
        exec h fuel Task.loop (st.withTrace ((c, cp, r) :: st.trace))) ∧
    (∀ fuel t st, (exec h fuel t st).rs c = st.rs c) ∧
    (∀ fuel t st, st.stack = [] → (∀ x ∈ st.trace, x.2.1 ≠ c) →
      (∀ x ∈ arrivalsOf t, x.2.1 ≠ c) → ∀ x ∈ (exec h fuel t st).trace, x.2.1 ≠ c) := by
  have hp := skippedKind_preFilter hk
  have hne : preFilter h c ≠ PreFilter.visit := by rw [hp]; intro e; cases e
  refine ⟨?_, ?_, ?_⟩
  · intro fuel st cp r
    exact exec_skip h fuel st c cp r hc hp
  · intro fuel t st
    exact run_slot_frame (exec_run h fuel t st) c hne
  · intro fuel t st hs htr hx
    exact run_no_parent hne (exec_run h fuel t st) hs htr hx

/-- C13, at a concrete input: the finished thread `1` of `heapDone`, reached as
  a root. -/
theorem C13_prefilter_skip_witness :
    (1 : Nat) ≠ 0 ∧ skippedKind heapDone 1 ∧
    retainClosure heapDone (3 + 1) (initState true) 1 1 101 =
      exec heapDone 3 Task.loop ((initState true).withTrace ((1, 1, 101) :: (initState true).trace)) ∧
    (retainClosure heapDone 4 (initState true) 1 1 101).status = none ∧
    (retainClosure heapDone 4 (initState true) 1 1 101).rs 2 = (initState true).rs 2 ∧
    (retainClosure heapDone 4 (initState true) 1 1 101).numObjectVisited = 0 ∧
    (retainClosure heapDone 4 (initState true) 1 1 101).timesAnyObjectVisited = 0 :=
  ⟨by decide, Or.inl ⟨rfl, Or.inl rfl⟩,
    (C13_prefilter_skip heapDone 1 (by decide) (Or.inl ⟨rfl, Or.inl rfl⟩)).1 3 (initState true)
      1 101,
    by decide, by decide, by decide, by decide⟩

/-- C14, as stated, fails when the transparent closure is handed over as the
  parent: `retainRoot` visits the relocated thread `2` of `heapReloc` as its own
  parent, and its link `3` arrives at `inner_loop` and is visited with the
  parent `2`. -/
theorem C14_counterexample :
    transparentTo heapReloc 2 3 ∧
    (retainRoot heapReloc 10 (initState true) 2).status = none ∧
    (3, 2, 102) ∈ (retainRoot heapReloc 10 (initState true) 2).trace ∧
    visited (retainRoot heapReloc 10 (initState true) 2) 3 = true := by
  refine ⟨Or.inr ⟨rfl, rfl, rfl⟩, ?_, ?_, ?_⟩ <;> decide

/-- C14 (transparent indirections), amended.  Let `i` be an `IND_STATIC` with
  the indirectee `t`, or a relocated thread with the link `t`.  The call
  `retainClosure(i, cp, r)` ends in the state in which `retainClosure(t, cp, r)`
  ends (the latter with the one step less that the former spends on `i`), as
  far as the slots, the traverse stack, the boundary, the counters and the
  outcome go.  The slot of `i` is written by no step of the engine.  In a
  traversal from an empty traverse stack `i` is the parent of no arrival at
  `inner_loop`, unless the caller hands `i` over as the parent. -/
theorem C14_transparent_indirection (h : Heap) (i t : Nat) (hi : i ≠ 0)
    (ht : transparentTo h i t) :
    (∀ fuel st cp r,
      (retainClosure h (fuel + 1) st i cp r).rs = (retainClosure h fuel st t cp r).rs ∧
      (retainClosure h (fuel + 1) st i cp r).stack = (retainClosure h fuel st t cp r).stack ∧
      (retainClosure h (fuel + 1) st i cp r).currentStackBoundary =
        (retainClosure h fuel st t cp r).currentStackBoundary ∧
      (retainClosure h (fuel + 1) st i cp r).numObjectVisited =
        (retainClosure h fuel st t cp r).numObjectVisited ∧
      (retainClosure h (fuel + 1) st i cp r).timesAnyObjectVisited =
        (retainClosure h fuel st t cp r).timesAnyObjectVisited ∧
      (retainClosure h (fuel + 1) st i cp r).status = (retainClosure h fuel st t cp r).status) ∧
    (∀ fuel tk st, (exec h fuel tk st).rs i = st.rs i) ∧
    (∀ fuel tk st, st.stack = [] → (∀ x ∈ st.trace, x.2.1 ≠ i) →
      (∀ x ∈ arrivalsOf tk, x.2.1 ≠ i) → ∀ x ∈ (exec h fuel tk st).trace, x.2.1 ≠ i) := by
  have hp := transparentTo_preFilter ht
  have hne : preFilter h i ≠ PreFilter.visit := by rw [hp]; intro e; cases e
  refine ⟨?_, ?_, ?_⟩
  · intro fuel st cp r
    have e : retainClosure h (fuel + 1) st i cp r =
        exec h fuel (Task.inner t cp r) (logArrival st i cp r) :=
      exec_follow h fuel st i t cp r hi hp
    have hsame : sameButLog (retainClosure h fuel st t cp r)
        (retainClosure h (fuel + 1) st i cp r) := by
      rw [e]
      exact exec_sameButLog h fuel (Task.inner t cp r) st (logArrival st i cp r) rfl
    obtain ⟨_, h2, h3, h4, h5, h6, h7⟩ := hsame.fields
    exact ⟨h2, h3, h4, h5, h6, h7⟩
  · intro fuel tk st
    exact run_slot_frame (exec_run h fuel tk st) i hne
  · intro fuel tk st hs htr hx
    exact run_no_parent hne (exec_run h fuel tk st) hs htr hx

/-- C14, at a concrete input: the static indirection `2` of `heapInd` and its
  indirectee `3`, reached from the cell `1`. -/
theorem C14_transparent_indirection_witness :
    (2 : Nat) ≠ 0 ∧ transparentTo heapInd 2 3 ∧
    (retainClosure heapInd (5 + 1) (initState true) 2 1 101).rs =
      (retainClosure heapInd 5 (initState true) 3 1 101).rs ∧
    (retainClosure heapInd 5 (initState true) 3 1 101).status = none ∧
    ((retainClosure heapInd 5 (initState true) 3 1 101).rs 3).set = some [101] ∧
    (retainClosure heapInd 20 (initState true) 1 1 101).rs 2 = (initState true).rs 2 :=
  ⟨by decide, Or.inl ⟨rfl, rfl⟩,
    ((C14_transparent_indirection heapInd 2 3 (by decide) (Or.inl ⟨rfl, rfl⟩)).1 5
      (initState true) 1 101).1,
    by decide, by decide,
    (C14_transparent_indirection heapInd 2 3 (by decide) (Or.inl ⟨rfl, rfl⟩)).2.1 20
      (Task.inner 1 1 101) (initState true)⟩

/-- C15 (isRetainer classification).  `isRetainer` returns true for a closure
  whose kind is a thread object, a mutable cell, `MVAR`, a thunk kind,
  `THUNK_SELECTOR`, `THUNK_STATIC`, `AP` or `AP_STACK`, and false for a closure
  whose kind is a constructor kind, a plain function kind, `ARR_WORDS`,
  `FOREIGN`, `STABLE_NAME` or `BCO`. -/
theorem C15_isRetainer_classification (h : Heap) (c : Nat) :
    (typeOf h c ∈ statedRetainerKinds → isRetainer h c = some true) ∧
    (typeOf h c ∈ statedNonRetainerKinds → isRetainer h c = some false) :=
  ⟨fun ht => statedRetainer_true _ ht, fun ht => statedNonRetainer_false _ ht⟩

/-- C15, at concrete inputs: the thunk `2` of `heapThunk` and the constructor
  `2` of `heapPair`. -/
theorem C15_isRetainer_classification_witness :
    isRetainer heapThunk 2 = some true ∧ isRetainer heapPair 2 = some false :=
  ⟨(C15_isRetainer_classification heapThunk 2).1 (by decide),
   (C15_isRetainer_classification heapPair 2).2 (by decide)⟩

/-- C16 (partial applications), as stated, fails: on `heapPap` the closure `1`
  is a `PAP` and `isRetainer` returns false for it, while it returns true for the
  `AP` closure `3` and the `AP_STACK` closure `4`. -/
theorem C16_counterexample :
    typeOf heapPap 1 = ClosureType.PAP ∧ isRetainer heapPap 1 = some false ∧
    typeOf heapPap 3 = ClosureType.AP ∧ isRetainer heapPap 3 = some true ∧
    typeOf heapPap 4 = ClosureType.AP_STACK ∧ isRetainer heapPap 4 = some true := by
  decide

/-- C16, amended.  `isRetainer` returns false for a partial application
  (`PAP`), unlike the suspended applications `AP` and `AP_STACK`, for which it
  returns true. -/
theorem C16_pap_not_retainer (h : Heap) (c : Nat) :
    (typeOf h c = ClosureType.PAP → isRetainer h c = some false) ∧
    (typeOf h c = ClosureType.AP ∨ typeOf h c = ClosureType.AP_STACK →
      isRetainer h c = some true) := by
  unfold isRetainer
  constructor
  · intro e; rw [e]; rfl
  · intro e
    rcases e with e | e <;> rw [e] <;> rfl

/-- C16, at concrete inputs: the closures `1`, `3` and `4` of `heapPap`. -/
theorem C16_pap_not_retainer_witness :
    isRetainer heapPap 1 = some false ∧ isRetainer heapPap 3 = some true :=
  ⟨(C16_pap_not_retainer heapPap 1).1 (by decide),
   (C16_pap_not_retainer heapPap 3).2 (Or.inl (by decide))⟩

/-- C17 (classifier errors are fatal).  For a closure whose tag is that of a
  stack activation record, a forwarding or placeholder tag, or a tag outside the
  enumerated cases, `isRetainer` ends in `barf`; `push` ends in `barf`, with no
  element stored; and `pop`, when the topmost element above the boundary is for
  such a closure, ends in `barf`. -/
theorem C17_classifier_errors_fatal (h : Heap) (c : Nat) (ht : typeOf h c ∈ fatalTags) :
    isRetainer h c = none ∧
    (∀ st ccr, (push h st c ccr).st.status = some Fatal.barf_push ∧
      (push h st c ccr).st.stack = st.stack) ∧
    (∀ (se : stackElement) (rest : List stackElement) (b : Nat), se.c = c →
      (se :: rest).length ≠ b →
      (popLoop h b (se :: rest)).err = some Fatal.barf_pop) := by
  refine ⟨fatal_isRetainer _ ht, ?_, ?_⟩
  · intro st ccr
    rw [fatal_push h st c ccr ht]
    exact ⟨rfl, rfl⟩
  · intro se rest b e hb
    subst e
    exact fatal_popLoop h b se rest ht hb

/-- C17, at a concrete input: the closure `0` of `heapThunk`, an
  `INVALID_OBJECT`. -/
theorem C17_classifier_errors_fatal_witness :
    typeOf heapThunk 0 ∈ fatalTags ∧ isRetainer heapThunk 0 = none ∧
    (push heapThunk (initState true) 0 7).st.status = some Fatal.barf_push :=
  ⟨by decide, (C17_classifier_errors_fatal heapThunk 0 (by decide)).1,
   ((C17_classifier_errors_fatal heapThunk 0 (by decide)).2.1 (initState true) 7).1⟩

/-- C18 (child enumeration), as stated, fails in its last part: on `heapCon`
  the constructor `1` has the two pointer fields `2` and `3`; `push` returns `2`
  and stores an element; the next `pop` reports the last child `3` with parent
  `1` and the retainer given to `push`, and the element of `1` is still on the
  stack, with no child left to retrieve. -/
theorem C18_counterexample :
    children heapCon 1 = [2, 3] ∧
    (push heapCon (initState true) 1 7).st.status = none ∧
    (push heapCon (initState true) 1 7).first_child = 2 ∧
    (popLoop heapCon 0 (push heapCon (initState true) 1 7).st.stack).c = 3 ∧
    (popLoop heapCon 0 (push heapCon (initState true) 1 7).st.stack).cp = 1 ∧
    (popLoop heapCon 0 (push heapCon (initState true) 1 7).st.stack).r = 7 ∧
    (popLoop heapCon 0 (push heapCon (initState true) 1 7).st.stack).stack.map
      (fun se => (se.c, pendingOf heapCon se)) = [(1, [])] := by
  decide

/-- C18, amended.  Let `c` be a closure that `push` accepts, with no `NULL`
  child reference and a number of pointer fields that fits the position field.
  Then `first_child` is the first child of `c` (`NULL` when `c` has none); the
  successive calls of `pop`, with the boundary at the depth of the stack before
  the `push`, report the other children of `c`, each once and in order, each with
  `cp = c` and `r` the `c_child_r` given to `push`; and the call that then reports
  `NULL` leaves the stack as it was before the `push`. -/
theorem C18_child_enumeration (h : Heap) (st : State) (c ccr fuel : Nat)
    (hc0 : 0 ∉ children h c) (hpt : (h.get c).ptrs < 2 ^ h.posBits)
    (hok : (push h st c ccr).st.status = none)
    (hfuel : (children h c).length < fuel) :
    (children h c).head? =
      (if (push h st c ccr).first_child = 0 then none
       else some (push h st c ccr).first_child) ∧
    popAll h st.stack.length fuel (push h st c ccr).st.stack =
      ((children h c).tail.map (fun x => (x, c, ccr)), st.stack, none) := by
  obtain ⟨k, rfl⟩ : ∃ k, fuel = k + 1 := ⟨fuel - 1, by omega⟩
  obtain ⟨-, -, -, hcase⟩ := push_cov_at h st c ccr hc0 hpt hok
  obtain ⟨-, -, -, -, hstack, -⟩ := push_ok h st c ccr
  rcases hcase with ⟨hs, hc⟩ | ⟨se, hs, -, hg, hne, hc⟩
  · rw [hs, popAll_boundary, hc]
    split <;> exact ⟨rfl, rfl⟩
  · rcases hstack with he | ⟨info, he, hi⟩
    · rw [he] at hs
      exact absurd hs.symm (cons_ne_stack _ _)
    · have hp := push_posOK h st c ccr se hs
      rw [he] at hs
      have e : se = { c := c, c_child_r := ccr, info := info } := (List.cons.inj hs).1.symm
      subst e
      have hl : (pendingOf h { c := c, c_child_r := ccr, info := info }).length < k + 1 := by
        rw [hc] at hfuel
        simp only [List.length_cons] at hfuel
        omega
      rw [he, popAll_element h st.stack (k + 1) _ hg hp hi hl, hc, if_neg hne]
      exact ⟨rfl, rfl⟩

/-- C18, at a concrete input: the constructor `1` of `heapCon`, with the
  pointer fields `2` and `3`. -/
theorem C18_child_enumeration_witness :
    (push heapCon (initState true) 1 7).first_child = 2 ∧
    popAll heapCon 0 3 (push heapCon (initState true) 1 7).st.stack = ([(3, 1, 7)], [], none) ∧
    (children heapCon 1).head? =
      (if (push heapCon (initState true) 1 7).first_child = 0 then none
       else some (push heapCon (initState true) 1 7).first_child) ∧
    popAll heapCon (initState true).stack.length 3 (push heapCon (initState true) 1 7).st.stack =
      ((children heapCon 1).tail.map (fun x => (x, 1, 7)), (initState true).stack, none) :=
  ⟨by decide, by decide,
   C18_child_enumeration heapCon (initState true) 1 7 3 (by decide) (by decide) (by decide)
     (by decide)⟩

/-- C19 (single-child closures), as the code has it.  On `heapCon` the
  constructor `4`, whose layout gives one pointer field, and the function `5`,
  with one fixed pointer field and an empty SRT, each have exactly one child;
  `push` accepts them and returns that child, and it stores an element for
  each, so that the stack grows by one, where the comment above `push` has
  nothing pushed for a closure with only one child. -/
theorem C19_single_child_closure_is_pushed :
    (children heapCon 4 = [2] ∧
      (push heapCon (initState true) 4 7).st.status = none ∧
      (push heapCon (initState true) 4 7).first_child = 2 ∧
      (initState true).stack.length = 0 ∧
      (push heapCon (initState true) 4 7).st.stack.length = 1) ∧
    (children heapCon 5 = [2] ∧
      (push heapCon (initState true) 5 7).st.status = none ∧
      (push heapCon (initState true) 5 7).first_child = 2 ∧
      (push heapCon (initState true) 5 7).st.stack.length = 1) := by
  decide

/-- C20 (the chunked stack is a LIFO).  Let an element fit into a block group
  (`sizeof(stackElement)` is positive and at most `BLOCK_SIZE_W *
  BLOCKS_IN_STACK` words) and let the allocator hand out block groups that
  overlap no live one.  Run a sequence of pushes and `popOff`s from the state
  after `initializeTraverseStack`, and run it on the abstract list from the
  empty list with push as cons and `popOff` as tail.  If the abstract run never
  pops the empty list and ends in `l`, the chunked run meets no `NULL` pointer,
  and in its final state the elements read from `stackTop` through the block
  groups down to the bottom of the first one are exactly `l`; `stackTop`
  addresses the head of `l`: the element pushed last, or, after its `popOff`,
  the element that was on top before that push. -/
theorem C20_chunked_stack_is_lifo (m : Chunked.Machine) (hsz : 0 < m.sizeofElement)
    (hcap : m.sizeofElement ≤ m.BLOCK_SIZE_W * Chunked.BLOCKS_IN_STACK) (hfresh : m.Fresh)
    (s0 : Chunked.Stack) (ops : List Chunked.StackOp) (l : List stackElement)
    (hl : Chunked.listOps ops [] = some l) :
    ∃ s, Chunked.runOps m ops (Chunked.initializeTraverseStack m s0) = some s ∧
      Chunked.contents m s = some l ∧
      ∀ x rest, l = x :: rest → s.mem s.stackTop = some x := by
  obtain ⟨L0, h0, hl0⟩ := Chunked.rep_init m hcap s0
  obtain ⟨s, L, h1, h2, h3⟩ := Chunked.runOps_rep hsz hcap hfresh ops _ L0 l h0
    (by rw [hl0]; exact hl)
  refine ⟨s, h1, ?_, ?_⟩
  · rw [← h3]; exact h2.contents_eq hsz
  · intro x rest e
    exact h2.top_addressed x rest (by rw [h3, e])

/-- C20, at a concrete input: blocks of five words and elements of two words,
  so that a block group holds two elements; three pushes move to a second
  block group, and the `popOff` returns to the first one. -/
theorem C20_chunked_stack_is_lifo_witness :
    0 < Chunked.machine52.sizeofElement ∧
    Chunked.machine52.sizeofElement ≤
      Chunked.machine52.BLOCK_SIZE_W * Chunked.BLOCKS_IN_STACK ∧
    Chunked.machine52.Fresh ∧
    Chunked.listOps [Chunked.StackOp.push (Chunked.elem 1 101),
      Chunked.StackOp.push (Chunked.elem 2 101), Chunked.StackOp.push (Chunked.elem 3 101),
      Chunked.StackOp.popOff] [] = some [Chunked.elem 2 101, Chunked.elem 1 101] ∧
    ∃ s, Chunked.runOps Chunked.machine52 [Chunked.StackOp.push (Chunked.elem 1 101),
        Chunked.StackOp.push (Chunked.elem 2 101), Chunked.StackOp.push (Chunked.elem 3 101),
        Chunked.StackOp.popOff] (Chunked.initializeTraverseStack Chunked.machine52
          Chunked.stack0) = some s ∧
      Chunked.contents Chunked.machine52 s = some [Chunked.elem 2 101, Chunked.elem 1 101] ∧
      ∀ x rest, [Chunked.elem 2 101, Chunked.elem 1 101] = x :: rest →
        s.mem s.stackTop = some x :=
  ⟨by decide, by decide, Chunked.bump_fresh 5 2, rfl,
    C20_chunked_stack_is_lifo Chunked.machine52 (by decide) (by decide)
      (Chunked.bump_fresh 5 2) Chunked.stack0 _ _ rfl⟩

/-- C24 (nested traversals), evaluated on `heapPapNest`.  In the pass over the
  root `1`, `retain_PAP` is entered for the partial application `3` while the
  element of the constructor `2` is on the stack, above the boundary `0`, with
  the field `5` of `2` yet to retrieve.  The only call `retain_PAP` makes is
  `retainClosure(4, 3, 101)`; it skips the static function `4`, goes to `loop`,
  pops the element of `2` and visits `5` with parent `2`, and returns normally
  with the stack empty: the element that was on the stack when the call was
  entered is gone. -/
theorem C24_nested_call_pops_enclosing_item :
    typeOf heapPapNest 3 = ClosureType.PAP ∧
    retain_PAP heapPapNest 3 101 = [(4, 3, 101)] ∧
    stPapNested.stack.map (fun se => (se.c, pendingOf heapPapNest se)) = [(2, [5])] ∧
    stPapNested.currentStackBoundary = 0 ∧
    stPapNested.trace = [(3, 2, 101), (2, 1, 101), (1, 1, 101)] ∧
    (retainClosure heapPapNest 10 stPapNested 4 3 101).status = none ∧
    (retainClosure heapPapNest 10 stPapNested 4 3 101).stack = [] ∧
    (retainClosure heapPapNest 10 stPapNested 4 3 101).trace =
      [(5, 2, 101), (4, 3, 101), (3, 2, 101), (2, 1, 101), (1, 1, 101)] ∧
    (retainRoots heapPapNest 20 (initState true) [1]).status = none ∧
    (retainRoots heapPapNest 20 (initState true) [1]).trace =
      [(5, 2, 101), (4, 3, 101), (3, 2, 101), (2, 1, 101), (1, 1, 101)] := by
  decide

/-- C25 (small-bitmap walk).  The function `retain_small_bitmap` calls
  `retainClosure` for the slots `i < size` whose bit `i` of `bitmap` is `0`, in
  increasing order of `i`, and for no other slot, each time with the parent `c`
  and the retainer `c_child_r`, and returns `p + size`. -/
theorem C25_small_bitmap_walk (payload : List Nat) (c c_child_r size p bitmap : Nat) :
    (retain_small_bitmap payload c c_child_r size p bitmap).1 =
      smallBitmapCalls payload c c_child_r size p bitmap ∧
    (retain_small_bitmap payload c c_child_r size p bitmap).2 = p + size ∧
    (∀ x ∈ (retain_small_bitmap payload c c_child_r size p bitmap).1,
      x.2 = (c, c_child_r)) := by
  rw [retain_small_bitmap_spec]
  refine ⟨rfl, rfl, ?_⟩
  intro x hx
  unfold smallBitmapCalls at hx
  obtain ⟨i, -, e⟩ := List.mem_map.1 hx
  rw [← e]

/-- C25, at a concrete input: the thread `1` of `heapFrame5` has a small-bitmap
  frame over five slots of which three are live; `retainStack` makes exactly
  three calls, with the thread as parent and its identity as retainer, in slot
  order, and the three slots arrive at `inner_loop` in this order. -/
theorem C25_small_bitmap_walk_witness :
    (retain_small_bitmap [2, 3, 4, 5, 6] 1 101 5 0 10).1 =
      smallBitmapCalls [2, 3, 4, 5, 6] 1 101 5 0 10 ∧
    smallBitmapCalls [2, 3, 4, 5, 6] 1 101 5 0 10 = [(2, 1, 101), (4, 1, 101), (6, 1, 101)] ∧
    (retainStackCalls heapFrame5 1 101 (heapFrame5.get 1).frames).1 =
      [(2, 1, 101), (4, 1, 101), (6, 1, 101)] ∧
    (retainRoots heapFrame5 20 (initState true) [1]).status = none ∧
    (retainRoots heapFrame5 20 (initState true) [1]).trace =
      [(6, 1, 101), (4, 1, 101), (2, 1, 101), (1, 1, 101)] :=
  ⟨(C25_small_bitmap_walk [2, 3, 4, 5, 6] 1 101 5 0 10).1, by decide, by decide, by decide,
    by decide⟩

/-- C26 (marker validity and reset).  A slot is valid iff its low bit equals
  `flip`.  Toggling `flip` writes no slot; a slot that was valid reads as not
  valid afterwards, `maybeInitRetainerSet` resets it to `NULL` tagged with the
  new flip, and the resolution of `retainClosure` at the closure is the branch of
  the first visit; the outcome is the same whatever word, invalid for the new
  flip, the slot holds. -/
theorem C26_marker_validity_reset (h : Heap) (st : State) (c : Nat) :
    (isRetainerSetFieldValid st c = true ↔ (st.rs c).low = st.flip) ∧
    (toggleFlip st).rs = st.rs ∧
    (isRetainerSetFieldValid st c = true →
      isRetainerSetFieldValid (toggleFlip st) c = false ∧
      (maybeInitRetainerSet (toggleFlip st) c).rs c = nullWord (!st.flip) ∧
      (retainerSetOf (maybeInitRetainerSet (toggleFlip st) c) c).isNull = true ∧
      (∀ cp r b, isRetainer h cp = some b →
        resolve h (toggleFlip st) c cp r =
          firstVisit h (maybeInitRetainerSet (tick (toggleFlip st)) c) c r
            (parentSet (maybeInitRetainerSet (tick (toggleFlip st)) c) cp b)) ∧
      (∀ (S : Option RetainerSet) cp r,
        resolve h ((toggleFlip st).setRS c { set := S, low := st.flip }) c cp r =
          resolve h (toggleFlip st) c cp r)) := by
  refine ⟨valid_iff st c, rfl, ?_⟩
  intro hv
  have hlow : (st.rs c).low = st.flip := (valid_iff st c).1 hv
  have hinv : ((toggleFlip st).rs c).low ≠ (toggleFlip st).flip := by
    show (st.rs c).low ≠ !st.flip
    rw [hlow]
    cases st.flip <;> simp
  have hnull : (retainerSetOf (maybeInitRetainerSet (toggleFlip st) c) c).isNull = true := by
    rw [maybeInit_eq, if_neg hinv]
    simp [retainerSetOf, State.setRS, nullWord, RSWord.isNull, toggleFlip]
  refine ⟨?_, ?_, hnull, ?_, ?_⟩
  · cases hx : isRetainerSetFieldValid (toggleFlip st) c with
    | false => rfl
    | true => exact absurd ((valid_iff _ _).1 hx) hinv
  · rw [maybeInit_eq, if_neg hinv]
    simp [State.setRS, toggleFlip]
  · intro cp r b hcp
    exact resolve_first h (toggleFlip st) c cp r b hcp hnull
  · intro S cp r
    have hst : ∀ s : State, resolve h s c cp r =
        (match isRetainer h cp with
          | none => ((maybeInitRetainerSet (tick s) c).fail Fatal.barf_isRetainer, Decision.stop)
          | some b =>
            if (retainerSetOf (maybeInitRetainerSet (tick s) c) c).isNull then
              firstVisit h (maybeInitRetainerSet (tick s) c) c r
                (parentSet (maybeInitRetainerSet (tick s) c) cp b)
            else revisit h (maybeInitRetainerSet (tick s) c) c r
                (parentSet (maybeInitRetainerSet (tick s) c) cp b)
                (retainerSetOf (maybeInitRetainerSet (tick s) c) c)) := fun s => rfl
    have key : maybeInitRetainerSet (tick ((toggleFlip st).setRS c { set := S, low := st.flip })) c
        = maybeInitRetainerSet (tick (toggleFlip st)) c := by
      have e : tick ((toggleFlip st).setRS c { set := S, low := st.flip }) =
          (tick (toggleFlip st)).setRS c { set := S, low := st.flip } := rfl
      rw [e]
      refine maybeInit_setRS_invalid _ c _ ?_ hinv
      show st.flip ≠ !st.flip
      cases st.flip <;> simp
    rw [hst, hst, key]

/-- C26, at a concrete input: the leaf `3` of `heapTwo`, visited in the pass
  with `flip = 1` and holding `{101}`, is reached in the next pass from the
  retainer `2`. -/
theorem C26_marker_validity_reset_witness :
    isRetainerSetFieldValid stTwoOnce 3 = true ∧ (stTwoOnce.rs 3).set = some [101] ∧
    isRetainerSetFieldValid (toggleFlip stTwoOnce) 3 = false ∧
    (maybeInitRetainerSet (toggleFlip stTwoOnce) 3).rs 3 = nullWord (!stTwoOnce.flip) ∧
    ((resolve heapTwo (toggleFlip stTwoOnce) 3 2 102).1.rs 3).set = some [102] :=
  ⟨by decide, by decide,
    ((C26_marker_validity_reset heapTwo stTwoOnce 3).2.2 (by decide)).1,
    ((C26_marker_validity_reset heapTwo stTwoOnce 3).2.2 (by decide)).2.1,
    by decide⟩

/-- C28 (pass set-up).  The head of `retainerProfile` toggles the flip bit once
  and sets both counters to `0`, and writes no slot, pushes nothing and logs no
  arrival; the traversal of the roots starts from that state.  At the end of the
  pass the flip bit is the toggled one, so that two passes in a row restore it;
  a pass that ends normally increments `retainerGeneration` by one, as a 32-bit
  unsigned counter. -/
theorem C28_pass_setup (h : Heap) (fuel : Nat) (roots muts : List Nat) (p : Profiler) :
    ((passSetup p.st).flip = !p.st.flip ∧ (passSetup p.st).numObjectVisited = 0 ∧
      (passSetup p.st).timesAnyObjectVisited = 0 ∧ (passSetup p.st).rs = p.st.rs ∧
      (passSetup p.st).trace = p.st.trace) ∧
    (retainerProfile h fuel roots muts p).st =
      computeRetainerSet h fuel (initializeTraverseStack (passSetup p.st)) roots muts ∧
    (retainerProfile h fuel roots muts p).st.flip = !p.st.flip ∧
    (∀ fuel1 roots1 muts1,
      (retainerProfile h fuel1 roots1 muts1 (retainerProfile h fuel roots muts p)).st.flip =
        p.st.flip) ∧
    ((retainerProfile h fuel roots muts p).st.status = none →
      (retainerProfile h fuel roots muts p).retainerGeneration =
        (p.retainerGeneration + 1) % 2 ^ 32 ∧
      (p.retainerGeneration + 1 < 2 ^ 32 →
        (retainerProfile h fuel roots muts p).retainerGeneration = p.retainerGeneration + 1)) := by
  have hst : (retainerProfile h fuel roots muts p).st =
      computeRetainerSet h fuel (initializeTraverseStack (passSetup p.st)) roots muts := by
    unfold retainerProfile
    dsimp only
    split <;> rfl
  refine ⟨⟨rfl, rfl, rfl, rfl, rfl⟩, hst, retainerProfile_flip h fuel roots muts p, ?_, ?_⟩
  · intro fuel1 roots1 muts1
    rw [retainerProfile_flip, retainerProfile_flip]
    cases p.st.flip <;> rfl
  · intro hok
    have hgen : (retainerProfile h fuel roots muts p).retainerGeneration =
        (p.retainerGeneration + 1) % 2 ^ 32 := by
      rw [hst] at hok
      unfold retainerProfile
      dsimp only
      rw [hok]
      rfl
    refine ⟨hgen, fun hlt => ?_⟩
    rw [hgen, Nat.mod_eq_of_lt hlt]

/-- C28, at a concrete input: a pass over `heapPair` with the root `1`, from a
  state with `flip = 0` and counters left over from the pass before. -/
theorem C28_pass_setup_witness :
    (retainerProfile heapPair 20 [1] []
      { st := { initState false with numObjectVisited := 55, timesAnyObjectVisited := 77 },
        retainerGeneration := 4 }).st.status = none ∧
    (retainerProfile heapPair 20 [1] []
      { st := { initState false with numObjectVisited := 55, timesAnyObjectVisited := 77 },
        retainerGeneration := 4 }).st.flip = true ∧
    (retainerProfile heapPair 20 [1] []
      { st := { initState false with numObjectVisited := 55, timesAnyObjectVisited := 77 },
        retainerGeneration := 4 }).st.numObjectVisited = 4 ∧
    (retainerProfile heapPair 20 [1] []
      { st := { initState false with numObjectVisited := 55, timesAnyObjectVisited := 77 },
        retainerGeneration := 4 }).retainerGeneration = 4 + 1 :=
  ⟨by decide, by decide, by decide,
    ((C28_pass_setup heapPair 20 [1] []
      { st := { initState false with numObjectVisited := 55, timesAnyObjectVisited := 77 },
        retainerGeneration := 4 }).2.2.2.2 (by decide)).2 (by decide)⟩

/-- C29 (root context), as stated, fails for a root that is not a retainer:
  the constructor `1` of `heapRootConstr` has the identity `R(1) = 101`, and
  `retainRoot` starts the traversal as `retainClosure(1, 1, CCS_SYSTEM)` with
  `CCS_SYSTEM = 7`; the root ends with the set `{7}`. -/
theorem C29_counterexample :
    isRetainer heapRootConstr 1 = some false ∧
    getRetainerFrom heapRootConstr 1 = 101 ∧ heapRootConstr.CCS_SYSTEM = 7 ∧
    (retainRoot heapRootConstr 10 (initState true) 1).status = none ∧
    (retainRoot heapRootConstr 10 (initState true) 1).trace = [(2, 1, 7), (1, 1, 7)] ∧
    ((retainRoot heapRootConstr 10 (initState true) 1).rs 1).set = some [7] := by
  decide

/-- C29, amended.  The function `retainRoot` sets the boundary to the top of
  the stack and starts the traversal of the root `t` with the root as its own
  parent: as `retainClosure(t, t, R(t))` if `t` is a retainer, and as
  `retainClosure(t, t, CCS_SYSTEM)` if `t` is not.  With fuel for one step the
  arrival of the root with this parent and this retainer is in the log. -/
theorem C29_root_context (h : Heap) (fuel : Nat) (st : State) (t : Nat) :
    (isRetainer h t = some true →
      retainRoot h fuel st t =
        retainClosure h fuel { st with currentStackBoundary := st.stack.length } t t
          (getRetainerFrom h t) ∧
      (t, t, getRetainerFrom h t) ∈ (retainRoot h (fuel + 1) st t).trace) ∧
    (isRetainer h t = some false →
      retainRoot h fuel st t =
        retainClosure h fuel { st with currentStackBoundary := st.stack.length } t t
          h.CCS_SYSTEM ∧
      (t, t, h.CCS_SYSTEM) ∈ (retainRoot h (fuel + 1) st t).trace) := by
  have hlog : ∀ (s : State) (r : Nat), (t, t, r) ∈ (retainClosure h (fuel + 1) s t t r).trace := by
    intro s r
    have e : retainClosure h (fuel + 1) s t t r =
        (if t = 0 then (logArrival s t t r).fail Fatal.undefined_read
        else
          match preFilter h t with
          | PreFilter.skip => exec h fuel Task.loop (logArrival s t t r)
          | PreFilter.follow c1 => exec h fuel (Task.inner c1 t r) (logArrival s t t r)
          | PreFilter.visit => exec h (fuel + 1) (Task.inner t t r) s) := by
      unfold retainClosure
      split
      · rename_i h0; simp only [exec, h0, if_true]
      · rename_i h0
        split
        · rename_i hp; simp only [exec, if_neg h0, hp]
        · rename_i c1 hp; simp only [exec, if_neg h0, hp]
        · rfl
    by_cases h0 : t = 0
    · unfold retainClosure
      simp only [exec, h0, if_true]
      exact List.mem_cons_self _ _
    · have hin : (t, t, r) ∈ (logArrival s t t r).trace := List.mem_cons_self _ _
      cases hp : preFilter h t with
      | skip =>
        rw [e, if_neg h0, hp]
        exact run_trace_mono (exec_run h fuel _ _) _ hin
      | follow c1 =>
        rw [e, if_neg h0, hp]
        exact run_trace_mono (exec_run h fuel _ _) _ hin
      | visit =>
        unfold retainClosure
        simp only [exec, if_neg h0, hp]
        have hres : (t, t, r) ∈ (resolve h (logArrival s t t r) t t r).1.trace := by
          rw [(resolve_frame h _ t t r).2.2.2.1]; exact hin
        split
        · exact hres
        · split
          · exact run_trace_mono (exec_run h fuel _ _) _ hres
          · have hmono : ∀ (tk : Task) (s1 : State), (t, t, r) ∈ s1.trace →
                (t, t, r) ∈ (exec h fuel tk s1).trace :=
              fun tk s1 hs1 => run_trace_mono (exec_run h fuel tk s1) _ hs1
            have hand : ∀ (s1 : State) (k : State → State), (t, t, r) ∈ s1.trace →
                (∀ s2, (t, t, r) ∈ s2.trace → (t, t, r) ∈ (k s2).trace) →
                (t, t, r) ∈ (s1.andThen k).trace := by
              intro s1 k hs1 hk
              unfold State.andThen
              split
              · exact hs1
              · exact hk s1 hs1
            split
            · exact hand _ _ (hmono _ _ hres) (fun s2 hs2 => hmono _ _ hs2)
            · exact hand _ _ (hmono _ _ hres) (fun s2 hs2 => hmono _ _ hs2)
            · exact hand _ _ (hmono _ _ hres) (fun s2 hs2 => hmono _ _ hs2)
            · exact hand _ _ (hand _ _ (hmono _ _ hres) (fun s2 hs2 => hmono _ _ hs2))
                (fun s2 hs2 => hmono _ _ hs2)
            · have hpush : ∀ ccr, (t, t, r) ∈
                  (push h (resolve h (logArrival s t t r) t t r).1 t ccr).st.trace := by
                intro ccr
                rw [(push_ok h _ t ccr).2.2.2.1]; exact hres
              split
              · exact hpush _
              · split
                · exact hmono _ _ (hpush _)
                · exact hmono _ _ (hpush _)
  refine ⟨?_, ?_⟩
  · intro hr
    refine ⟨by simp only [retainRoot, hr], ?_⟩
    simp only [retainRoot, hr]
    exact hlog _ _
  · intro hr
    refine ⟨by simp only [retainRoot, hr], ?_⟩
    simp only [retainRoot, hr]
    exact hlog _ _

/-- C29, at concrete inputs: the mutable cell `1` of `heapPair`, a retainer, and
  the constructor `1` of `heapRootConstr`, which is not one. -/
theorem C29_root_context_witness :
    (1, 1, 101) ∈ (retainRoot heapPair (9 + 1) (initState true) 1).trace ∧
    (1, 1, 7) ∈ (retainRoot heapRootConstr (9 + 1) (initState true) 1).trace :=
  ⟨((C29_root_context heapPair 9 (initState true) 1).1 (by decide)).2,
    ((C29_root_context heapRootConstr 9 (initState true) 1).2 (by decide)).2⟩

/-- C30 (loop invariant on the propagated retainer), evaluated on
  `heapOnlyParent`.  The pass over the root `1` arrives at `inner_loop` with
  `(c, cp, r) = (9, 2, 101)`, popped from the element pushed at the first visit
  of `2`.  The parent `2` is not a retainer, `9` is not a root, the slot of `2`
  is valid and holds `{104, 107}`, the set of `8` taken over at the revisit of
  `2` with the retainer `107`; the retainer `101` is not a member of it. -/
theorem C30_propagated_retainer_not_in_parent_set :
    isRetainer heapOnlyParent 2 = some false ∧
    stOnlyMid.flip = true ∧
    stOnlyMid.rs 2 = { set := some [104, 107], low := true } ∧
    isMember 101 [104, 107] = false ∧
    stOnlyMid.stack = [] ∧
    (retainRoots heapOnlyParent 19 (initState true) [1]).trace =
      (9, 2, 101) :: stOnlyMid.trace ∧
    (retainRoots heapOnlyParent 20 (initState true) [1]).status = none ∧
    (9, 2, 101) ∈ (retainRoots heapOnlyParent 20 (initState true) [1]).trace ∧
    (2, 8, 107) ∈ stOnlyMid.trace := by
  decide

/-- C21 (emptiness test).  Let an element fit into a block group and let the
  allocator hand out block groups that overlap no live one.  The test
  `isEmptyRetainerStack` is true in the state after `initializeTraverseStack`.
  After a sequence of pushes and `popOff`s from that state that never pops the
  empty stack, the test is true if and only if the list of the elements on the
  stack is empty, and if and only if the sequence has as many `popOff`s as
  pushes, whatever block groups the pushes have moved to. -/
theorem C21_emptiness_test (m : Chunked.Machine) (hsz : 0 < m.sizeofElement)
    (hcap : m.sizeofElement ≤ m.BLOCK_SIZE_W * Chunked.BLOCKS_IN_STACK) (hfresh : m.Fresh)
    (s0 : Chunked.Stack) (ops : List Chunked.StackOp) (l : List stackElement)
    (hl : Chunked.listOps ops [] = some l) :
    Chunked.isEmptyRetainerStack (Chunked.initializeTraverseStack m s0) = true ∧
    ∃ s, Chunked.runOps m ops (Chunked.initializeTraverseStack m s0) = some s ∧
      (Chunked.isEmptyRetainerStack s = true ↔ l = []) ∧
      (Chunked.isEmptyRetainerStack s = true ↔ Chunked.pops ops = Chunked.pushes ops) := by
  obtain ⟨L0, h0, hl0⟩ := Chunked.rep_init m hcap s0
  obtain ⟨s, L, h1, h2, h3⟩ := Chunked.runOps_rep hsz hcap hfresh ops _ L0 l h0
    (by rw [hl0]; exact hl)
  have hc := Chunked.listOps_count ops [] l hl
  have he := h2.empty_iff hsz
  rw [h3] at he
  refine ⟨(h0.empty_iff hsz).2 hl0, s, h1, he, he.trans ?_⟩
  simp only [List.length_nil, Nat.zero_add] at hc
  constructor
  · intro e
    rw [e] at hc
    simpa using hc
  · intro e
    rw [e] at hc
    exact List.length_eq_zero.1 (by omega)

/-- C21, at a concrete input: blocks of five words and elements of two words,
  so that a block group holds two elements; three pushes move to a second
  block group, three `popOff`s empty the stack, and the second block group is
  still linked to the first one. -/
theorem C21_emptiness_test_witness :
    0 < Chunked.machine52.sizeofElement ∧
    Chunked.machine52.sizeofElement ≤
      Chunked.machine52.BLOCK_SIZE_W * Chunked.BLOCKS_IN_STACK ∧
    Chunked.machine52.Fresh ∧
    Chunked.listOps [Chunked.StackOp.push (Chunked.elem 1 101),
      Chunked.StackOp.push (Chunked.elem 2 101), Chunked.StackOp.push (Chunked.elem 3 101),
      Chunked.StackOp.popOff, Chunked.StackOp.popOff, Chunked.StackOp.popOff] [] = some [] ∧
    (Chunked.runOps Chunked.machine52 [Chunked.StackOp.push (Chunked.elem 1 101),
        Chunked.StackOp.push (Chunked.elem 2 101), Chunked.StackOp.push (Chunked.elem 3 101),
        Chunked.StackOp.popOff, Chunked.StackOp.popOff, Chunked.StackOp.popOff]
        (Chunked.initializeTraverseStack Chunked.machine52 Chunked.stack0)).map
      (fun s => (Chunked.isEmptyRetainerStack s, Chunked.linkedChunks s)) =
      some (true, some [0, 1]) ∧
    (Chunked.runOps Chunked.machine52 [Chunked.StackOp.push (Chunked.elem 1 101),
        Chunked.StackOp.push (Chunked.elem 2 101), Chunked.StackOp.push (Chunked.elem 3 101),
        Chunked.StackOp.popOff, Chunked.StackOp.popOff]
        (Chunked.initializeTraverseStack Chunked.machine52 Chunked.stack0)).map
      (fun s => (Chunked.isEmptyRetainerStack s, Chunked.linkedChunks s)) =
      some (false, some [0, 1]) ∧
    Chunked.isEmptyRetainerStack
      (Chunked.initializeTraverseStack Chunked.machine52 Chunked.stack0) = true ∧
    ∃ s, Chunked.runOps Chunked.machine52 [Chunked.StackOp.push (Chunked.elem 1 101),
        Chunked.StackOp.push (Chunked.elem 2 101), Chunked.StackOp.push (Chunked.elem 3 101),
        Chunked.StackOp.popOff, Chunked.StackOp.popOff, Chunked.StackOp.popOff]
        (Chunked.initializeTraverseStack Chunked.machine52 Chunked.stack0) = some s ∧
      (Chunked.isEmptyRetainerStack s = true ↔ ([] : List stackElement) = []) ∧
      (Chunked.isEmptyRetainerStack s = true ↔
        Chunked.pops [Chunked.StackOp.push (Chunked.elem 1 101),
          Chunked.StackOp.push (Chunked.elem 2 101), Chunked.StackOp.push (Chunked.elem 3 101),
          Chunked.StackOp.popOff, Chunked.StackOp.popOff, Chunked.StackOp.popOff] =
        Chunked.pushes [Chunked.StackOp.push (Chunked.elem 1 101),
          Chunked.StackOp.push (Chunked.elem 2 101), Chunked.StackOp.push (Chunked.elem 3 101),
          Chunked.StackOp.popOff, Chunked.StackOp.popOff, Chunked.StackOp.popOff]) :=
  ⟨by decide, by decide, Chunked.bump_fresh 5 2, rfl, by decide, by decide,
    C21_emptiness_test Chunked.machine52 (by decide) (by decide)
      (Chunked.bump_fresh 5 2) Chunked.stack0 _ _ rfl⟩

/-- C22 (chunk retention and reuse).  Let an element fit into a block group and
  let the allocator hand out block groups that overlap no live one.  In the
  state `s` after a sequence of pushes and `popOff`s from the state after
  `initializeTraverseStack` that never pops the empty stack: the chain of
  `link` from `firstStack` is a list `ch` of descriptors handed out and not
  freed, and `retainerStackBlocks` is the sum of their sizes.  After any
  further such sequence the chain begins with `ch` (no block group has been
  unlinked), none of its block groups is freed, and `retainerStackBlocks` is
  not smaller.  A push in `s` hands out a descriptor exactly when the current
  block group is full and its `link` is `NULL`; when the current block group is
  full and its `link` is not `NULL` the push moves to the block group of the
  `link`, and otherwise it stays in the current one.  After
  `closeTraverseStack`, `firstStack` is `NULL`, `retainerStackBlocks` is `0`
  and every block group of `ch` is freed. -/
theorem C22_chunk_retention_reuse (m : Chunked.Machine) (hsz : 0 < m.sizeofElement)
    (hcap : m.sizeofElement ≤ m.BLOCK_SIZE_W * Chunked.BLOCKS_IN_STACK) (hfresh : m.Fresh)
    (s0 : Chunked.Stack) (ops : List Chunked.StackOp) (l : List stackElement)
    (hl : Chunked.listOps ops [] = some l) :
    ∃ s ch, Chunked.runOps m ops (Chunked.initializeTraverseStack m s0) = some s ∧
      Chunked.linkedChunks s = some ch ∧
      (∀ i ∈ ch, i < s.allocated ∧ i ∉ s.freed) ∧
      Chunked.retainerStackBlocks s = some (ch.map (fun i => (s.bd i).blocks)).sum ∧
      (∀ ops2 l2, Chunked.listOps ops2 l = some l2 →
        ∃ s2 ch2 n n2, Chunked.runOps m ops2 s = some s2 ∧
          Chunked.linkedChunks s2 = some ch2 ∧ ch <+: ch2 ∧
          (∀ i ∈ ch2, i < s2.allocated ∧ i ∉ s2.freed) ∧
          Chunked.retainerStackBlocks s = some n ∧
          Chunked.retainerStackBlocks s2 = some n2 ∧ n ≤ n2) ∧
      (∀ se, ∃ cur s1, s.currentStack = some cur ∧ Chunked.pushElement m s se = some s1 ∧
        s1.allocated =
          (if s.stackTop < s.stackBottom + m.sizeofElement ∧ (s.bd cur).link = none
            then s.allocated + 1 else s.allocated) ∧
        s1.currentStack =
          (if s.stackTop < s.stackBottom + m.sizeofElement then
            (match (s.bd cur).link with
              | none => some s.allocated
              | some n => some n)
          else some cur)) ∧
      (Chunked.closeTraverseStack s).firstStack = none ∧
      Chunked.retainerStackBlocks (Chunked.closeTraverseStack s) = some 0 ∧
      ∀ i ∈ ch, i ∈ (Chunked.closeTraverseStack s).freed := by
  obtain ⟨L0, h0, hl0⟩ := Chunked.rep_init m hcap s0
  obtain ⟨s, L, h1, h2, h3⟩ := Chunked.runOps_rep hsz hcap hfresh ops _ L0 l h0
    (by rw [hl0]; exact hl)
  obtain ⟨w1, w2⟩ := h2.walks
  obtain ⟨c1, c2, c3⟩ := h2.close
  refine ⟨s, L.chain, h1, w1, fun i hi => ⟨(h2.hbound i hi).1, (h2.hbound i hi).2.1⟩, w2,
    ?_, ?_, c1, c2, c3⟩
  · intro ops2 l2 hl2
    obtain ⟨s2, L2, k1, k2, _, k4, k5, _⟩ := Chunked.runOps_keep hsz hcap hfresh ops2 s L l2 h2
      (by rw [h3]; exact hl2)
    obtain ⟨v1, v2⟩ := k2.walks
    exact ⟨s2, L2.chain, _, _, k1, v1, k4,
      fun i hi => ⟨(k2.hbound i hi).1, (k2.hbound i hi).2.1⟩, w2, v2,
      Chunked.sum_prefix_le _ _ _ _ k4 k5⟩
  · intro se
    obtain ⟨s1, p1, p2, p3⟩ := Chunked.pushElement_step m s se L.cur h2.hcur
    exact ⟨L.cur, s1, h2.hcur, p1, p2, p3⟩

/-- C22, at a concrete input: blocks of five words and elements of two words,
  so that a block group holds two elements.  The third push hands out a second
  block group; after two `popOff`s both are still linked, and two further pushes
  move to the second block group again without a new descriptor. -/
theorem C22_chunk_retention_reuse_witness :
    0 < Chunked.machine52.sizeofElement ∧
    Chunked.machine52.sizeofElement ≤
      Chunked.machine52.BLOCK_SIZE_W * Chunked.BLOCKS_IN_STACK ∧
    Chunked.machine52.Fresh ∧
    Chunked.listOps Chunked.opsSpill [] = some [Chunked.elem 1 101] ∧
    Chunked.retainerStackBlocks
      (Chunked.initializeTraverseStack Chunked.machine52 Chunked.stack0) = some 1 ∧
    (Chunked.runOps Chunked.machine52 Chunked.opsSpill
        (Chunked.initializeTraverseStack Chunked.machine52 Chunked.stack0)).map
      (fun s => (Chunked.linkedChunks s, Chunked.retainerStackBlocks s, s.allocated, s.freed,
        s.currentStack)) = some (some [0, 1], some 2, 2, [], some 0) ∧
    (Chunked.runOps Chunked.machine52
        (Chunked.opsSpill ++ [Chunked.StackOp.push (Chunked.elem 4 101),
          Chunked.StackOp.push (Chunked.elem 5 101)])
        (Chunked.initializeTraverseStack Chunked.machine52 Chunked.stack0)).map
      (fun s => (Chunked.linkedChunks s, Chunked.retainerStackBlocks s, s.allocated, s.freed,
        s.currentStack)) = some (some [0, 1], some 2, 2, [], some 1) ∧
    (Chunked.runOps Chunked.machine52 Chunked.opsSpill
        (Chunked.initializeTraverseStack Chunked.machine52 Chunked.stack0)).map
      (fun s => ((Chunked.closeTraverseStack s).firstStack,
        Chunked.retainerStackBlocks (Chunked.closeTraverseStack s),
        (Chunked.closeTraverseStack s).freed)) = some (none, some 0, [1, 0]) ∧
    ∃ s ch, Chunked.runOps Chunked.machine52 Chunked.opsSpill
        (Chunked.initializeTraverseStack Chunked.machine52 Chunked.stack0) = some s ∧
      Chunked.linkedChunks s = some ch ∧
      (∀ i ∈ ch, i < s.allocated ∧ i ∉ s.freed) ∧
      Chunked.retainerStackBlocks s = some (ch.map (fun i => (s.bd i).blocks)).sum ∧
      (∀ ops2 l2, Chunked.listOps ops2 [Chunked.elem 1 101] = some l2 →
        ∃ s2 ch2 n n2, Chunked.runOps Chunked.machine52 ops2 s = some s2 ∧
          Chunked.linkedChunks s2 = some ch2 ∧ ch <+: ch2 ∧
          (∀ i ∈ ch2, i < s2.allocated ∧ i ∉ s2.freed) ∧
          Chunked.retainerStackBlocks s = some n ∧
          Chunked.retainerStackBlocks s2 = some n2 ∧ n ≤ n2) ∧
      (∀ se, ∃ cur s1, s.currentStack = some cur ∧
        Chunked.pushElement Chunked.machine52 s se = some s1 ∧
        s1.allocated =
          (if s.stackTop < s.stackBottom + Chunked.machine52.sizeofElement ∧
              (s.bd cur).link = none
            then s.allocated + 1 else s.allocated) ∧
        s1.currentStack =
          (if s.stackTop < s.stackBottom + Chunked.machine52.sizeofElement then
            (match (s.bd cur).link with
              | none => some s.allocated
              | some n => some n)
          else some cur)) ∧
      (Chunked.closeTraverseStack s).firstStack = none ∧
      Chunked.retainerStackBlocks (Chunked.closeTraverseStack s) = some 0 ∧
      ∀ i ∈ ch, i ∈ (Chunked.closeTraverseStack s).freed :=
  ⟨by decide, by decide, Chunked.bump_fresh 5 2, rfl, by decide, by decide, by decide,
    by decide,
    C22_chunk_retention_reuse Chunked.machine52 (by decide) (by decide)
      (Chunked.bump_fresh 5 2) Chunked.stack0 Chunked.opsSpill _ rfl⟩

/-- C27 (determinism across passes).  For a heap, a list of roots and a list
  of objects on the mutable lists, in this order, and an amount of fuel:
  first, `computeRetainerSet` run from two states in which no slot is valid,
  with an empty traverse stack, the same counters and the same outcome so far,
  whatever their flip bits and whatever the contents of their slots, ends with
  the same outcome and the same number of objects visited, the same slots are
  valid, and every closure has the same computed retainer set.  Second, for two
  consecutive calls of `retainerProfile`, the first from static variables in
  which every slot carries the marker of the flip bit, both ending normally:
  every closure whose slot is valid after the first pass has a valid slot with
  the same retainer set after the second pass, and the second pass visits the
  same number of objects. -/
theorem C27_determinism_across_passes (h : Heap) (fuel : Nat) (roots muts : List Nat) :
    (∀ st st1 : State,
      (∀ c, isRetainerSetFieldValid st c = false) →
      (∀ c, isRetainerSetFieldValid st1 c = false) →
      st.stack = [] → st1.stack = [] →
      st1.numObjectVisited = st.numObjectVisited →
      st1.timesAnyObjectVisited = st.timesAnyObjectVisited →
      st1.status = st.status →
      (computeRetainerSet h fuel st1 roots muts).status =
        (computeRetainerSet h fuel st roots muts).status ∧
      (computeRetainerSet h fuel st1 roots muts).numObjectVisited =
        (computeRetainerSet h fuel st roots muts).numObjectVisited ∧
      ∀ c, isRetainerSetFieldValid (computeRetainerSet h fuel st1 roots muts) c =
          isRetainerSetFieldValid (computeRetainerSet h fuel st roots muts) c ∧
        computedSet (computeRetainerSet h fuel st1 roots muts) c =
          computedSet (computeRetainerSet h fuel st roots muts) c) ∧
    (∀ p : Profiler,
      (∀ c, (p.st.rs c).low = p.st.flip) → p.st.status = none →
      (retainerProfile h fuel roots muts p).st.status = none →
      (retainerProfile h fuel roots muts (retainerProfile h fuel roots muts p)).st.status = none ∧
      (retainerProfile h fuel roots muts
          (retainerProfile h fuel roots muts p)).st.numObjectVisited =
        (retainerProfile h fuel roots muts p).st.numObjectVisited ∧
      ∀ c, isRetainerSetFieldValid (retainerProfile h fuel roots muts p).st c = true →
        isRetainerSetFieldValid
          (retainerProfile h fuel roots muts (retainerProfile h fuel roots muts p)).st c = true ∧
        computedSet (retainerProfile h fuel roots muts (retainerProfile h fuel roots muts p)).st c
          = computedSet (retainerProfile h fuel roots muts p).st c) := by
  constructor
  · intro st st1 hf hf1 hs hs1 hn ht hst
    obtain ⟨a1, a2, -, a4⟩ := computeRetainerSet_agree h fuel roots muts st st1 hf
      (fun c _ => hf1 c) hs hs1 hn ht hst
    obtain ⟨-, -, -, b4⟩ := computeRetainerSet_agree h fuel roots muts st1 st hf1
      (fun c _ => hf c) hs1 hs hn.symm ht.symm hst.symm
    refine ⟨a1, a2, ?_⟩
    intro c
    cases hv : isRetainerSetFieldValid (computeRetainerSet h fuel st roots muts) c with
    | true =>
      obtain ⟨v1, v2⟩ := a4 c hv
      refine ⟨v1, ?_⟩
      unfold computedSet
      rw [v1, hv, v2]
    | false =>
      cases hv1 : isRetainerSetFieldValid (computeRetainerSet h fuel st1 roots muts) c with
      | true =>
        rw [(b4 c hv1).1] at hv
        cases hv
      | false =>
        refine ⟨rfl, ?_⟩
        unfold computedSet
        rw [hv, hv1]
        rfl
  · intro p hall hst hst1
    have e : ∀ q : Profiler, (retainerProfile h fuel roots muts q).st =
        computeRetainerSet h fuel (initializeTraverseStack (passSetup q.st)) roots muts := by
      intro q
      unfold retainerProfile
      dsimp only
      split <;> rfl
    rw [e (retainerProfile h fuel roots muts p)]
    rw [e p] at hst1 ⊢
    have hfresh : ∀ c, isRetainerSetFieldValid (initializeTraverseStack (passSetup p.st)) c
        = false := by
      intro c
      have := hall c
      show (xor (p.st.rs c).low (!p.st.flip) == false) = false
      rw [this]
      cases p.st.flip <;> rfl
    have hfree : ∀ c, isRetainerSetFieldValid
        (computeRetainerSet h fuel (initializeTraverseStack (passSetup p.st)) roots muts) c = true →
        isRetainerSetFieldValid (initializeTraverseStack (passSetup
          (computeRetainerSet h fuel (initializeTraverseStack (passSetup p.st)) roots muts))) c
          = false := by
      intro c hc
      have := (valid_iff _ c).1 hc
      show (xor ((computeRetainerSet h fuel (initializeTraverseStack (passSetup p.st))
        roots muts).rs c).low (!(computeRetainerSet h fuel (initializeTraverseStack
          (passSetup p.st)) roots muts).flip) == false) = false
      rw [this]
      cases (computeRetainerSet h fuel (initializeTraverseStack (passSetup p.st))
        roots muts).flip <;> rfl
    obtain ⟨a1, a2, -, a4⟩ := computeRetainerSet_agree h fuel roots muts
      (initializeTraverseStack (passSetup p.st))
      (initializeTraverseStack (passSetup
        (computeRetainerSet h fuel (initializeTraverseStack (passSetup p.st)) roots muts)))
      hfresh hfree rfl rfl rfl rfl (hst1.trans hst.symm)
    refine ⟨a1.trans hst1, a2, ?_⟩
    intro c hc
    obtain ⟨v1, v2⟩ := a4 c hc
    refine ⟨v1, ?_⟩
    unfold computedSet
    rw [v1, hc, v2]

/-- C27, at concrete inputs: the pass over `heapOnlyParent` with the root `1`,
  from the state `initState true` (flip bit `1`, slots with the marker `0` and
  no set) and from `staleState` (flip bit `0`, slots with the marker `1` and a
  stale set); and two consecutive passes from `profiler0`. -/
theorem C27_determinism_across_passes_witness :
    (∀ c, isRetainerSetFieldValid (initState true) c = false) ∧
    (∀ c, isRetainerSetFieldValid staleState c = false) ∧
    (computeRetainerSet heapOnlyParent 20 (initState true) [1] [3]).status = none ∧
    computedSet (computeRetainerSet heapOnlyParent 20 (initState true) [1] [3]) 9 =
      some [101, 104, 107] ∧
    computedSet (computeRetainerSet heapOnlyParent 20 staleState [1] [3]) 9 =
      some [101, 104, 107] ∧
    (∀ c, isRetainerSetFieldValid (computeRetainerSet heapOnlyParent 20 staleState [1] [3]) c =
        isRetainerSetFieldValid (computeRetainerSet heapOnlyParent 20 (initState true) [1] [3]) c ∧
      computedSet (computeRetainerSet heapOnlyParent 20 staleState [1] [3]) c =
        computedSet (computeRetainerSet heapOnlyParent 20 (initState true) [1] [3]) c) ∧
    (∀ c, (profiler0.st.rs c).low = profiler0.st.flip) ∧
    (retainerProfile heapOnlyParent 20 [1] [3] profiler0).st.status = none ∧
    (retainerProfile heapOnlyParent 20 [1] [3] profiler0).st.flip = true ∧
    (retainerProfile heapOnlyParent 20 [1] [3]
      (retainerProfile heapOnlyParent 20 [1] [3] profiler0)).st.flip = false ∧
    ∀ c, isRetainerSetFieldValid (retainerProfile heapOnlyParent 20 [1] [3] profiler0).st c
        = true →
      computedSet (retainerProfile heapOnlyParent 20 [1] [3]
          (retainerProfile heapOnlyParent 20 [1] [3] profiler0)).st c =
        computedSet (retainerProfile heapOnlyParent 20 [1] [3] profiler0).st c :=
  ⟨fun _ => rfl, fun _ => rfl, by decide, by decide, by decide,
    ((C27_determinism_across_passes heapOnlyParent 20 [1] [3]).1 (initState true) staleState
      (fun _ => rfl) (fun _ => rfl) rfl rfl rfl rfl rfl).2.2,
    fun _ => rfl, by decide, by decide, by decide,
    fun c hc => (((C27_determinism_across_passes heapOnlyParent 20 [1] [3]).2 profiler0
      (fun _ => rfl) rfl (by decide)).2.2 c hc).2⟩

/-! # Claims C31 to C40 -/

/-- C35 (slot encoding round trip).  For a flip bit `0` or `1` and an aligned
  pointer `s` (low bit `0`, `NULL` included): the word `s | flip` that
  `associate` stores is valid for the flip, the stored word xor the flip is
  `s`, the stored word is `s + flip` (so `s + 1` with flip `1`), and
  `setRetainerSetToNull` stores the word of `associate` for `NULL`.  In the
  model of the slots: after `associate(c, s)` for an aligned pointer the slot of
  `c` is valid and `retainerSetOf` gives `s` back, after
  `setRetainerSetToNull(c)` it is valid and reads as `NULL`, and the slot stands
  for the word `s | flip` under every assignment of aligned addresses to the
  sets. -/
theorem C35_slot_round_trip (flip s : Nat) (hf : flip < 2) (hs : s % 2 = 0) :
    isValidWord flip (associateWord flip s) = true ∧
    retainerSetOfWord flip (associateWord flip s) = s ∧
    associateWord flip s = s + flip ∧
    (flip = 1 → associateWord flip s = s + 1 ∧ nullWordOf flip = 1) ∧
    nullWordOf flip = associateWord flip 0 ∧
    isValidWord flip (nullWordOf flip) = true ∧
    retainerSetOfWord flip (nullWordOf flip) = 0 ∧
    (∀ (st : State) (c : Nat) (p : RSWord), p.low = false →
      isRetainerSetFieldValid (associate st c p) c = true ∧
      retainerSetOf (associate st c p) c = p ∧
      isRetainerSetFieldValid (setRetainerSetToNull st c) c = true ∧
      (retainerSetOf (setRetainerSetToNull st c) c).isNull = true ∧
      ∀ addr : RetainerSet → Nat, (∀ S, addr S % 2 = 0) →
        RSWord.encode addr ((associate st c p).rs c) =
          associateWord (flipWord st.flip) (RSWord.encode addr p)) := by
  have h0 : (0 : Nat) % 2 = 0 := rfl
  refine ⟨isValidWord_associate flip s hf hs, retainerSetOfWord_associate flip s hf hs,
    associateWord_eq flip s hf hs, ?_, rfl, isValidWord_associate flip 0 hf h0,
    retainerSetOfWord_associate flip 0 hf h0, ?_⟩
  · intro e
    refine ⟨by rw [associateWord_eq flip s hf hs, e], ?_⟩
    rw [e]
    rfl
  · intro st c p hp
    have hv : ((associate st c p).rs c).low = (associate st c p).flip := by
      rw [associate_rs_self, hp]
      rfl
    have hn : ((setRetainerSetToNull st c).rs c).low = (setRetainerSetToNull st c).flip := by
      unfold setRetainerSetToNull
      rw [setRS_rs_self]
      rfl
    refine ⟨(valid_iff _ c).2 hv, ?_, (valid_iff _ c).2 hn, ?_,
      fun addr ha => encode_associate addr st c p ha hp⟩
    · rw [retainerSetOf_of_valid _ c hv, associate_rs_self]
      cases p
      simp only at hp
      subst hp
      rfl
    · rw [retainerSetOf_of_valid _ c hn]
      unfold setRetainerSetToNull
      rw [setRS_rs_self]
      rfl

/-- C35, at concrete inputs: the pointer `4096` with flip `1` is stored as
  `4097`, and `NULL` as `1`. -/
theorem C35_slot_round_trip_witness :
    (1 : Nat) < 2 ∧ 4096 % 2 = 0 ∧
    associateWord 1 4096 = 4097 ∧ nullWordOf 1 = 1 ∧
    isValidWord 1 4097 = true ∧ retainerSetOfWord 1 4097 = 4096 ∧
    isValidWord 0 4097 = false ∧
    isValidWord 1 (associateWord 1 4096) = true ∧
    retainerSetOfWord 1 (associateWord 1 4096) = 4096 :=
  ⟨by decide, by decide, by decide, by decide, by decide, by decide, by decide,
    (C35_slot_round_trip 1 4096 (by decide) (by decide)).1,
    (C35_slot_round_trip 1 4096 (by decide) (by decide)).2.1⟩

/-- C38 (stale slots after a toggle).  For a flip bit `f` of `0` or `1` and
  every word `w`: `w` is valid under `f xor 1` if and only if it is not valid
  under `f`; a word that `associate` stored for the aligned pointer `s` under
  the flip `f xor 1` is not valid under `f`, valid under `f xor 1`, and decodes
  to `s` there.  In the model of the slots: toggling flip toggles the validity of
  every slot; a slot that was not valid before the toggle is valid after it,
  `maybeInitRetainerSet` leaves it as it is, `retainerSetOf` gives the set it
  holds, and the retainer-set resolution takes the branch of a revisit if it
  holds a set. -/
theorem C38_stale_slot_valid_after_toggle (f w : Nat) (hf : f < 2) :
    (isValidWord (f ^^^ 1) w = true ↔ isValidWord f w = false) ∧
    (∀ s, s % 2 = 0 →
      isValidWord f (associateWord (f ^^^ 1) s) = false ∧
      isValidWord (f ^^^ 1) (associateWord (f ^^^ 1) s) = true ∧
      retainerSetOfWord (f ^^^ 1) (associateWord (f ^^^ 1) s) = s) ∧
    (∀ (st : State) (c : Nat),
      isRetainerSetFieldValid (toggleFlip st) c = !isRetainerSetFieldValid st c ∧
      (isRetainerSetFieldValid st c = false →
        isRetainerSetFieldValid (toggleFlip st) c = true ∧
        maybeInitRetainerSet (toggleFlip st) c = toggleFlip st ∧
        retainerSetOf (toggleFlip st) c = { set := (st.rs c).set, low := false } ∧
        (∀ (h : Heap) (cp r : Nat) (b : Bool) (S : RetainerSet),
          (st.rs c).set = some S → isRetainer h cp = some b →
          resolve h (toggleFlip st) c cp r =
            revisit h (maybeInitRetainerSet (tick (toggleFlip st)) c) c r
              (parentSet (maybeInitRetainerSet (tick (toggleFlip st)) c) cp b)
              { set := some S, low := false }))) := by
  obtain ⟨x1, x2, x3⟩ := xor_one_lt f hf
  have hiff : ∀ v, isValidWord (f ^^^ 1) v = true ↔ isValidWord f v = false := by
    intro v
    rw [isValidWord_iff _ _ x1]
    constructor
    · intro e
      cases hv : isValidWord f v with
      | false => rfl
      | true =>
        rw [isValidWord_iff _ _ hf] at hv
        omega
    · intro e
      have : ¬ v % 2 = f := by
        intro e1
        rw [(isValidWord_iff _ _ hf).2 e1] at e
        cases e
      omega
  refine ⟨hiff w, ?_, ?_⟩
  · intro s hs
    have hv := isValidWord_associate (f ^^^ 1) s x1 hs
    exact ⟨(hiff _).1 hv, hv, retainerSetOfWord_associate (f ^^^ 1) s x1 hs⟩
  · intro st c
    have htog : isRetainerSetFieldValid (toggleFlip st) c = !isRetainerSetFieldValid st c := by
      unfold isRetainerSetFieldValid toggleFlip
      cases (st.rs c).low <;> cases st.flip <;> rfl
    refine ⟨htog, ?_⟩
    intro hinv
    have hval : isRetainerSetFieldValid (toggleFlip st) c = true := by rw [htog, hinv]; rfl
    have hlow : ((toggleFlip st).rs c).low = (toggleFlip st).flip := (valid_iff _ c).1 hval
    refine ⟨hval, maybeInit_of_valid _ c hlow, retainerSetOf_of_valid _ c hlow, ?_⟩
    intro h cp r b S hS hcp
    have hn : readsNull (toggleFlip st) c = false := by
      unfold readsNull
      rw [maybeInit_of_valid _ c hlow, retainerSetOf_of_valid _ c hlow]
      show (RSWord.isNull { set := (st.rs c).set, low := false }) = false
      rw [hS]
      rfl
    rw [resolve_revisit h _ c cp r b hcp hn]
    congr 1
    rw [maybeInit_of_valid _ c (by exact hlow)]
    rw [retainerSetOf_tick, retainerSetOf_of_valid _ c hlow]
    show ({ set := (st.rs c).set, low := false } : RSWord) = _
    rw [hS]

/-- C38, at a concrete input: the leaf `3` of `heapTwo` holds `{101}` from the
  pass with flip `1`; after two toggles, with no pass in between that reaches
  it, it reads as valid and still holds `{101}`, and a visit with the retainer
  `102` adds to the stale set. -/
theorem C38_stale_slot_valid_after_toggle_witness :
    (1 : Nat) < 2 ∧ 4096 % 2 = 0 ∧
    isValidWord 1 (associateWord (1 ^^^ 1) 4096) = false ∧
    isValidWord (1 ^^^ 1) (associateWord (1 ^^^ 1) 4096) = true ∧
    retainerSetOfWord (1 ^^^ 1) (associateWord (1 ^^^ 1) 4096) = 4096 ∧
    isRetainerSetFieldValid (toggleFlip stTwoOnce) 3 = false ∧
    isRetainerSetFieldValid (toggleFlip (toggleFlip stTwoOnce)) 3 = true ∧
    maybeInitRetainerSet (toggleFlip (toggleFlip stTwoOnce)) 3 =
      toggleFlip (toggleFlip stTwoOnce) ∧
    retainerSetOf (toggleFlip (toggleFlip stTwoOnce)) 3 = { set := some [101], low := false } ∧
    ((resolve heapTwo (toggleFlip (toggleFlip stTwoOnce)) 3 2 102).1.rs 3).set =
      some [101, 102] :=
  ⟨by decide, by decide,
    ((C38_stale_slot_valid_after_toggle 1 0 (by decide)).2.1 4096 (by decide)).1,
    ((C38_stale_slot_valid_after_toggle 1 0 (by decide)).2.1 4096 (by decide)).2.1,
    ((C38_stale_slot_valid_after_toggle 1 0 (by decide)).2.1 4096 (by decide)).2.2,
    by decide,
    (((C38_stale_slot_valid_after_toggle 1 0 (by decide)).2.2 (toggleFlip stTwoOnce) 3).2
      (by decide)).1,
    (((C38_stale_slot_valid_after_toggle 1 0 (by decide)).2.2 (toggleFlip stTwoOnce) 3).2
      (by decide)).2.1,
    by decide, by decide⟩

/-- C32 (any closure can be a root), as the code has it.  The function
  `retainRoot` calls `isRetainer` on the root before `retainClosure` sees it, and
  `isRetainer` ends in `barf` for the kinds `IND_STATIC`, `CONSTR_INTLIKE`,
  `CONSTR_CHARLIKE` and `CONSTR_NOCAF_STATIC`: with the closure `2` of
  `heapStatic t` as root, `retainRoot` ends in the `barf` of `isRetainer` for each
  of these kinds, from every state and with every fuel, although
  `retainClosure` accepts the closure as its `c` (on arrival from the cell `1` it
  follows the indirection or skips the closure, and returns normally). -/
theorem C32_root_of_prefiltered_kind_barfs :
    (∀ (fuel : Nat) (st : State),
      (retainRoot (heapStatic ClosureType.IND_STATIC) fuel st 2).status =
        some Fatal.barf_isRetainer ∧
      (retainRoot (heapStatic ClosureType.CONSTR_INTLIKE) fuel st 2).status =
        some Fatal.barf_isRetainer ∧
      (retainRoot (heapStatic ClosureType.CONSTR_CHARLIKE) fuel st 2).status =
        some Fatal.barf_isRetainer ∧
      (retainRoot (heapStatic ClosureType.CONSTR_NOCAF_STATIC) fuel st 2).status =
        some Fatal.barf_isRetainer) ∧
    preFilter (heapStatic ClosureType.IND_STATIC) 2 = PreFilter.follow 3 ∧
    preFilter (heapStatic ClosureType.CONSTR_INTLIKE) 2 = PreFilter.skip ∧
    preFilter (heapStatic ClosureType.CONSTR_CHARLIKE) 2 = PreFilter.skip ∧
    preFilter (heapStatic ClosureType.CONSTR_NOCAF_STATIC) 2 = PreFilter.skip ∧
    (retainClosure (heapStatic ClosureType.IND_STATIC) 20 (initState true) 2 1 101).status =
      none ∧
    (retainClosure (heapStatic ClosureType.IND_STATIC) 20 (initState true) 2 1 101).trace =
      [(3, 1, 101), (2, 1, 101)] ∧
    (retainClosure (heapStatic ClosureType.CONSTR_INTLIKE) 20 (initState true) 2 1 101).status =
      none ∧
    (retainClosure (heapStatic ClosureType.CONSTR_CHARLIKE) 20 (initState true) 2 1 101).status =
      none ∧
    (retainClosure (heapStatic ClosureType.CONSTR_NOCAF_STATIC) 20 (initState true) 2 1
      101).status = none ∧
    (retainRoots (heapStatic ClosureType.IND_STATIC) 20 (initState true) [1]).status = none ∧
    (retainRoots (heapStatic ClosureType.IND_STATIC) 20 (initState true) [2]).status =
      some Fatal.barf_isRetainer := by
  refine ⟨fun fuel st => ⟨rfl, rfl, rfl, rfl⟩, rfl, rfl, rfl, rfl, by decide, by decide,
    by decide, by decide, by decide, by decide, by decide⟩

/-- C33 (large-bitmap walk).  For every size and large bitmap,
  `retain_large_bitmap` calls `retainClosure` for the slots `i < size` for which
  bit `i mod W` of the word `large_bitmap[i div W]` is `0` (`W` the number of
  bits of a machine word), in increasing order of `i`, for the word at `p + i`,
  and for no other slot, each time with the parent `c` and the retainer
  `c_child_r`. -/
theorem C33_large_bitmap_walk (h : Heap) (payload : List Nat) (p : Nat)
    (large_bitmap : List Nat) (size c c_child_r : Nat) :
    (retain_large_bitmap h payload p large_bitmap size c c_child_r).1 =
      largeBitmapCalls h.wordBits payload large_bitmap c c_child_r size p ∧
    (∀ x ∈ (retain_large_bitmap h payload p large_bitmap size c c_child_r).1,
      x.2 = (c, c_child_r)) ∧
    (retain_large_bitmap h payload p large_bitmap size c c_child_r).1.length =
      ((List.range size).filter (fun i => decide
        (large_bitmap.getD (i / h.wordBits) 0 / 2 ^ (i % h.wordBits) % 2 = 0))).length := by
  rw [retain_large_bitmap_calls]
  refine ⟨rfl, ?_, ?_⟩
  · intro x hx
    unfold largeBitmapCalls at hx
    obtain ⟨i, -, e⟩ := List.mem_map.1 hx
    rw [← e]
  · unfold largeBitmapCalls
    rw [List.length_map]

/-- C33, at a concrete input: over `34` slots on 32-bit words, with the bits
  `0` and `2` of the first bitmap word and the bit `1` of the second one clear,
  exactly the slots `0`, `2` and `33` are retained, in this order. -/
theorem C33_large_bitmap_walk_witness :
    (retain_large_bitmap heapBig32 (List.range 40) 0 [4294967290, 1] 34 7 101).1 =
      largeBitmapCalls 32 (List.range 40) [4294967290, 1] 7 101 34 0 ∧
    largeBitmapCalls 32 (List.range 40) [4294967290, 1] 7 101 34 0 =
      [(0, 7, 101), (2, 7, 101), (33, 7, 101)] ∧
    (retain_large_bitmap heapWide (List.range 40) 3 [4294967290, 1] 34 7 101).1 =
      [(3, 7, 101), (5, 7, 101)] ++ (List.range' 35 2).map (fun x => (x, 7, 101)) :=
  ⟨(C33_large_bitmap_walk heapBig32 (List.range 40) 0 [4294967290, 1] 34 7 101).1,
    by decide, by decide⟩

/-- C37 (large-bitmap reads), as the code has it.  The function
  `retain_large_bitmap` reads the bitmap words with the indices `0` to
  `size div W`, in this order: it reads the word `0` when `size` is `0`, where no
  word describes a slot, and on 32-bit words it reads the word `k` for a size of
  `32 * k` slots, which the `k` words `0` to `k - 1` describe.  For the frame
  `frameBig32`, whose bitmap has one word, it reads the words `0` and `1`. -/
theorem C37_large_bitmap_reads_past_the_end :
    (∀ (h : Heap) (payload : List Nat) (p : Nat) (large_bitmap : List Nat) (size c r : Nat),
      (retain_large_bitmap h payload p large_bitmap size c r).2 =
        List.range (size / h.wordBits + 1)) ∧
    (∀ (h : Heap) (payload : List Nat) (p : Nat) (large_bitmap : List Nat) (c r : Nat),
      (retain_large_bitmap h payload p large_bitmap 0 c r).2 = [0] ∧
      largeBitmapWords h.wordBits 0 = 0) ∧
    (∀ (payload : List Nat) (p : Nat) (large_bitmap : List Nat) (k c r : Nat),
      k ∈ (retain_large_bitmap heapBig32 payload p large_bitmap (32 * k) c r).2 ∧
      largeBitmapWords heapBig32.wordBits (32 * k) = k) ∧
    frameBig32.large_bitmap.length = 1 ∧
    largeBitmapWords heapBig32.wordBits frameBig32.large_size = 1 ∧
    (retain_large_bitmap heapBig32 frameBig32.payload 0 frameBig32.large_bitmap
      frameBig32.large_size 1 101).2 = [0, 1] := by
  refine ⟨fun h payload p lb size c r => retain_large_bitmap_reads h payload p lb size c r,
    ?_, ?_, rfl, by decide, by decide⟩
  · intro h payload p lb c r
    refine ⟨rfl, ?_⟩
    unfold largeBitmapWords
    rcases Nat.eq_zero_or_pos h.wordBits with h0 | hpos
    · rw [h0]
    · exact Nat.div_eq_of_lt (by omega)
  · intro payload p lb k c r
    have hW : heapBig32.wordBits = 32 := rfl
    rw [retain_large_bitmap_reads, hW]
    refine ⟨?_, ?_⟩
    · rw [List.mem_range]
      omega
    · unfold largeBitmapWords
      omega

/-- C34 (small-bitmap frames and the liveness word), as the code has it.  The
  local `bitmap` of `retainStack` is a `StgWord32`: the frame `frame33` on the
  64-bit heap `heapWide` describes `33` slots and marks slot `32` as not live
  (bit `32` of `BITMAP_BITS` is `1`), so the walk over the bitmap of the frame
  retains the slots `0` to `31` only; `retainStack` hands the low `32` bits of
  the bitmap to `retain_small_bitmap` and retains slot `32` as well, and the
  pass over the thread visits the word `3` of that slot. -/
theorem C34_liveness_word_truncated :
    heapWide.wordBits = 64 ∧
    frame33.bitmap_size = 33 ∧
    frame33.bitmap_bits / 2 ^ 32 % 2 = 1 ∧
    frame33.payload.getD 32 0 = 3 ∧
    smallBitmapCalls frame33.payload 1 101 frame33.bitmap_size 0 frame33.bitmap_bits =
      List.replicate 32 (2, 1, 101) ∧
    (retainFrame heapWide 1 101 frame33).1 = List.replicate 32 (2, 1, 101) ++ [(3, 1, 101)] ∧
    (retainStackCalls heapWide 1 101 (heapWide.get 1).frames).1 =
      List.replicate 32 (2, 1, 101) ++ [(3, 1, 101)] ∧
    (retainRoots heapWide 60 (initState true) [1]).status = none ∧
    (3, 1, 101) ∈ (retainRoots heapWide 60 (initState true) [1]).trace ∧
    ((retainRoots heapWide 60 (initState true) [1]).rs 3).set = some [101] ∧
    (∀ (h : Heap) (c r : Nat) (f : Frame),
      (retainFrame h c r { f with type := ClosureType.RET_SMALL }).1 =
        smallBitmapCalls f.payload c r f.bitmap_size 0 (f.bitmap_bits % 2 ^ 32) ++
          retainSRT f.srt c r) := by
  refine ⟨rfl, rfl, by decide, by decide, by decide, by decide, by decide, by decide,
    by decide, by decide, ?_⟩
  intro h c r f
  simp only [retainFrame]
  rw [retain_small_bitmap_spec]

/-- C36 (length of a pointer array), as the code has it.  The field `ptrs` of a
  position is `posBits` wide (16 bits unless `SIZEOF_VOID_P == 8`), and
  `init_ptrs` stores its argument in it: the position for `ptrs + 2 ^ posBits`
  pointers is the position for `ptrs` pointers.  For the array `1` of
  `heapBigArr`, of `65536` pointers to the leaf `2`, the first `find_ptrs`
  returns `NULL` where `payload[0]` is expected, `push` returns without a child,
  and the pass over the array visits the array only; for `65537` pointers
  `find_ptrs` returns `payload[0]` and then `NULL`. -/
theorem C36_pointer_array_length_truncated :
    (∀ (h : Heap) (ptrs : Nat) (payload : List Nat),
      init_ptrs h (ptrs + 2 ^ h.posBits) payload = init_ptrs h ptrs payload) ∧
    heapBigArr.posBits = 16 ∧
    (heapBigArr.get 1).ptrs = 65536 ∧
    (∀ (payload : List Nat) (n : Nat),
      findPtrsSeq heapBigArr (n + 1) (init_ptrs heapBigArr 65536 payload) =
        some (List.replicate (n + 1) 0)) ∧
    ptrsChildrenSpec 65536 (List.replicate 65536 2) 2 = [2, 2] ∧
    findPtrsSeq heapBigArr 2 (init_ptrs heapBigArr 65536 (heapBigArr.get 1).payload) =
      some [0, 0] ∧
    ptrsChildrenSpec 65537 [5, 6, 7] 3 = [5, 6, 7] ∧
    findPtrsSeq heapBigArr 3 (init_ptrs heapBigArr 65537 [5, 6, 7]) = some [5, 0, 0] ∧
    (push heapBigArr (initState true) 1 101).first_child = 0 ∧
    (retainRoots heapBigArr 20 (initState true) [1]).status = none ∧
    (retainRoots heapBigArr 20 (initState true) [1]).trace = [(1, 1, 101)] ∧
    isRetainerSetFieldValid (retainRoots heapBigArr 20 (initState true) [1]) 2 = false := by
  refine ⟨?_, rfl, rfl, ?_, by decide, by decide, by decide, by decide, by decide, by decide,
    by decide, by decide⟩
  · intro h ptrs payload
    unfold init_ptrs
    rw [Nat.add_mod_right]
  · intro payload n
    have e : init_ptrs heapBigArr 65536 payload =
        { type := some nextPosType.posTypePtrs, next := nextPos.ptrs 0 0 payload } := by
      unfold init_ptrs
      rfl
    rw [e]
    induction n with
    | zero => rfl
    | succ n ih =>
      rw [findPtrsSeq]
      simp only [find_ptrs, Nat.lt_irrefl, if_false]
      rw [ih]
      rfl

/-- C31 (documented stack invariants).  Let an element fit into a block group
  and let the allocator hand out block groups that overlap no live one.  In the
  state after `initializeTraverseStack`, and in the state after every sequence
  of pushes and `popOff`s from it that never pops the empty stack:
  `stackBottom == currentStack->start`,
  `stackLimit == currentStack->start + BLOCK_SIZE_W * currentStack->blocks`,
  `currentStack->free == stackLimit`, `stackBottom <= stackTop <= stackLimit`,
  and if `stackTop == stackLimit` then `currentStack == firstStack` and no
  element is on the stack. -/
theorem C31_stack_invariants (m : Chunked.Machine) (hsz : 0 < m.sizeofElement)
    (hcap : m.sizeofElement ≤ m.BLOCK_SIZE_W * Chunked.BLOCKS_IN_STACK) (hfresh : m.Fresh)
    (s0 : Chunked.Stack) (ops : List Chunked.StackOp) (l : List stackElement)
    (hl : Chunked.listOps ops [] = some l) :
    Chunked.StackInvariants m (Chunked.initializeTraverseStack m s0) [] ∧
    ∃ s, Chunked.runOps m ops (Chunked.initializeTraverseStack m s0) = some s ∧
      Chunked.StackInvariants m s l ∧ Chunked.invariantsHold m s = true := by
  obtain ⟨L0, h0, hl0⟩ := Chunked.rep_init m hcap s0
  have hf0 := Chunked.initializeTraverseStack_free m s0
  obtain ⟨s, L, h1, h2, h3⟩ := Chunked.runOps_rep hsz hcap hfresh ops _ L0 l h0
    (by rw [hl0]; exact hl)
  have hf := Chunked.runOps_free m ops _ s h1 hf0
  have hi0 := h0.invariants hsz hf0
  rw [hl0] at hi0
  have hi := h2.invariants hsz hf
  rw [h3] at hi
  refine ⟨hi0, s, h1, hi, ?_⟩
  obtain ⟨cur, e1, e2, e3, e4, e5, e6, e7⟩ := hi
  unfold Chunked.invariantsHold
  rw [e1]
  simp only [Bool.and_eq_true, Bool.or_eq_true, decide_eq_true_eq]
  refine ⟨⟨⟨⟨⟨e2, e3⟩, e4⟩, e5⟩, e6⟩, ?_⟩
  by_cases htop : s.stackTop = s.stackLimit
  · right
    rw [← e1]
    exact (e7 htop).1
  · left
    exact htop

/-- C31, at a concrete input: blocks of five words and elements of two words;
  the invariants hold after `initializeTraverseStack`, after three pushes, of
  which the third one moves to a second block group, and after each of the three
  `popOff`s that follow. -/
theorem C31_stack_invariants_witness :
    0 < Chunked.machine52.sizeofElement ∧
    Chunked.machine52.sizeofElement ≤
      Chunked.machine52.BLOCK_SIZE_W * Chunked.BLOCKS_IN_STACK ∧
    Chunked.machine52.Fresh ∧
    Chunked.listOps [Chunked.StackOp.push (Chunked.elem 1 101),
      Chunked.StackOp.push (Chunked.elem 2 101), Chunked.StackOp.push (Chunked.elem 3 101),
      Chunked.StackOp.popOff, Chunked.StackOp.popOff] [] = some [Chunked.elem 1 101] ∧
    (Chunked.runOps Chunked.machine52 [Chunked.StackOp.push (Chunked.elem 1 101),
        Chunked.StackOp.push (Chunked.elem 2 101), Chunked.StackOp.push (Chunked.elem 3 101)]
        (Chunked.initializeTraverseStack Chunked.machine52 Chunked.stack0)).map
      (fun s => (Chunked.invariantsHold Chunked.machine52 s, s.currentStack, s.firstStack,
        s.stackBottom, s.stackTop, s.stackLimit)) =
      some (true, some 1, some 0, 5, 8, 10) ∧
    (Chunked.runOps Chunked.machine52 [Chunked.StackOp.push (Chunked.elem 1 101),
        Chunked.StackOp.push (Chunked.elem 2 101), Chunked.StackOp.push (Chunked.elem 3 101),
        Chunked.StackOp.popOff, Chunked.StackOp.popOff, Chunked.StackOp.popOff]
        (Chunked.initializeTraverseStack Chunked.machine52 Chunked.stack0)).map
      (fun s => (Chunked.invariantsHold Chunked.machine52 s, s.currentStack, s.firstStack,
        s.stackBottom, s.stackTop, s.stackLimit)) =
      some (true, some 0, some 0, 0, 5, 5) ∧
    Chunked.StackInvariants Chunked.machine52
      (Chunked.initializeTraverseStack Chunked.machine52 Chunked.stack0) [] ∧
    ∃ s, Chunked.runOps Chunked.machine52 [Chunked.StackOp.push (Chunked.elem 1 101),
        Chunked.StackOp.push (Chunked.elem 2 101), Chunked.StackOp.push (Chunked.elem 3 101),
        Chunked.StackOp.popOff, Chunked.StackOp.popOff]
        (Chunked.initializeTraverseStack Chunked.machine52 Chunked.stack0) = some s ∧
      Chunked.StackInvariants Chunked.machine52 s [Chunked.elem 1 101] ∧
      Chunked.invariantsHold Chunked.machine52 s = true :=
  ⟨by decide, by decide, Chunked.bump_fresh 5 2, rfl, by decide, by decide,
    C31_stack_invariants Chunked.machine52 (by decide) (by decide)
      (Chunked.bump_fresh 5 2) Chunked.stack0 _ _ rfl⟩

/-- C39 (`pop` meets no element it cannot handle).  Every element that `push`
  stores belongs to a closure whose kind has a case in `pop` that does not end in
  `barf`, and the fields of its position that `pop` reads for this kind have been
  written (`PosOK`); one iteration of `pop` on such an element neither ends in
  `barf` nor reads a field that was not written, and an element it overwrites is
  again such an element; so `pop` on a stack of such elements does not end in its
  `barf`.  Hence, from a state without a fatal outcome whose stack holds such
  elements only (the empty stack in particular), `retainClosure` and the
  traversal of any list of roots never end in the `barf` of `pop`, with every
  fuel, and the elements left on the stack are such elements. -/
theorem C39_pop_handles_every_element (h : Heap) (fuel : Nat) (st : State) (c0 cp0 r0 : Nat)
    (hstack : ∀ se ∈ st.stack, PosOK h se) (hst : st.status = none) :
    (∀ (s : State) (c ccr : Nat) (se : stackElement),
      (push h s c ccr).st.stack = se :: s.stack → PosOK h se) ∧
    (∀ se : stackElement, PosOK h se → PopStepFine h (popStep h se)) ∧
    (∀ (b : Nat) (stack : List stackElement), (∀ se ∈ stack, PosOK h se) →
      (popLoop h b stack).err ≠ some Fatal.barf_pop ∧
      ∀ se ∈ (popLoop h b stack).stack, PosOK h se) ∧
    (retainClosure h fuel st c0 cp0 r0).status ≠ some Fatal.barf_pop ∧
    (∀ se ∈ (retainClosure h fuel st c0 cp0 r0).stack, PosOK h se) ∧
    (∀ roots : List Nat, (retainRoots h fuel st roots).status ≠ some Fatal.barf_pop) := by
  have hs : PopSafe h st := ⟨hstack, by rw [hst]; exact fun x => by cases x⟩
  have hrun := run_popSafe (exec_run h fuel (Task.inner c0 cp0 r0) st) hs
  refine ⟨fun s c ccr se e => push_posOK h s c ccr se e, fun se hp => popStep_fine h se hp,
    fun b stack hall => ⟨(popLoop_posOK h b stack hall).2, (popLoop_posOK h b stack hall).1⟩,
    hrun.2, hrun.1, fun roots => (retainRoots_popSafe h fuel roots st hs).2⟩

/-- C39, at a concrete input: the traversal of `heapCon` from the constructor
  `1`, whose element `push` stores with a pointer position. -/
theorem C39_pop_handles_every_element_witness :
    (∀ se ∈ (initState true).stack, PosOK heapCon se) ∧ (initState true).status = none ∧
    (push heapCon (initState true) 1 7).st.stack.length = 1 ∧
    (retainClosure heapCon 20 (initState true) 1 1 7).status = none ∧
    (retainClosure heapCon 20 (initState true) 1 1 7).status ≠ some Fatal.barf_pop ∧
    (∀ roots : List Nat,
      (retainRoots heapCon 20 (initState true) roots).status ≠ some Fatal.barf_pop) :=
  ⟨fun _ hse => (by cases hse), rfl, by decide, by decide,
    (C39_pop_handles_every_element heapCon 20 (initState true) 1 1 7
      (fun _ hse => (by cases hse)) rfl).2.2.2.1,
    (C39_pop_handles_every_element heapCon 20 (initState true) 1 1 7
      (fun _ hse => (by cases hse)) rfl).2.2.2.2.2⟩

/-- C40 (termination).  Let `h` be a heap in which a rank decreases along every
  static indirection and every link of a relocated thread (their chains are
  acyclic), and `P` a finite pool that holds the identities of the retainers of
  the heap.  From every state without a fatal outcome in which the valid slots
  hold duplicate-free sets over `P` and the elements of the traverse stack are in
  order, `retainClosure(c0, cp0, r0)` ends for every `c0`, every `r0` of the pool
  and every `cp0` that is a retainer, is `c0` itself or has a valid slot: some
  fuel is enough, and more fuel gives the same state.  So does the traversal of
  every list of roots, when `CCS_SYSTEM` is in the pool.  Object graphs with
  cycles are included.  Every visit that goes on to the children of a closure is
  the first visit of the closure in the pass, or replaces its retainer set by a
  set with one element more. -/
theorem C40_termination (h : Heap) (P : List Nat) (rank : Nat → Nat)
    (hR : retainersIn h P = true) (hF : followRankOK h rank = true)
    (st : State) (c0 cp0 r0 : Nat)
    (hslots : SlotsIn P st) (hstack : StackIn h P st) (hst : st.status = none)
    (hr0 : r0 ∈ P) (hcp0 : ParentOK h st c0 cp0) :
    (∃ fuel, (retainClosure h fuel st c0 cp0 r0).status ≠ some Fatal.out_of_fuel ∧
      ∀ g, fuel ≤ g → retainClosure h g st c0 cp0 r0 = retainClosure h fuel st c0 cp0 r0) ∧
    (h.CCS_SYSTEM ∈ P → ∀ roots : List Nat,
      ∃ fuel, (retainRoots h fuel st roots).status ≠ some Fatal.out_of_fuel ∧
        ∀ g, fuel ≤ g → retainRoots h g st roots = retainRoots h fuel st roots) ∧
    (∀ (s : State) (c cp r ccr : Nat), (resolve h s c cp r).2 = Decision.descend ccr →
      visited s c = false ∨
      ∃ rc rc1, visited s c = true ∧ (s.rs c).set = some rc ∧
        ((resolve h s c cp r).1.rs c).set = some rc1 ∧ num rc1 = num rc + 1) := by
  have hs : st.status ≠ some Fatal.out_of_fuel := status_ne_of_none hst
  refine ⟨?_, ?_, fun s c cp r ccr hd => resolve_descend_grows h s c cp r ccr hd⟩
  · obtain ⟨f, hf⟩ := halts_all hR rank hF _ _ _ (Task.inner c0 cp0 r0) st rfl rfl rfl
      ⟨hslots, hstack⟩ ⟨hr0, hcp0⟩ hs
    exact ⟨f, hf, fun g hg => exec_mono h f _ _ hf g hg⟩
  · intro hsys roots
    exact retainRoots_halts hR rank hF hsys roots st ⟨hslots, hstack⟩ hs

/-- C40, at a concrete input: the cyclic heap `heapCycle`, with the static
  indirection `2` between the cell `1` and the constructor `3`, and the cycles
  `1, 2, 3` and `3, 4`; the traversal from the cell `1` ends with the fuel `30`
  after it has arrived at `1` and at `3` twice. -/
theorem C40_termination_witness :
    retainersIn heapCycle [0, 101, 102, 103, 104] = true ∧
    followRankOK heapCycle rankCycle = true ∧
    (retainClosure heapCycle 30 (initState true) 1 1 101).status = none ∧
    (retainClosure heapCycle 30 (initState true) 1 1 101).trace =
      [(3, 4, 101), (4, 3, 101), (1, 3, 101), (3, 1, 101), (2, 1, 101), (1, 1, 101)] ∧
    (∃ fuel, (retainClosure heapCycle fuel (initState true) 1 1 101).status ≠
        some Fatal.out_of_fuel ∧
      ∀ g, fuel ≤ g → retainClosure heapCycle g (initState true) 1 1 101 =
        retainClosure heapCycle fuel (initState true) 1 1 101) ∧
    (∀ roots : List Nat,
      ∃ fuel, (retainRoots heapCycle fuel (initState true) roots).status ≠
          some Fatal.out_of_fuel ∧
        ∀ g, fuel ≤ g → retainRoots heapCycle g (initState true) roots =
          retainRoots heapCycle fuel (initState true) roots) :=
  ⟨by decide, by decide, by decide, by decide,
    (C40_termination heapCycle [0, 101, 102, 103, 104] rankCycle (by decide) (by decide)
      (initState true) 1 1 101 (fun _ _ hv => absurd hv Bool.false_ne_true)
      (fun _ hse => (by cases hse)) rfl (by decide) (fun _ => Or.inl rfl)).1,
    (C40_termination heapCycle [0, 101, 102, 103, 104] rankCycle (by decide) (by decide)
      (initState true) 1 1 101 (fun _ _ hv => absurd hv Bool.false_ne_true)
      (fun _ hse => (by cases hse)) rfl (by decide) (fun _ => Or.inl rfl)).2.1 (by decide)⟩

end RetainerProfile
